import Mathlib

/-!
# Red-black tree engine of the s21 containers library

A shallow embedding of `src/templates/tree.tpp`.  Nodes live in an explicit
heap; a pointer is an optional address, `none` being `nullptr`.  Every C++
member function becomes a function on the tree state that either returns the
new state or a fault (a null dereference, a use of a freed node, or running
out of the fuel that bounds its loops and recursion).
-/

namespace S21

/-- Node colours, `enum Colors` of tree.h. -/
inductive Colors where
  | kRED
  | kBLACK
deriving DecidableEq, Repr

/-- Duplicate policy, `enum Uniq` of tree.h. -/
inductive Uniq where
  | kUNIQUE
  | kNON_UNIQUE
deriving DecidableEq, Repr

/-- A node pointer: `none` is `nullptr`, `some a` the address `a`. -/
abbrev Ptr := Option Nat

/-- The node record, `struct tree::Node`; the pair is stored inline as `key`, `val`. -/
structure Node where
  key : Int
  val : Int
  color : Colors
  parent : Ptr
  left : Ptr
  right : Ptr
deriving DecidableEq, Repr

/-- Ways an execution can stop without a result. -/
inductive Fault where
  | nullDeref
  | dangling
  | fuel
  | rangeError
deriving DecidableEq, Repr

/-- Results of the embedded functions can be compared. -/
instance instDecidableEqExcept {ε α : Type} [DecidableEq ε] [DecidableEq α] :
    DecidableEq (Except ε α)
  | .ok a, .ok b =>
    if h : a = b then isTrue (by rw [h]) else isFalse (fun e => h (by cases e; rfl))
  | .error a, .error b =>
    if h : a = b then isTrue (by rw [h]) else isFalse (fun e => h (by cases e; rfl))
  | .ok _, .error _ => isFalse (fun e => by cases e)
  | .error _, .ok _ => isFalse (fun e => by cases e)

/-- The free store: the node at each address, `none` where nothing is allocated
(never allocated, or freed). -/
abbrev Heap := Nat → Option Node

/-- The store with the cell at address `a` replaced by `v`. -/
def Heap.set (h : Heap) (a : Nat) (v : Option Node) : Heap :=
  fun b => if b = a then v else h b

/-- Dereference a pointer. -/
def Heap.read (h : Heap) (p : Ptr) : Except Fault Node :=
  match p with
  | none => .error .nullDeref
  | some a =>
    match h a with
    | none => .error .dangling
    | some n => .ok n

/-- Assign through a pointer: the node it designates is replaced by `f` of it. -/
def Heap.modify (h : Heap) (p : Ptr) (f : Node → Node) : Except Fault Heap :=
  match p with
  | none => .error .nullDeref
  | some a =>
    match h a with
    | none => .error .dangling
    | some n => .ok (h.set a (some (f n)))

/-- The state of a `tree<K, M>` object together with the heap its nodes live in;
`next` is the first address that was never allocated. -/
structure Tree where
  heap : Heap
  next : Nat
  root_ : Ptr
  sentinel_ : Ptr
  size_ : Nat
  type_ : Uniq

/-- An iterator, the fields of `TreeConstIterator`. -/
structure Iter where
  ptr_ : Ptr
  first_ : Ptr
  last_ : Ptr
deriving DecidableEq, Repr

/-- Default constructor `tree(Uniq type)`: no root, no sentinel, size 0. -/
def Tree.empty (ty : Uniq) : Tree :=
  { heap := fun _ => none, next := 0, root_ := none, sentinel_ := none, size_ := 0,
    type_ := ty }

/-- Read `p->key`. -/
def Tree.key (t : Tree) (p : Ptr) : Except Fault Int := do
  let n ← t.heap.read p
  pure n.key

/-- Read `p->color`. -/
def Tree.color (t : Tree) (p : Ptr) : Except Fault Colors := do
  let n ← t.heap.read p
  pure n.color

/-- Read `p->parent`. -/
def Tree.parent (t : Tree) (p : Ptr) : Except Fault Ptr := do
  let n ← t.heap.read p
  pure n.parent

/-- Read `p->left`. -/
def Tree.left (t : Tree) (p : Ptr) : Except Fault Ptr := do
  let n ← t.heap.read p
  pure n.left

/-- Read `p->right`. -/
def Tree.right (t : Tree) (p : Ptr) : Except Fault Ptr := do
  let n ← t.heap.read p
  pure n.right

/-- Assignment `p->color = c`. -/
def Tree.setColor (t : Tree) (p : Ptr) (c : Colors) : Except Fault Tree := do
  let h ← t.heap.modify p (fun n => { n with color := c })
  pure { t with heap := h }

/-- Assignment `p->parent = q`. -/
def Tree.setParent (t : Tree) (p q : Ptr) : Except Fault Tree := do
  let h ← t.heap.modify p (fun n => { n with parent := q })
  pure { t with heap := h }

/-- Assignment `p->left = q`. -/
def Tree.setLeft (t : Tree) (p q : Ptr) : Except Fault Tree := do
  let h ← t.heap.modify p (fun n => { n with left := q })
  pure { t with heap := h }

/-- Assignment `p->right = q`. -/
def Tree.setRight (t : Tree) (p q : Ptr) : Except Fault Tree := do
  let h ← t.heap.modify p (fun n => { n with right := q })
  pure { t with heap := h }

/-- Replace the pair of `p` (`delete p->pair; p->pair = new value_type{...}`). -/
def Tree.setPair (t : Tree) (p : Ptr) (k v : Int) : Except Fault Tree := do
  let h ← t.heap.modify p (fun n => { n with key := k, val := v })
  pure { t with heap := h }

/-- Allocation `new Node{pair, color}`: a fresh address with null links. -/
def Tree.newNode (t : Tree) (k v : Int) (c : Colors) : Tree × Ptr :=
  ({ t with
      heap := t.heap.set t.next (some
        { key := k, val := v, color := c, parent := none, left := none, right := none }),
      next := t.next + 1 },
   some t.next)

/-- Deallocation `delete p`; deleting `nullptr` does nothing. -/
def Tree.deleteNode (t : Tree) (p : Ptr) : Except Fault Tree :=
  match p with
  | none => .ok t
  | some a =>
    match t.heap a with
    | none => .error .dangling
    | some _ => .ok { t with heap := t.heap.set a none }

/-- The pre-decrement of the unsigned `size_`, wrapping at zero. -/
def decSize (n : Nat) : Nat := if n = 0 then 2 ^ 64 - 1 else n - 1

/-- `tree::rotateLeft`. -/
def rotateLeft (t : Tree) (old_root : Ptr) : Except Fault Tree := do
  let new_root ← t.right old_root
  let nl ← t.left new_root
  let t ← if nl.isSome then t.setParent nl old_root else pure t
  let nl ← t.left new_root
  let t ← t.setRight old_root nl
  let t ← t.setLeft new_root old_root
  let op ← t.parent old_root
  let t ← if op.isNone then pure { t with root_ := new_root } else do
    let opl ← t.left op
    if old_root = opl then t.setLeft op new_root else t.setRight op new_root
  let op ← t.parent old_root
  let t ← t.setParent old_root new_root
  t.setParent new_root op

/-- `tree::rotateRight`. -/
def rotateRight (t : Tree) (old_root : Ptr) : Except Fault Tree := do
  let new_root ← t.left old_root
  let nr ← t.right new_root
  let t ← if nr.isSome then t.setParent nr old_root else pure t
  let nr ← t.right new_root
  let t ← t.setLeft old_root nr
  let t ← t.setRight new_root old_root
  let op ← t.parent old_root
  let t ← if op.isNone then pure { t with root_ := new_root } else do
    let opl ← t.left op
    if old_root = opl then t.setLeft op new_root else t.setRight op new_root
  let op ← t.parent old_root
  let t ← t.setParent old_root new_root
  t.setParent new_root op

/-- The closing `if (root_) root_->color = kBLACK;` shared by several functions. -/
def blackenRoot (t : Tree) : Except Fault Tree :=
  if t.root_.isSome then t.setColor t.root_ .kBLACK else pure t

/-- `tree::swapColors`; the fuel bounds its recursion towards the root. -/
def swapColors : Nat → Tree → Ptr → Except Fault Tree
  | 0, _, _ => .error .fuel
  | fuel + 1, t, node =>
    if node.isNone then pure t else do
    let l ← t.left node
    if l.isNone then pure t else do
    let r ← t.right node
    if r.isNone then pure t else do
    let lc ← t.color l
    let rc ← if lc = .kRED then t.color r else pure .kBLACK
    let t ← if lc = .kRED ∧ rc = .kRED then do
        let t ← t.setColor r .kBLACK
        let l ← t.left node
        let t ← t.setColor l .kBLACK
        let t ← t.setColor node .kRED
        let p ← t.parent node
        if p.isSome ∧ p ≠ t.root_ then swapColors fuel t p else pure t
      else pure t
    blackenRoot t

/-- `tree::findMax`. -/
def findMax : Nat → Heap → Ptr → Except Fault Ptr
  | 0, _, _ => .error .fuel
  | fuel + 1, h, node =>
    match node with
    | none => .ok none
    | some _ => do
      let n ← h.read node
      if n.right.isSome then findMax fuel h n.right else pure node

/-- `tree::findMin`. -/
def findMin : Nat → Heap → Ptr → Except Fault Ptr
  | 0, _, _ => .error .fuel
  | fuel + 1, h, node =>
    match node with
    | none => .ok none
    | some _ => do
      let n ← h.read node
      if n.left.isSome then findMin fuel h n.left else pure node

/-- `tree::findNode`. -/
def findNode : Nat → Heap → Ptr → Int → Except Fault Ptr
  | 0, _, _, _ => .error .fuel
  | fuel + 1, h, node, key =>
    match node with
    | none => .ok none
    | some _ => do
      let n ← h.read node
      if n.key > key then findNode fuel h n.left key
      else if n.key < key then findNode fuel h n.right key
      else pure node

/-- `tree::begin` (and `cbegin`). -/
def Tree.begin (fuel : Nat) (t : Tree) : Except Fault Iter := do
  let m ← findMin fuel t.heap t.root_
  pure { ptr_ := m, first_ := t.root_, last_ := t.sentinel_ }

/-- `tree::end` (and `cend`). -/
def Tree.end (fuel : Nat) (t : Tree) : Except Fault Iter := do
  let m ← findMax fuel t.heap t.root_
  pure { ptr_ := t.sentinel_, first_ := t.root_, last_ := m }

/-- `tree::find`. -/
def Tree.find (fuel : Nat) (t : Tree) (key : Int) : Except Fault Iter := do
  let f ← findNode fuel t.heap t.root_ key
  if f.isSome then pure { ptr_ := f, first_ := t.root_, last_ := t.sentinel_ }
  else t.end fuel

/-- `tree::size`. -/
def Tree.size (t : Tree) : Nat := t.size_

/-- `tree::balancingTree`; the fuel bounds the number of loop iterations. -/
def balancingTree : Nat → Tree → Ptr → Except Fault Tree
  | 0, _, _ => .error .fuel
  | fuel + 1, t, node => do
    let parent ← t.parent node
    if parent.isNone then pure t else do
    let pc ← t.color parent
    if pc ≠ .kRED then pure t else do
    let grandpar ← t.parent parent
    let gl ← t.left grandpar
    let uncle ← if parent = gl then t.right grandpar else t.left grandpar
    let uc ← if uncle.isSome then t.color uncle else pure .kBLACK
    if uncle.isSome ∧ uc = .kRED then do
      let t ← t.setColor parent .kBLACK
      let t ← t.setColor uncle .kBLACK
      let t ← t.setColor grandpar .kRED
      balancingTree fuel t grandpar
    else do
      let pr ← t.right parent
      let pl ← t.left parent
      let gl ← t.left grandpar
      let gr ← t.right grandpar
      let (t, node, parent) ←
        if node = pr ∧ parent = gl then do
          let t ← rotateLeft t parent
          let np ← t.parent parent
          pure (t, parent, np)
        else if node = pl ∧ parent = gr then do
          let t ← rotateRight t parent
          let np ← t.parent parent
          pure (t, parent, np)
        else pure (t, node, parent)
      let t ← t.setColor parent .kBLACK
      let t ← t.setColor grandpar .kRED
      let gl ← t.left grandpar
      let t ← if parent = gl then rotateRight t grandpar else rotateLeft t grandpar
      balancingTree fuel t node

/-- A place holding a node pointer that `insertNode` and `deleteOneChild`
receive by reference: the root field of the tree, or a child field of a node. -/
inductive Slot where
  | root
  | leftOf (p : Ptr)
  | rightOf (p : Ptr)
deriving DecidableEq, Repr

/-- Read the pointer stored in a slot. -/
def Tree.getSlot (t : Tree) : Slot → Except Fault Ptr
  | .root => pure t.root_
  | .leftOf p => t.left p
  | .rightOf p => t.right p

/-- Store a pointer into a slot. -/
def Tree.setSlot (t : Tree) (s : Slot) (q : Ptr) : Except Fault Tree :=
  match s with
  | .root => pure { t with root_ := q }
  | .leftOf p => t.setLeft p q
  | .rightOf p => t.setRight p q

/-- `tree::insertNode(insert, node, parent)`; `slot` is the reference `node`. -/
def insertNode : Nat → Tree → Ptr → Slot → Ptr → Except Fault Tree
  | 0, _, _, _, _ => .error .fuel
  | fuel + 1, t, ins, slot, parent => do
    let node ← t.getSlot slot
    let t ← if node.isNone then do
        let t ← t.setColor ins .kRED
        let t ← t.setParent ins parent
        let t ← t.setRight ins none
        let t ← t.setLeft ins none
        let t := { t with size_ := t.size_ + 1 }
        let t ← t.setSlot slot ins
        let node ← t.getSlot slot
        let np ← t.parent node
        let npc ← if np.isSome then t.color np else pure .kBLACK
        if np.isSome ∧ npc = .kRED then balancingTree fuel t node else pure t
      else do
        let ik ← t.key ins
        let nk ← t.key node
        if ik < nk then insertNode fuel t ins (.leftOf node) node
        else insertNode fuel t ins (.rightOf node) node
    blackenRoot t

/-- The lazily created sentinel of `insert` and `emplace`:
`if (!sentinel_) sentinel_ = new Node{value_type{}};`. -/
def Tree.ensureSentinel (t : Tree) : Tree :=
  if t.sentinel_.isSome then t else
    let (t1, s) := t.newNode 0 0 .kRED
    { t1 with sentinel_ := s }

/-- `tree::insert`. -/
def Tree.insert (fuel : Nat) (t : Tree) (k v : Int) : Except Fault (Tree × Iter) := do
  let dup ← if t.type_ = .kUNIQUE then findNode fuel t.heap t.root_ k else pure none
  if t.type_ = .kUNIQUE ∧ dup.isSome then do
    let e ← t.end fuel
    pure (t, e)
  else do
    let t := t.ensureSentinel
    let (t, node_pos) := t.newNode k v .kRED
    let t ← insertNode fuel t node_pos .root none
    pure (t, { ptr_ := node_pos, first_ := t.root_, last_ := t.sentinel_ })

/-- Iterator `operator==`: all three fields are compared. -/
def Iter.eq (a b : Iter) : Bool :=
  a.ptr_ = b.ptr_ ∧ a.first_ = b.first_ ∧ a.last_ = b.last_

/-- The climbing loop of `operator++`:
`while (parent && ptr_ == parent->right) { ptr_ = parent; parent = parent->parent; }`,
returning the final `parent`. -/
def climbRight : Nat → Heap → Ptr → Ptr → Except Fault Ptr
  | 0, _, _, _ => .error .fuel
  | fuel + 1, h, ptr, parent =>
    if parent.isNone then pure parent else do
    let pn ← h.read parent
    if ptr = pn.right then climbRight fuel h parent pn.parent else pure parent

/-- The climbing loop of `operator--`, the mirror of `climbRight`. -/
def climbLeft : Nat → Heap → Ptr → Ptr → Except Fault Ptr
  | 0, _, _, _ => .error .fuel
  | fuel + 1, h, ptr, parent =>
    if parent.isNone then pure parent else do
    let pn ← h.read parent
    if ptr = pn.left then climbLeft fuel h parent pn.parent else pure parent

/-- Pre-increment `operator++` of both iterator classes. -/
def Iter.inc (fuel : Nat) (h : Heap) (it : Iter) : Except Fault Iter := do
  let max_node ← findMax fuel h it.first_
  if it.ptr_ = max_node then
    pure { it with ptr_ := it.last_, last_ := it.ptr_ }
  else if it.ptr_.isSome ∧ it.last_ ≠ max_node then do
    let n ← h.read it.ptr_
    if n.right.isSome then do
      let m ← findMin fuel h n.right
      pure { it with ptr_ := m }
    else do
      let p ← climbRight fuel h it.ptr_ n.parent
      pure { it with ptr_ := p }
  else pure it

/-- Pre-decrement `operator--` of both iterator classes. -/
def Iter.dec (fuel : Nat) (h : Heap) (it : Iter) : Except Fault Iter := do
  let max_node ← findMax fuel h it.first_
  if it.last_ = max_node then
    pure { it with ptr_ := it.last_, last_ := it.ptr_ }
  else if it.ptr_.isSome then do
    let n ← h.read it.ptr_
    if n.left.isSome then do
      let m ← findMax fuel h n.left
      pure { it with ptr_ := m }
    else do
      let mn ← findMin fuel h it.first_
      if it.ptr_ ≠ mn then do
        let p ← climbLeft fuel h it.ptr_ n.parent
        pure { it with ptr_ := p }
      else pure it
  else pure it

/-- Dereference `operator*`: the pair of the node the iterator points to. -/
def Iter.deref (h : Heap) (it : Iter) : Except Fault (Int × Int) := do
  let n ← h.read it.ptr_
  pure (n.key, n.val)

/-- `tree::removeConnect`. -/
def removeConnect (t : Tree) (node : Ptr) : Except Fault Tree := do
  let p ← t.parent node
  if p.isSome then do
    let pl ← t.left p
    if pl = node then t.setLeft p none else t.setRight p none
  else pure t

/-- The sibling of `node` under `parent`:
`(parent->left == node) ? parent->right : parent->left`. -/
def brotherOf (t : Tree) (parent node : Ptr) : Except Fault Ptr := do
  let pl ← t.left parent
  if pl = node then t.right parent else t.left parent

/-- The flag `is_left`: `parent->left == node`. -/
def isLeftOf (t : Tree) (parent node : Ptr) : Except Fault Bool := do
  let pl ← t.left parent
  pure (pl = node)

/-- `std::swap(a->color, b->color)`. -/
def swapColor (t : Tree) (a b : Ptr) : Except Fault Tree := do
  let ca ← t.color a
  let cb ← t.color b
  let t ← t.setColor a cb
  t.setColor b ca

/-- `tree::redParBlackSonRedLeft`. -/
def redParBlackSonRedLeft (fuel : Nat) (t : Tree) (node : Ptr) : Except Fault Tree := do
  let parent ← t.parent node
  let brother ← brotherOf t parent node
  let is_left ← isLeftOf t parent node
  let t ← removeConnect t node
  let bp ← t.parent brother
  let t ← if is_left then rotateLeft t bp else rotateRight t bp
  swapColors fuel t brother

/-- `tree::redParBlackSonRedRight`. -/
def redParBlackSonRedRight (fuel : Nat) (t : Tree) (node : Ptr) : Except Fault Tree := do
  let parent ← t.parent node
  let brother ← brotherOf t parent node
  let is_left ← isLeftOf t parent node
  let t ← removeConnect t node
  let t ← if is_left then rotateRight t brother else rotateLeft t brother
  let bp ← t.parent brother
  let t ← swapColor t brother bp
  let t ← if is_left then rotateLeft t parent else rotateRight t parent
  let pp ← t.parent parent
  swapColors fuel t pp

/-- `tree::blackParRedSonBlackRight`. -/
def blackParRedSonBlackRight (t : Tree) (node : Ptr) : Except Fault Tree := do
  let parent ← t.parent node
  let is_left ← isLeftOf t parent node
  let brother ← brotherOf t parent node
  let grandson ← if is_left then t.left brother else t.right brother
  let t ← swapColor t brother grandson
  let t ← removeConnect t node
  if is_left then rotateLeft t parent else rotateRight t parent

/-- `tree::blackParRedBrosBlackRightRedLeft`. -/
def blackParRedBrosBlackRightRedLeft (fuel : Nat) (t : Tree) (node : Ptr) :
    Except Fault Tree := do
  let parent ← t.parent node
  let brother ← brotherOf t parent node
  let t ← removeConnect t node
  let bp ← t.parent brother
  let t ← rotateLeft t bp
  let t ← swapColor t brother parent
  let t ← rotateLeft t parent
  let pp ← t.parent parent
  swapColors fuel t pp

/-- The test `p && p->color == c` with its short circuit. -/
def hasColor (t : Tree) (p : Ptr) (c : Colors) : Except Fault Bool :=
  if p.isSome then do
    let pc ← t.color p
    pure (pc = c)
  else pure false

/-- `tree::fixDoubleBlack`; the fuel bounds its recursion. -/
def fixDoubleBlack : Nat → Tree → Ptr → Except Fault Tree
  | 0, _, _ => .error .fuel
  | fuel + 1, t, node =>
    if node = t.root_ then pure t else do
    let parent ← t.parent node
    let brother ← brotherOf t parent node
    let bc ← t.color brother
    if bc = .kRED then do
      let t ← t.setColor parent .kRED
      let t ← t.setColor brother .kBLACK
      let pl ← t.left parent
      let t ← if brother = pl then rotateRight t parent else rotateLeft t parent
      fixDoubleBlack fuel t node
    else do
      let bl ← t.left brother
      let br ← t.right brother
      let blBlack ← hasColor t bl .kBLACK
      let brBlack ← if blBlack then hasColor t br .kBLACK else pure false
      if blBlack ∧ brBlack then do
        let t ← t.setColor brother .kRED
        let pc ← t.color parent
        if pc = .kBLACK then fixDoubleBlack fuel t parent
        else t.setColor parent .kBLACK
      else do
        let pl ← t.left parent
        let t ← if brother = pl then do
            let blRed ← hasColor t bl .kRED
            if blRed then do
              let pc ← t.color parent
              let old ← t.color brother
              let t ← t.setColor brother pc
              let bl ← t.left brother
              let t ← t.setColor bl old
              rotateRight t parent
            else do
              let brRed ← hasColor t br .kRED
              if brRed then do
                let pc ← t.color parent
                let t ← t.setColor br pc
                let t ← rotateLeft t brother
                rotateRight t parent
              else pure t
          else do
            let brRed ← hasColor t br .kRED
            if brRed then do
              let pc ← t.color parent
              let old ← t.color brother
              let t ← t.setColor brother pc
              let br ← t.right brother
              let t ← t.setColor br old
              rotateLeft t parent
            else do
              let blRed ← hasColor t bl .kRED
              if blRed then do
                let pc ← t.color parent
                let t ← t.setColor bl pc
                let t ← rotateRight t brother
                rotateLeft t parent
              else pure t
        t.setColor parent .kBLACK

/-- `tree::blackParBlackBrosBlackAll`. -/
def blackParBlackBrosBlackAll (fuel : Nat) (t : Tree) (node : Ptr) : Except Fault Tree := do
  let parent ← t.parent node
  let brother ← brotherOf t parent node
  let t ← t.setColor brother .kRED
  let t ← removeConnect t node
  let pc ← t.color parent
  if pc = .kBLACK then fixDoubleBlack fuel t parent
  else t.setColor parent .kBLACK

/-- `tree::blackParBlackBrosRedRightGran`. -/
def blackParBlackBrosRedRightGran (t : Tree) (node : Ptr) : Except Fault Tree := do
  let parent ← t.parent node
  let brother ← brotherOf t parent node
  let is_left ← isLeftOf t parent node
  let t ← removeConnect t node
  let t ← if is_left then rotateRight t brother else rotateLeft t brother
  let bp ← t.parent brother
  let t ← swapColor t brother bp
  let t ← if is_left then rotateLeft t parent else rotateRight t parent
  t.setColor brother .kBLACK

/-- `tree::blackParBlackBrosRedLeftOrAllGran`. -/
def blackParBlackBrosRedLeftOrAllGran (t : Tree) (node : Ptr) : Except Fault Tree := do
  let parent ← t.parent node
  let is_left ← isLeftOf t parent node
  let t ← removeConnect t node
  if is_left then do
    let t ← rotateLeft t parent
    let pp ← t.parent parent
    let ppr ← if pp.isSome then t.right pp else pure none
    if pp.isSome ∧ ppr.isSome then t.setColor ppr .kBLACK
    else if t.root_ = parent then do
      let rr ← t.right t.root_
      t.setColor rr .kBLACK
    else pure t
  else do
    let t ← rotateRight t parent
    let pp ← t.parent parent
    let ppl ← if pp.isSome then t.left pp else pure none
    if pp.isSome ∧ ppl.isSome then t.setColor ppl .kBLACK
    else if t.root_ = parent then do
      let rl ← t.left t.root_
      t.setColor rl .kBLACK
    else pure t

/-- `tree::deleteBlackNoChild`. -/
def deleteBlackNoChild (fuel : Nat) (t : Tree) (node : Ptr) : Except Fault Tree := do
  let parent ← t.parent node
  if parent.isNone then pure t else do
  let brother ← brotherOf t parent node
  let is_left ← isLeftOf t parent node
  let pc ← t.color parent
  let bc ← if brother.isSome then t.color brother else pure .kRED
  if brother.isSome ∧ pc = .kRED ∧ bc = .kBLACK then do
    let bl ← t.left brother
    let br ← t.right brother
    if bl.isNone ∧ br.isNone then do
      let t ← swapColor t brother parent
      removeConnect t node
    else do
      let far ← if is_left then hasColor t br .kRED else hasColor t bl .kRED
      if far then redParBlackSonRedLeft fuel t node else do
      let near ← if is_left then hasColor t bl .kRED else hasColor t br .kRED
      if near then redParBlackSonRedRight fuel t node else pure t
  else if brother.isSome ∧ pc = .kBLACK ∧ bc = .kBLACK then do
    let bl ← t.left brother
    let br ← t.right brother
    if bl.isNone ∧ br.isNone then blackParBlackBrosBlackAll fuel t node
    else if (is_left ∧ br.isNone ∧ bl.isSome) ∨ (¬ is_left ∧ bl.isNone ∧ br.isSome) then
      blackParBlackBrosRedRightGran t node
    else blackParBlackBrosRedLeftOrAllGran t node
  else if brother.isSome ∧ pc = .kBLACK ∧ bc = .kRED then do
    let bl ← t.left brother
    let br ← t.right brother
    let near ← if is_left then hasColor t bl .kBLACK else hasColor t br .kBLACK
    if near then do
      let grgrson ← if is_left then t.right bl else t.left br
      let gRed ← hasColor t grgrson .kRED
      if gRed then blackParRedBrosBlackRightRedLeft fuel t node
      else blackParRedSonBlackRight t node
    else pure t
  else pure t

/-- `tree::deleteOneChild(node, child)`; `child` is the slot holding the child. -/
def deleteOneChild (t : Tree) (node : Ptr) (child : Slot) : Except Fault (Tree × Ptr) := do
  let ch ← t.getSlot child
  let nn ← t.heap.read node
  let c ← t.getSlot child
  let cn ← t.heap.read c
  let t ← t.setPair node cn.key cn.val
  let c ← t.getSlot child
  let t ← t.setPair c nn.key nn.val
  let t ← t.setSlot child none
  pure (t, ch)

/-- `tree::deleteTwoChild`. -/
def deleteTwoChild (fuel : Nat) (t : Tree) (node : Ptr) : Except Fault (Tree × Ptr) := do
  let nl ← t.left node
  let swap ← findMax fuel t.heap nl
  let to_del := swap
  let both ← if swap.isSome then do
      let sl ← t.left swap
      let sr ← if sl.isSome then t.right swap else pure none
      pure (decide (sl.isSome ∧ sr.isSome))
    else pure false
  let swap ← if ¬ (swap.isSome ∧ ¬ both) then do
      let nr ← t.right node
      findMin fuel t.heap nr
    else pure swap
  let sn ← t.heap.read swap
  let nn ← t.heap.read node
  let t ← t.setPair swap nn.key nn.val
  let t ← t.setPair node sn.key sn.val
  let sl ← t.left swap
  let sr ← t.right swap
  if sl.isNone ∧ sr.isNone then do
    let sc ← t.color swap
    if sc = .kRED then do
      let t ← removeConnect t swap
      pure (t, to_del)
    else do
      let t ← deleteBlackNoChild fuel t swap
      pure (t, to_del)
  else if sl.isNone ∧ sr.isSome then deleteOneChild t swap (.rightOf swap)
  else if sl.isSome ∧ sr.isNone then deleteOneChild t swap (.leftOf swap)
  else pure (t, to_del)

/-- `tree::extractNode`. -/
def extractNode (fuel : Nat) (t : Tree) (node : Ptr) : Except Fault (Tree × Ptr) := do
  if node.isNone then pure (t, none) else do
  let c ← t.color node
  let l ← t.left node
  let r ← t.right node
  let (t, to_del) ←
    if c = .kRED then
      if l.isNone ∧ r.isNone then do
        let t ← removeConnect t node
        pure (t, node)
      else if l.isSome ∧ r.isSome then deleteTwoChild fuel t node
      else pure (t, node)
    else
      if l.isNone ∧ r.isNone then do
        let t ← deleteBlackNoChild fuel t node
        pure (t, node)
      else if l.isNone ∧ r.isSome then deleteOneChild t node (.rightOf node)
      else if l.isSome ∧ r.isNone then deleteOneChild t node (.leftOf node)
      else deleteTwoChild fuel t node
  pure ({ t with size_ := decSize t.size_ }, to_del)

/-- `tree::erase(const key_type&)`. -/
def Tree.erase (fuel : Nat) (t : Tree) (key : Int) : Except Fault (Tree × Iter) := do
  let node ← findNode fuel t.heap t.root_ key
  let it ← if node.isSome then
      Iter.inc fuel t.heap { ptr_ := node, first_ := t.root_, last_ := t.sentinel_ }
    else t.end fuel
  if node.isSome then do
    let (t, to_del) ← extractNode fuel t node
    let t ← t.deleteNode to_del
    let t := if t.size_ = 0 then { t with root_ := none } else t
    pure (t, it)
  else pure (t, it)

/-- `tree::erase(const_iterator)`: erases by the key read through the iterator. -/
def Tree.eraseIt (fuel : Nat) (t : Tree) (it : Iter) : Except Fault (Tree × Iter) := do
  let kv ← it.deref t.heap
  t.erase fuel kv.1

/-- `tree::cleanTree(node)`; `slot` is the reference `node`. -/
def cleanTree : Nat → Tree → Slot → Except Fault Tree
  | 0, _, _ => .error .fuel
  | fuel + 1, t, slot => do
    let node ← t.getSlot slot
    if node.isSome then do
      let t ← cleanTree fuel t (.leftOf node)
      let t ← cleanTree fuel t (.rightOf node)
      let node ← t.getSlot slot
      let t ← t.deleteNode node
      let t ← t.setSlot slot none
      pure { t with size_ := decSize t.size_ }
    else pure t

/-- `tree::clear`. -/
def Tree.clear (fuel : Nat) (t : Tree) : Except Fault Tree := do
  let t ← if t.root_.isSome then cleanTree fuel t .root else pure t
  if t.sentinel_.isSome then do
    let t ← t.deleteNode t.sentinel_
    pure { t with sentinel_ := none }
  else pure t

/-- The validation loop of `tree::erase(first, last)`:
`for (i = cbegin(); i != cend() && !(has_first && has_last); ++i) ...`,
returning the two flags. -/
def rangeScan : Nat → Nat → Tree → Iter → Iter → Iter → Bool → Bool →
    Except Fault (Bool × Bool)
  | 0, _, _, _, _, _, _, _ => .error .fuel
  | n + 1, fuel, t, first, last, i, has_first, has_last => do
    let e ← t.end fuel
    if ¬ i.eq e ∧ ¬ (has_first ∧ has_last) then do
      let (hf, hl) ←
        if first.eq i then
          if ¬ has_last ∨ last.eq e then pure (true, has_last)
          else pure (has_first, has_last)
        else if last.eq i ∧ has_first then pure (has_first, true)
        else pure (has_first, has_last)
      let i ← i.inc fuel t.heap
      rangeScan n fuel t first last i hf hl
    else pure (has_first, has_last)

/-- The erasing loops of `tree::erase(first, last)`:
`for (it = cbegin(); it != cend(); ++it) { if (in range) { erase(current); it = cbegin(); } }`
where `hi` is `none` in the branch without upper key. -/
def rangeLoop : Nat → Nat → Tree → Iter → Int → Option Int → Except Fault Tree
  | 0, _, _, _, _, _ => .error .fuel
  | n + 1, fuel, t, it, first_key, hi => do
    let e ← t.end fuel
    if it.eq e then pure t else do
    let cur ← it.deref t.heap
    let current := cur.1
    let inRange : Bool :=
      match hi with
      | none => current ≥ first_key
      | some last_key => current ≥ first_key ∧ current < last_key
    let (t, it) ← if inRange then do
        let (t, _) ← t.erase fuel current
        let b ← t.begin fuel
        pure (t, b)
      else pure (t, it)
    let it ← it.inc fuel t.heap
    rangeLoop n fuel t it first_key hi

/-- `tree::erase(const_iterator first, const_iterator last)`. -/
def Tree.eraseRange (fuel : Nat) (t : Tree) (first last : Iter) :
    Except Fault (Tree × Iter) := do
  if first.eq last then pure (t, first) else do
  let b ← t.begin fuel
  let e ← t.end fuel
  if first.eq b ∧ last.eq e then do
    let t ← t.clear fuel
    let e ← t.end fuel
    pure (t, e)
  else do
  let e ← t.end fuel
  let b ← t.begin fuel
  let (has_first, has_last) ← rangeScan fuel fuel t first last b false (last.eq e)
  if ¬ has_first ∨ ¬ has_last then .error .rangeError else do
  let fkv ← first.deref t.heap
  let first_key := fkv.1
  let e ← t.end fuel
  if last.eq e then do
    let f ← t.find fuel first_key
    let ret_it ← f.dec fuel t.heap
    let b ← t.begin fuel
    let t ← rangeLoop fuel fuel t b first_key none
    pure (t, ret_it)
  else do
    let lkv ← last.deref t.heap
    let last_key := lkv.1
    let f ← t.find fuel last_key
    let ret_it ← f.dec fuel t.heap
    let b ← t.begin fuel
    let t ← rangeLoop fuel fuel t b first_key (some last_key)
    pure (t, ret_it)

/-! ## Two trees in one memory: `merge` and the copy constructor -/

/-- The object `t` seen in the memory as `src` left it: two tree objects of one
program share the heap, and a call on one of them may allocate or rewrite nodes. -/
def Tree.onHeapOf (t src : Tree) : Tree :=
  { t with heap := src.heap, next := src.next }

/-- The loop of the UNIQUE branch of `tree::merge`:
`while (it != other.end()) { if (!findNode(root_, (*it).first)) {...} else ++it; }`.
The first component of the result is `this`, the second `other`. -/
def mergeUniqueLoop : Nat → Nat → Tree → Tree → Iter → Except Fault (Tree × Tree)
  | 0, _, _, _, _ => .error .fuel
  | n + 1, fuel, this, other, it => do
    let e ← other.end fuel
    if it.eq e then pure (this, other) else do
    let kv ← it.deref other.heap
    let found ← findNode fuel this.heap this.root_ kv.1
    if found.isNone then do
      let node ← findNode fuel other.heap other.root_ kv.1
      let (other, extracted) ← extractNode fuel other node
      let (other, it) ←
        if extracted = other.root_ then do
          let other := { other with root_ := none }
          let other ← other.deleteNode other.sentinel_
          let other := { other with sentinel_ := none }
          let e ← other.end fuel
          pure (other, e)
        else do
          let b ← other.begin fuel
          pure (other, b)
      let this ← insertNode fuel (this.onHeapOf other) extracted .root none
      mergeUniqueLoop n fuel this (other.onHeapOf this) it
    else do
      let it ← it.inc fuel other.heap
      mergeUniqueLoop n fuel this other it

/-- The loop of the NON_UNIQUE branch of `tree::merge`:
`while (other.size_) insertNode(other.extractNode(findMin(other.root_)), root_);`. -/
def mergeAllLoop : Nat → Nat → Tree → Tree → Except Fault (Tree × Tree)
  | 0, _, _, _ => .error .fuel
  | n + 1, fuel, this, other =>
    if other.size_ = 0 then pure (this, other) else do
    let m ← findMin fuel other.heap other.root_
    let (other, extracted) ← extractNode fuel other m
    let this ← insertNode fuel (this.onHeapOf other) extracted .root none
    mergeAllLoop n fuel this (other.onHeapOf this)

/-- `tree::merge(other)`, called on `this`; both trees live in the memory of
`other` (`this.onHeapOf other`).  Returns `this` and `other` after the call. -/
def Tree.merge (fuel : Nat) (this other : Tree) : Except Fault (Tree × Tree) := do
  let this := this.onHeapOf other
  if this.type_ = .kUNIQUE then do
    let it ← other.begin fuel
    mergeUniqueLoop fuel fuel this other it
  else do
    let (this, other) ← mergeAllLoop fuel fuel this other
    let other := { other with root_ := none }
    let other ← other.deleteNode other.sentinel_
    pure (this, { other with sentinel_ := none })

/-- `tree::copyTree(node)`, called on the copy `t`, which lives in the memory of
the source tree; the first fuel bounds the recursion. -/
def copyTree : Nat → Nat → Tree → Ptr → Except Fault Tree
  | 0, _, _, _ => .error .fuel
  | n + 1, fuel, t, node =>
    if node.isSome then do
      let nn ← t.heap.read node
      let (t, _) ← t.insert fuel nn.key nn.val
      let l ← t.left node
      let t ← copyTree n fuel t l
      let r ← t.right node
      copyTree n fuel t r
    else pure t

/-- Copy constructor `tree(const tree &t)`: a new object with the type of `src`
and a fresh sentinel, filled by `copyTree(src.root_)`. -/
def Tree.copy (fuel : Nat) (src : Tree) : Except Fault Tree :=
  let t0 : Tree := { heap := src.heap, next := src.next, root_ := none, sentinel_ := none,
                     size_ := 0, type_ := src.type_ }
  let (t1, s) := t0.newNode 0 0 .kRED
  copyTree fuel fuel { t1 with sentinel_ := s } src.root_

/-! ## The multiset lookups (`multiset.tpp`) -/

/-- Dereference `operator*` of the set iterators: `(*ptr_->pair).first`. -/
def Iter.derefKey (h : Heap) (it : Iter) : Except Fault Int := do
  let n ← h.read it.ptr_
  pure n.key

/-- The loop of `multiset::count`, `for (auto i : *this)`, from position `it`
with the end position `e` taken once. -/
def countLoop : Nat → Nat → Heap → Iter → Iter → Int → Nat → Except Fault Nat
  | 0, _, _, _, _, _, _ => .error .fuel
  | n + 1, fuel, h, it, e, key, cnt =>
    if it.eq e then pure cnt else do
    let i ← it.derefKey h
    if i = key then do
      let it ← it.inc fuel h
      countLoop n fuel h it e key (cnt + 1)
    else if cnt ≠ 0 then pure cnt
    else do
      let it ← it.inc fuel h
      countLoop n fuel h it e key cnt

/-- `multiset::count`. -/
def Tree.count (fuel : Nat) (t : Tree) (key : Int) : Except Fault Nat := do
  let b ← t.begin fuel
  let e ← t.end fuel
  countLoop fuel fuel t.heap b e key 0

/-- The loop of `multiset::equal_range`, returning `(first, last)`. -/
def equalRangeLoop : Nat → Nat → Tree → Iter → Int → Iter → Iter → Nat →
    Except Fault (Iter × Iter)
  | 0, _, _, _, _, _, _, _ => .error .fuel
  | n + 1, fuel, t, i, key, first, last, cnt => do
    let e ← t.end fuel
    if i.eq e then pure (first, last) else do
    let x ← i.derefKey t.heap
    if x = key ∧ cnt = 0 then do
      let i1 ← i.inc fuel t.heap
      equalRangeLoop n fuel t i1 key i last (cnt + 1)
    else do
      let x ← i.derefKey t.heap
      if x > key then pure (if cnt = 0 then i else first, i)
      else do
        let i1 ← i.inc fuel t.heap
        equalRangeLoop n fuel t i1 key first last cnt

/-- `multiset::equal_range`. -/
def Tree.equalRange (fuel : Nat) (t : Tree) (key : Int) : Except Fault (Iter × Iter) := do
  let first ← t.end fuel
  let last ← t.end fuel
  let b ← t.begin fuel
  equalRangeLoop fuel fuel t b key first last 0

/-- The loop of `multiset::lower_bound`. -/
def lowerBoundLoop : Nat → Nat → Tree → Iter → Int → Iter → Except Fault Iter
  | 0, _, _, _, _, _ => .error .fuel
  | n + 1, fuel, t, i, key, first => do
    let e ← t.end fuel
    if i.eq e then pure first else do
    let x ← i.derefKey t.heap
    if x = key then pure i
    else do
      let x ← i.derefKey t.heap
      if x > key then pure i
      else do
        let i1 ← i.inc fuel t.heap
        lowerBoundLoop n fuel t i1 key first

/-- `multiset::lower_bound`. -/
def Tree.lowerBound (fuel : Nat) (t : Tree) (key : Int) : Except Fault Iter := do
  let first ← t.end fuel
  let b ← t.begin fuel
  lowerBoundLoop fuel fuel t b key first

/-- The loop of `multiset::upper_bound`. -/
def upperBoundLoop : Nat → Nat → Tree → Iter → Int → Iter → Except Fault Iter
  | 0, _, _, _, _, _ => .error .fuel
  | n + 1, fuel, t, i, key, last => do
    let e ← t.end fuel
    if i.eq e then pure last else do
    let x ← i.derefKey t.heap
    if x > key then pure i
    else do
      let i1 ← i.inc fuel t.heap
      upperBoundLoop n fuel t i1 key last

/-- `multiset::upper_bound`. -/
def Tree.upperBound (fuel : Nat) (t : Tree) (key : Int) : Except Fault Iter := do
  let last ← t.end fuel
  let b ← t.begin fuel
  upperBoundLoop fuel fuel t b key last

/-- Iterator `operator!=`: true when any of the three fields differs. -/
def Iter.ne (a b : Iter) : Bool :=
  a.ptr_ ≠ b.ptr_ ∨ a.first_ ≠ b.first_ ∨ a.last_ ≠ b.last_

/-- `set::insert(value)` on the tree of the set:
`it = tree_.insert({value, value})`, then `(it != end())` decides between
`{it, true}` and `{tree_.find(value), false}`. -/
def setInsert (fuel : Nat) (t : Tree) (value : Int) : Except Fault (Tree × Iter × Bool) := do
  let (t, it) ← t.insert fuel value value
  let e ← t.end fuel
  if it.ne e then pure (t, it, true)
  else do
    let f ← t.find fuel value
    pure (t, f, false)

/-- `tree::emplace(key, val)`: the tree, the iterator and the flag returned. The
node is allocated first and deleted again when the key is already there. -/
def Tree.emplace (fuel : Nat) (t : Tree) (key val : Int) :
    Except Fault (Tree × Iter × Bool) := do
  let (t, new_node) := t.newNode key val .kRED
  let k ← t.key new_node
  let dup ← if t.type_ = .kUNIQUE then findNode fuel t.heap t.root_ k else pure none
  if t.type_ = .kUNIQUE ∧ dup.isSome then do
    let t ← t.deleteNode new_node
    let e ← t.end fuel
    pure (t, e, false)
  else do
    let t := t.ensureSentinel
    let t ← insertNode fuel t new_node .root none
    pure (t, { ptr_ := new_node, first_ := t.root_, last_ := t.sentinel_ }, true)

/-- `tree::balancingTree` again, with a counter of the rotations it performs: the
same steps as `balancingTree`, returning the tree and the number of calls of
`rotateLeft` and `rotateRight` made. -/
def balancingTreeRot : Nat → Tree → Ptr → Except Fault (Tree × Nat)
  | 0, _, _ => .error .fuel
  | fuel + 1, t, node => do
    let parent ← t.parent node
    if parent.isNone then pure (t, 0) else do
    let pc ← t.color parent
    if pc ≠ .kRED then pure (t, 0) else do
    let grandpar ← t.parent parent
    let gl ← t.left grandpar
    let uncle ← if parent = gl then t.right grandpar else t.left grandpar
    let uc ← if uncle.isSome then t.color uncle else pure .kBLACK
    if uncle.isSome ∧ uc = .kRED then do
      let t ← t.setColor parent .kBLACK
      let t ← t.setColor uncle .kBLACK
      let t ← t.setColor grandpar .kRED
      balancingTreeRot fuel t grandpar
    else do
      let pr ← t.right parent
      let pl ← t.left parent
      let gl ← t.left grandpar
      let gr ← t.right grandpar
      let (t, node, parent, k) ←
        if node = pr ∧ parent = gl then do
          let t ← rotateLeft t parent
          let np ← t.parent parent
          pure (t, parent, np, 1)
        else if node = pl ∧ parent = gr then do
          let t ← rotateRight t parent
          let np ← t.parent parent
          pure (t, parent, np, 1)
        else pure (t, node, parent, 0)
      let t ← t.setColor parent .kBLACK
      let t ← t.setColor grandpar .kRED
      let gl ← t.left grandpar
      let t ← if parent = gl then rotateRight t grandpar else rotateLeft t grandpar
      let (t, r) ← balancingTreeRot fuel t node
      pure (t, r + k + 1)

/-- The code of `tree::fixDoubleBlack` with a record of its calls: the same
steps as `fixDoubleBlack`, and the result carries, for every call made, the node
it was made on and the colour read from the brother of that node (nothing for a
call that returns at once because the node is the root), first call first. -/
def fixDoubleBlackTr : Nat → Tree → Ptr → Except Fault (Tree × List (Ptr × Option Colors))
  | 0, _, _ => .error .fuel
  | fuel + 1, t, node =>
    if node = t.root_ then pure (t, [(node, none)]) else do
    let parent ← t.parent node
    let brother ← brotherOf t parent node
    let bc ← t.color brother
    if bc = .kRED then do
      let t ← t.setColor parent .kRED
      let t ← t.setColor brother .kBLACK
      let pl ← t.left parent
      let t ← if brother = pl then rotateRight t parent else rotateLeft t parent
      let (t, tr) ← fixDoubleBlackTr fuel t node
      pure (t, (node, some bc) :: tr)
    else do
      let bl ← t.left brother
      let br ← t.right brother
      let blBlack ← hasColor t bl .kBLACK
      let brBlack ← if blBlack then hasColor t br .kBLACK else pure false
      if blBlack ∧ brBlack then do
        let t ← t.setColor brother .kRED
        let pc ← t.color parent
        if pc = .kBLACK then do
          let (t, tr) ← fixDoubleBlackTr fuel t parent
          pure (t, (node, some bc) :: tr)
        else do
          let t ← t.setColor parent .kBLACK
          pure (t, [(node, some bc)])
      else do
        let pl ← t.left parent
        let t ← if brother = pl then do
            let blRed ← hasColor t bl .kRED
            if blRed then do
              let pc ← t.color parent
              let old ← t.color brother
              let t ← t.setColor brother pc
              let bl ← t.left brother
              let t ← t.setColor bl old
              rotateRight t parent
            else do
              let brRed ← hasColor t br .kRED
              if brRed then do
                let pc ← t.color parent
                let t ← t.setColor br pc
                let t ← rotateLeft t brother
                rotateRight t parent
              else pure t
          else do
            let brRed ← hasColor t br .kRED
            if brRed then do
              let pc ← t.color parent
              let old ← t.color brother
              let t ← t.setColor brother pc
              let br ← t.right brother
              let t ← t.setColor br old
              rotateLeft t parent
            else do
              let blRed ← hasColor t bl .kRED
              if blRed then do
                let pc ← t.color parent
                let t ← t.setColor bl pc
                let t ← rotateRight t brother
                rotateLeft t parent
              else pure t
        let t ← t.setColor parent .kBLACK
        pure (t, [(node, some bc)])

/-! ## The vector (`vector.tpp`), for `T = int`

Sizes, capacities and indices are natural numbers: a block of `2 ^ 63` cells
cannot be allocated, so the `size_t` arithmetic of the code does not wrap, except
for the decrement of a zero size in `erase`, which is modelled by `decSize`.
An iterator is a pointer into the block of its vector; it is modelled by its
offset from `_array`, so `begin()` is 0 and `end()` is `_size`. -/

/-- What a vector operation does when it does not return: `outOfRange` is the
`std::out_of_range` the code throws; the others are undefined behaviour of the
C++ (a null pointer dereferenced, a cell outside the allocated block accessed, an
indeterminate value compared). -/
inductive VFault where
  | outOfRange
  | nullDeref
  | outOfBounds
  | indeterminate
deriving DecidableEq, Repr

/-- A block of cells allocated by `new T[n]`. A cell is `none` as long as nothing
has been assigned to it (its value is indeterminate). -/
abbrev Block := List (Option Int)

/-- The fields of `vector<T>`. `_array` is `nullptr` (`none`) or points to a
block. -/
structure vector where
  _array : Option Block
  _size : Nat
  _capacity : Nat
deriving DecidableEq, Repr

/-- `new T[n]`: `n` cells, none assigned. -/
def newArray (n : Nat) : Block := List.replicate n none

/-- The cell `p[i]`. -/
def readCell (p : Option Block) (i : Nat) : Except VFault (Option Int) :=
  match p with
  | none => .error .nullDeref
  | some b =>
    match b[i]? with
    | some c => .ok c
    | none => .error .outOfBounds

/-- The value of `p[i]`, where the value is used (compared). -/
def readValue (p : Option Block) (i : Nat) : Except VFault Int := do
  let c ← readCell p i
  match c with
  | some x => pure x
  | none => .error .indeterminate

/-- The assignment `p[i] = c`. -/
def writeCell (p : Option Block) (i : Nat) (c : Option Int) : Except VFault Block :=
  match p with
  | none => .error .nullDeref
  | some b => if i < b.length then .ok (b.set i c) else .error .outOfBounds

/-- The loop `for (; i < n; ++i) dst[i] = src[i];` with `k` iterations left. -/
def copyCells (src : Option Block) : Nat → Nat → Block → Except VFault Block
  | 0, _, dst => pure dst
  | k + 1, i, dst => do
    let c ← readCell src i
    let dst ← writeCell (some dst) i c
    copyCells src k (i + 1) dst

/-- Default constructor `vector()`. -/
def vector.empty : vector := { _array := none, _size := 0, _capacity := 0 }

/-- Constructor `vector(size_type n)`: a block of `n` cells filled with `T()`. -/
def vector.sized (n : Nat) : vector :=
  { _array := some (List.replicate n (some 0)), _size := n, _capacity := n }

/-- Constructor `vector(std::initializer_list)`: `vector(items.size())`, then
`std::copy` of the items over the whole block. -/
def vector.ofList (items : List Int) : vector :=
  { vector.sized items.length with _array := some (items.map some) }

/-- Copy constructor `vector(const vector &v)`: delegates to
`vector(v._capacity)`, then copies `v._capacity` cells. -/
def vector.copy (v : vector) : Except VFault vector := do
  let w := vector.sized v._capacity
  let b ← copyCells v._array v._capacity 0 (List.replicate v._capacity (some 0))
  pure { w with _array := some b }

/-- `vector::swap`: the two vectors after the call. -/
def vector.swap (v other : vector) : vector × vector := (other, v)

/-- Move constructor `vector(vector &&v)`: the new vector swaps its fields with
those of `v`, then `v` is reset; the result is the new vector and `v`
afterwards. -/
def vector.move (v : vector) : vector × vector :=
  (v, { _array := none, _size := 0, _capacity := 0 })

/-- `vector::operator[]`: the cell the returned reference designates. -/
def vector.get (v : vector) (pos : Nat) : Except VFault (Option Int) :=
  if pos ≥ v._size then .error .outOfRange else readCell v._array pos

/-- `vector::at`: the cell the returned reference designates. -/
def vector.at_ (v : vector) (pos : Nat) : Except VFault (Option Int) :=
  if pos ≥ v._size then .error .outOfRange else v.get pos

/-- `vector::begin`, as an offset. -/
def vector.begin (_v : vector) : Nat := 0

/-- `vector::end`, as an offset. -/
def vector.end (v : vector) : Nat := v._size

/-- `vector::size`. -/
def vector.size (v : vector) : Nat := v._size

/-- `vector::capacity`. -/
def vector.capacity (v : vector) : Nat := v._capacity

/-- `vector::reserve`. -/
def vector.reserve (v : vector) (size : Nat) : Except VFault vector :=
  if v._capacity < size then do
    let new_arr ← copyCells v._array v._size 0 (newArray size)
    pure { v with _array := some new_arr, _capacity := size }
  else pure v

/-- `vector::shrink_to_fit`. -/
def vector.shrink_to_fit (v : vector) : Except VFault vector :=
  if v._capacity ≠ v._size then do
    let new_arr ← copyCells v._array v._size 0 (newArray v._size)
    pure { v with _array := some new_arr, _capacity := v._size }
  else pure v

/-- `vector::clear`. -/
def vector.clear (v : vector) : vector := { v with _size := 0, _capacity := 0 }

/-- `vector::push_back`. -/
def vector.push_back (v : vector) (value : Int) : Except VFault vector := do
  let v ← (if v._capacity = v._size then do
      let cap := if v._capacity ≠ 0 then v._capacity * 2 else 1
      let new_arr ← copyCells v._array v._size 0 (newArray cap)
      pure { v with _array := some new_arr, _capacity := cap }
    else pure v)
  let arr ← writeCell v._array v._size (some value)
  pure { v with _array := some arr, _size := v._size + 1 }

/-- `vector::pop_back`. -/
def vector.pop_back (v : vector) : vector :=
  if v._size > 0 then { v with _size := v._size - 1 } else v

/-- The loop of `vector::insert` over `i`, with `k` iterations left: every cell
whose value equals `*pos` is preceded by `value` in the new block. -/
def insertLoop (arr : Option Block) (pos : Nat) (value : Int) :
    Nat → Nat → Block → Nat → Except VFault Block
  | 0, _, new_arr, _ => pure new_arr
  | k + 1, i, new_arr, pos_in_new => do
    let a ← readValue arr i
    let p ← readValue arr pos
    if a = p then do
      let new_arr ← writeCell (some new_arr) pos_in_new (some value)
      let new_arr ← writeCell (some new_arr) (pos_in_new + 1) (some p)
      insertLoop arr pos value k (i + 1) new_arr (pos_in_new + 2)
    else do
      let new_arr ← writeCell (some new_arr) pos_in_new (some a)
      insertLoop arr pos value k (i + 1) new_arr (pos_in_new + 1)

/-- `vector::insert(pos, value)`: the vector afterwards and the iterator
returned. -/
def vector.insert (v : vector) (pos : Nat) (value : Int) : Except VFault (vector × Nat) :=
  if pos = v.end then do
    let v ← v.push_back value
    pure (v, v.end - 1)
  else do
    let cap := if v._capacity = v._size then (if v._capacity ≠ 0 then v._capacity * 2 else 1)
               else v._capacity
    let new_arr ← insertLoop v._array pos value v._size 0 (newArray cap) 0
    let index := pos - v.begin
    let v : vector := { _array := some new_arr, _size := v._size + 1, _capacity := cap }
    pure (v, v.begin + index)

/-- The loop of `vector::erase`,
`while (index < _size - 1) { _array[index] = *++pos; ++index; }`, with `k`
iterations left. -/
def eraseLoop : Nat → Nat → Nat → Option Block → Except VFault (Option Block)
  | 0, _, _, arr => pure arr
  | k + 1, index, pos, arr => do
    let c ← readCell arr (pos + 1)
    let b ← writeCell arr index c
    eraseLoop k (index + 1) (pos + 1) (some b)

/-- `vector::erase(pos)`. -/
def vector.erase (v : vector) (pos : Nat) : Except VFault vector := do
  let index := pos - v.begin
  let arr ← eraseLoop (decSize v._size - index) index pos v._array
  pure { v with _array := arr, _size := decSize v._size }

/-! ## The list (`list.tpp`), for `T = int`

The nodes of all lists live in one free store. A list object is its three
fields; an operation takes the store and the list objects it works on and
returns them as they are afterwards. -/

/-- The node record, `list::Node<T>`. -/
structure LNode where
  pNext : Ptr
  pPrev : Ptr
  data : Int
deriving DecidableEq, Repr

/-- The free store of list nodes: the node at each address (`none` where nothing
is allocated) and the allocation mark. -/
structure LMem where
  cells : Nat → Option LNode
  next : Nat

/-- The fields of `list<T>`. -/
structure list where
  Size : Nat
  head : Ptr
  tail : Ptr
deriving DecidableEq, Repr

/-- The fields of `list::ListIterator` (and `ListConstIterator`). -/
structure LIter where
  m_ptr : Ptr
  last_node : Ptr
deriving DecidableEq, Repr

/-- Read `*p`. -/
def LMem.read (m : LMem) (p : Ptr) : Except Fault LNode :=
  match p with
  | none => .error .nullDeref
  | some a =>
    match m.cells a with
    | none => .error .dangling
    | some n => .ok n

/-- The store with the cell at `a` replaced. -/
def LMem.set (m : LMem) (a : Nat) (v : Option LNode) : LMem :=
  { m with cells := fun b => if b = a then v else m.cells b }

/-- Assign to the fields of `*p`. -/
def LMem.modify (m : LMem) (p : Ptr) (f : LNode → LNode) : Except Fault LMem :=
  match p with
  | none => .error .nullDeref
  | some a =>
    match m.cells a with
    | none => .error .dangling
    | some n => .ok (m.set a (some (f n)))

/-- `new Node(data, pNext, pPrev)`. -/
def LMem.alloc (m : LMem) (data : Int) (pNext pPrev : Ptr) : LMem × Ptr :=
  ({ cells := fun b => if b = m.next then some { pNext := pNext, pPrev := pPrev, data := data }
                       else m.cells b,
     next := m.next + 1 }, some m.next)

/-- `delete p`; deleting `nullptr` does nothing. -/
def LMem.free (m : LMem) (p : Ptr) : Except Fault LMem :=
  match p with
  | none => .ok m
  | some a =>
    match m.cells a with
    | none => .error .dangling
    | some _ => .ok (m.set a none)

/-- Default constructor `list()`. -/
def list.empty : list := { Size := 0, head := none, tail := none }

/-- The store in which nothing is allocated. -/
def LMem.empty : LMem := { cells := fun _ => none, next := 0 }

/-- `list::size`. -/
def list.size (l : list) : Nat := l.Size

/-- `list::begin` (and `cbegin`): `iterator(head)`. -/
def list.begin (l : list) : LIter := { m_ptr := l.head, last_node := l.head }

/-- `list::end`: `head ? iterator(tail->pNext, tail) : begin()`. -/
def list.end (m : LMem) (l : list) : Except Fault LIter :=
  if l.head.isSome then do
    let tn ← m.read l.tail
    pure { m_ptr := tn.pNext, last_node := l.tail }
  else pure l.begin

/-- `list::cend`: `const_iterator(tail->pNext, tail)`. -/
def list.cend (m : LMem) (l : list) : Except Fault LIter := do
  let tn ← m.read l.tail
  pure { m_ptr := tn.pNext, last_node := l.tail }

/-- Iterator `operator*`. -/
def LIter.deref (m : LMem) (it : LIter) : Except Fault Int := do
  let n ← m.read it.m_ptr
  pure n.data

/-- Iterator `operator++`. -/
def LIter.inc (m : LMem) (it : LIter) : Except Fault LIter := do
  let n ← m.read it.m_ptr
  pure { it with m_ptr := n.pNext }

/-- Iterator `operator--`: `m_ptr ? m_ptr = m_ptr->pPrev : m_ptr = last_node`. -/
def LIter.dec (m : LMem) (it : LIter) : Except Fault LIter :=
  if it.m_ptr.isSome then do
    let n ← m.read it.m_ptr
    pure { it with m_ptr := n.pPrev }
  else pure { it with m_ptr := it.last_node }

/-- Iterator `operator==`: the node pointers are compared. -/
def LIter.eq (a b : LIter) : Bool := a.m_ptr = b.m_ptr

/-- `ListConstIterator::it_const_cast`: `iterator(m_ptr)`. -/
def LIter.it_const_cast (it : LIter) : LIter := { m_ptr := it.m_ptr, last_node := it.m_ptr }

/-- `list::front`. -/
def list.front (m : LMem) (l : list) : Except Fault Int := do
  let n ← m.read l.head
  pure n.data

/-- `list::back`. -/
def list.back (m : LMem) (l : list) : Except Fault Int := do
  let n ← m.read l.tail
  pure n.data

/-- `list::push_back`. -/
def list.push_back (m : LMem) (l : list) (value : Int) : Except Fault (LMem × list) := do
  let current := l.tail
  let (m, t) := m.alloc value none l.tail
  let l := { l with tail := t }
  let (m, l) ← (if l.head.isNone then pure (m, { l with head := l.tail })
    else do
      let m ← m.modify current (fun n => { n with pNext := l.tail })
      pure (m, l))
  pure (m, { l with Size := l.Size + 1 })

/-- `list::pop_back`. -/
def list.pop_back (m : LMem) (l : list) : Except Fault (LMem × list) := do
  let temp := l.tail
  let tn ← m.read temp
  let l := { l with tail := tn.pPrev }
  let m ← m.modify l.tail (fun n => { n with pNext := none })
  let m ← m.free temp
  pure (m, { l with Size := decSize l.Size })

/-- `list::push_front`. -/
def list.push_front (m : LMem) (l : list) (value : Int) : Except Fault (LMem × list) := do
  let current := l.head
  let (m, h) := m.alloc value l.head none
  let l := { l with head := h }
  let (m, l) ← (if l.tail.isNone then pure (m, { l with tail := l.head })
    else do
      let m ← m.modify current (fun n => { n with pPrev := l.head })
      pure (m, l))
  pure (m, { l with Size := l.Size + 1 })

/-- `list::pop_front`. -/
def list.pop_front (m : LMem) (l : list) : Except Fault (LMem × list) :=
  if l.Size > 0 then do
    let temp := l.head
    let tn ← m.read temp
    let l := { l with head := tn.pNext }
    let (m, l) ← (if l.head.isNone then pure (m, { l with tail := l.head })
      else do
        let m ← m.modify l.head (fun n => { n with pPrev := none })
        pure (m, l))
    let m ← m.free temp
    pure (m, { l with Size := decSize l.Size })
  else pure (m, l)

/-- The loop `while (i >= 0) { pop_front(); --i; }` of `clear`, with `k`
iterations left. -/
def clearLoop : Nat → LMem → list → Except Fault (LMem × list)
  | 0, m, l => pure (m, l)
  | k + 1, m, l => do
    let (m, l) ← l.pop_front m
    clearLoop k m l

/-- `list::clear`: `int i = size()`, then `i + 1` calls of `pop_front`. -/
def list.clear (m : LMem) (l : list) : Except Fault (LMem × list) :=
  clearLoop (l.size + 1) m l

/-- `list::insert(pos, value)`: the store, the list and the iterator returned. -/
def list.insert (m : LMem) (l : list) (pos : LIter) (value : Int) :
    Except Fault (LMem × list × LIter) :=
  if pos.eq l.begin then do
    let (m, l) ← l.push_front m value
    pure (m, l, l.begin)
  else do
  let e ← l.end m
  if pos.eq e then do
    let (m, l) ← l.push_back m value
    let e ← l.end m
    let pos ← e.dec m
    pure (m, l, pos)
  else do
    let current := pos.m_ptr
    let cn ← m.read current
    let (m, newNode) := m.alloc value current cn.pPrev
    let cn ← m.read current
    let m ← m.modify cn.pPrev (fun n => { n with pNext := newNode })
    let m ← m.modify current (fun n => { n with pPrev := newNode })
    pure (m, { l with Size := l.Size + 1 }, { pos with m_ptr := newNode })

/-- `list::erase(pos)`. -/
def list.erase (m : LMem) (l : list) (pos : LIter) : Except Fault (LMem × list) :=
  if pos.eq l.begin then l.pop_front m
  else if pos.m_ptr = l.tail then l.pop_back m
  else do
    let temp := pos.m_ptr
    let tn ← m.read temp
    let m ← m.modify tn.pPrev (fun n => { n with pNext := tn.pNext })
    let tn ← m.read temp
    let m ← m.modify tn.pNext (fun n => { n with pPrev := tn.pPrev })
    let m ← m.free temp
    pure (m, { l with Size := decSize l.Size })

/-- The first loop of `merge`,
`while (first_this != last_this && first_other != last_other)`; it returns the
store, `this` and `first_other` as they are when the loop ends. -/
def mergeLoop : Nat → LMem → list → LIter → LIter → LIter → LIter →
    Except Fault (LMem × list × LIter)
  | 0, _, _, _, _, _, _ => .error .fuel
  | fuel + 1, m, this, first_this, first_other, last_this, last_other =>
    if !(first_this.eq last_this) && !(first_other.eq last_other) then do
      let x ← first_other.deref m
      let y ← first_this.deref m
      if x ≤ y then do
        let (m, this, _) ← this.insert m first_this x
        let first_other ← first_other.inc m
        mergeLoop fuel m this first_this first_other last_this last_other
      else do
        let first_this ← first_this.inc m
        mergeLoop fuel m this first_this first_other last_this last_other
    else pure (m, this, first_other)

/-- The second loop of `merge`, `while (first_other != last_other)`. -/
def mergeRest : Nat → LMem → list → LIter → LIter → Except Fault (LMem × list)
  | 0, _, _, _, _ => .error .fuel
  | fuel + 1, m, this, first_other, last_other =>
    if !(first_other.eq last_other) then do
      let x ← first_other.deref m
      let (m, this) ← this.push_back m x
      let first_other ← first_other.inc m
      mergeRest fuel m this first_other last_other
    else pure (m, this)

/-- `list::merge(other)` for `this != &other`: the store, `this` and `other`
afterwards; `fuel` bounds the iterations of each loop. -/
def list.merge (fuel : Nat) (m : LMem) (this other : list) :
    Except Fault (LMem × list × list) := do
  let first_this := this.begin
  let first_other := other.begin
  let last_this ← this.end m
  let last_other ← other.end m
  let (m, this, first_other) ←
    mergeLoop fuel m this first_this first_other last_this last_other
  let (m, this) ← mergeRest fuel m this first_other last_other
  let (m, other) ← other.clear m
  pure (m, this, other)

/-- `list::splice(pos, other)` for `this != &other`: the store, `this` and
`other` afterwards. -/
def list.splice (m : LMem) (this other : list) (pos : LIter) :
    Except Fault (LMem × list × list) := do
  let p := pos.it_const_cast
  let node_tmp := p.m_ptr
  let (m, this) ← (if other.head.isSome then
      if this.head.isNone then
        pure (m, { this with head := other.head, tail := other.tail })
      else if p.eq this.begin then do
        let this := { this with head := other.head }
        let m ← m.modify other.tail (fun n => { n with pNext := node_tmp })
        let m ← m.modify node_tmp (fun n => { n with pPrev := other.tail })
        pure (m, this)
      else do
        let e ← this.end m
        if p.eq e then do
          let m ← m.modify other.head (fun n => { n with pPrev := this.tail })
          let m ← m.modify this.tail (fun n => { n with pNext := other.head })
          pure (m, { this with tail := other.tail })
        else do
          let current := node_tmp
          let cn ← m.read current
          let m ← m.modify cn.pPrev (fun n => { n with pNext := other.head })
          let cn ← m.read current
          let m ← m.modify other.head (fun n => { n with pPrev := cn.pPrev })
          let m ← m.modify other.tail (fun n => { n with pNext := current })
          pure (m, this)
    else pure (m, this))
  pure (m, { this with Size := this.Size + other.Size },
    { Size := 0, head := none, tail := none })

/-- The loop of `reverse`, with `k` iterations left:
`std::swap(current->pNext, current->pPrev); current = current->pPrev;`. -/
def reverseLoop : Nat → LMem → Ptr → Except Fault LMem
  | 0, m, _ => pure m
  | k + 1, m, current => do
    let m ← m.modify current (fun n => { n with pNext := n.pPrev, pPrev := n.pNext })
    let cn ← m.read current
    reverseLoop k m cn.pPrev

/-- `list::reverse`. -/
def list.reverse (m : LMem) (l : list) : Except Fault (LMem × list) :=
  if l.Size > 1 then do
    let m ← reverseLoop l.size m l.head
    pure (m, { l with head := l.tail, tail := l.head })
  else pure (m, l)

/-- The loop `while (tmp) { push_back(tmp->data); tmp = tmp->pNext; }` of the copy
constructor and of the copy assignment. -/
def copyLoop : Nat → LMem → list → Ptr → Except Fault (LMem × list)
  | 0, _, _, _ => .error .fuel
  | fuel + 1, m, this, tmp =>
    if tmp.isSome then do
      let tn ← m.read tmp
      let (m, this) ← this.push_back m tn.data
      let tn ← m.read tmp
      copyLoop fuel m this tn.pNext
    else pure (m, this)

/-- The loop `while (!empty()) pop_front();` of the copy assignment. -/
def popAllLoop : Nat → LMem → list → Except Fault (LMem × list)
  | 0, _, _ => .error .fuel
  | fuel + 1, m, l =>
    if l.Size ≠ 0 then do
      let (m, l) ← l.pop_front m
      popAllLoop fuel m l
    else pure (m, l)

/-- Copy assignment `operator=(const list &l)` for `this != &l`. -/
def list.assign (fuel : Nat) (m : LMem) (this l : list) : Except Fault (LMem × list) := do
  let (m, this) ← popAllLoop fuel m this
  let (m, this) ← copyLoop fuel m this l.head
  pure (m, { this with Size := l.size })

/-- The loop `while (++next != last)` of `unique`; it returns the store, `tmp`,
`first` and `next` as they are when the loop ends. -/
def uniqueLoop : Nat → LMem → list → LIter → LIter → LIter →
    Except Fault (LMem × list × LIter × LIter)
  | 0, _, _, _, _, _ => .error .fuel
  | fuel + 1, m, tmp, first, next, last => do
    let next ← next.inc m
    if !(next.eq last) then do
      let x ← first.deref m
      let y ← next.deref m
      let (m, tmp) ← (if x ≠ y then tmp.push_back m y else pure (m, tmp))
      uniqueLoop fuel m tmp next next last
    else pure (m, tmp, first, next)

/-- `list::unique`; the local list `tmp` is destroyed (cleared) when its block
is left. -/
def list.unique (fuel : Nat) (m : LMem) (this : list) : Except Fault (LMem × list) := do
  let first := this.begin
  let e ← this.end m
  let last ← e.dec m
  if !(first.eq last) then do
    let tmp := list.empty
    let x ← first.deref m
    let (m, tmp) ← tmp.push_back m x
    let next := first
    let (m, tmp, first, next) ← uniqueLoop fuel m tmp first next last
    let x ← first.deref m
    let y ← next.deref m
    let (m, tmp) ← (if x ≠ y then tmp.push_back m y else pure (m, tmp))
    let (m, this) ← this.assign fuel m tmp
    let (m, _) ← tmp.clear m
    pure (m, this)
  else pure (m, this)

/-- `std::advance(it, n)` for `n >= 0`: `n` times `++it`. -/
def LIter.advance (m : LMem) : Nat → LIter → Except Fault LIter
  | 0, it => pure it
  | n + 1, it => do
    let it ← it.inc m
    LIter.advance m n it

/-- `list::half_divide(tmp)`: the store, `this` and `tmp` afterwards. -/
def list.half_divide (m : LMem) (this tmp : list) : Except Fault (LMem × list × list) := do
  let middle := this.Size / 2
  let it ← LIter.advance m middle this.begin
  let node_tmp := it.m_ptr
  let tmp := { tmp with head := this.head }
  let nn ← m.read node_tmp
  let tmp := { tmp with tail := nn.pPrev }
  let m ← m.modify tmp.tail (fun n => { n with pNext := none })
  let m ← m.modify node_tmp (fun n => { n with pPrev := none })
  let this := { this with head := it.m_ptr }
  let tmp := { tmp with Size := middle }
  let this := { this with Size := this.Size - middle }
  pure (m, this, tmp)

/-- `list::sort`; `lfuel` bounds the iterations of the loops of `merge` and the
second argument the depth of the recursion. The local list `tmp` is destroyed
(cleared) when the function returns. -/
def list.sort (lfuel : Nat) : Nat → LMem → list → Except Fault (LMem × list)
  | 0, _, _ => .error .fuel
  | fuel + 1, m, this => do
    let tmp := list.empty
    let (m, this, tmp) ← (if this.Size > 1 then do
        let (m, this, tmp) ← this.half_divide m tmp
        let (m, this) ← (if this.Size > 1 then list.sort lfuel fuel m this else pure (m, this))
        let (m, tmp) ← (if tmp.Size > 1 then list.sort lfuel fuel m tmp else pure (m, tmp))
        this.merge lfuel m tmp
      else pure (m, this, tmp))
    let (m, _) ← tmp.clear m
    pure (m, this)

/-- Constructor `list(std::initializer_list)`: `push_back` of each item. -/
def list.ofList (m : LMem) : List Int → list → Except Fault (LMem × list)
  | [], l => pure (m, l)
  | x :: xs, l => do
    let (m, l) ← l.push_back m x
    list.ofList m xs l

/-! ## Vocabulary of the specification -/

/-- One call of the public interface. -/
inductive Op where
  | insert (k v : Int)
  | erase (k : Int)
deriving DecidableEq, Repr

/-- Perform one call, dropping the iterator it returns. -/
def Tree.step (fuel : Nat) (t : Tree) : Op → Except Fault Tree
  | .insert k v => do
    let (t, _) ← t.insert fuel k v
    pure t
  | .erase k => do
    let (t, _) ← t.erase fuel k
    pure t

/-- Perform a sequence of calls, first to last. -/
def Tree.run (fuel : Nat) : Tree → List Op → Except Fault Tree
  | t, [] => pure t
  | t, op :: ops => do
    let t ← t.step fuel op
    Tree.run fuel t ops

/-- Addresses of the nodes below `p` in symmetric (left, node, right) order. -/
def inorder : Nat → Heap → Ptr → List Nat
  | 0, _, _ => []
  | _ + 1, _, none => []
  | fuel + 1, h, some a =>
    match h a with
    | none => []
    | some n => inorder fuel h n.left ++ a :: inorder fuel h n.right

/-- The pair stored at an address. -/
def Heap.pair (h : Heap) (a : Nat) : Int × Int :=
  match h a with
  | none => (0, 0)
  | some n => (n.key, n.val)

/-- The in-order sequence of the pairs of a tree. -/
def Tree.toList (t : Tree) : List (Int × Int) :=
  (inorder (t.next + 1) t.heap t.root_).map t.heap.pair

/-- The root, if any, is BLACK. -/
def rootBlack (t : Tree) : Bool :=
  match t.root_ with
  | none => true
  | some a =>
    match t.heap a with
    | none => false
    | some n => n.color = .kBLACK

/-- No RED node below `p` has a RED parent; `pc` is the colour of the parent of `p`. -/
def noRedRed : Nat → Heap → Ptr → Colors → Bool
  | 0, _, _, _ => false
  | _ + 1, _, none, _ => true
  | fuel + 1, h, some a, pc =>
    match h a with
    | none => false
    | some n =>
      !(pc = .kRED ∧ n.color = .kRED) && noRedRed fuel h n.left n.color
        && noRedRed fuel h n.right n.color

/-- The number of BLACK nodes on every path from `p` down to a missing child,
when that number is the same for all these paths. -/
def blackHeight : Nat → Heap → Ptr → Option Nat
  | 0, _, _ => none
  | _ + 1, _, none => some 0
  | fuel + 1, h, some a =>
    match h a with
    | none => none
    | some n =>
      match blackHeight fuel h n.left, blackHeight fuel h n.right with
      | some x, some y =>
        if x = y then some (x + (if n.color = .kBLACK then 1 else 0)) else none
      | _, _ => none

/-- The three red-black invariants of the specification. -/
def rbInvariant (t : Tree) : Bool :=
  rootBlack t && noRedRed (t.next + 1) t.heap t.root_ .kBLACK
    && (blackHeight (t.next + 1) t.heap t.root_).isSome

/-- The positions at which the body of
`for (it = begin(); it != end(); ++it)` runs, at most `n` of them. -/
def visitLoop : Nat → Nat → Tree → Iter → Except Fault (List Ptr)
  | 0, _, _, _ => .error .fuel
  | n + 1, fuel, t, it => do
    let e ← t.end fuel
    if it.eq e then pure [] else do
    let nxt ← it.inc fuel t.heap
    let rest ← visitLoop n fuel t nxt
    pure (it.ptr_ :: rest)

/-- The positions visited by a loop from `begin()` to `end()`. -/
def Tree.visited (fuel : Nat) (t : Tree) : Except Fault (List Ptr) := do
  let b ← t.begin fuel
  visitLoop fuel fuel t b

/-- Advance an iterator `n` times (`operator+`). -/
def Iter.advance (fuel : Nat) (h : Heap) : Nat → Iter → Except Fault Iter
  | 0, it => pure it
  | n + 1, it => do
    let it ← it.inc fuel h
    Iter.advance fuel h n it

/-- Erase the positions `[i, j)`, counted from `begin()`, by `erase(first, last)`. -/
def Tree.erasePositions (fuel : Nat) (t : Tree) (i j : Nat) : Except Fault (Tree × Iter) := do
  let b ← t.begin fuel
  let first ← Iter.advance fuel t.heap i b
  let last ← Iter.advance fuel t.heap j b
  t.eraseRange fuel first last

/-! ## Abstraction: the shape a heap region lays out -/

/-- A binary tree of node addresses: the shape a region of the heap lays out. -/
inductive Shape where
  | nil
  | node (l : Shape) (a : Nat) (r : Shape)
deriving DecidableEq, Repr

/-- The pointer to a shape: null for the empty shape, else the address of its top node. -/
def Shape.root : Shape → Ptr
  | .nil => none
  | .node _ a _ => some a

/-- The addresses of a shape in symmetric order. -/
def Shape.addrs : Shape → List Nat
  | .nil => []
  | .node l a r => l.addrs ++ a :: r.addrs

/-- The number of nodes of a shape. -/
def Shape.size : Shape → Nat
  | .nil => 0
  | .node l _ r => l.size + r.size + 1

/-- The number of nodes on the longest downward path of a shape. -/
def Shape.height : Shape → Nat
  | .nil => 0
  | .node l _ r => max l.height r.height + 1

/-- The heap lays out shape `s` below a node (or root field) `par`: every node of
`s` is allocated, its child pointers are the tops of its subshapes and its parent
pointer is the node above it (`par` for the top). -/
def Lay (h : Heap) : Shape → Ptr → Prop
  | .nil, _ => True
  | .node l a r, par =>
    ∃ n, h a = some n ∧ n.parent = par ∧ n.left = l.root ∧ n.right = r.root ∧
      Lay h l (some a) ∧ Lay h r (some a)

/-- A shape with a hole: the path from the root down to the hole, innermost frame
first.  `left c a r` says the hole is the left child of `a`, whose right subshape
is `r` and whose own place is the hole of `c`. -/
inductive Ctx where
  | top
  | left (c : Ctx) (a : Nat) (r : Shape)
  | right (c : Ctx) (l : Shape) (a : Nat)
deriving DecidableEq, Repr

/-- Fill the hole of a context. -/
def Ctx.plug : Ctx → Shape → Shape
  | .top, s => s
  | .left c a r, s => c.plug (.node s a r)
  | .right c l a, s => c.plug (.node l a s)

/-- The node right above the hole (null at the top). -/
def Ctx.parent : Ctx → Ptr
  | .top => none
  | .left _ a _ => some a
  | .right _ _ a => some a

/-- The root pointer of the filled context when the hole holds pointer `p`. -/
def Ctx.rootOf : Ctx → Ptr → Ptr
  | .top, p => p
  | .left c a _, _ => c.rootOf (some a)
  | .right c _ a, _ => c.rootOf (some a)

/-- The addresses of a context that precede the hole in symmetric order. -/
def Ctx.pre : Ctx → List Nat
  | .top => []
  | .left c _ _ => c.pre
  | .right c l a => c.pre ++ (l.addrs ++ [a])

/-- The addresses of a context that follow the hole in symmetric order. -/
def Ctx.post : Ctx → List Nat
  | .top => []
  | .left c a r => (a :: r.addrs) ++ c.post
  | .right c _ _ => c.post

/-- The number of frames of a context: the depth of its hole. -/
def Ctx.depth : Ctx → Nat
  | .top => 0
  | .left c _ _ => c.depth + 1
  | .right c _ _ => c.depth + 1

/-- The slot (root field or child field) that is the hole of a context. -/
def Ctx.slot : Ctx → Slot
  | .top => .root
  | .left _ a _ => .leftOf (some a)
  | .right _ _ a => .rightOf (some a)

/-- The heap lays out context `c` with pointer `p` stored in its hole. -/
def CtxLay (h : Heap) : Ctx → Ptr → Prop
  | .top, _ => True
  | .left c a r, p =>
    ∃ n, h a = some n ∧ n.parent = c.parent ∧ n.left = p ∧ n.right = r.root ∧
      Lay h r (some a) ∧ CtxLay h c (some a)
  | .right c l a, p =>
    ∃ n, h a = some n ∧ n.parent = c.parent ∧ n.left = l.root ∧ n.right = p ∧
      Lay h l (some a) ∧ CtxLay h c (some a)

/-- The key stored at an address. -/
def Heap.key (h : Heap) (a : Nat) : Int := (h.pair a).1

/-- The links of a node: parent, left and right pointers. -/
def Node.links (n : Node) : Ptr × Ptr × Ptr := (n.parent, n.left, n.right)

/-- The payload of a node: its pair. -/
def Node.kv (n : Node) : Int × Int := (n.key, n.val)

/-- Two trees hold the same pairs at the same addresses and agree on everything
but links, colours and the root field. -/
structure SamePairs (t t' : Tree) : Prop where
  kv : ∀ a, (t'.heap a).map Node.kv = (t.heap a).map Node.kv
  next : t'.next = t.next
  sentinel : t'.sentinel_ = t.sentinel_
  size : t'.size_ = t.size_
  type : t'.type_ = t.type_

/-- As `SamePairs`, and the colours are the same too. -/
structure SameData (t t' : Tree) : Prop where
  kv : ∀ a, (t'.heap a).map Node.kv = (t.heap a).map Node.kv
  color : ∀ a, (t'.heap a).map Node.color = (t.heap a).map Node.color
  next : t'.next = t.next
  sentinel : t'.sentinel_ = t.sentinel_
  size : t'.size_ = t.size_
  type : t'.type_ = t.type_

/-- The heap after `rotateLeft` at `x` with right child `y`, cell by cell. -/
def rotLHeap (h : Heap) (x y : Nat) (nx ny : Node) : Heap := fun a =>
  if a = x then some { nx with right := ny.left, parent := some y }
  else if a = y then some { ny with left := some x, parent := nx.parent }
  else if ny.left = some a then (h a).map (fun n => { n with parent := some x })
  else if nx.parent = some a then
    (h a).map (fun n => if n.left = some x then { n with left := some y }
                        else { n with right := some y })
  else h a

/-- The heap after `rotateRight` at `x` with left child `y`, cell by cell. -/
def rotRHeap (h : Heap) (x y : Nat) (nx ny : Node) : Heap := fun a =>
  if a = x then some { nx with left := ny.right, parent := some y }
  else if a = y then some { ny with right := some x, parent := nx.parent }
  else if ny.right = some a then (h a).map (fun n => { n with parent := some x })
  else if nx.parent = some a then
    (h a).map (fun n => if n.left = some x then { n with left := some y }
                        else { n with right := some y })
  else h a

/-- Structural well-formedness: the root field points to a region of the heap
that lays out the shape `s`, no address occurs twice in it, and nothing lives at
or above the allocation mark. -/
structure Shaped (t : Tree) (s : Shape) : Prop where
  root : t.root_ = s.root
  lay : Lay t.heap s none
  nodup : s.addrs.Nodup
  fresh : ∀ a, t.next ≤ a → t.heap a = none

/-- The invariant of a tree: it is well formed, its keys are in order along the
symmetric order of its shape (strictly so in UNIQUE mode), its root is BLACK, its
sentinel (when it exists) is an allocated node outside the shape, and `size_`
counts the nodes. -/
structure Inv (t : Tree) (s : Shape) : Prop where
  shaped : Shaped t s
  sorted : (s.addrs.map t.heap.key).Pairwise (· ≤ ·)
  strict : t.type_ = .kUNIQUE → (s.addrs.map t.heap.key).Pairwise (· < ·)
  black : rootBlack t = true
  sentinel : ∀ a, t.sentinel_ = some a → a ∉ s.addrs ∧ (t.heap a).isSome = true
  size : t.size_ = s.size

/-- The calls `insert(p)` for the pairs `p` of a list. -/
def insertOps (ps : List (Int × Int)) : List Op :=
  ps.map (fun p => Op.insert p.1 p.2)

/-- The UNIQUE tree that holds the single pair (1, 10), as `insert` leaves it on
an empty tree: the sentinel is node 0 and the BLACK root is node 1. -/
def singletonTree : Tree :=
  { heap := fun a =>
      if a = 1 then some { key := 1, val := 10, color := .kBLACK, parent := none,
                           left := none, right := none }
      else if a = 0 then some { key := 0, val := 0, color := .kRED, parent := none,
                                left := none, right := none }
      else none,
    next := 2, root_ := some 1, sentinel_ := some 0, size_ := 1, type_ := .kUNIQUE }

/-- The shape of `singletonTree`: one node, at address 1. -/
def singletonShape : Shape := .node .nil 1 .nil

/-- The addresses of the nodes of a tree in symmetric order. -/
def Tree.nodes (t : Tree) : List Nat :=
  inorder (t.next + 1) t.heap t.root_

/-- The iterator of tree `t` at the node with address `a`:
`iterator{node, root_, sentinel_}`. -/
def Tree.pos (t : Tree) (a : Nat) : Iter :=
  { ptr_ := some a, first_ := t.root_, last_ := t.sentinel_ }

/-- The position at which a list of nodes starts: the iterator at its first
node, or the position `e` when the list is empty. -/
def Tree.posOr (t : Tree) (e : Iter) : List Nat → Iter
  | [] => e
  | a :: _ => t.pos a

/-- The calls `multiset::insert(x)` for the elements `x` of a list; each is
`tree_.insert({x, x})` on the NON_UNIQUE tree of the multiset. -/
def msOps (xs : List Int) : List Op :=
  xs.map (fun x => Op.insert x x)

/-- A loop `for (i = begin(); i != end(); ++i)` can walk the nodes `ns` of tree
`t`: `end()` returns `e`; the position at a node of `ns` differs from `e`, reads
the key of the node, and `++` moves it to the next node of `ns`, or to `e` after
the last. -/
structure Walk (fuel : Nat) (t : Tree) (e : Iter) (ns : List Nat) : Prop where
  end_eq : t.end fuel = .ok e
  begin_eq : t.begin fuel = .ok (t.posOr e ns)
  step : ∀ pre a rest, ns = pre ++ a :: rest →
    Iter.eq (t.pos a) e = false ∧ (t.pos a).derefKey t.heap = .ok (t.heap.key a) ∧
      (t.pos a).inc fuel t.heap = .ok (t.posOr e rest)

/-- The computation does not fail with the range error of `erase(first, last)`. -/
structure NoRange {α : Type} (x : Except Fault α) : Prop where
  ne : x ≠ .error .rangeError

/-- The range `[first, last)` is a valid range of tree `t`, whose `end()` is `e`:
`first` is the position at a node of the tree, and `last` is `e` or the position
at a node further on in symmetric order. -/
def Tree.validRange (t : Tree) (e first last : Iter) : Prop :=
  ∃ pre a rest, t.nodes = pre ++ a :: rest ∧ first = t.pos a ∧
    (last = e ∨ ∃ mid b rest', rest = mid ++ b :: rest' ∧ last = t.pos b)

/-- The pairs read by the body of
`for (it = begin(); it != end(); ++it) use(*it)`, at most `n` of them. -/
def pairsLoop : Nat → Nat → Tree → Iter → Except Fault (List (Int × Int))
  | 0, _, _, _ => .error .fuel
  | n + 1, fuel, t, it => do
    let e ← t.end fuel
    if it.eq e then pure [] else do
    let p ← it.deref t.heap
    let nxt ← it.inc fuel t.heap
    let rest ← pairsLoop n fuel t nxt
    pure (p :: rest)

/-- The sequence of pairs that a loop from `begin()` to `end()` reads. -/
def Tree.pairs (fuel : Nat) (t : Tree) : Except Fault (List (Int × Int)) := do
  let b ← t.begin fuel
  pairsLoop fuel fuel t b

/-- The block of a vector, cell by cell (no cell when `_array` is null). -/
def vector.cells (v : vector) : Block := v._array.getD []

/-- The elements of a vector: the first `size()` cells of its block. -/
def vector.toList (v : vector) : List (Option Int) := v.cells.take v._size

/-- The representation invariant of a vector: `size() <= capacity()`, and the
block has at least `capacity()` cells. -/
structure vector.WF (v : vector) : Prop where
  size_le : v._size ≤ v._capacity
  cap_le : v._capacity ≤ v.cells.length

/-- The pairs (`size()`, `capacity()`) after each of the calls `push_back(x)` for
the `x` of a list, in order. -/
def vector.pushTrace (v : vector) : List Int → Except VFault (List (Nat × Nat))
  | [] => pure []
  | x :: xs => do
    let v ← v.push_back x
    let rest ← v.pushTrace xs
    pure ((v.size, v.capacity) :: rest)

/-- The vector states reached by the constructors and by `push_back`,
`pop_back`, `insert` at a position from `begin()` to `end()`, `erase` at the
position of an element, `reserve`, `shrink_to_fit`, `clear` and `swap`. -/
inductive Reached : vector → Prop where
  | empty : Reached vector.empty
  | sized (n : Nat) : Reached (vector.sized n)
  | ofList (items : List Int) : Reached (vector.ofList items)
  | copy {v w : vector} : Reached v → v.copy = .ok w → Reached w
  | moveTo {v : vector} : Reached v → Reached v.move.1
  | moveFrom {v : vector} : Reached v → Reached v.move.2
  | push_back {v w : vector} (x : Int) : Reached v → v.push_back x = .ok w → Reached w
  | pop_back {v : vector} : Reached v → Reached v.pop_back
  | insert {v w : vector} (i : Nat) (x : Int) (it : Nat) :
      Reached v → i ≤ v.size → v.insert i x = .ok (w, it) → Reached w
  | erase {v w : vector} (i : Nat) : Reached v → i < v.size → v.erase i = .ok w → Reached w
  | reserve {v w : vector} (n : Nat) : Reached v → v.reserve n = .ok w → Reached w
  | shrink_to_fit {v w : vector} : Reached v → v.shrink_to_fit = .ok w → Reached w
  | clear {v : vector} : Reached v → Reached v.clear
  | swapThis {v w : vector} : Reached v → Reached w → Reached (v.swap w).1
  | swapOther {v w : vector} : Reached v → Reached w → Reached (v.swap w).2

/-- The addresses visited by following `pNext` from `p`, at most `fuel` of them. -/
def chain : Nat → LMem → Ptr → List Nat
  | 0, _, _ => []
  | _ + 1, _, none => []
  | fuel + 1, m, some a =>
    match m.cells a with
    | none => []
    | some n => a :: chain fuel m n.pNext

/-- The addresses visited by following `pPrev` from `p`, at most `fuel` of them. -/
def chainBack : Nat → LMem → Ptr → List Nat
  | 0, _, _ => []
  | _ + 1, _, none => []
  | fuel + 1, m, some a =>
    match m.cells a with
    | none => []
    | some n => a :: chainBack fuel m n.pPrev

/-- The value stored at an address. -/
def LMem.data (m : LMem) (a : Nat) : Int :=
  match m.cells a with
  | none => 0
  | some n => n.data

/-- The nodes of a list, walking `pNext` from `head`. -/
def list.nodes (m : LMem) (l : list) : List Nat := chain (m.next + 1) m l.head

/-- The elements of a list, walking `pNext` from `head`. -/
def list.toList (m : LMem) (l : list) : List Int := (l.nodes m).map m.data

/-- The `pPrev` of each node of the walk is the node visited just before it;
`prev` is the node before the first. -/
def prevsMatch (m : LMem) : Ptr → List Nat → Bool
  | _, [] => true
  | prev, a :: rest =>
    (match m.cells a with
     | none => false
     | some n => n.pPrev = prev) && prevsMatch m (some a) rest

/-- The links of a list are consistent: the walk along `pNext` from `head`
visits `size()` nodes and ends at `tail`, the `pPrev` of each visited node is the
node visited before it, and the walk along `pPrev` from `tail` visits the same
nodes in reverse. -/
def list.linksConsistent (m : LMem) (l : list) : Bool :=
  (l.nodes m).length = l.Size && (l.nodes m).getLast? = l.tail
    && prevsMatch m none (l.nodes m)
    && chainBack (m.next + 1) m l.tail = (l.nodes m).reverse

/-- The address of the first of the nodes `ns`, or `nxt` when there is none. -/
def firstPtr (ns : List (Nat × Int)) (nxt : Ptr) : Ptr :=
  match ns with
  | [] => nxt
  | p :: _ => some p.1

/-- The address of the last of the nodes `ns`, or `prev` when there is none. -/
def lastPtr (prev : Ptr) : List (Nat × Int) → Ptr
  | [] => prev
  | p :: rest => lastPtr (some p.1) rest

/-- The cells lay out the nodes `ns` (address and value of each, first to last)
as a doubly linked segment: each node points forward to the one after it and back
to the one before it; `prev` is what the first node points back to and `nxt` what
the last node points forward to. -/
def DLseg (cells : Nat → Option LNode) : Ptr → List (Nat × Int) → Ptr → Prop
  | _, [], _ => True
  | prev, p :: rest, nxt =>
    cells p.1 = some { pNext := firstPtr rest nxt, pPrev := prev, data := p.2 }
      ∧ DLseg cells (some p.1) rest nxt

/-- The cells lay out the nodes `ns` as a forward chain: only the `pNext` links
and the values are described. -/
def FwdSeg (cells : Nat → Option LNode) : List (Nat × Int) → Ptr → Prop
  | [], _ => True
  | p :: rest, nxt =>
    (∃ n, cells p.1 = some n ∧ n.pNext = firstPtr rest nxt ∧ n.data = p.2)
      ∧ FwdSeg cells rest nxt

/-- The addresses of the nodes `ns`. -/
def addrsOf (ns : List (Nat × Int)) : List Nat := ns.map Prod.fst

/-- The values of the nodes `ns`. -/
def valsOf (ns : List (Nat × Int)) : List Int := ns.map Prod.snd

/-- The list object `l` is laid out in the store `m` as the nodes `ns`: a doubly
linked, null-terminated chain of distinct allocated nodes from `head` to `tail`,
`size()` of them. -/
structure LWF (m : LMem) (l : list) (ns : List (Nat × Int)) : Prop where
  seg : DLseg m.cells none ns none
  nodup : (addrsOf ns).Nodup
  bound : ∀ a ∈ addrsOf ns, a < m.next
  head : l.head = firstPtr ns none
  tail : l.tail = lastPtr none ns
  size : l.Size = ns.length

/-- The store `m'` comes from `m` by working on the nodes `old`: the allocation
mark has not gone back, the cells allocated in `m` outside `old` are as they
were, and the nodes `new` are among `old` or newly allocated. -/
structure Ext (m m' : LMem) (old new : List Nat) : Prop where
  next_le : m.next ≤ m'.next
  same : ∀ a, a < m.next → a ∉ old → m'.cells a = m.cells a
  fresh : ∀ a ∈ new, a ∈ old ∨ m.next ≤ a

/-- The result of the two loops of `merge` on the values `qs` of `this` and `rs` of
`other`: an element of `other` goes first when it is not greater. -/
def mergeVals : List Int → List Int → List Int
  | [], rs => rs
  | y :: qs, [] => y :: qs
  | y :: qs, x :: rs =>
    if x ≤ y then x :: mergeVals (y :: qs) rs else y :: mergeVals qs (x :: rs)

/-- What `unique` appends after an element `x` for the elements `ys` that follow
it: each element that differs from the one just before it. -/
def uniqVals : Int → List Int → List Int
  | _, [] => []
  | x, y :: ys => if x ≠ y then y :: uniqVals y ys else uniqVals y ys

/-- What `unique` builds from the elements `xs`: the first element, then each
element that differs from the one just before it. -/
def uniqueVals : List Int → List Int
  | [] => []
  | x :: ys => x :: uniqVals x ys

/-- The last of the elements `x :: ys`. -/
def lastOr : Int → List Int → Int
  | x, [] => x
  | _, y :: ys => lastOr y ys

/-- The runs of consecutive equal elements of a list, first to last. -/
def runs : List Int → List (List Int)
  | [] => []
  | x :: xs =>
    match runs xs with
    | [] => [[x]]
    | r :: rs => if r.head? = some x then (x :: r) :: rs else [x] :: r :: rs

/-- A store holding three lists: `sampleA` = {1, 5}, `sampleB` = {3} and
`sampleC` = {2, 2, 1}. -/
def sampleStore : LMem :=
  { cells := fun a =>
      match a with
      | 0 => some { pNext := some 1, pPrev := none, data := 1 }
      | 1 => some { pNext := none, pPrev := some 0, data := 5 }
      | 2 => some { pNext := none, pPrev := none, data := 3 }
      | 3 => some { pNext := some 4, pPrev := none, data := 2 }
      | 4 => some { pNext := some 5, pPrev := some 3, data := 2 }
      | 5 => some { pNext := none, pPrev := some 4, data := 1 }
      | _ => none,
    next := 6 }

/-- The list {1, 5} of `sampleStore`. -/
def sampleA : list := { Size := 2, head := some 0, tail := some 1 }

/-- The list {3} of `sampleStore`. -/
def sampleB : list := { Size := 1, head := some 2, tail := some 2 }

/-- The list {2, 2, 1} of `sampleStore`. -/
def sampleC : list := { Size := 3, head := some 3, tail := some 5 }

/-- The colour of the node at `a` (BLACK where nothing is allocated). -/
def Heap.color (h : Heap) (a : Nat) : Colors :=
  match h a with
  | none => .kBLACK
  | some n => n.color

/-- The colour of the top node of a shape; a missing child counts as BLACK. -/
def Shape.rootColor (h : Heap) : Shape → Colors
  | .nil => .kBLACK
  | .node _ a _ => h.color a

/-- With the colours of the heap, the shape is a red-black tree of black height
`n` whose top node may be RED: no RED node of it has a RED child, and every path
from the top to a missing child passes `n` BLACK nodes. -/
def RB (h : Heap) : Shape → Nat → Prop
  | .nil, n => n = 0
  | .node l a r, n =>
    (h.color a = .kRED ∧ l.rootColor h = .kBLACK ∧ r.rootColor h = .kBLACK ∧
      RB h l n ∧ RB h r n)
    ∨ (h.color a = .kBLACK ∧ ∃ k, n = k + 1 ∧ RB h l k ∧ RB h r k)

/-- The context is red-black around its hole: filling the hole with a red-black
tree of black height `n` whose top has colour `col` gives a red-black tree of
black height `N`. -/
def CtxRB (h : Heap) : Ctx → Nat → Colors → Nat → Prop
  | .top, n, _, N => N = n
  | .left c a r, n, col, N =>
    (h.color a = .kRED ∧ col = .kBLACK ∧ r.rootColor h = .kBLACK ∧ RB h r n ∧
      CtxRB h c n .kRED N)
    ∨ (h.color a = .kBLACK ∧ RB h r n ∧ CtxRB h c (n + 1) .kBLACK N)
  | .right c l a, n, col, N =>
    (h.color a = .kRED ∧ col = .kBLACK ∧ l.rootColor h = .kBLACK ∧ RB h l n ∧
      CtxRB h c n .kRED N)
    ∨ (h.color a = .kBLACK ∧ RB h l n ∧ CtxRB h c (n + 1) .kBLACK N)

/-- The shape is a red-black tree of some black height (the top may be RED). -/
def RBT (h : Heap) (s : Shape) : Prop := ∃ N, RB h s N

/-- The shape of a record of calls of the double-black fixup on tree `t`: after
a call on a node, the next call is either made on the same node, in which case
the brother read by the earlier call was RED, the one read by the later call is
BLACK and the later call is the last one, or it is made on the parent of the
node (as `t` gives it), a different node. -/
def CallsUp (t : Tree) : List (Ptr × Option Colors) → Prop
  | [] => False
  | [_] => True
  | a :: b :: rest =>
    (b.1 = a.1 ∧ a.2 = some .kRED ∧ b.2 = some .kBLACK ∧ rest = []) ∨
    (t.parent a.1 = .ok b.1 ∧ b.1 ≠ a.1 ∧ CallsUp t (b :: rest))

/-- A tree of three BLACK nodes: the root, at address 2, holds (2, 20); its
children, at addresses 1 and 3, hold (1, 10) and (3, 30); the sentinel is node 0. -/
def blackTriple : Tree :=
  { heap := fun a =>
      if a = 2 then some { key := 2, val := 20, color := .kBLACK, parent := none,
                           left := some 1, right := some 3 }
      else if a = 1 then some { key := 1, val := 10, color := .kBLACK, parent := some 2,
                                left := none, right := none }
      else if a = 3 then some { key := 3, val := 30, color := .kBLACK, parent := some 2,
                                left := none, right := none }
      else if a = 0 then some { key := 0, val := 0, color := .kRED, parent := none,
                                left := none, right := none }
      else none,
    next := 4, root_ := some 2, sentinel_ := some 0, size_ := 3, type_ := .kUNIQUE }

/-- The shape of `blackTriple`. -/
def tripleShape : Shape := .node (.node .nil 1 .nil) 2 (.node .nil 3 .nil)

/-! ## Basic facts -/

@[simp] theorem bind_ok {α β : Type} (a : α) (f : α → Except Fault β) :
    (Except.ok a >>= f) = f a := rfl

@[simp] theorem bind_error {α β : Type} (e : Fault) (f : α → Except Fault β) :
    ((Except.error e : Except Fault α) >>= f) = Except.error e := rfl

@[simp] theorem pure_eq_ok {α : Type} (a : α) : (pure a : Except Fault α) = Except.ok a := rfl

theorem Heap.set_same (h : Heap) (a : Nat) (v : Option Node) : (h.set a v) a = v := by
  simp [Heap.set]

theorem Heap.set_ne (h : Heap) (a b : Nat) (v : Option Node) (hne : b ≠ a) :
    (h.set a v) b = h b := by
  simp [Heap.set, hne]

theorem plug_root (c : Ctx) (s : Shape) : (c.plug s).root = c.rootOf s.root := by
  induction c generalizing s with
  | top => rfl
  | left c a r ih => rw [Ctx.plug, ih]; rfl
  | right c l a ih => rw [Ctx.plug, ih]; rfl

theorem plug_addrs (c : Ctx) (s : Shape) : (c.plug s).addrs = c.pre ++ s.addrs ++ c.post := by
  induction c generalizing s with
  | top => simp [Ctx.plug, Ctx.pre, Ctx.post]
  | left c a r ih => simp [Ctx.plug, Ctx.pre, Ctx.post, ih, Shape.addrs]
  | right c l a ih => simp [Ctx.plug, Ctx.pre, Ctx.post, ih, Shape.addrs]

theorem repr_plug (h : Heap) (c : Ctx) (s : Shape) :
    Lay h (c.plug s) none ↔ CtxLay h c s.root ∧ Lay h s c.parent := by
  induction c generalizing s with
  | top => simp [Ctx.plug, CtxLay, Ctx.parent]
  | left c a r ih =>
    simp only [Ctx.plug, ih, CtxLay, Repr, Shape.root, Ctx.parent]
    constructor
    · rintro ⟨hc, n, hn, hp, hl, hr, hsl, hsr⟩
      exact ⟨⟨n, hn, hp, hl, hr, hsr, hc⟩, hsl⟩
    · rintro ⟨⟨n, hn, hp, hl, hr, hsr, hc⟩, hsl⟩
      exact ⟨hc, n, hn, hp, hl, hr, hsl, hsr⟩
  | right c l a ih =>
    simp only [Ctx.plug, ih, CtxLay, Repr, Shape.root, Ctx.parent]
    constructor
    · rintro ⟨hc, n, hn, hp, hl, hr, hsl, hsr⟩
      exact ⟨⟨n, hn, hp, hl, hr, hsl, hc⟩, hsr⟩
    · rintro ⟨⟨n, hn, hp, hl, hr, hsl, hc⟩, hsr⟩
      exact ⟨hc, n, hn, hp, hl, hr, hsl, hsr⟩

/-- `Repr` only looks at the links of the addresses of the shape. -/
theorem Lay.congr {h h' : Heap} :
    ∀ (s : Shape) (par : Ptr),
      (∀ a ∈ s.addrs, (h' a).map Node.links = (h a).map Node.links) →
      Lay h s par → Lay h' s par := by
  intro s
  induction s with
  | nil => intro _ _ _; trivial
  | node l a r ihl ihr =>
    intro par hag hr
    obtain ⟨n, hn, hp, hl, hrr, hsl, hsr⟩ := hr
    have ha := hag a (by simp [Shape.addrs])
    rw [hn] at ha
    rcases hn' : h' a with _ | n'
    · rw [hn'] at ha; simp at ha
    · rw [hn'] at ha
      simp only [Option.map_some', Option.some.injEq, Node.links, Prod.mk.injEq] at ha
      refine ⟨n', hn', ?_, ?_, ?_, ?_, ?_⟩
      · rw [ha.1, hp]
      · rw [ha.2.1, hl]
      · rw [ha.2.2, hrr]
      · exact ihl _ (fun b hb => hag b (by simp [Shape.addrs, hb])) hsl
      · exact ihr _ (fun b hb => hag b (by simp [Shape.addrs, hb])) hsr

/-- The addresses of the frames of a context and of their sibling subshapes. -/
theorem CtxLay.congrCtx {h h' : Heap} :
    ∀ (c : Ctx) (p : Ptr),
      (∀ a ∈ c.pre ++ c.post, (h' a).map Node.links = (h a).map Node.links) →
      CtxLay h c p → CtxLay h' c p := by
  intro c
  induction c with
  | top => intro _ _ _; trivial
  | left c a r ih =>
    intro p hag hr
    obtain ⟨n, hn, hp, hl, hrr, hsr, hc⟩ := hr
    have ha := hag a (by simp [Ctx.pre, Ctx.post])
    rw [hn] at ha
    rcases hn' : h' a with _ | n'
    · rw [hn'] at ha; simp at ha
    · rw [hn'] at ha
      simp only [Option.map_some', Option.some.injEq, Node.links, Prod.mk.injEq] at ha
      refine ⟨n', hn', ?_, ?_, ?_, ?_, ?_⟩
      · rw [ha.1, hp]
      · rw [ha.2.1, hl]
      · rw [ha.2.2, hrr]
      · exact Lay.congr _ _ (fun b hb => hag b (by simp [Ctx.pre, Ctx.post, hb])) hsr
      · exact ih _ (fun b hb => hag b (by
          simp only [Ctx.pre, Ctx.post, List.mem_append, List.mem_cons] at hb ⊢
          tauto)) hc
  | right c l a ih =>
    intro p hag hr
    obtain ⟨n, hn, hp, hl, hrr, hsl, hc⟩ := hr
    have ha := hag a (by simp [Ctx.pre, Ctx.post])
    rw [hn] at ha
    rcases hn' : h' a with _ | n'
    · rw [hn'] at ha; simp at ha
    · rw [hn'] at ha
      simp only [Option.map_some', Option.some.injEq, Node.links, Prod.mk.injEq] at ha
      refine ⟨n', hn', ?_, ?_, ?_, ?_, ?_⟩
      · rw [ha.1, hp]
      · rw [ha.2.1, hl]
      · rw [ha.2.2, hrr]
      · exact Lay.congr _ _ (fun b hb => hag b (by simp [Ctx.pre, Ctx.post, hb])) hsl
      · exact ih _ (fun b hb => hag b (by
          simp only [Ctx.pre, Ctx.post, List.mem_append, List.mem_cons] at hb ⊢
          tauto)) hc

/-! ## Rotations, cell by cell -/

theorem rotateLeft_eq (t : Tree) (x y : Nat) (nx ny : Node)
    (hx : t.heap x = some nx) (hxr : nx.right = some y) (hy : t.heap y = some ny)
    (hxy : x ≠ y)
    (hb : ∀ b, ny.left = some b → b ≠ x ∧ b ≠ y ∧ (t.heap b).isSome)
    (hp : ∀ p, nx.parent = some p → p ≠ x ∧ p ≠ y ∧ (t.heap p).isSome ∧ ny.left ≠ some p) :
    rotateLeft t (some x) = .ok { t with
      heap := rotLHeap t.heap x y nx ny,
      root_ := if nx.parent = none then some y else t.root_ } := by
  have hyx : y ≠ x := fun e => hxy e.symm
  rcases hl : ny.left with _ | b
  · rcases hpar : nx.parent with _ | p
    · simp only [rotateLeft, Tree.right, Tree.left, Tree.parent, Tree.setParent, Tree.setLeft,
        Tree.setRight, Heap.read, Heap.modify, Heap.set_same, Heap.set_ne, hx, hy, hxr, hl,
        hpar, hxy, hyx, bind_ok, pure_eq_ok, Option.isSome_some, Option.isSome_none,
        Option.isNone_some, Option.isNone_none, if_true, if_false, ne_eq, not_false_eq_true,
        Bool.false_eq_true]
      congr 2
      funext a
      by_cases h1 : a = x
      · simp [rotLHeap, Heap.set, h1, hxy, hl]
      · by_cases h2 : a = y
        · simp [rotLHeap, Heap.set, h2, hyx, hl, hpar]
        · simp [rotLHeap, Heap.set, h1, h2, hl, hpar]
    · obtain ⟨hpx, hpy, hpl, _⟩ := hp p hpar
      obtain ⟨np, hnp⟩ := Option.isSome_iff_exists.mp hpl
      have hxp : x ≠ p := fun e => hpx e.symm
      have hyp : y ≠ p := fun e => hpy e.symm
      by_cases hc : np.left = some x
      · simp only [rotateLeft, Tree.right, Tree.left, Tree.parent, Tree.setParent,
          Tree.setLeft, Tree.setRight, Heap.read, Heap.modify, Heap.set_same, Heap.set_ne, hx,
          hy, hxr, hl, hpar, hxy, hyx, hnp, hpx, hpy, hxp, hyp, hc, bind_ok, pure_eq_ok,
          Option.isSome_some, Option.isSome_none, Option.isNone_some, Option.isNone_none,
          if_true, if_false, ne_eq, not_false_eq_true, Bool.false_eq_true]
        congr 2
        funext a
        by_cases h1 : a = x
        · simp [rotLHeap, Heap.set, h1, hxy, hxp, hl]
        · by_cases h2 : a = y
          · simp [rotLHeap, Heap.set, h2, hyx, hyp, hl, hpar]
          · by_cases h3 : a = p
            · simp [rotLHeap, Heap.set, h3, hpx, hpy, hnp, hc, hl, hpar]
            · have h3' : p ≠ a := fun e => h3 e.symm
              simp [rotLHeap, Heap.set, h1, h2, h3, h3', hl, hpar]
      · have hc2 : ¬ some x = np.left := fun e => hc e.symm
        simp only [rotateLeft, Tree.right, Tree.left, Tree.parent, Tree.setParent,
          Tree.setLeft, Tree.setRight, Heap.read, Heap.modify, Heap.set_same, Heap.set_ne, hx,
          hy, hxr, hl, hpar, hxy, hyx, hnp, hpx, hpy, hxp, hyp, hc2, bind_ok, pure_eq_ok,
          Option.isSome_some, Option.isSome_none, Option.isNone_some, Option.isNone_none,
          if_true, if_false, ne_eq, not_false_eq_true, Bool.false_eq_true]
        congr 2
        funext a
        by_cases h1 : a = x
        · simp [rotLHeap, Heap.set, h1, hxy, hxp, hl]
        · by_cases h2 : a = y
          · simp [rotLHeap, Heap.set, h2, hyx, hyp, hl, hpar]
          · by_cases h3 : a = p
            · simp [rotLHeap, Heap.set, h3, hpx, hpy, hnp, hc, hl, hpar]
            · have h3' : p ≠ a := fun e => h3 e.symm
              simp [rotLHeap, Heap.set, h1, h2, h3, h3', hl, hpar]
  · obtain ⟨hbx, hby, hbl⟩ := hb b hl
    obtain ⟨nb, hnb⟩ := Option.isSome_iff_exists.mp hbl
    have hxb : x ≠ b := fun e => hbx e.symm
    have hyb : y ≠ b := fun e => hby e.symm
    rcases hpar : nx.parent with _ | p
    · simp only [rotateLeft, Tree.right, Tree.left, Tree.parent, Tree.setParent, Tree.setLeft,
        Tree.setRight, Heap.read, Heap.modify, Heap.set_same, Heap.set_ne, hx, hy, hxr, hl,
        hpar, hxy, hyx, hnb, hbx, hby, hxb, hyb, bind_ok, pure_eq_ok, Option.isSome_some,
        Option.isSome_none, Option.isNone_some, Option.isNone_none, if_true, if_false, ne_eq,
        not_false_eq_true, Bool.false_eq_true]
      congr 2
      funext a
      by_cases h1 : a = x
      · simp [rotLHeap, Heap.set, h1, hxy, hxb, hl]
      · by_cases h2 : a = y
        · simp [rotLHeap, Heap.set, h2, hyx, hyb, hl, hpar]
        · by_cases h3 : a = b
          · simp [rotLHeap, Heap.set, h3, hbx, hby, hnb, hl]
          · have h3' : b ≠ a := fun e => h3 e.symm
            simp [rotLHeap, Heap.set, h1, h2, h3, h3', hl, hpar]
    · obtain ⟨hpx, hpy, hpl, hpb⟩ := hp p hpar
      obtain ⟨np, hnp⟩ := Option.isSome_iff_exists.mp hpl
      have hxp : x ≠ p := fun e => hpx e.symm
      have hyp : y ≠ p := fun e => hpy e.symm
      have hbp : b ≠ p := fun e => hpb (by rw [hl, e])
      have hpb2 : p ≠ b := fun e => hbp e.symm
      by_cases hc : np.left = some x
      · simp only [rotateLeft, Tree.right, Tree.left, Tree.parent, Tree.setParent,
          Tree.setLeft, Tree.setRight, Heap.read, Heap.modify, Heap.set_same, Heap.set_ne, hx,
          hy, hxr, hl, hpar, hxy, hyx, hnp, hpx, hpy, hxp, hyp, hc, hnb, hbx, hby, hxb, hyb,
          hbp, hpb2, bind_ok, pure_eq_ok, Option.isSome_some, Option.isSome_none,
          Option.isNone_some, Option.isNone_none, if_true, if_false, ne_eq,
          not_false_eq_true, Bool.false_eq_true]
        congr 2
        funext a
        by_cases h1 : a = x
        · simp [rotLHeap, Heap.set, h1, hxy, hxp, hxb, hl]
        · by_cases h2 : a = y
          · simp [rotLHeap, Heap.set, h2, hyx, hyp, hyb, hl, hpar]
          · by_cases h3 : a = p
            · simp [rotLHeap, Heap.set, h3, hpx, hpy, hnp, hc, hpb2, hbp, hl, hpar]
            · have h3' : p ≠ a := fun e => h3 e.symm
              by_cases h4 : a = b
              · simp [rotLHeap, Heap.set, h4, hbx, hby, hnb, hbp, hl]
              · have h4' : b ≠ a := fun e => h4 e.symm
                simp [rotLHeap, Heap.set, h1, h2, h3, h3', h4, h4', hl, hpar]
      · have hc2 : ¬ some x = np.left := fun e => hc e.symm
        simp only [rotateLeft, Tree.right, Tree.left, Tree.parent, Tree.setParent,
          Tree.setLeft, Tree.setRight, Heap.read, Heap.modify, Heap.set_same, Heap.set_ne, hx,
          hy, hxr, hl, hpar, hxy, hyx, hnp, hpx, hpy, hxp, hyp, hc2, hnb, hbx, hby, hxb, hyb,
          hbp, hpb2, bind_ok, pure_eq_ok, Option.isSome_some, Option.isSome_none,
          Option.isNone_some, Option.isNone_none, if_true, if_false, ne_eq,
          not_false_eq_true, Bool.false_eq_true]
        congr 2
        funext a
        by_cases h1 : a = x
        · simp [rotLHeap, Heap.set, h1, hxy, hxp, hxb, hl]
        · by_cases h2 : a = y
          · simp [rotLHeap, Heap.set, h2, hyx, hyp, hyb, hl, hpar]
          · by_cases h3 : a = p
            · simp [rotLHeap, Heap.set, h3, hpx, hpy, hnp, hc, hpb2, hbp, hl, hpar]
            · have h3' : p ≠ a := fun e => h3 e.symm
              by_cases h4 : a = b
              · simp [rotLHeap, Heap.set, h4, hbx, hby, hnb, hbp, hl]
              · have h4' : b ≠ a := fun e => h4 e.symm
                simp [rotLHeap, Heap.set, h1, h2, h3, h3', h4, h4', hl, hpar]

theorem rotateRight_eq (t : Tree) (x y : Nat) (nx ny : Node)
    (hx : t.heap x = some nx) (hxr : nx.left = some y) (hy : t.heap y = some ny)
    (hxy : x ≠ y)
    (hb : ∀ b, ny.right = some b → b ≠ x ∧ b ≠ y ∧ (t.heap b).isSome)
    (hp : ∀ p, nx.parent = some p → p ≠ x ∧ p ≠ y ∧ (t.heap p).isSome ∧ ny.right ≠ some p) :
    rotateRight t (some x) = .ok { t with
      heap := rotRHeap t.heap x y nx ny,
      root_ := if nx.parent = none then some y else t.root_ } := by
  have hyx : y ≠ x := fun e => hxy e.symm
  rcases hl : ny.right with _ | b
  · rcases hpar : nx.parent with _ | p
    · simp only [rotateRight, Tree.right, Tree.left, Tree.parent, Tree.setParent, Tree.setLeft,
        Tree.setRight, Heap.read, Heap.modify, Heap.set_same, Heap.set_ne, hx, hy, hxr, hl,
        hpar, hxy, hyx, bind_ok, pure_eq_ok, Option.isSome_some, Option.isSome_none,
        Option.isNone_some, Option.isNone_none, if_true, if_false, ne_eq, not_false_eq_true,
        Bool.false_eq_true]
      congr 2
      funext a
      by_cases h1 : a = x
      · simp [rotRHeap, Heap.set, h1, hxy, hl]
      · by_cases h2 : a = y
        · simp [rotRHeap, Heap.set, h2, hyx, hl, hpar]
        · simp [rotRHeap, Heap.set, h1, h2, hl, hpar]
    · obtain ⟨hpx, hpy, hpl, _⟩ := hp p hpar
      obtain ⟨np, hnp⟩ := Option.isSome_iff_exists.mp hpl
      have hxp : x ≠ p := fun e => hpx e.symm
      have hyp : y ≠ p := fun e => hpy e.symm
      by_cases hc : np.left = some x
      · simp only [rotateRight, Tree.right, Tree.left, Tree.parent, Tree.setParent,
          Tree.setLeft, Tree.setRight, Heap.read, Heap.modify, Heap.set_same, Heap.set_ne, hx,
          hy, hxr, hl, hpar, hxy, hyx, hnp, hpx, hpy, hxp, hyp, hc, bind_ok, pure_eq_ok,
          Option.isSome_some, Option.isSome_none, Option.isNone_some, Option.isNone_none,
          if_true, if_false, ne_eq, not_false_eq_true, Bool.false_eq_true]
        congr 2
        funext a
        by_cases h1 : a = x
        · simp [rotRHeap, Heap.set, h1, hxy, hxp, hl]
        · by_cases h2 : a = y
          · simp [rotRHeap, Heap.set, h2, hyx, hyp, hl, hpar]
          · by_cases h3 : a = p
            · simp [rotRHeap, Heap.set, h3, hpx, hpy, hnp, hc, hl, hpar]
            · have h3' : p ≠ a := fun e => h3 e.symm
              simp [rotRHeap, Heap.set, h1, h2, h3, h3', hl, hpar]
      · have hc2 : ¬ some x = np.left := fun e => hc e.symm
        simp only [rotateRight, Tree.right, Tree.left, Tree.parent, Tree.setParent,
          Tree.setLeft, Tree.setRight, Heap.read, Heap.modify, Heap.set_same, Heap.set_ne, hx,
          hy, hxr, hl, hpar, hxy, hyx, hnp, hpx, hpy, hxp, hyp, hc2, bind_ok, pure_eq_ok,
          Option.isSome_some, Option.isSome_none, Option.isNone_some, Option.isNone_none,
          if_true, if_false, ne_eq, not_false_eq_true, Bool.false_eq_true]
        congr 2
        funext a
        by_cases h1 : a = x
        · simp [rotRHeap, Heap.set, h1, hxy, hxp, hl]
        · by_cases h2 : a = y
          · simp [rotRHeap, Heap.set, h2, hyx, hyp, hl, hpar]
          · by_cases h3 : a = p
            · simp [rotRHeap, Heap.set, h3, hpx, hpy, hnp, hc, hl, hpar]
            · have h3' : p ≠ a := fun e => h3 e.symm
              simp [rotRHeap, Heap.set, h1, h2, h3, h3', hl, hpar]
  · obtain ⟨hbx, hby, hbl⟩ := hb b hl
    obtain ⟨nb, hnb⟩ := Option.isSome_iff_exists.mp hbl
    have hxb : x ≠ b := fun e => hbx e.symm
    have hyb : y ≠ b := fun e => hby e.symm
    rcases hpar : nx.parent with _ | p
    · simp only [rotateRight, Tree.right, Tree.left, Tree.parent, Tree.setParent, Tree.setLeft,
        Tree.setRight, Heap.read, Heap.modify, Heap.set_same, Heap.set_ne, hx, hy, hxr, hl,
        hpar, hxy, hyx, hnb, hbx, hby, hxb, hyb, bind_ok, pure_eq_ok, Option.isSome_some,
        Option.isSome_none, Option.isNone_some, Option.isNone_none, if_true, if_false, ne_eq,
        not_false_eq_true, Bool.false_eq_true]
      congr 2
      funext a
      by_cases h1 : a = x
      · simp [rotRHeap, Heap.set, h1, hxy, hxb, hl]
      · by_cases h2 : a = y
        · simp [rotRHeap, Heap.set, h2, hyx, hyb, hl, hpar]
        · by_cases h3 : a = b
          · simp [rotRHeap, Heap.set, h3, hbx, hby, hnb, hl]
          · have h3' : b ≠ a := fun e => h3 e.symm
            simp [rotRHeap, Heap.set, h1, h2, h3, h3', hl, hpar]
    · obtain ⟨hpx, hpy, hpl, hpb⟩ := hp p hpar
      obtain ⟨np, hnp⟩ := Option.isSome_iff_exists.mp hpl
      have hxp : x ≠ p := fun e => hpx e.symm
      have hyp : y ≠ p := fun e => hpy e.symm
      have hbp : b ≠ p := fun e => hpb (by rw [hl, e])
      have hpb2 : p ≠ b := fun e => hbp e.symm
      by_cases hc : np.left = some x
      · simp only [rotateRight, Tree.right, Tree.left, Tree.parent, Tree.setParent,
          Tree.setLeft, Tree.setRight, Heap.read, Heap.modify, Heap.set_same, Heap.set_ne, hx,
          hy, hxr, hl, hpar, hxy, hyx, hnp, hpx, hpy, hxp, hyp, hc, hnb, hbx, hby, hxb, hyb,
          hbp, hpb2, bind_ok, pure_eq_ok, Option.isSome_some, Option.isSome_none,
          Option.isNone_some, Option.isNone_none, if_true, if_false, ne_eq,
          not_false_eq_true, Bool.false_eq_true]
        congr 2
        funext a
        by_cases h1 : a = x
        · simp [rotRHeap, Heap.set, h1, hxy, hxp, hxb, hl]
        · by_cases h2 : a = y
          · simp [rotRHeap, Heap.set, h2, hyx, hyp, hyb, hl, hpar]
          · by_cases h3 : a = p
            · simp [rotRHeap, Heap.set, h3, hpx, hpy, hnp, hc, hpb2, hbp, hl, hpar]
            · have h3' : p ≠ a := fun e => h3 e.symm
              by_cases h4 : a = b
              · simp [rotRHeap, Heap.set, h4, hbx, hby, hnb, hbp, hl]
              · have h4' : b ≠ a := fun e => h4 e.symm
                simp [rotRHeap, Heap.set, h1, h2, h3, h3', h4, h4', hl, hpar]
      · have hc2 : ¬ some x = np.left := fun e => hc e.symm
        simp only [rotateRight, Tree.right, Tree.left, Tree.parent, Tree.setParent,
          Tree.setLeft, Tree.setRight, Heap.read, Heap.modify, Heap.set_same, Heap.set_ne, hx,
          hy, hxr, hl, hpar, hxy, hyx, hnp, hpx, hpy, hxp, hyp, hc2, hnb, hbx, hby, hxb, hyb,
          hbp, hpb2, bind_ok, pure_eq_ok, Option.isSome_some, Option.isSome_none,
          Option.isNone_some, Option.isNone_none, if_true, if_false, ne_eq,
          not_false_eq_true, Bool.false_eq_true]
        congr 2
        funext a
        by_cases h1 : a = x
        · simp [rotRHeap, Heap.set, h1, hxy, hxp, hxb, hl]
        · by_cases h2 : a = y
          · simp [rotRHeap, Heap.set, h2, hyx, hyp, hyb, hl, hpar]
          · by_cases h3 : a = p
            · simp [rotRHeap, Heap.set, h3, hpx, hpy, hnp, hc, hpb2, hbp, hl, hpar]
            · have h3' : p ≠ a := fun e => h3 e.symm
              by_cases h4 : a = b
              · simp [rotRHeap, Heap.set, h4, hbx, hby, hnb, hbp, hl]
              · have h4' : b ≠ a := fun e => h4 e.symm
                simp [rotRHeap, Heap.set, h1, h2, h3, h3', h4, h4', hl, hpar]

/-! ## Rotations on shapes -/

theorem root_mem {s : Shape} {a : Nat} (h : s.root = some a) : a ∈ s.addrs := by
  cases s with
  | nil => simp [Shape.root] at h
  | node l b r =>
    simp only [Shape.root, Option.some.injEq] at h
    simp [Shape.addrs, h]

theorem ctx_parent_mem {c : Ctx} {p : Nat} (h : c.parent = some p) : p ∈ c.pre ++ c.post := by
  cases c with
  | top => simp [Ctx.parent] at h
  | left c a r =>
    simp only [Ctx.parent, Option.some.injEq] at h
    simp [Ctx.pre, Ctx.post, h]
  | right c l a =>
    simp only [Ctx.parent, Option.some.injEq] at h
    simp [Ctx.pre, Ctx.post, h]

theorem Lay.live {h : Heap} {s : Shape} {par : Ptr} (hl : Lay h s par) :
    ∀ a ∈ s.addrs, (h a).isSome := by
  induction s generalizing par with
  | nil => intro a ha; simp [Shape.addrs] at ha
  | node l b r ihl ihr =>
    obtain ⟨n, hn, _, _, _, hsl, hsr⟩ := hl
    intro a ha
    simp only [Shape.addrs, List.mem_append, List.mem_cons] at ha
    rcases ha with ha | ha | ha
    · exact ihl hsl a ha
    · rw [ha, hn]; rfl
    · exact ihr hsr a ha

theorem CtxLay.liveCtx {h : Heap} {c : Ctx} {p : Ptr} (hl : CtxLay h c p) :
    ∀ a ∈ c.pre ++ c.post, (h a).isSome := by
  induction c generalizing p with
  | top => intro a ha; simp [Ctx.pre, Ctx.post] at ha
  | left c b r ih =>
    obtain ⟨n, hn, _, _, _, hsr, hc⟩ := hl
    intro a ha
    simp only [Ctx.pre, Ctx.post, List.mem_append, List.mem_cons] at ha
    rcases ha with ha | (ha | ha) | ha
    · exact ih hc a (by simp [ha])
    · rw [ha, hn]; rfl
    · exact hsr.live a ha
    · exact ih hc a (by simp [ha])
  | right c l b ih =>
    obtain ⟨n, hn, _, _, _, hsl, hc⟩ := hl
    intro a ha
    simp only [Ctx.pre, Ctx.post, List.mem_append, List.mem_cons, List.mem_singleton,
      List.not_mem_nil, or_false] at ha
    rcases ha with (ha | ha | ha) | ha
    · exact ih hc a (by simp [ha])
    · exact hsl.live a ha
    · rw [ha, hn]; rfl
    · exact ih hc a (by simp [ha])

theorem rotLHeap_other (h : Heap) (x y : Nat) (nx ny : Node) (a : Nat)
    (h1 : a ≠ x) (h2 : a ≠ y) (h3 : ny.left ≠ some a) (h4 : nx.parent ≠ some a) :
    rotLHeap h x y nx ny a = h a := by
  simp [rotLHeap, h1, h2, h3, h4]

theorem rotLHeap_data (h : Heap) (x y : Nat) (nx ny : Node)
    (hx : h x = some nx) (hy : h y = some ny) (a : Nat) :
    (rotLHeap h x y nx ny a).map Node.kv = (h a).map Node.kv ∧
    (rotLHeap h x y nx ny a).map Node.color = (h a).map Node.color := by
  unfold rotLHeap
  by_cases h1 : a = x
  · simp [h1, hx, Node.kv]
  · by_cases h2 : a = y
    · have h3 : y ≠ x := fun e => h1 (h2.trans e)
      simp [h2, h3, hy, Node.kv]
    · simp only [h1, h2, if_false]
      split_ifs <;> rcases h a with _ | n <;> simp [Node.kv] <;> split_ifs <;> simp

theorem rotRHeap_other (h : Heap) (x y : Nat) (nx ny : Node) (a : Nat)
    (h1 : a ≠ x) (h2 : a ≠ y) (h3 : ny.right ≠ some a) (h4 : nx.parent ≠ some a) :
    rotRHeap h x y nx ny a = h a := by
  simp [rotRHeap, h1, h2, h3, h4]

theorem rotRHeap_data (h : Heap) (x y : Nat) (nx ny : Node)
    (hx : h x = some nx) (hy : h y = some ny) (a : Nat) :
    (rotRHeap h x y nx ny a).map Node.kv = (h a).map Node.kv ∧
    (rotRHeap h x y nx ny a).map Node.color = (h a).map Node.color := by
  unfold rotRHeap
  by_cases h1 : a = x
  · simp [h1, hx, Node.kv]
  · by_cases h2 : a = y
    · have h3 : y ≠ x := fun e => h1 (h2.trans e)
      simp [h2, h3, hy, Node.kv]
    · simp only [h1, h2, if_false]
      split_ifs <;> rcases h a with _ | n <;> simp [Node.kv] <;> split_ifs <;> simp

theorem nodup_mid {pre mid post : List Nat} (h : (pre ++ mid ++ post).Nodup) :
    mid.Nodup ∧ (pre ++ post).Nodup ∧ ∀ a ∈ mid, a ∉ pre ++ post := by
  simp only [List.nodup_append, List.mem_append, List.Disjoint, not_or] at h ⊢
  obtain ⟨⟨h1, h2, h3⟩, h4, h5⟩ := h
  refine ⟨h2, ⟨h1, h4, ?_⟩, ?_⟩
  · intro a ha hb
    exact h5 (a := a) (Or.inl ha) hb
  · intro a ha
    exact ⟨fun hp => h3 hp ha, fun hp => h5 (a := a) (Or.inr ha) hp⟩

theorem nodup_node {l r : List Nat} {a : Nat} (h : (l ++ a :: r).Nodup) :
    l.Nodup ∧ r.Nodup ∧ a ∉ l ∧ a ∉ r ∧ ∀ b ∈ l, b ∉ r := by
  simp only [List.nodup_append, List.nodup_cons, List.Disjoint, List.mem_cons] at h
  obtain ⟨h1, ⟨h2, h3⟩, h4⟩ := h
  refine ⟨h1, h3, ?_, h2, ?_⟩
  · intro ha
    exact h4 ha (Or.inl rfl)
  · intro b hb hr
    exact h4 hb (Or.inr hr)

theorem rotateLeft_shape (t : Tree) (c : Ctx) (A B C : Shape) (x y : Nat)
    (hlay : Lay t.heap (c.plug (.node A x (.node B y C))) none)
    (hroot : t.root_ = (c.plug (.node A x (.node B y C))).root)
    (hnd : (c.plug (.node A x (.node B y C))).addrs.Nodup) :
    ∃ t', rotateLeft t (some x) = .ok t' ∧
      Lay t'.heap (c.plug (.node (.node A x B) y C)) none ∧
      t'.root_ = (c.plug (.node (.node A x B) y C)).root ∧ SameData t t' ∧
      ∀ a, a ∉ (c.plug (.node A x (.node B y C))).addrs → t'.heap a = t.heap a := by
  rw [repr_plug] at hlay
  obtain ⟨hc, nx, hx, hxp, hxl, hxr, hA, ny, hy, hyp, hyl, hyr, hB, hC⟩ := hlay
  rw [plug_addrs] at hnd
  obtain ⟨hmid, hctx, hsep⟩ := nodup_mid hnd
  simp only [Shape.addrs] at hmid hsep
  obtain ⟨hAnd, hrest, hxA, hxrest, hArest⟩ := nodup_node hmid
  obtain ⟨hBnd, hCnd, hyB, hyC, hBC⟩ := nodup_node hrest
  have hxy : x ≠ y := fun e => hxrest (by simp [e])
  have hxB : x ∉ B.addrs := fun e => hxrest (by simp [e])
  have hxC : x ∉ C.addrs := fun e => hxrest (by simp [e])
  have hxc : x ∉ c.pre ++ c.post := hsep x (by simp)
  have hyc : y ∉ c.pre ++ c.post := hsep y (by simp)
  have hyA : y ∉ A.addrs := fun e => hArest y e (by simp)
  have hAB : ∀ a ∈ A.addrs, a ∉ B.addrs := fun a ha hb => hArest a ha (by simp [hb])
  have hAC : ∀ a ∈ A.addrs, a ∉ C.addrs := fun a ha hb => hArest a ha (by simp [hb])
  have hAc : ∀ a ∈ A.addrs, a ∉ c.pre ++ c.post := fun a ha => hsep a (by simp [ha])
  have hBc : ∀ a ∈ B.addrs, a ∉ c.pre ++ c.post := fun a ha => hsep a (by simp [ha])
  have hCc : ∀ a ∈ C.addrs, a ∉ c.pre ++ c.post := fun a ha => hsep a (by simp [ha])
  simp only [Shape.root] at hxr hc
  have hbfacts : ∀ b, ny.left = some b → b ≠ x ∧ b ≠ y ∧ (t.heap b).isSome := by
    intro b hb
    rw [hyl] at hb
    have hm := root_mem hb
    exact ⟨fun e => hxB (e ▸ hm), fun e => hyB (e ▸ hm), hB.live b hm⟩
  have hpfacts : ∀ p, nx.parent = some p →
      p ≠ x ∧ p ≠ y ∧ (t.heap p).isSome ∧ ny.left ≠ some p := by
    intro p hp
    rw [hxp] at hp
    have hm := ctx_parent_mem hp
    refine ⟨fun e => hxc (e ▸ hm), fun e => hyc (e ▸ hm), hc.liveCtx p hm, ?_⟩
    rw [hyl]
    intro e
    exact hBc p (root_mem e) hm
  have hrot := rotateLeft_eq t x y nx ny hx hxr hy hxy hbfacts hpfacts
  have hother : ∀ a, a ≠ x → a ≠ y → a ∉ B.addrs → a ∉ c.pre ++ c.post →
      rotLHeap t.heap x y nx ny a = t.heap a := by
    intro a h1 h2 h3 h4
    apply rotLHeap_other _ _ _ _ _ _ h1 h2
    · rw [hyl]; intro e; exact h3 (root_mem e)
    · rw [hxp]; intro e; exact h4 (ctx_parent_mem e)
  have hxval : rotLHeap t.heap x y nx ny x =
      some { nx with right := ny.left, parent := some y } := by
    simp [rotLHeap]
  have hyval : rotLHeap t.heap x y nx ny y =
      some { ny with left := some x, parent := nx.parent } := by
    have hyx : y ≠ x := fun e => hxy e.symm
    simp [rotLHeap, hyx]
  refine ⟨_, hrot, ?_, ?_, ?_, ?_⟩
  · dsimp only
    rw [repr_plug]
    constructor
    · -- the context, whose hole now holds `y`
      cases c with
      | top => trivial
      | left c1 p r =>
        obtain ⟨np, hnp, hpp, hpl, hpr, hr, hc1⟩ := hc
        have hpm : p ∈ (Ctx.left c1 p r).pre ++ (Ctx.left c1 p r).post := by
          simp [Ctx.pre, Ctx.post]
        have hpx : p ≠ x := fun e => hxc (e ▸ hpm)
        have hpy : p ≠ y := fun e => hyc (e ▸ hpm)
        have hpB : p ∉ B.addrs := fun e => hBc p e hpm
        have hcnd : (c1.pre ++ (p :: r.addrs ++ c1.post)).Nodup := by
          simpa [Ctx.pre, Ctx.post] using hctx
        obtain ⟨_, hpost, _⟩ := List.nodup_append.mp hcnd
        have hpr2 : p ∉ r.addrs ∧ p ∉ c1.post := by
          have := (List.nodup_cons.mp hpost).1
          simpa [List.mem_append, not_or] using this
        have hpc1 : p ∉ c1.pre := by
          intro e
          exact (List.disjoint_left.mp (List.nodup_append.mp hcnd).2.2) e (by simp)
        have hpval : rotLHeap t.heap x y nx ny p = some { np with left := some y } := by
          have h3 : ny.left ≠ some p := by rw [hyl]; intro e; exact hpB (root_mem e)
          have h4 : nx.parent = some p := by rw [hxp]; rfl
          simp [rotLHeap, hpx, hpy, h3, h4, hnp, hpl]
        refine ⟨_, hpval, hpp, rfl, hpr, ?_, ?_⟩
        · apply Lay.congr _ _ _ hr
          intro a ha
          have ham : a ∈ (Ctx.left c1 p r).pre ++ (Ctx.left c1 p r).post := by
            simp [Ctx.pre, Ctx.post, ha]
          rw [rotLHeap_other]
          · exact fun e => hxc (e ▸ ham)
          · exact fun e => hyc (e ▸ ham)
          · rw [hyl]; intro e; exact hBc a (root_mem e) ham
          · rw [hxp]; simp only [Ctx.parent, ne_eq, Option.some.injEq]
            exact fun e => hpr2.1 (e ▸ ha)
        · apply CtxLay.congrCtx _ _ _ hc1
          intro a ha
          have ham : a ∈ (Ctx.left c1 p r).pre ++ (Ctx.left c1 p r).post := by
            simp only [Ctx.pre, Ctx.post, List.mem_append, List.mem_cons] at ha ⊢
            tauto
          rw [rotLHeap_other]
          · exact fun e => hxc (e ▸ ham)
          · exact fun e => hyc (e ▸ ham)
          · rw [hyl]; intro e; exact hBc a (root_mem e) ham
          · rw [hxp]; simp only [Ctx.parent, ne_eq, Option.some.injEq]
            intro e
            rcases List.mem_append.mp ha with h1 | h1
            · exact hpc1 (e ▸ h1)
            · exact hpr2.2 (e ▸ h1)
      | right c1 l p =>
        obtain ⟨np, hnp, hpp, hpl, hpr, hl, hc1⟩ := hc
        have hpm : p ∈ (Ctx.right c1 l p).pre ++ (Ctx.right c1 l p).post := by
          simp [Ctx.pre, Ctx.post]
        have hpx : p ≠ x := fun e => hxc (e ▸ hpm)
        have hpy : p ≠ y := fun e => hyc (e ▸ hpm)
        have hpB : p ∉ B.addrs := fun e => hBc p e hpm
        have hcnd : (c1.pre ++ (l.addrs ++ [p]) ++ c1.post).Nodup := by
          simpa [Ctx.pre, Ctx.post] using hctx
        obtain ⟨hmid2, hctx2, hsep2⟩ := nodup_mid hcnd
        obtain ⟨_, _, hpl2, _, _⟩ := nodup_node hmid2
        have hpc1 : p ∉ c1.pre ++ c1.post := hsep2 p (by simp)
        have hlx : np.left ≠ some x := by
          rw [hpl]; intro e
          exact hxc (by simp [Ctx.pre, Ctx.post, root_mem e])
        have hpval : rotLHeap t.heap x y nx ny p = some { np with right := some y } := by
          have h3 : ny.left ≠ some p := by rw [hyl]; intro e; exact hpB (root_mem e)
          have h4 : nx.parent = some p := by rw [hxp]; rfl
          simp [rotLHeap, hpx, hpy, h3, h4, hnp, hlx]
        refine ⟨_, hpval, hpp, hpl, rfl, ?_, ?_⟩
        · apply Lay.congr _ _ _ hl
          intro a ha
          have ham : a ∈ (Ctx.right c1 l p).pre ++ (Ctx.right c1 l p).post := by
            simp [Ctx.pre, Ctx.post, ha]
          rw [rotLHeap_other]
          · exact fun e => hxc (e ▸ ham)
          · exact fun e => hyc (e ▸ ham)
          · rw [hyl]; intro e; exact hBc a (root_mem e) ham
          · rw [hxp]; simp only [Ctx.parent, ne_eq, Option.some.injEq]
            exact fun e => hpl2 (e ▸ ha)
        · apply CtxLay.congrCtx _ _ _ hc1
          intro a ha
          have ham : a ∈ (Ctx.right c1 l p).pre ++ (Ctx.right c1 l p).post := by
            simp only [Ctx.pre, Ctx.post, List.mem_append, List.mem_cons] at ha ⊢
            tauto
          rw [rotLHeap_other]
          · exact fun e => hxc (e ▸ ham)
          · exact fun e => hyc (e ▸ ham)
          · rw [hyl]; intro e; exact hBc a (root_mem e) ham
          · rw [hxp]; simp only [Ctx.parent, ne_eq, Option.some.injEq]
            exact fun e => hpc1 (e ▸ ha)
    · -- the rotated subtree
      refine ⟨_, hyval, hxp, rfl, hyr, ⟨_, hxval, rfl, hxl, hyl, ?_, ?_⟩, ?_⟩
      · apply Lay.congr _ _ _ hA
        intro a ha
        rw [hother a (fun e => hxA (e ▸ ha)) (fun e => hyA (e ▸ ha)) (hAB a ha) (hAc a ha)]
      · cases B with
        | nil => trivial
        | node Bl b Br =>
          obtain ⟨nb, hnb, hbp, hbl, hbr, hBl, hBr⟩ := hB
          have hbm : b ∈ (Shape.node Bl b Br).addrs := by simp [Shape.addrs]
          obtain ⟨_, _, hbBl, hbBr, _⟩ := nodup_node hBnd
          have hbval : rotLHeap t.heap x y nx ny b = some { nb with parent := some x } := by
            have h1 : b ≠ x := fun e => hxB (e ▸ hbm)
            have h2 : b ≠ y := fun e => hyB (e ▸ hbm)
            have h3 : ny.left = some b := by rw [hyl]; rfl
            simp [rotLHeap, h1, h2, h3, hnb]
          refine ⟨_, hbval, rfl, hbl, hbr, ?_, ?_⟩
          · apply Lay.congr _ _ _ hBl
            intro a ha
            have ham : a ∈ (Shape.node Bl b Br).addrs := by simp [Shape.addrs, ha]
            rw [rotLHeap_other]
            · exact fun e => hxB (e ▸ ham)
            · exact fun e => hyB (e ▸ ham)
            · rw [hyl]; simp only [Shape.root, ne_eq, Option.some.injEq]
              exact fun e => hbBl (e ▸ ha)
            · rw [hxp]; intro e; exact hBc a ham (ctx_parent_mem e)
          · apply Lay.congr _ _ _ hBr
            intro a ha
            have ham : a ∈ (Shape.node Bl b Br).addrs := by simp [Shape.addrs, ha]
            rw [rotLHeap_other]
            · exact fun e => hxB (e ▸ ham)
            · exact fun e => hyB (e ▸ ham)
            · rw [hyl]; simp only [Shape.root, ne_eq, Option.some.injEq]
              exact fun e => hbBr (e ▸ ha)
            · rw [hxp]; intro e; exact hBc a ham (ctx_parent_mem e)
      · apply Lay.congr _ _ _ hC
        intro a ha
        rw [hother a (fun e => hxC (e ▸ ha)) (fun e => hyC (e ▸ ha))
          (fun e => hBC a e ha) (hCc a ha)]
  · -- the root field
    dsimp only
    rw [plug_root] at hroot ⊢
    cases c with
    | top =>
      have : nx.parent = none := by rw [hxp]; rfl
      simp [this, Ctx.rootOf, Shape.root]
    | left c1 p r =>
      have : nx.parent = some p := by rw [hxp]; rfl
      simpa [this, Ctx.rootOf] using hroot
    | right c1 l p =>
      have : nx.parent = some p := by rw [hxp]; rfl
      simpa [this, Ctx.rootOf] using hroot
  · exact ⟨fun a => (rotLHeap_data t.heap x y nx ny hx hy a).1,
      fun a => (rotLHeap_data t.heap x y nx ny hx hy a).2, rfl, rfl, rfl, rfl⟩
  · intro a ha
    dsimp only
    rw [plug_addrs] at ha
    simp only [Shape.addrs, List.mem_append, List.mem_cons, not_or] at ha
    exact hother a (by tauto) (by tauto) (by tauto)
      (by simp only [List.mem_append, not_or]; tauto)

theorem rotateRight_shape (t : Tree) (c : Ctx) (A B C : Shape) (x y : Nat)
    (hlay : Lay t.heap (c.plug (.node (.node A y B) x C)) none)
    (hroot : t.root_ = (c.plug (.node (.node A y B) x C)).root)
    (hnd : (c.plug (.node (.node A y B) x C)).addrs.Nodup) :
    ∃ t', rotateRight t (some x) = .ok t' ∧
      Lay t'.heap (c.plug (.node A y (.node B x C))) none ∧
      t'.root_ = (c.plug (.node A y (.node B x C))).root ∧ SameData t t' ∧
      ∀ a, a ∉ (c.plug (.node (.node A y B) x C)).addrs → t'.heap a = t.heap a := by
  rw [repr_plug] at hlay
  obtain ⟨hc, nx, hx, hxp, hxl, hxr, ⟨ny, hy, hyp, hyl, hyr, hA, hB⟩, hC⟩ := hlay
  rw [plug_addrs] at hnd
  obtain ⟨hmid, hctx, hsep⟩ := nodup_mid hnd
  simp only [Shape.addrs] at hmid hsep
  obtain ⟨hleft, hCnd, hxleft, hxC, hleftC⟩ := nodup_node hmid
  obtain ⟨hAnd, hBnd, hyA, hyB, hAB⟩ := nodup_node hleft
  have hxy : x ≠ y := fun e => hxleft (by simp [e])
  have hxA : x ∉ A.addrs := fun e => hxleft (by simp [e])
  have hxB : x ∉ B.addrs := fun e => hxleft (by simp [e])
  have hxc : x ∉ c.pre ++ c.post := hsep x (by simp)
  have hyc : y ∉ c.pre ++ c.post := hsep y (by simp)
  have hyC : y ∉ C.addrs := hleftC y (by simp)
  have hAC : ∀ a ∈ A.addrs, a ∉ C.addrs := fun a ha => hleftC a (by simp [ha])
  have hBC : ∀ a ∈ B.addrs, a ∉ C.addrs := fun a ha => hleftC a (by simp [ha])
  have hAc : ∀ a ∈ A.addrs, a ∉ c.pre ++ c.post := fun a ha => hsep a (by simp [ha])
  have hBc : ∀ a ∈ B.addrs, a ∉ c.pre ++ c.post := fun a ha => hsep a (by simp [ha])
  have hCc : ∀ a ∈ C.addrs, a ∉ c.pre ++ c.post := fun a ha => hsep a (by simp [ha])
  simp only [Shape.root] at hxl hc
  have hbfacts : ∀ b, ny.right = some b → b ≠ x ∧ b ≠ y ∧ (t.heap b).isSome := by
    intro b hb
    rw [hyr] at hb
    have hm := root_mem hb
    exact ⟨fun e => hxB (e ▸ hm), fun e => hyB (e ▸ hm), hB.live b hm⟩
  have hpfacts : ∀ p, nx.parent = some p →
      p ≠ x ∧ p ≠ y ∧ (t.heap p).isSome ∧ ny.right ≠ some p := by
    intro p hp
    rw [hxp] at hp
    have hm := ctx_parent_mem hp
    refine ⟨fun e => hxc (e ▸ hm), fun e => hyc (e ▸ hm), hc.liveCtx p hm, ?_⟩
    rw [hyr]
    intro e
    exact hBc p (root_mem e) hm
  have hrot := rotateRight_eq t x y nx ny hx hxl hy hxy hbfacts hpfacts
  have hother : ∀ a, a ≠ x → a ≠ y → a ∉ B.addrs → a ∉ c.pre ++ c.post →
      rotRHeap t.heap x y nx ny a = t.heap a := by
    intro a h1 h2 h3 h4
    apply rotRHeap_other _ _ _ _ _ _ h1 h2
    · rw [hyr]; intro e; exact h3 (root_mem e)
    · rw [hxp]; intro e; exact h4 (ctx_parent_mem e)
  have hxval : rotRHeap t.heap x y nx ny x =
      some { nx with left := ny.right, parent := some y } := by
    simp [rotRHeap]
  have hyval : rotRHeap t.heap x y nx ny y =
      some { ny with right := some x, parent := nx.parent } := by
    have hyx : y ≠ x := fun e => hxy e.symm
    simp [rotRHeap, hyx]
  refine ⟨_, hrot, ?_, ?_, ?_, ?_⟩
  · dsimp only
    rw [repr_plug]
    constructor
    · -- the context, whose hole now holds `y`
      cases c with
      | top => trivial
      | left c1 p r =>
        obtain ⟨np, hnp, hpp, hpl, hpr, hr, hc1⟩ := hc
        have hpm : p ∈ (Ctx.left c1 p r).pre ++ (Ctx.left c1 p r).post := by
          simp [Ctx.pre, Ctx.post]
        have hpx : p ≠ x := fun e => hxc (e ▸ hpm)
        have hpy : p ≠ y := fun e => hyc (e ▸ hpm)
        have hpB : p ∉ B.addrs := fun e => hBc p e hpm
        have hcnd : (c1.pre ++ (p :: r.addrs ++ c1.post)).Nodup := by
          simpa [Ctx.pre, Ctx.post] using hctx
        obtain ⟨_, hpost, _⟩ := List.nodup_append.mp hcnd
        have hpr2 : p ∉ r.addrs ∧ p ∉ c1.post := by
          have := (List.nodup_cons.mp hpost).1
          simpa [List.mem_append, not_or] using this
        have hpc1 : p ∉ c1.pre := by
          intro e
          exact (List.disjoint_left.mp (List.nodup_append.mp hcnd).2.2) e (by simp)
        have hpval : rotRHeap t.heap x y nx ny p = some { np with left := some y } := by
          have h3 : ny.right ≠ some p := by rw [hyr]; intro e; exact hpB (root_mem e)
          have h4 : nx.parent = some p := by rw [hxp]; rfl
          simp [rotRHeap, hpx, hpy, h3, h4, hnp, hpl]
        refine ⟨_, hpval, hpp, rfl, hpr, ?_, ?_⟩
        · apply Lay.congr _ _ _ hr
          intro a ha
          have ham : a ∈ (Ctx.left c1 p r).pre ++ (Ctx.left c1 p r).post := by
            simp [Ctx.pre, Ctx.post, ha]
          rw [rotRHeap_other]
          · exact fun e => hxc (e ▸ ham)
          · exact fun e => hyc (e ▸ ham)
          · rw [hyr]; intro e; exact hBc a (root_mem e) ham
          · rw [hxp]; simp only [Ctx.parent, ne_eq, Option.some.injEq]
            exact fun e => hpr2.1 (e ▸ ha)
        · apply CtxLay.congrCtx _ _ _ hc1
          intro a ha
          have ham : a ∈ (Ctx.left c1 p r).pre ++ (Ctx.left c1 p r).post := by
            simp only [Ctx.pre, Ctx.post, List.mem_append, List.mem_cons] at ha ⊢
            tauto
          rw [rotRHeap_other]
          · exact fun e => hxc (e ▸ ham)
          · exact fun e => hyc (e ▸ ham)
          · rw [hyr]; intro e; exact hBc a (root_mem e) ham
          · rw [hxp]; simp only [Ctx.parent, ne_eq, Option.some.injEq]
            intro e
            rcases List.mem_append.mp ha with h1 | h1
            · exact hpc1 (e ▸ h1)
            · exact hpr2.2 (e ▸ h1)
      | right c1 l p =>
        obtain ⟨np, hnp, hpp, hpl, hpr, hl, hc1⟩ := hc
        have hpm : p ∈ (Ctx.right c1 l p).pre ++ (Ctx.right c1 l p).post := by
          simp [Ctx.pre, Ctx.post]
        have hpx : p ≠ x := fun e => hxc (e ▸ hpm)
        have hpy : p ≠ y := fun e => hyc (e ▸ hpm)
        have hpB : p ∉ B.addrs := fun e => hBc p e hpm
        have hcnd : (c1.pre ++ (l.addrs ++ [p]) ++ c1.post).Nodup := by
          simpa [Ctx.pre, Ctx.post] using hctx
        obtain ⟨hmid2, hctx2, hsep2⟩ := nodup_mid hcnd
        obtain ⟨_, _, hpl2, _, _⟩ := nodup_node hmid2
        have hpc1 : p ∉ c1.pre ++ c1.post := hsep2 p (by simp)
        have hlx : np.left ≠ some x := by
          rw [hpl]; intro e
          exact hxc (by simp [Ctx.pre, Ctx.post, root_mem e])
        have hpval : rotRHeap t.heap x y nx ny p = some { np with right := some y } := by
          have h3 : ny.right ≠ some p := by rw [hyr]; intro e; exact hpB (root_mem e)
          have h4 : nx.parent = some p := by rw [hxp]; rfl
          simp [rotRHeap, hpx, hpy, h3, h4, hnp, hlx]
        refine ⟨_, hpval, hpp, hpl, rfl, ?_, ?_⟩
        · apply Lay.congr _ _ _ hl
          intro a ha
          have ham : a ∈ (Ctx.right c1 l p).pre ++ (Ctx.right c1 l p).post := by
            simp [Ctx.pre, Ctx.post, ha]
          rw [rotRHeap_other]
          · exact fun e => hxc (e ▸ ham)
          · exact fun e => hyc (e ▸ ham)
          · rw [hyr]; intro e; exact hBc a (root_mem e) ham
          · rw [hxp]; simp only [Ctx.parent, ne_eq, Option.some.injEq]
            exact fun e => hpl2 (e ▸ ha)
        · apply CtxLay.congrCtx _ _ _ hc1
          intro a ha
          have ham : a ∈ (Ctx.right c1 l p).pre ++ (Ctx.right c1 l p).post := by
            simp only [Ctx.pre, Ctx.post, List.mem_append, List.mem_cons] at ha ⊢
            tauto
          rw [rotRHeap_other]
          · exact fun e => hxc (e ▸ ham)
          · exact fun e => hyc (e ▸ ham)
          · rw [hyr]; intro e; exact hBc a (root_mem e) ham
          · rw [hxp]; simp only [Ctx.parent, ne_eq, Option.some.injEq]
            exact fun e => hpc1 (e ▸ ha)
    · -- the rotated subtree
      refine ⟨_, hyval, hxp, hyl, rfl, ?_, ⟨_, hxval, rfl, hyr, hxr, ?_, ?_⟩⟩
      · apply Lay.congr _ _ _ hA
        intro a ha
        rw [hother a (fun e => hxA (e ▸ ha)) (fun e => hyA (e ▸ ha)) (hAB a ha) (hAc a ha)]
      · cases B with
        | nil => trivial
        | node Bl b Br =>
          obtain ⟨nb, hnb, hbp, hbl, hbr, hBl, hBr⟩ := hB
          have hbm : b ∈ (Shape.node Bl b Br).addrs := by simp [Shape.addrs]
          obtain ⟨_, _, hbBl, hbBr, _⟩ := nodup_node hBnd
          have hbval : rotRHeap t.heap x y nx ny b = some { nb with parent := some x } := by
            have h1 : b ≠ x := fun e => hxB (e ▸ hbm)
            have h2 : b ≠ y := fun e => hyB (e ▸ hbm)
            have h3 : ny.right = some b := by rw [hyr]; rfl
            simp [rotRHeap, h1, h2, h3, hnb]
          refine ⟨_, hbval, rfl, hbl, hbr, ?_, ?_⟩
          · apply Lay.congr _ _ _ hBl
            intro a ha
            have ham : a ∈ (Shape.node Bl b Br).addrs := by simp [Shape.addrs, ha]
            rw [rotRHeap_other]
            · exact fun e => hxB (e ▸ ham)
            · exact fun e => hyB (e ▸ ham)
            · rw [hyr]; simp only [Shape.root, ne_eq, Option.some.injEq]
              exact fun e => hbBl (e ▸ ha)
            · rw [hxp]; intro e; exact hBc a ham (ctx_parent_mem e)
          · apply Lay.congr _ _ _ hBr
            intro a ha
            have ham : a ∈ (Shape.node Bl b Br).addrs := by simp [Shape.addrs, ha]
            rw [rotRHeap_other]
            · exact fun e => hxB (e ▸ ham)
            · exact fun e => hyB (e ▸ ham)
            · rw [hyr]; simp only [Shape.root, ne_eq, Option.some.injEq]
              exact fun e => hbBr (e ▸ ha)
            · rw [hxp]; intro e; exact hBc a ham (ctx_parent_mem e)
      · apply Lay.congr _ _ _ hC
        intro a ha
        rw [hother a (fun e => hxC (e ▸ ha)) (fun e => hyC (e ▸ ha))
          (fun e => hBC a e ha) (hCc a ha)]
  · -- the root field
    dsimp only
    rw [plug_root] at hroot ⊢
    cases c with
    | top =>
      have : nx.parent = none := by rw [hxp]; rfl
      simp [this, Ctx.rootOf, Shape.root]
    | left c1 p r =>
      have : nx.parent = some p := by rw [hxp]; rfl
      simpa [this, Ctx.rootOf] using hroot
    | right c1 l p =>
      have : nx.parent = some p := by rw [hxp]; rfl
      simpa [this, Ctx.rootOf] using hroot
  · exact ⟨fun a => (rotRHeap_data t.heap x y nx ny hx hy a).1,
      fun a => (rotRHeap_data t.heap x y nx ny hx hy a).2, rfl, rfl, rfl, rfl⟩
  · intro a ha
    dsimp only
    rw [plug_addrs] at ha
    simp only [Shape.addrs, List.mem_append, List.mem_cons, not_or] at ha
    exact hother a (by tauto) (by tauto) (by tauto)
      (by simp only [List.mem_append, not_or]; tauto)

theorem rootOf_cases (c : Ctx) (p : Ptr) :
    c.rootOf p = p ∨ ∃ r, c.rootOf p = some r ∧ r ∈ c.pre ++ c.post := by
  induction c generalizing p with
  | top => exact Or.inl rfl
  | left c a r ih =>
    right
    rcases ih (some a) with h | ⟨q, hq, hm⟩
    · exact ⟨a, h, by simp [Ctx.pre, Ctx.post]⟩
    · refine ⟨q, hq, ?_⟩
      simp only [Ctx.pre, Ctx.post, List.mem_append, List.mem_cons] at hm ⊢
      tauto
  | right c l a ih =>
    right
    rcases ih (some a) with h | ⟨q, hq, hm⟩
    · exact ⟨a, h, by simp [Ctx.pre, Ctx.post]⟩
    · refine ⟨q, hq, ?_⟩
      simp only [Ctx.pre, Ctx.post, List.mem_append, List.mem_cons] at hm ⊢
      tauto

/-- Recolouring nodes below the root BLACK keeps "the root is BLACK unless it is
the node the loop looks at" when the loop moves up to `g`. -/
theorem root_black_climb (t : Tree) (c2 : Ctx) (S : Shape) (x g : Nat)
    (hroot : t.root_ = (c2.plug S).root) (hS : S.root = some g)
    (hnd : (c2.plug S).addrs.Nodup) (hxS : x ∈ S.addrs)
    (hblack : ∀ r n, t.root_ = some r → r ≠ x → t.heap r = some n → n.color = .kBLACK)
    (h' : Heap)
    (hh' : ∀ a, a ≠ g → (h' a = t.heap a ∨ ∃ m, h' a = some m ∧ m.color = .kBLACK)) :
    ∀ r n, t.root_ = some r → r ≠ g → h' r = some n → n.color = .kBLACK := by
  intro r n hr hrg hn
  rcases hh' r hrg with h1 | ⟨m, hm, hmc⟩
  · rw [h1] at hn
    refine hblack r n hr ?_ hn
    rw [hroot, plug_root, hS] at hr
    rcases rootOf_cases c2 (some g) with h2 | ⟨q, hq, hqm⟩
    · rw [h2] at hr
      exact absurd (Option.some.inj hr).symm hrg
    · rw [hq] at hr
      have hrq : q = r := Option.some.inj hr
      subst hrq
      rw [plug_addrs] at hnd
      intro e
      exact (nodup_mid hnd).2.2 x hxS (e ▸ hqm)
  · rw [hm] at hn
    cases hn
    exact hmc

/-! ## Rebalancing after insertion -/

theorem links_set_color (h : Heap) (a : Nat) (n : Node) (c : Colors) (hn : h a = some n)
    (b : Nat) :
    ((h.set a (some { n with color := c })) b).map Node.links = (h b).map Node.links := by
  by_cases hb : b = a
  · subst hb; simp [Heap.set, hn, Node.links]
  · simp [Heap.set, hb]

theorem kv_set_color (h : Heap) (a : Nat) (n : Node) (c : Colors) (hn : h a = some n)
    (b : Nat) :
    ((h.set a (some { n with color := c })) b).map Node.kv = (h b).map Node.kv := by
  by_cases hb : b = a
  · subst hb; simp [Heap.set, hn, Node.kv]
  · simp [Heap.set, hb]

theorem SamePairs.refl (t : Tree) : SamePairs t t :=
  ⟨fun _ => rfl, rfl, rfl, rfl, rfl⟩

theorem SamePairs.trans {t1 t2 t3 : Tree} (h12 : SamePairs t1 t2) (h23 : SamePairs t2 t3) :
    SamePairs t1 t3 :=
  ⟨fun a => (h23.kv a).trans (h12.kv a), h23.next.trans h12.next,
    h23.sentinel.trans h12.sentinel, h23.size.trans h12.size, h23.type.trans h12.type⟩

theorem SameData.samePairs {t t' : Tree} (h : SameData t t') : SamePairs t t' :=
  ⟨h.kv, h.next, h.sentinel, h.size, h.type⟩

/-- The loop stops at once when the parent is missing or not RED. -/
theorem balancingTree_exit (n : Nat) (t : Tree) (x : Nat) (nx : Node)
    (hx : t.heap x = some nx)
    (hp : nx.parent = none ∨
      ∃ p np, nx.parent = some p ∧ t.heap p = some np ∧ np.color ≠ .kRED) :
    balancingTree (n + 1) t (some x) = .ok t := by
  rcases hp with hp | ⟨p, np, hp, hnp, hc⟩
  · simp only [balancingTree, Tree.parent, Heap.read, hx, hp, bind_ok, pure_eq_ok,
      Option.isNone_none, if_true]
  · simp only [balancingTree, Tree.parent, Tree.color, Heap.read, hx, hp, hnp, bind_ok,
      pure_eq_ok, Option.isNone_some, Bool.false_eq_true, if_false, ne_eq, hc,
      not_false_eq_true, if_true]

/-! ## Colours: red-black shapes and contexts -/

theorem color_of_cell {h : Heap} {a : Nat} {n : Node} (hn : h a = some n) :
    h.color a = n.color := by
  simp [Heap.color, hn]

theorem color_set_same (h : Heap) (a : Nat) (n : Node) :
    (h.set a (some n)).color a = n.color := by
  simp [Heap.color, Heap.set]

theorem color_set_ne (h : Heap) (a b : Nat) (v : Option Node) (hne : b ≠ a) :
    (h.set a v).color b = h.color b := by
  simp [Heap.color, Heap.set, hne]

theorem color_of_map {h h' : Heap} {a : Nat}
    (e : (h' a).map Node.color = (h a).map Node.color) : h'.color a = h.color a := by
  unfold Heap.color
  cases h1 : h a <;> cases h2 : h' a <;> simp_all

theorem rootColor_congr {h h' : Heap} {s : Shape} (e : ∀ a ∈ s.addrs, h'.color a = h.color a) :
    s.rootColor h' = s.rootColor h := by
  cases s with
  | nil => rfl
  | node l a r => exact e a (by simp [Shape.addrs])

theorem RB.transport {h h' : Heap} {s : Shape} {n : Nat}
    (e : ∀ a ∈ s.addrs, h'.color a = h.color a) (hs : RB h s n) : RB h' s n := by
  induction s generalizing n with
  | nil => exact hs
  | node l a r ihl ihr =>
    have el : ∀ b ∈ l.addrs, h'.color b = h.color b := fun b hb => e b (by simp [Shape.addrs, hb])
    have er : ∀ b ∈ r.addrs, h'.color b = h.color b := fun b hb => e b (by simp [Shape.addrs, hb])
    have ea : h'.color a = h.color a := e a (by simp [Shape.addrs])
    rcases hs with ⟨h1, h2, h3, h4, h5⟩ | ⟨h1, k, h2, h3, h4⟩
    · exact Or.inl ⟨by rw [ea, h1], by rw [rootColor_congr el, h2], by rw [rootColor_congr er, h3],
        ihl el h4, ihr er h5⟩
    · exact Or.inr ⟨by rw [ea, h1], k, h2, ihl el h3, ihr er h4⟩

theorem CtxRB.transfer {h h' : Heap} {c : Ctx} {n N : Nat} {col : Colors}
    (e : ∀ a ∈ c.pre ++ c.post, h'.color a = h.color a) (hc : CtxRB h c n col N) :
    CtxRB h' c n col N := by
  induction c generalizing n col with
  | top => exact hc
  | left c a r ih =>
    have ec : ∀ b ∈ c.pre ++ c.post, h'.color b = h.color b := fun b hb =>
      e b (by simp only [Ctx.pre, Ctx.post, List.mem_append, List.mem_cons] at hb ⊢; tauto)
    have er : ∀ b ∈ r.addrs, h'.color b = h.color b := fun b hb =>
      e b (by simp only [Ctx.pre, Ctx.post, List.mem_append, List.mem_cons]; tauto)
    have ea : h'.color a = h.color a :=
      e a (by simp only [Ctx.pre, Ctx.post, List.mem_append, List.mem_cons]; tauto)
    rcases hc with ⟨h1, h2, h3, h4, h5⟩ | ⟨h1, h2, h3⟩
    · exact Or.inl ⟨by rw [ea, h1], h2, by rw [rootColor_congr er, h3], h4.transport er, ih ec h5⟩
    · exact Or.inr ⟨by rw [ea, h1], h2.transport er, ih ec h3⟩
  | right c l a ih =>
    have ec : ∀ b ∈ c.pre ++ c.post, h'.color b = h.color b := fun b hb =>
      e b (by simp only [Ctx.pre, Ctx.post, List.mem_append, List.mem_cons] at hb ⊢; tauto)
    have el : ∀ b ∈ l.addrs, h'.color b = h.color b := fun b hb =>
      e b (by simp only [Ctx.pre, Ctx.post, List.mem_append, List.mem_cons]; tauto)
    have ea : h'.color a = h.color a :=
      e a (by simp only [Ctx.pre, Ctx.post, List.mem_append, List.mem_cons]; tauto)
    rcases hc with ⟨h1, h2, h3, h4, h5⟩ | ⟨h1, h2, h3⟩
    · exact Or.inl ⟨by rw [ea, h1], h2, by rw [rootColor_congr el, h3], h4.transport el, ih ec h5⟩
    · exact Or.inr ⟨by rw [ea, h1], h2.transport el, ih ec h3⟩

/-- A context that accepts a RED top in its hole accepts a BLACK one as well. -/
theorem CtxRB.of_red {h : Heap} {c : Ctx} {n N : Nat} (hc : CtxRB h c n .kRED N) :
    CtxRB h c n .kBLACK N := by
  cases c with
  | top => exact hc
  | left c a r =>
    rcases hc with ⟨-, h2, -⟩ | h
    · exact absurd h2 (by decide)
    · exact Or.inr h
  | right c l a =>
    rcases hc with ⟨-, h2, -⟩ | h
    · exact absurd h2 (by decide)
    · exact Or.inr h

/-- Filling the hole of a red-black context. -/
theorem RB.plug {h : Heap} {c : Ctx} {s : Shape} {n N : Nat}
    (hs : RB h s n) (hc : CtxRB h c n (s.rootColor h) N) : RB h (c.plug s) N := by
  induction c generalizing s n with
  | top =>
    have : N = n := hc
    rw [this]
    exact hs
  | left c a r ih =>
    rcases hc with ⟨h1, h2, h3, h4, h5⟩ | ⟨h1, h2, h3⟩
    · exact ih (s := .node s a r) (Or.inl ⟨h1, h2, h3, hs, h4⟩)
        (by simpa [Shape.rootColor, h1] using h5)
    · exact ih (s := .node s a r) (Or.inr ⟨h1, n, rfl, hs, h2⟩)
        (by simpa [Shape.rootColor, h1] using h3)
  | right c l a ih =>
    rcases hc with ⟨h1, h2, h3, h4, h5⟩ | ⟨h1, h2, h3⟩
    · exact ih (s := .node l a s) (Or.inl ⟨h1, h3, h2, h4, hs⟩)
        (by simpa [Shape.rootColor, h1] using h5)
    · exact ih (s := .node l a s) (Or.inr ⟨h1, n, rfl, h2, hs⟩)
        (by simpa [Shape.rootColor, h1] using h3)

/-- A red-black tree with a hole marked in it: the part in the hole and the
context around it are red-black. -/
theorem RB.unplug {h : Heap} {c : Ctx} {s : Shape} {N : Nat} (hs : RB h (c.plug s) N) :
    ∃ n, RB h s n ∧ CtxRB h c n (s.rootColor h) N := by
  induction c generalizing s with
  | top => exact ⟨N, hs, rfl⟩
  | left c a r ih =>
    obtain ⟨m, hm, hcm⟩ := ih (s := .node s a r) hs
    rcases hm with ⟨h1, h2, h3, h4, h5⟩ | ⟨h1, k, h2, h3, h4⟩
    · exact ⟨m, h4, Or.inl ⟨h1, h2, h3, h5, by simpa [Shape.rootColor, h1] using hcm⟩⟩
    · subst h2
      exact ⟨k, h3, Or.inr ⟨h1, h4, by simpa [Shape.rootColor, h1] using hcm⟩⟩
  | right c l a ih =>
    obtain ⟨m, hm, hcm⟩ := ih (s := .node l a s) hs
    rcases hm with ⟨h1, h2, h3, h4, h5⟩ | ⟨h1, k, h2, h3, h4⟩
    · exact ⟨m, h5, Or.inl ⟨h1, h3, h2, h4, by simpa [Shape.rootColor, h1] using hcm⟩⟩
    · subst h2
      exact ⟨k, h4, Or.inr ⟨h1, h3, by simpa [Shape.rootColor, h1] using hcm⟩⟩

theorem RB.red_node {h : Heap} {l r : Shape} {a n : Nat} (ha : h.color a = .kRED)
    (hl : l.rootColor h = .kBLACK) (hr : r.rootColor h = .kBLACK) (h1 : RB h l n)
    (h2 : RB h r n) : RB h (.node l a r) n :=
  Or.inl ⟨ha, hl, hr, h1, h2⟩

theorem RB.black_node {h : Heap} {l r : Shape} {a n : Nat} (ha : h.color a = .kBLACK)
    (h1 : RB h l n) (h2 : RB h r n) : RB h (.node l a r) (n + 1) :=
  Or.inr ⟨ha, n, rfl, h1, h2⟩

theorem RB.red_parts {h : Heap} {l r : Shape} {a n : Nat} (hs : RB h (.node l a r) n)
    (ha : h.color a = .kRED) :
    l.rootColor h = .kBLACK ∧ r.rootColor h = .kBLACK ∧ RB h l n ∧ RB h r n := by
  rcases hs with ⟨-, h2, h3, h4, h5⟩ | ⟨h1, -⟩
  · exact ⟨h2, h3, h4, h5⟩
  · rw [ha] at h1; exact absurd h1 (by decide)

theorem CtxRB.left_red {h : Heap} {c : Ctx} {a : Nat} {r : Shape} {n N : Nat} {col : Colors}
    (hc : CtxRB h (.left c a r) n col N) (ha : h.color a = .kRED) :
    col = .kBLACK ∧ r.rootColor h = .kBLACK ∧ RB h r n ∧ CtxRB h c n .kRED N := by
  rcases hc with ⟨-, h2, h3, h4, h5⟩ | ⟨h1, -⟩
  · exact ⟨h2, h3, h4, h5⟩
  · rw [ha] at h1; exact absurd h1 (by decide)

theorem CtxRB.right_red {h : Heap} {c : Ctx} {a : Nat} {l : Shape} {n N : Nat} {col : Colors}
    (hc : CtxRB h (.right c l a) n col N) (ha : h.color a = .kRED) :
    col = .kBLACK ∧ l.rootColor h = .kBLACK ∧ RB h l n ∧ CtxRB h c n .kRED N := by
  rcases hc with ⟨-, h2, h3, h4, h5⟩ | ⟨h1, -⟩
  · exact ⟨h2, h3, h4, h5⟩
  · rw [ha] at h1; exact absurd h1 (by decide)

/-- Below a RED parent the grandparent is BLACK. -/
theorem CtxRB.left_of_red {h : Heap} {c : Ctx} {a : Nat} {r : Shape} {n N : Nat}
    (hc : CtxRB h (.left c a r) n .kRED N) :
    h.color a = .kBLACK ∧ RB h r n ∧ CtxRB h c (n + 1) .kBLACK N := by
  rcases hc with ⟨-, h2, -⟩ | h
  · exact absurd h2 (by decide)
  · exact h

theorem CtxRB.right_of_red {h : Heap} {c : Ctx} {a : Nat} {l : Shape} {n N : Nat}
    (hc : CtxRB h (.right c l a) n .kRED N) :
    h.color a = .kBLACK ∧ RB h l n ∧ CtxRB h c (n + 1) .kBLACK N := by
  rcases hc with ⟨-, h2, -⟩ | h
  · exact absurd h2 (by decide)
  · exact h

/-- A context whose innermost node is BLACK accepts any top colour in its hole. -/
theorem CtxRB.left_black {h : Heap} {c : Ctx} {a : Nat} {r : Shape} {n N : Nat}
    {col col' : Colors} (hc : CtxRB h (.left c a r) n col N) (ha : h.color a ≠ .kRED) :
    CtxRB h (.left c a r) n col' N := by
  rcases hc with ⟨h1, -⟩ | h
  · exact absurd h1 ha
  · exact Or.inr h

theorem CtxRB.right_black {h : Heap} {c : Ctx} {a : Nat} {l : Shape} {n N : Nat}
    {col col' : Colors} (hc : CtxRB h (.right c l a) n col N) (ha : h.color a ≠ .kRED) :
    CtxRB h (.right c l a) n col' N := by
  rcases hc with ⟨h1, -⟩ | h
  · exact absurd h1 ha
  · exact Or.inr h

/-! ## The rotation counter -/

theorem map_bind_congr {α β γ : Type} {f : β → γ} {x : Except Fault α}
    {g : α → Except Fault β} {g' : α → Except Fault γ} (h : ∀ a, f <$> g a = g' a) :
    f <$> (x >>= g) = x >>= g' := by
  cases x with
  | error e => rfl
  | ok a => exact h a

theorem map_ite_congr {β γ : Type} {f : β → γ} {c : Prop} [Decidable c]
    {A B : Except Fault β} {A' B' : Except Fault γ} (h1 : f <$> A = A') (h2 : f <$> B = B') :
    f <$> (if c then A else B) = if c then A' else B' := by
  split
  · exact h1
  · exact h2

theorem map_error_except {α β : Type} (f : α → β) (e : Fault) :
    f <$> (Except.error e : Except Fault α) = Except.error e := rfl

theorem map_ok_except {α β : Type} (f : α → β) (a : α) :
    f <$> (Except.ok a : Except Fault α) = Except.ok (f a) := rfl

/-- The last steps of an iteration that rotates, with and without the counter. -/
theorem rot_last (n : Nat)
    (ih : ∀ (t : Tree) (node : Ptr),
      Prod.fst <$> balancingTreeRot n t node = balancingTree n t node)
    (t : Tree) (node parent grandpar : Ptr) (k : Nat) :
    Prod.fst <$> (do
        let t ← t.setColor parent .kBLACK
        let t ← t.setColor grandpar .kRED
        let gl ← t.left grandpar
        let t ← if parent = gl then rotateRight t grandpar else rotateLeft t grandpar
        let (t, r) ← balancingTreeRot n t node
        pure (t, r + k + 1)) =
      (do
        let t ← t.setColor parent .kBLACK
        let t ← t.setColor grandpar .kRED
        let gl ← t.left grandpar
        let t ← if parent = gl then rotateRight t grandpar else rotateLeft t grandpar
        balancingTree n t node) := by
  have fin : ∀ t3 : Tree, Prod.fst <$> (do
        let (t, r) ← balancingTreeRot n t3 node
        pure (t, r + k + 1)) = balancingTree n t3 node := by
    intro t3
    rw [← ih]
    cases balancingTreeRot n t3 node with
    | error e => rfl
    | ok p => rfl
  refine map_bind_congr fun t1 => ?_
  refine map_bind_congr fun t2 => ?_
  refine map_bind_congr fun gl => ?_
  dsimp only
  refine map_ite_congr ?_ ?_
  · exact map_bind_congr fun t3 => fin t3
  · exact map_bind_congr fun t3 => fin t3

/-- The part of an iteration after the uncle has been read, with and without the
counter. -/
theorem rot_tail (n : Nat)
    (ih : ∀ (t : Tree) (node : Ptr),
      Prod.fst <$> balancingTreeRot n t node = balancingTree n t node)
    (t : Tree) (node parent grandpar uncle : Ptr) (uc : Colors) :
    Prod.fst <$> (if uncle.isSome = true ∧ uc = Colors.kRED then do
        let t ← t.setColor parent Colors.kBLACK
        let t ← t.setColor uncle Colors.kBLACK
        let t ← t.setColor grandpar Colors.kRED
        balancingTreeRot n t grandpar
      else do
        let pr ← t.right parent
        let pl ← t.left parent
        let gl ← t.left grandpar
        let gr ← t.right grandpar
        let (t, node, parent, k) ←
          if node = pr ∧ parent = gl then do
            let t ← rotateLeft t parent
            let np ← t.parent parent
            pure (t, parent, np, 1)
          else if node = pl ∧ parent = gr then do
            let t ← rotateRight t parent
            let np ← t.parent parent
            pure (t, parent, np, 1)
          else pure (t, node, parent, 0)
        let t ← t.setColor parent .kBLACK
        let t ← t.setColor grandpar .kRED
        let gl ← t.left grandpar
        let t ← if parent = gl then rotateRight t grandpar else rotateLeft t grandpar
        let (t, r) ← balancingTreeRot n t node
        pure (t, r + k + 1)) =
    (if uncle.isSome = true ∧ uc = Colors.kRED then do
        let t ← t.setColor parent Colors.kBLACK
        let t ← t.setColor uncle Colors.kBLACK
        let t ← t.setColor grandpar Colors.kRED
        balancingTree n t grandpar
      else do
        let pr ← t.right parent
        let pl ← t.left parent
        let gl ← t.left grandpar
        let gr ← t.right grandpar
        let (t, node, parent) ←
          if node = pr ∧ parent = gl then do
            let t ← rotateLeft t parent
            let np ← t.parent parent
            pure (t, parent, np)
          else if node = pl ∧ parent = gr then do
            let t ← rotateRight t parent
            let np ← t.parent parent
            pure (t, parent, np)
          else pure (t, node, parent)
        let t ← t.setColor parent .kBLACK
        let t ← t.setColor grandpar .kRED
        let gl ← t.left grandpar
        let t ← if parent = gl then rotateRight t grandpar else rotateLeft t grandpar
        balancingTree n t node) := by
  refine map_ite_congr ?_ ?_
  · refine map_bind_congr fun t1 => ?_
    refine map_bind_congr fun t2 => ?_
    refine map_bind_congr fun t3 => ?_
    exact ih _ _
  · refine map_bind_congr fun pr => ?_
    refine map_bind_congr fun pl => ?_
    refine map_bind_congr fun gl2 => ?_
    refine map_bind_congr fun gr => ?_
    dsimp only
    refine map_ite_congr ?_ (map_ite_congr ?_ ?_)
    · refine map_bind_congr fun t1 => ?_
      refine map_bind_congr fun np => ?_
      exact rot_last n ih _ _ _ _ _
    · refine map_bind_congr fun t1 => ?_
      refine map_bind_congr fun np => ?_
      exact rot_last n ih _ _ _ _ _
    · exact rot_last n ih _ _ _ _ _

/-- Dropping the counter of `balancingTreeRot` gives `balancingTree`. -/
theorem balancingTreeRot_fst (fuel : Nat) (t : Tree) (node : Ptr) :
    Prod.fst <$> balancingTreeRot fuel t node = balancingTree fuel t node := by
  induction fuel generalizing t node with
  | zero => rfl
  | succ n ih =>
    rw [balancingTreeRot, balancingTree]
    refine map_bind_congr fun parent => ?_
    refine map_ite_congr rfl ?_
    refine map_bind_congr fun pc => ?_
    refine map_ite_congr rfl ?_
    refine map_bind_congr fun grandpar => ?_
    refine map_bind_congr fun gl => ?_
    dsimp only
    refine map_ite_congr ?_ ?_
    · refine map_bind_congr fun uncle => ?_
      refine map_ite_congr ?_ ?_
      · exact map_bind_congr fun uc => rot_tail n ih t node parent grandpar uncle uc
      · exact rot_tail n ih t node parent grandpar uncle .kBLACK
    · refine map_bind_congr fun uncle => ?_
      refine map_ite_congr ?_ ?_
      · exact map_bind_congr fun uc => rot_tail n ih t node parent grandpar uncle uc
      · exact rot_tail n ih t node parent grandpar uncle .kBLACK

/-- The loop stops at once, with no rotation, when the parent is missing or not
RED. -/
theorem balancingTreeRot_exit (n : Nat) (t : Tree) (x : Nat) (nx : Node)
    (hx : t.heap x = some nx)
    (hp : nx.parent = none ∨
      ∃ p np, nx.parent = some p ∧ t.heap p = some np ∧ np.color ≠ .kRED) :
    balancingTreeRot (n + 1) t (some x) = .ok (t, 0) := by
  rcases hp with hp | ⟨p, np, hp, hnp, hc⟩
  · simp only [balancingTreeRot, Tree.parent, Heap.read, hx, hp, bind_ok, pure_eq_ok,
      Option.isNone_none, if_true]
  · simp only [balancingTreeRot, Tree.parent, Tree.color, Heap.read, hx, hp, hnp, bind_ok,
      pure_eq_ok, Option.isNone_some, Bool.false_eq_true, if_false, ne_eq, hc,
      not_false_eq_true, if_true]

theorem color_not_red {c : Colors} (h : c ≠ .kRED) : c = .kBLACK := by
  cases c
  · exact absurd rfl h
  · rfl

/-- In a list without repetitions, an element of a part of the list differs from
an element that occurs once more outside that part. -/
theorem apart_of_count {l R : List Nat} (hl : l.Nodup) {a s : Nat} (ha : a ∈ R)
    (hc : R.count s + 1 ≤ l.count s) : a ≠ s := by
  intro e
  subst e
  have h1 : 0 < R.count a := List.count_pos_iff.2 ha
  have h2 := List.nodup_iff_count_le_one.1 hl a
  omega

theorem mem_singleton_self_nat (a : Nat) : a ∈ [a] := List.mem_singleton.2 rfl

theorem rootColor_black_of {h : Heap} {s : Shape}
    (hunc : s.root = none ∨ ∃ u nu, s.root = some u ∧ h u = some nu ∧ nu.color ≠ .kRED) :
    s.rootColor h = .kBLACK := by
  cases s with
  | nil => rfl
  | node l a r =>
    rcases hunc with h0 | ⟨u, nu, hu, hnu, hnc⟩
    · simp [Shape.root] at h0
    · simp only [Shape.root, Option.some.injEq] at hu
      subst hu
      simp only [Shape.rootColor, color_of_cell hnu]
      exact color_not_red hnc

/-- The colours after two nodes have been recoloured and data-preserving steps
(rotations) have followed. -/
theorem recolor2_colors (h : Heap) (a b : Nat) (na nb : Node) (ca cb : Colors) (hab : a ≠ b)
    (h3 : Heap)
    (hs : ∀ z, (h3 z).map Node.color =
      (((h.set a (some { na with color := ca })).set b (some { nb with color := cb })) z).map
        Node.color) :
    h3.color a = ca ∧ h3.color b = cb ∧ ∀ z, z ≠ a → z ≠ b → h3.color z = h.color z := by
  refine ⟨?_, ?_, ?_⟩
  · rw [color_of_map (hs a), color_set_ne _ _ _ _ hab, color_set_same]
  · rw [color_of_map (hs b), color_set_same]
  · intro z h1 h2
    rw [color_of_map (hs z), color_set_ne _ _ _ _ h2, color_set_ne _ _ _ _ h1]

/-- The colours after parent and uncle have been made BLACK and the grandparent
RED. -/
theorem recolor3_colors (h : Heap) (p u g : Nat) (np nu ng : Node) (hpu : p ≠ u) (hpg : p ≠ g)
    (hug : u ≠ g) :
    (((h.set p (some { np with color := .kBLACK })).set u
        (some { nu with color := .kBLACK })).set g (some { ng with color := .kRED })).color p
      = .kBLACK ∧
    (((h.set p (some { np with color := .kBLACK })).set u
        (some { nu with color := .kBLACK })).set g (some { ng with color := .kRED })).color u
      = .kBLACK ∧
    (((h.set p (some { np with color := .kBLACK })).set u
        (some { nu with color := .kBLACK })).set g (some { ng with color := .kRED })).color g
      = .kRED ∧
    ∀ a, a ≠ p → a ≠ u → a ≠ g →
      (((h.set p (some { np with color := .kBLACK })).set u
        (some { nu with color := .kBLACK })).set g (some { ng with color := .kRED })).color a
        = h.color a := by
  refine ⟨?_, ?_, ?_, ?_⟩
  · rw [color_set_ne _ _ _ _ hpg, color_set_ne _ _ _ _ hpu, color_set_same]
  · rw [color_set_ne _ _ _ _ hug, color_set_same]
  · rw [color_set_same]
  · intro a h1 h2 h3
    rw [color_set_ne _ _ _ _ h3, color_set_ne _ _ _ _ h2, color_set_ne _ _ _ _ h1]

theorem Lay.parent_some {h : Heap} {s : Shape} {q : Ptr} (hl : Lay h s q) :
    ∀ b ∈ s.addrs, ∃ n, h b = some n ∧ (b ∈ s.addrs → s.root = some b → n.parent = q) ∧
      (s.root ≠ some b → n.parent ≠ none) := by
  induction s generalizing q with
  | nil => intro b hb; simp [Shape.addrs] at hb
  | node l a r ihl ihr =>
    obtain ⟨n, hn, hp, -, -, hll, hlr⟩ := hl
    intro b hb
    simp only [Shape.addrs, List.mem_append, List.mem_cons] at hb
    by_cases hba : b = a
    · subst hba
      exact ⟨n, hn, fun _ _ => hp, fun hne => absurd rfl hne⟩
    · have hcase : b ∈ l.addrs ∨ b ∈ r.addrs := by tauto
      rcases hcase with hb' | hb'
      · obtain ⟨m, hm, h1, h2⟩ := ihl hll b hb'
        refine ⟨m, hm, fun _ e => absurd (Option.some.inj e).symm hba, fun _ => ?_⟩
        by_cases hr : l.root = some b
        · rw [h1 hb' hr]; simp
        · exact h2 hr
      · obtain ⟨m, hm, h1, h2⟩ := ihr hlr b hb'
        refine ⟨m, hm, fun _ e => absurd (Option.some.inj e).symm hba, fun _ => ?_⟩
        by_cases hr : r.root = some b
        · rw [h1 hb' hr]; simp
        · exact h2 hr

/-- The top node of a laid-out tree occurs in neither of its subtrees. -/
theorem Lay.top_apart {h : Heap} {l r : Shape} {a : Nat} (hl : Lay h (.node l a r) none) :
    a ∉ l.addrs ∧ a ∉ r.addrs := by
  obtain ⟨n, hn, hp, -, -, hll, hlr⟩ := hl
  constructor
  · intro hm
    obtain ⟨m, hm', h1, h2⟩ := hll.parent_some a hm
    rw [hn] at hm'
    cases hm'
    by_cases hr : l.root = some a
    · have := h1 hm hr
      rw [hp] at this
      cases this
    · exact h2 hr hp
  · intro hm
    obtain ⟨m, hm', h1, h2⟩ := hlr.parent_some a hm
    rw [hn] at hm'
    cases hm'
    by_cases hr : r.root = some a
    · have := h1 hm hr
      rw [hp] at this
      cases this
    · exact h2 hr hp

/-- Making the root BLACK keeps a red-black tree red-black. -/
theorem blackenRoot_rb {t t' : Tree} {s : Shape} (hlay : Lay t.heap s none)
    (hroot : t.root_ = s.root) (hb : blackenRoot t = .ok t') (hrb : RBT t.heap s) :
    RBT t'.heap s := by
  cases s with
  | nil =>
    simp only [blackenRoot, hroot, Shape.root, Option.isSome_none, Bool.false_eq_true,
      if_false, pure_eq_ok, Except.ok.injEq] at hb
    subst hb
    exact hrb
  | node l a r =>
    obtain ⟨ha1, ha2⟩ := hlay.top_apart
    obtain ⟨na, hna, -⟩ := id hlay
    simp only [blackenRoot, hroot, Shape.root, Option.isSome_some, if_true, Tree.setColor,
      Heap.modify, hna, bind_ok, pure_eq_ok, Except.ok.injEq] at hb
    subst hb
    have el : ∀ b ∈ l.addrs, (t.heap.set a (some { na with color := .kBLACK })).color b
        = t.heap.color b := fun b hb => color_set_ne _ _ _ _ (fun e => ha1 (e ▸ hb))
    have er : ∀ b ∈ r.addrs, (t.heap.set a (some { na with color := .kBLACK })).color b
        = t.heap.color b := fun b hb => color_set_ne _ _ _ _ (fun e => ha2 (e ▸ hb))
    obtain ⟨N, hN⟩ := hrb
    rcases hN with ⟨-, -, -, h4, h5⟩ | ⟨-, k, -, h3, h4⟩
    · exact ⟨N + 1, RB.black_node (color_set_same _ _ _) (h4.transport el) (h5.transport er)⟩
    · exact ⟨k + 1, RB.black_node (color_set_same _ _ _) (h3.transport el) (h4.transport er)⟩

/-- The new RED leaf, linked below its parent, is a red-black tree of black
height 0. -/
theorem leaf_rb (h : Heap) {i p : Nat} (ni np : Node) (hip : i ≠ p) (hc : ni.color = .kRED) :
    RB ((h.set i (some ni)).set p (some np)) (.node .nil i .nil) 0 ∧
      ((h.set i (some ni)).set p (some np)).color i = .kRED := by
  have : ((h.set i (some ni)).set p (some np)).color i = .kRED := by
    rw [color_set_ne _ _ _ _ hip, color_set_same, hc]
  exact ⟨RB.red_node this rfl rfl rfl rfl, this⟩

/-- Linking the new leaf below its parent changes no colour of the context. -/
theorem leaf_ctx_rb {h : Heap} {c : Ctx} {i p : Nat} (ni np' : Node) {np : Node} {N : Nat}
    {col : Colors} (hp : h p = some np) (hc : np'.color = np.color) (hin : i ∉ c.pre ++ c.post)
    (hctx : CtxRB h c 0 col N) :
    CtxRB ((h.set i (some ni)).set p (some np')) c 0 col N := by
  refine hctx.transfer ?_
  intro a ha
  by_cases hap : a = p
  · subst hap
    rw [color_set_same, hc, color_of_cell hp]
  · have hai : a ≠ i := fun e => hin (by rw [← e]; exact ha)
    rw [color_set_ne _ _ _ _ hap, color_set_ne _ _ _ _ hai]

/-- Rebalancing with a BLACK or missing uncle, node and parent both left children: the
colours after the rotation make a red-black tree. -/
theorem rb_rot_left_left {h h3 : Heap} {c2 : Ctx} {L R Sp U : Shape} {x p g k N : Nat}
    (hnd : ((Ctx.left (Ctx.left c2 g U) p Sp).plug (.node L x R)).addrs.Nodup)
    (hrb : RB h (.node L x R) k) (hxc : h.color x = .kRED)
    (hctx : CtxRB h (Ctx.left (Ctx.left c2 g U) p Sp) k .kBLACK N)
    (hp : h.color p = .kRED) (hu : U.rootColor h = .kBLACK)
    (h3b : h3.color p = .kBLACK) (h3g : h3.color g = .kRED)
    (h3o : ∀ a, a ≠ p → a ≠ g → h3.color a = h.color a) :
    RBT h3 (c2.plug (.node (.node L x R) p (.node Sp g U))) := by
  obtain ⟨-, hSpc, hSp, hc1⟩ := hctx.left_red hp
  obtain ⟨-, hU, hc2⟩ := hc1.left_of_red
  obtain ⟨hLc, hRc, hL, hR⟩ := hrb.red_parts hxc
  rw [plug_addrs] at hnd
  simp only [Ctx.pre, Ctx.post, Shape.addrs] at hnd
  have n_X_p : ∀ a ∈ (Shape.node L x R).addrs, a ≠ p := fun a ha =>
    apart_of_count (R := (Shape.node L x R).addrs) hnd ha (by simp only [Shape.addrs, List.count_append, List.count_cons, beq_self_eq_true, if_true]; omega)
  have n_X_g : ∀ a ∈ (Shape.node L x R).addrs, a ≠ g := fun a ha =>
    apart_of_count (R := (Shape.node L x R).addrs) hnd ha (by simp only [Shape.addrs, List.count_append, List.count_cons, beq_self_eq_true, if_true]; omega)
  have n_Sp_p : ∀ a ∈ Sp.addrs, a ≠ p := fun a ha =>
    apart_of_count (R := Sp.addrs) hnd ha (by simp only [Shape.addrs, List.count_append, List.count_cons, beq_self_eq_true, if_true]; omega)
  have n_Sp_g : ∀ a ∈ Sp.addrs, a ≠ g := fun a ha =>
    apart_of_count (R := Sp.addrs) hnd ha (by simp only [Shape.addrs, List.count_append, List.count_cons, beq_self_eq_true, if_true]; omega)
  have n_U_p : ∀ a ∈ U.addrs, a ≠ p := fun a ha =>
    apart_of_count (R := U.addrs) hnd ha (by simp only [Shape.addrs, List.count_append, List.count_cons, beq_self_eq_true, if_true]; omega)
  have n_U_g : ∀ a ∈ U.addrs, a ≠ g := fun a ha =>
    apart_of_count (R := U.addrs) hnd ha (by simp only [Shape.addrs, List.count_append, List.count_cons, beq_self_eq_true, if_true]; omega)
  have n_c_p : ∀ a ∈ (c2.pre ++ c2.post), a ≠ p := fun a ha =>
    apart_of_count (R := (c2.pre ++ c2.post)) hnd ha (by simp only [Shape.addrs, List.count_append, List.count_cons, beq_self_eq_true, if_true]; omega)
  have n_c_g : ∀ a ∈ (c2.pre ++ c2.post), a ≠ g := fun a ha =>
    apart_of_count (R := (c2.pre ++ c2.post)) hnd ha (by simp only [Shape.addrs, List.count_append, List.count_cons, beq_self_eq_true, if_true]; omega)
  have eX := (fun a ha => h3o a (n_X_p a ha) (n_X_g a ha))
  have eSp := (fun a ha => h3o a (n_Sp_p a ha) (n_Sp_g a ha))
  have eU := (fun a ha => h3o a (n_U_p a ha) (n_U_g a ha))
  have ec := (fun a ha => h3o a (n_c_p a ha) (n_c_g a ha))
  have rX : RB h3 (.node L x R) k := hrb.transport eX
  have rG : RB h3 (.node Sp g U) k :=
    RB.red_node h3g (by rw [rootColor_congr eSp]; exact hSpc)
      (by rw [rootColor_congr eU]; exact hu)
      (hSp.transport eSp) (hU.transport eU)
  exact ⟨N, RB.plug (RB.black_node h3b rX rG)
    (by
      have : Shape.rootColor h3 (.node (.node L x R) p (.node Sp g U)) = .kBLACK := h3b
      rw [this]
      exact hc2.transfer ec)⟩

/-- Rebalancing with a RED uncle, node and parent both left children: after the
recolouring the grandparent is a RED node on a red-black subtree, in a context
that is red-black around it. -/
theorem rb_rec_left_left {h h3 : Heap} {c2 : Ctx} {L R Sp Ul Ur : Shape}
    {x p g u k N : Nat}
    (hnd : ((Ctx.left (Ctx.left c2 g (.node Ul u Ur)) p Sp).plug (.node L x R)).addrs.Nodup)
    (hrb : RB h (.node L x R) k)
    (hctx : CtxRB h (Ctx.left (Ctx.left c2 g (.node Ul u Ur)) p Sp) k .kBLACK N)
    (hp : h.color p = .kRED) (hu : h.color u = .kRED)
    (h3p : h3.color p = .kBLACK) (h3u : h3.color u = .kBLACK) (h3g : h3.color g = .kRED)
    (h3o : ∀ a, a ≠ p → a ≠ u → a ≠ g → h3.color a = h.color a) :
    RB h3 (.node (.node (.node L x R) p Sp) g (.node Ul u Ur)) (k + 1) ∧ CtxRB h3 c2 (k + 1) .kBLACK N := by
  obtain ⟨-, hSpc, hSp, hc1⟩ := hctx.left_red hp
  obtain ⟨-, hU, hc2⟩ := hc1.left_of_red
  obtain ⟨hUlc, hUrc, hUl, hUr⟩ := hU.red_parts hu
  rw [plug_addrs] at hnd
  simp only [Ctx.pre, Ctx.post, Shape.addrs] at hnd
  have n_X_p : ∀ a ∈ (Shape.node L x R).addrs, a ≠ p := fun a ha =>
    apart_of_count (R := (Shape.node L x R).addrs) hnd ha (by simp only [Shape.addrs, List.count_append, List.count_cons, beq_self_eq_true, if_true]; omega)
  have n_X_u : ∀ a ∈ (Shape.node L x R).addrs, a ≠ u := fun a ha =>
    apart_of_count (R := (Shape.node L x R).addrs) hnd ha (by simp only [Shape.addrs, List.count_append, List.count_cons, beq_self_eq_true, if_true]; omega)
  have n_X_g : ∀ a ∈ (Shape.node L x R).addrs, a ≠ g := fun a ha =>
    apart_of_count (R := (Shape.node L x R).addrs) hnd ha (by simp only [Shape.addrs, List.count_append, List.count_cons, beq_self_eq_true, if_true]; omega)
  have n_Sp_p : ∀ a ∈ Sp.addrs, a ≠ p := fun a ha =>
    apart_of_count (R := Sp.addrs) hnd ha (by simp only [Shape.addrs, List.count_append, List.count_cons, beq_self_eq_true, if_true]; omega)
  have n_Sp_u : ∀ a ∈ Sp.addrs, a ≠ u := fun a ha =>
    apart_of_count (R := Sp.addrs) hnd ha (by simp only [Shape.addrs, List.count_append, List.count_cons, beq_self_eq_true, if_true]; omega)
  have n_Sp_g : ∀ a ∈ Sp.addrs, a ≠ g := fun a ha =>
    apart_of_count (R := Sp.addrs) hnd ha (by simp only [Shape.addrs, List.count_append, List.count_cons, beq_self_eq_true, if_true]; omega)
  have n_Ul_p : ∀ a ∈ Ul.addrs, a ≠ p := fun a ha =>
    apart_of_count (R := Ul.addrs) hnd ha (by simp only [Shape.addrs, List.count_append, List.count_cons, beq_self_eq_true, if_true]; omega)
  have n_Ul_u : ∀ a ∈ Ul.addrs, a ≠ u := fun a ha =>
    apart_of_count (R := Ul.addrs) hnd ha (by simp only [Shape.addrs, List.count_append, List.count_cons, beq_self_eq_true, if_true]; omega)
  have n_Ul_g : ∀ a ∈ Ul.addrs, a ≠ g := fun a ha =>
    apart_of_count (R := Ul.addrs) hnd ha (by simp only [Shape.addrs, List.count_append, List.count_cons, beq_self_eq_true, if_true]; omega)
  have n_Ur_p : ∀ a ∈ Ur.addrs, a ≠ p := fun a ha =>
    apart_of_count (R := Ur.addrs) hnd ha (by simp only [Shape.addrs, List.count_append, List.count_cons, beq_self_eq_true, if_true]; omega)
  have n_Ur_u : ∀ a ∈ Ur.addrs, a ≠ u := fun a ha =>
    apart_of_count (R := Ur.addrs) hnd ha (by simp only [Shape.addrs, List.count_append, List.count_cons, beq_self_eq_true, if_true]; omega)
  have n_Ur_g : ∀ a ∈ Ur.addrs, a ≠ g := fun a ha =>
    apart_of_count (R := Ur.addrs) hnd ha (by simp only [Shape.addrs, List.count_append, List.count_cons, beq_self_eq_true, if_true]; omega)
  have n_c_p : ∀ a ∈ (c2.pre ++ c2.post), a ≠ p := fun a ha =>
    apart_of_count (R := (c2.pre ++ c2.post)) hnd ha (by simp only [Shape.addrs, List.count_append, List.count_cons, beq_self_eq_true, if_true]; omega)
  have n_c_u : ∀ a ∈ (c2.pre ++ c2.post), a ≠ u := fun a ha =>
    apart_of_count (R := (c2.pre ++ c2.post)) hnd ha (by simp only [Shape.addrs, List.count_append, List.count_cons, beq_self_eq_true, if_true]; omega)
  have n_c_g : ∀ a ∈ (c2.pre ++ c2.post), a ≠ g := fun a ha =>
    apart_of_count (R := (c2.pre ++ c2.post)) hnd ha (by simp only [Shape.addrs, List.count_append, List.count_cons, beq_self_eq_true, if_true]; omega)
  have eX := (fun a ha => h3o a (n_X_p a ha) (n_X_u a ha) (n_X_g a ha))
  have eSp := (fun a ha => h3o a (n_Sp_p a ha) (n_Sp_u a ha) (n_Sp_g a ha))
  have eUl := (fun a ha => h3o a (n_Ul_p a ha) (n_Ul_u a ha) (n_Ul_g a ha))
  have eUr := (fun a ha => h3o a (n_Ur_p a ha) (n_Ur_u a ha) (n_Ur_g a ha))
  have ec := (fun a ha => h3o a (n_c_p a ha) (n_c_u a ha) (n_c_g a ha))
  have rP : RB h3 (.node (.node L x R) p Sp) (k + 1) :=
    RB.black_node h3p (hrb.transport eX) (hSp.transport eSp)
  have rU : RB h3 (.node Ul u Ur) (k + 1) := RB.black_node h3u (hUl.transport eUl) (hUr.transport eUr)
  exact ⟨RB.red_node h3g h3p h3u rP rU, hc2.transfer ec⟩

/-- Rebalancing with a BLACK or missing uncle, node a left child, parent a right child: the
colours after the rotations make a red-black tree. -/
theorem rb_rot_left_right {h h3 : Heap} {c2 : Ctx} {L R Sp U : Shape} {x p g k N : Nat}
    (hnd : ((Ctx.left (Ctx.right c2 U g) p Sp).plug (.node L x R)).addrs.Nodup)
    (hrb : RB h (.node L x R) k) (hxc : h.color x = .kRED)
    (hctx : CtxRB h (Ctx.left (Ctx.right c2 U g) p Sp) k .kBLACK N)
    (hp : h.color p = .kRED) (hu : U.rootColor h = .kBLACK)
    (h3b : h3.color x = .kBLACK) (h3g : h3.color g = .kRED)
    (h3o : ∀ a, a ≠ x → a ≠ g → h3.color a = h.color a) :
    RBT h3 (c2.plug (.node (.node U g L) x (.node R p Sp))) := by
  obtain ⟨-, hSpc, hSp, hc1⟩ := hctx.left_red hp
  obtain ⟨-, hU, hc2⟩ := hc1.right_of_red
  obtain ⟨hLc, hRc, hL, hR⟩ := hrb.red_parts hxc
  rw [plug_addrs] at hnd
  simp only [Ctx.pre, Ctx.post, Shape.addrs] at hnd
  have n_L_x : ∀ a ∈ L.addrs, a ≠ x := fun a ha =>
    apart_of_count (R := L.addrs) hnd ha (by simp only [Shape.addrs, List.count_append, List.count_cons, beq_self_eq_true, if_true]; omega)
  have n_L_g : ∀ a ∈ L.addrs, a ≠ g := fun a ha =>
    apart_of_count (R := L.addrs) hnd ha (by simp only [Shape.addrs, List.count_append, List.count_cons, beq_self_eq_true, if_true]; omega)
  have n_R_x : ∀ a ∈ R.addrs, a ≠ x := fun a ha =>
    apart_of_count (R := R.addrs) hnd ha (by simp only [Shape.addrs, List.count_append, List.count_cons, beq_self_eq_true, if_true]; omega)
  have n_R_g : ∀ a ∈ R.addrs, a ≠ g := fun a ha =>
    apart_of_count (R := R.addrs) hnd ha (by simp only [Shape.addrs, List.count_append, List.count_cons, beq_self_eq_true, if_true]; omega)
  have n_Sp_x : ∀ a ∈ Sp.addrs, a ≠ x := fun a ha =>
    apart_of_count (R := Sp.addrs) hnd ha (by simp only [Shape.addrs, List.count_append, List.count_cons, beq_self_eq_true, if_true]; omega)
  have n_Sp_g : ∀ a ∈ Sp.addrs, a ≠ g := fun a ha =>
    apart_of_count (R := Sp.addrs) hnd ha (by simp only [Shape.addrs, List.count_append, List.count_cons, beq_self_eq_true, if_true]; omega)
  have n_U_x : ∀ a ∈ U.addrs, a ≠ x := fun a ha =>
    apart_of_count (R := U.addrs) hnd ha (by simp only [Shape.addrs, List.count_append, List.count_cons, beq_self_eq_true, if_true]; omega)
  have n_U_g : ∀ a ∈ U.addrs, a ≠ g := fun a ha =>
    apart_of_count (R := U.addrs) hnd ha (by simp only [Shape.addrs, List.count_append, List.count_cons, beq_self_eq_true, if_true]; omega)
  have n_c_x : ∀ a ∈ (c2.pre ++ c2.post), a ≠ x := fun a ha =>
    apart_of_count (R := (c2.pre ++ c2.post)) hnd ha (by simp only [Shape.addrs, List.count_append, List.count_cons, beq_self_eq_true, if_true]; omega)
  have n_c_g : ∀ a ∈ (c2.pre ++ c2.post), a ≠ g := fun a ha =>
    apart_of_count (R := (c2.pre ++ c2.post)) hnd ha (by simp only [Shape.addrs, List.count_append, List.count_cons, beq_self_eq_true, if_true]; omega)
  have n_p_x : p ≠ x :=
    apart_of_count (R := [p]) hnd (mem_singleton_self_nat p) (by simp only [Shape.addrs, List.count_append, List.count_cons, beq_self_eq_true, if_true]; omega)
  have n_p_g : p ≠ g :=
    apart_of_count (R := [p]) hnd (mem_singleton_self_nat p) (by simp only [Shape.addrs, List.count_append, List.count_cons, beq_self_eq_true, if_true]; omega)
  have eL := (fun a ha => h3o a (n_L_x a ha) (n_L_g a ha))
  have eR := (fun a ha => h3o a (n_R_x a ha) (n_R_g a ha))
  have eSp := (fun a ha => h3o a (n_Sp_x a ha) (n_Sp_g a ha))
  have eU := (fun a ha => h3o a (n_U_x a ha) (n_U_g a ha))
  have ec := (fun a ha => h3o a (n_c_x a ha) (n_c_g a ha))
  have h3p : h3.color p = .kRED := by rw [h3o p n_p_x n_p_g]; exact hp
  have rG : RB h3 (.node U g L) k :=
    RB.red_node h3g (by rw [rootColor_congr eU]; exact hu)
      (by rw [rootColor_congr eL]; exact hLc)
      (hU.transport eU) (hL.transport eL)
  have rP : RB h3 (.node R p Sp) k :=
    RB.red_node h3p (by rw [rootColor_congr eR]; exact hRc)
      (by rw [rootColor_congr eSp]; exact hSpc)
      (hR.transport eR) (hSp.transport eSp)
  exact ⟨N, RB.plug (RB.black_node h3b rG rP)
    (by
      have : Shape.rootColor h3 (.node (.node U g L) x (.node R p Sp)) = .kBLACK := h3b
      rw [this]
      exact hc2.transfer ec)⟩

/-- Rebalancing with a RED uncle, node a left child, parent a right child: after the
recolouring the grandparent is a RED node on a red-black subtree, in a context
that is red-black around it. -/
theorem rb_rec_left_right {h h3 : Heap} {c2 : Ctx} {L R Sp Ul Ur : Shape}
    {x p g u k N : Nat}
    (hnd : ((Ctx.left (Ctx.right c2 (.node Ul u Ur) g) p Sp).plug (.node L x R)).addrs.Nodup)
    (hrb : RB h (.node L x R) k)
    (hctx : CtxRB h (Ctx.left (Ctx.right c2 (.node Ul u Ur) g) p Sp) k .kBLACK N)
    (hp : h.color p = .kRED) (hu : h.color u = .kRED)
    (h3p : h3.color p = .kBLACK) (h3u : h3.color u = .kBLACK) (h3g : h3.color g = .kRED)
    (h3o : ∀ a, a ≠ p → a ≠ u → a ≠ g → h3.color a = h.color a) :
    RB h3 (.node (.node Ul u Ur) g (.node (.node L x R) p Sp)) (k + 1) ∧ CtxRB h3 c2 (k + 1) .kBLACK N := by
  obtain ⟨-, hSpc, hSp, hc1⟩ := hctx.left_red hp
  obtain ⟨-, hU, hc2⟩ := hc1.right_of_red
  obtain ⟨hUlc, hUrc, hUl, hUr⟩ := hU.red_parts hu
  rw [plug_addrs] at hnd
  simp only [Ctx.pre, Ctx.post, Shape.addrs] at hnd
  have n_X_p : ∀ a ∈ (Shape.node L x R).addrs, a ≠ p := fun a ha =>
    apart_of_count (R := (Shape.node L x R).addrs) hnd ha (by simp only [Shape.addrs, List.count_append, List.count_cons, beq_self_eq_true, if_true]; omega)
  have n_X_u : ∀ a ∈ (Shape.node L x R).addrs, a ≠ u := fun a ha =>
    apart_of_count (R := (Shape.node L x R).addrs) hnd ha (by simp only [Shape.addrs, List.count_append, List.count_cons, beq_self_eq_true, if_true]; omega)
  have n_X_g : ∀ a ∈ (Shape.node L x R).addrs, a ≠ g := fun a ha =>
    apart_of_count (R := (Shape.node L x R).addrs) hnd ha (by simp only [Shape.addrs, List.count_append, List.count_cons, beq_self_eq_true, if_true]; omega)
  have n_Sp_p : ∀ a ∈ Sp.addrs, a ≠ p := fun a ha =>
    apart_of_count (R := Sp.addrs) hnd ha (by simp only [Shape.addrs, List.count_append, List.count_cons, beq_self_eq_true, if_true]; omega)
  have n_Sp_u : ∀ a ∈ Sp.addrs, a ≠ u := fun a ha =>
    apart_of_count (R := Sp.addrs) hnd ha (by simp only [Shape.addrs, List.count_append, List.count_cons, beq_self_eq_true, if_true]; omega)
  have n_Sp_g : ∀ a ∈ Sp.addrs, a ≠ g := fun a ha =>
    apart_of_count (R := Sp.addrs) hnd ha (by simp only [Shape.addrs, List.count_append, List.count_cons, beq_self_eq_true, if_true]; omega)
  have n_Ul_p : ∀ a ∈ Ul.addrs, a ≠ p := fun a ha =>
    apart_of_count (R := Ul.addrs) hnd ha (by simp only [Shape.addrs, List.count_append, List.count_cons, beq_self_eq_true, if_true]; omega)
  have n_Ul_u : ∀ a ∈ Ul.addrs, a ≠ u := fun a ha =>
    apart_of_count (R := Ul.addrs) hnd ha (by simp only [Shape.addrs, List.count_append, List.count_cons, beq_self_eq_true, if_true]; omega)
  have n_Ul_g : ∀ a ∈ Ul.addrs, a ≠ g := fun a ha =>
    apart_of_count (R := Ul.addrs) hnd ha (by simp only [Shape.addrs, List.count_append, List.count_cons, beq_self_eq_true, if_true]; omega)
  have n_Ur_p : ∀ a ∈ Ur.addrs, a ≠ p := fun a ha =>
    apart_of_count (R := Ur.addrs) hnd ha (by simp only [Shape.addrs, List.count_append, List.count_cons, beq_self_eq_true, if_true]; omega)
  have n_Ur_u : ∀ a ∈ Ur.addrs, a ≠ u := fun a ha =>
    apart_of_count (R := Ur.addrs) hnd ha (by simp only [Shape.addrs, List.count_append, List.count_cons, beq_self_eq_true, if_true]; omega)
  have n_Ur_g : ∀ a ∈ Ur.addrs, a ≠ g := fun a ha =>
    apart_of_count (R := Ur.addrs) hnd ha (by simp only [Shape.addrs, List.count_append, List.count_cons, beq_self_eq_true, if_true]; omega)
  have n_c_p : ∀ a ∈ (c2.pre ++ c2.post), a ≠ p := fun a ha =>
    apart_of_count (R := (c2.pre ++ c2.post)) hnd ha (by simp only [Shape.addrs, List.count_append, List.count_cons, beq_self_eq_true, if_true]; omega)
  have n_c_u : ∀ a ∈ (c2.pre ++ c2.post), a ≠ u := fun a ha =>
    apart_of_count (R := (c2.pre ++ c2.post)) hnd ha (by simp only [Shape.addrs, List.count_append, List.count_cons, beq_self_eq_true, if_true]; omega)
  have n_c_g : ∀ a ∈ (c2.pre ++ c2.post), a ≠ g := fun a ha =>
    apart_of_count (R := (c2.pre ++ c2.post)) hnd ha (by simp only [Shape.addrs, List.count_append, List.count_cons, beq_self_eq_true, if_true]; omega)
  have eX := (fun a ha => h3o a (n_X_p a ha) (n_X_u a ha) (n_X_g a ha))
  have eSp := (fun a ha => h3o a (n_Sp_p a ha) (n_Sp_u a ha) (n_Sp_g a ha))
  have eUl := (fun a ha => h3o a (n_Ul_p a ha) (n_Ul_u a ha) (n_Ul_g a ha))
  have eUr := (fun a ha => h3o a (n_Ur_p a ha) (n_Ur_u a ha) (n_Ur_g a ha))
  have ec := (fun a ha => h3o a (n_c_p a ha) (n_c_u a ha) (n_c_g a ha))
  have rP : RB h3 (.node (.node L x R) p Sp) (k + 1) :=
    RB.black_node h3p (hrb.transport eX) (hSp.transport eSp)
  have rU : RB h3 (.node Ul u Ur) (k + 1) := RB.black_node h3u (hUl.transport eUl) (hUr.transport eUr)
  exact ⟨RB.red_node h3g h3u h3p rU rP, hc2.transfer ec⟩

/-- Rebalancing with a BLACK or missing uncle, node and parent both right children: the
colours after the rotation make a red-black tree. -/
theorem rb_rot_right_right {h h3 : Heap} {c2 : Ctx} {L R Sp U : Shape} {x p g k N : Nat}
    (hnd : ((Ctx.right (Ctx.right c2 U g) Sp p).plug (.node L x R)).addrs.Nodup)
    (hrb : RB h (.node L x R) k) (hxc : h.color x = .kRED)
    (hctx : CtxRB h (Ctx.right (Ctx.right c2 U g) Sp p) k .kBLACK N)
    (hp : h.color p = .kRED) (hu : U.rootColor h = .kBLACK)
    (h3b : h3.color p = .kBLACK) (h3g : h3.color g = .kRED)
    (h3o : ∀ a, a ≠ p → a ≠ g → h3.color a = h.color a) :
    RBT h3 (c2.plug (.node (.node U g Sp) p (.node L x R))) := by
  obtain ⟨-, hSpc, hSp, hc1⟩ := hctx.right_red hp
  obtain ⟨-, hU, hc2⟩ := hc1.right_of_red
  obtain ⟨hLc, hRc, hL, hR⟩ := hrb.red_parts hxc
  rw [plug_addrs] at hnd
  simp only [Ctx.pre, Ctx.post, Shape.addrs] at hnd
  have n_X_p : ∀ a ∈ (Shape.node L x R).addrs, a ≠ p := fun a ha =>
    apart_of_count (R := (Shape.node L x R).addrs) hnd ha (by simp only [Shape.addrs, List.count_append, List.count_cons, beq_self_eq_true, if_true]; omega)
  have n_X_g : ∀ a ∈ (Shape.node L x R).addrs, a ≠ g := fun a ha =>
    apart_of_count (R := (Shape.node L x R).addrs) hnd ha (by simp only [Shape.addrs, List.count_append, List.count_cons, beq_self_eq_true, if_true]; omega)
  have n_Sp_p : ∀ a ∈ Sp.addrs, a ≠ p := fun a ha =>
    apart_of_count (R := Sp.addrs) hnd ha (by simp only [Shape.addrs, List.count_append, List.count_cons, beq_self_eq_true, if_true]; omega)
  have n_Sp_g : ∀ a ∈ Sp.addrs, a ≠ g := fun a ha =>
    apart_of_count (R := Sp.addrs) hnd ha (by simp only [Shape.addrs, List.count_append, List.count_cons, beq_self_eq_true, if_true]; omega)
  have n_U_p : ∀ a ∈ U.addrs, a ≠ p := fun a ha =>
    apart_of_count (R := U.addrs) hnd ha (by simp only [Shape.addrs, List.count_append, List.count_cons, beq_self_eq_true, if_true]; omega)
  have n_U_g : ∀ a ∈ U.addrs, a ≠ g := fun a ha =>
    apart_of_count (R := U.addrs) hnd ha (by simp only [Shape.addrs, List.count_append, List.count_cons, beq_self_eq_true, if_true]; omega)
  have n_c_p : ∀ a ∈ (c2.pre ++ c2.post), a ≠ p := fun a ha =>
    apart_of_count (R := (c2.pre ++ c2.post)) hnd ha (by simp only [Shape.addrs, List.count_append, List.count_cons, beq_self_eq_true, if_true]; omega)
  have n_c_g : ∀ a ∈ (c2.pre ++ c2.post), a ≠ g := fun a ha =>
    apart_of_count (R := (c2.pre ++ c2.post)) hnd ha (by simp only [Shape.addrs, List.count_append, List.count_cons, beq_self_eq_true, if_true]; omega)
  have eX := (fun a ha => h3o a (n_X_p a ha) (n_X_g a ha))
  have eSp := (fun a ha => h3o a (n_Sp_p a ha) (n_Sp_g a ha))
  have eU := (fun a ha => h3o a (n_U_p a ha) (n_U_g a ha))
  have ec := (fun a ha => h3o a (n_c_p a ha) (n_c_g a ha))
  have rX : RB h3 (.node L x R) k := hrb.transport eX
  have rG : RB h3 (.node U g Sp) k :=
    RB.red_node h3g (by rw [rootColor_congr eU]; exact hu)
      (by rw [rootColor_congr eSp]; exact hSpc)
      (hU.transport eU) (hSp.transport eSp)
  exact ⟨N, RB.plug (RB.black_node h3b rG rX)
    (by
      have : Shape.rootColor h3 (.node (.node U g Sp) p (.node L x R)) = .kBLACK := h3b
      rw [this]
      exact hc2.transfer ec)⟩

/-- Rebalancing with a RED uncle, node and parent both right children: after the
recolouring the grandparent is a RED node on a red-black subtree, in a context
that is red-black around it. -/
theorem rb_rec_right_right {h h3 : Heap} {c2 : Ctx} {L R Sp Ul Ur : Shape}
    {x p g u k N : Nat}
    (hnd : ((Ctx.right (Ctx.right c2 (.node Ul u Ur) g) Sp p).plug (.node L x R)).addrs.Nodup)
    (hrb : RB h (.node L x R) k)
    (hctx : CtxRB h (Ctx.right (Ctx.right c2 (.node Ul u Ur) g) Sp p) k .kBLACK N)
    (hp : h.color p = .kRED) (hu : h.color u = .kRED)
    (h3p : h3.color p = .kBLACK) (h3u : h3.color u = .kBLACK) (h3g : h3.color g = .kRED)
    (h3o : ∀ a, a ≠ p → a ≠ u → a ≠ g → h3.color a = h.color a) :
    RB h3 (.node (.node Ul u Ur) g (.node Sp p (.node L x R))) (k + 1) ∧ CtxRB h3 c2 (k + 1) .kBLACK N := by
  obtain ⟨-, hSpc, hSp, hc1⟩ := hctx.right_red hp
  obtain ⟨-, hU, hc2⟩ := hc1.right_of_red
  obtain ⟨hUlc, hUrc, hUl, hUr⟩ := hU.red_parts hu
  rw [plug_addrs] at hnd
  simp only [Ctx.pre, Ctx.post, Shape.addrs] at hnd
  have n_X_p : ∀ a ∈ (Shape.node L x R).addrs, a ≠ p := fun a ha =>
    apart_of_count (R := (Shape.node L x R).addrs) hnd ha (by simp only [Shape.addrs, List.count_append, List.count_cons, beq_self_eq_true, if_true]; omega)
  have n_X_u : ∀ a ∈ (Shape.node L x R).addrs, a ≠ u := fun a ha =>
    apart_of_count (R := (Shape.node L x R).addrs) hnd ha (by simp only [Shape.addrs, List.count_append, List.count_cons, beq_self_eq_true, if_true]; omega)
  have n_X_g : ∀ a ∈ (Shape.node L x R).addrs, a ≠ g := fun a ha =>
    apart_of_count (R := (Shape.node L x R).addrs) hnd ha (by simp only [Shape.addrs, List.count_append, List.count_cons, beq_self_eq_true, if_true]; omega)
  have n_Sp_p : ∀ a ∈ Sp.addrs, a ≠ p := fun a ha =>
    apart_of_count (R := Sp.addrs) hnd ha (by simp only [Shape.addrs, List.count_append, List.count_cons, beq_self_eq_true, if_true]; omega)
  have n_Sp_u : ∀ a ∈ Sp.addrs, a ≠ u := fun a ha =>
    apart_of_count (R := Sp.addrs) hnd ha (by simp only [Shape.addrs, List.count_append, List.count_cons, beq_self_eq_true, if_true]; omega)
  have n_Sp_g : ∀ a ∈ Sp.addrs, a ≠ g := fun a ha =>
    apart_of_count (R := Sp.addrs) hnd ha (by simp only [Shape.addrs, List.count_append, List.count_cons, beq_self_eq_true, if_true]; omega)
  have n_Ul_p : ∀ a ∈ Ul.addrs, a ≠ p := fun a ha =>
    apart_of_count (R := Ul.addrs) hnd ha (by simp only [Shape.addrs, List.count_append, List.count_cons, beq_self_eq_true, if_true]; omega)
  have n_Ul_u : ∀ a ∈ Ul.addrs, a ≠ u := fun a ha =>
    apart_of_count (R := Ul.addrs) hnd ha (by simp only [Shape.addrs, List.count_append, List.count_cons, beq_self_eq_true, if_true]; omega)
  have n_Ul_g : ∀ a ∈ Ul.addrs, a ≠ g := fun a ha =>
    apart_of_count (R := Ul.addrs) hnd ha (by simp only [Shape.addrs, List.count_append, List.count_cons, beq_self_eq_true, if_true]; omega)
  have n_Ur_p : ∀ a ∈ Ur.addrs, a ≠ p := fun a ha =>
    apart_of_count (R := Ur.addrs) hnd ha (by simp only [Shape.addrs, List.count_append, List.count_cons, beq_self_eq_true, if_true]; omega)
  have n_Ur_u : ∀ a ∈ Ur.addrs, a ≠ u := fun a ha =>
    apart_of_count (R := Ur.addrs) hnd ha (by simp only [Shape.addrs, List.count_append, List.count_cons, beq_self_eq_true, if_true]; omega)
  have n_Ur_g : ∀ a ∈ Ur.addrs, a ≠ g := fun a ha =>
    apart_of_count (R := Ur.addrs) hnd ha (by simp only [Shape.addrs, List.count_append, List.count_cons, beq_self_eq_true, if_true]; omega)
  have n_c_p : ∀ a ∈ (c2.pre ++ c2.post), a ≠ p := fun a ha =>
    apart_of_count (R := (c2.pre ++ c2.post)) hnd ha (by simp only [Shape.addrs, List.count_append, List.count_cons, beq_self_eq_true, if_true]; omega)
  have n_c_u : ∀ a ∈ (c2.pre ++ c2.post), a ≠ u := fun a ha =>
    apart_of_count (R := (c2.pre ++ c2.post)) hnd ha (by simp only [Shape.addrs, List.count_append, List.count_cons, beq_self_eq_true, if_true]; omega)
  have n_c_g : ∀ a ∈ (c2.pre ++ c2.post), a ≠ g := fun a ha =>
    apart_of_count (R := (c2.pre ++ c2.post)) hnd ha (by simp only [Shape.addrs, List.count_append, List.count_cons, beq_self_eq_true, if_true]; omega)
  have eX := (fun a ha => h3o a (n_X_p a ha) (n_X_u a ha) (n_X_g a ha))
  have eSp := (fun a ha => h3o a (n_Sp_p a ha) (n_Sp_u a ha) (n_Sp_g a ha))
  have eUl := (fun a ha => h3o a (n_Ul_p a ha) (n_Ul_u a ha) (n_Ul_g a ha))
  have eUr := (fun a ha => h3o a (n_Ur_p a ha) (n_Ur_u a ha) (n_Ur_g a ha))
  have ec := (fun a ha => h3o a (n_c_p a ha) (n_c_u a ha) (n_c_g a ha))
  have rP : RB h3 (.node Sp p (.node L x R)) (k + 1) :=
    RB.black_node h3p (hSp.transport eSp) (hrb.transport eX)
  have rU : RB h3 (.node Ul u Ur) (k + 1) := RB.black_node h3u (hUl.transport eUl) (hUr.transport eUr)
  exact ⟨RB.red_node h3g h3u h3p rU rP, hc2.transfer ec⟩

/-- Rebalancing with a BLACK or missing uncle, node a right child, parent a left child: the
colours after the rotations make a red-black tree. -/
theorem rb_rot_right_left {h h3 : Heap} {c2 : Ctx} {L R Sp U : Shape} {x p g k N : Nat}
    (hnd : ((Ctx.right (Ctx.left c2 g U) Sp p).plug (.node L x R)).addrs.Nodup)
    (hrb : RB h (.node L x R) k) (hxc : h.color x = .kRED)
    (hctx : CtxRB h (Ctx.right (Ctx.left c2 g U) Sp p) k .kBLACK N)
    (hp : h.color p = .kRED) (hu : U.rootColor h = .kBLACK)
    (h3b : h3.color x = .kBLACK) (h3g : h3.color g = .kRED)
    (h3o : ∀ a, a ≠ x → a ≠ g → h3.color a = h.color a) :
    RBT h3 (c2.plug (.node (.node Sp p L) x (.node R g U))) := by
  obtain ⟨-, hSpc, hSp, hc1⟩ := hctx.right_red hp
  obtain ⟨-, hU, hc2⟩ := hc1.left_of_red
  obtain ⟨hLc, hRc, hL, hR⟩ := hrb.red_parts hxc
  rw [plug_addrs] at hnd
  simp only [Ctx.pre, Ctx.post, Shape.addrs] at hnd
  have n_L_x : ∀ a ∈ L.addrs, a ≠ x := fun a ha =>
    apart_of_count (R := L.addrs) hnd ha (by simp only [Shape.addrs, List.count_append, List.count_cons, beq_self_eq_true, if_true]; omega)
  have n_L_g : ∀ a ∈ L.addrs, a ≠ g := fun a ha =>
    apart_of_count (R := L.addrs) hnd ha (by simp only [Shape.addrs, List.count_append, List.count_cons, beq_self_eq_true, if_true]; omega)
  have n_R_x : ∀ a ∈ R.addrs, a ≠ x := fun a ha =>
    apart_of_count (R := R.addrs) hnd ha (by simp only [Shape.addrs, List.count_append, List.count_cons, beq_self_eq_true, if_true]; omega)
  have n_R_g : ∀ a ∈ R.addrs, a ≠ g := fun a ha =>
    apart_of_count (R := R.addrs) hnd ha (by simp only [Shape.addrs, List.count_append, List.count_cons, beq_self_eq_true, if_true]; omega)
  have n_Sp_x : ∀ a ∈ Sp.addrs, a ≠ x := fun a ha =>
    apart_of_count (R := Sp.addrs) hnd ha (by simp only [Shape.addrs, List.count_append, List.count_cons, beq_self_eq_true, if_true]; omega)
  have n_Sp_g : ∀ a ∈ Sp.addrs, a ≠ g := fun a ha =>
    apart_of_count (R := Sp.addrs) hnd ha (by simp only [Shape.addrs, List.count_append, List.count_cons, beq_self_eq_true, if_true]; omega)
  have n_U_x : ∀ a ∈ U.addrs, a ≠ x := fun a ha =>
    apart_of_count (R := U.addrs) hnd ha (by simp only [Shape.addrs, List.count_append, List.count_cons, beq_self_eq_true, if_true]; omega)
  have n_U_g : ∀ a ∈ U.addrs, a ≠ g := fun a ha =>
    apart_of_count (R := U.addrs) hnd ha (by simp only [Shape.addrs, List.count_append, List.count_cons, beq_self_eq_true, if_true]; omega)
  have n_c_x : ∀ a ∈ (c2.pre ++ c2.post), a ≠ x := fun a ha =>
    apart_of_count (R := (c2.pre ++ c2.post)) hnd ha (by simp only [Shape.addrs, List.count_append, List.count_cons, beq_self_eq_true, if_true]; omega)
  have n_c_g : ∀ a ∈ (c2.pre ++ c2.post), a ≠ g := fun a ha =>
    apart_of_count (R := (c2.pre ++ c2.post)) hnd ha (by simp only [Shape.addrs, List.count_append, List.count_cons, beq_self_eq_true, if_true]; omega)
  have n_p_x : p ≠ x :=
    apart_of_count (R := [p]) hnd (mem_singleton_self_nat p) (by simp only [Shape.addrs, List.count_append, List.count_cons, beq_self_eq_true, if_true]; omega)
  have n_p_g : p ≠ g :=
    apart_of_count (R := [p]) hnd (mem_singleton_self_nat p) (by simp only [Shape.addrs, List.count_append, List.count_cons, beq_self_eq_true, if_true]; omega)
  have eL := (fun a ha => h3o a (n_L_x a ha) (n_L_g a ha))
  have eR := (fun a ha => h3o a (n_R_x a ha) (n_R_g a ha))
  have eSp := (fun a ha => h3o a (n_Sp_x a ha) (n_Sp_g a ha))
  have eU := (fun a ha => h3o a (n_U_x a ha) (n_U_g a ha))
  have ec := (fun a ha => h3o a (n_c_x a ha) (n_c_g a ha))
  have h3p : h3.color p = .kRED := by rw [h3o p n_p_x n_p_g]; exact hp
  have rG : RB h3 (.node R g U) k :=
    RB.red_node h3g (by rw [rootColor_congr eR]; exact hRc)
      (by rw [rootColor_congr eU]; exact hu)
      (hR.transport eR) (hU.transport eU)
  have rP : RB h3 (.node Sp p L) k :=
    RB.red_node h3p (by rw [rootColor_congr eSp]; exact hSpc)
      (by rw [rootColor_congr eL]; exact hLc)
      (hSp.transport eSp) (hL.transport eL)
  exact ⟨N, RB.plug (RB.black_node h3b rP rG)
    (by
      have : Shape.rootColor h3 (.node (.node Sp p L) x (.node R g U)) = .kBLACK := h3b
      rw [this]
      exact hc2.transfer ec)⟩

/-- Rebalancing with a RED uncle, node a right child, parent a left child: after the
recolouring the grandparent is a RED node on a red-black subtree, in a context
that is red-black around it. -/
theorem rb_rec_right_left {h h3 : Heap} {c2 : Ctx} {L R Sp Ul Ur : Shape}
    {x p g u k N : Nat}
    (hnd : ((Ctx.right (Ctx.left c2 g (.node Ul u Ur)) Sp p).plug (.node L x R)).addrs.Nodup)
    (hrb : RB h (.node L x R) k)
    (hctx : CtxRB h (Ctx.right (Ctx.left c2 g (.node Ul u Ur)) Sp p) k .kBLACK N)
    (hp : h.color p = .kRED) (hu : h.color u = .kRED)
    (h3p : h3.color p = .kBLACK) (h3u : h3.color u = .kBLACK) (h3g : h3.color g = .kRED)
    (h3o : ∀ a, a ≠ p → a ≠ u → a ≠ g → h3.color a = h.color a) :
    RB h3 (.node (.node Sp p (.node L x R)) g (.node Ul u Ur)) (k + 1) ∧ CtxRB h3 c2 (k + 1) .kBLACK N := by
  obtain ⟨-, hSpc, hSp, hc1⟩ := hctx.right_red hp
  obtain ⟨-, hU, hc2⟩ := hc1.left_of_red
  obtain ⟨hUlc, hUrc, hUl, hUr⟩ := hU.red_parts hu
  rw [plug_addrs] at hnd
  simp only [Ctx.pre, Ctx.post, Shape.addrs] at hnd
  have n_X_p : ∀ a ∈ (Shape.node L x R).addrs, a ≠ p := fun a ha =>
    apart_of_count (R := (Shape.node L x R).addrs) hnd ha (by simp only [Shape.addrs, List.count_append, List.count_cons, beq_self_eq_true, if_true]; omega)
  have n_X_u : ∀ a ∈ (Shape.node L x R).addrs, a ≠ u := fun a ha =>
    apart_of_count (R := (Shape.node L x R).addrs) hnd ha (by simp only [Shape.addrs, List.count_append, List.count_cons, beq_self_eq_true, if_true]; omega)
  have n_X_g : ∀ a ∈ (Shape.node L x R).addrs, a ≠ g := fun a ha =>
    apart_of_count (R := (Shape.node L x R).addrs) hnd ha (by simp only [Shape.addrs, List.count_append, List.count_cons, beq_self_eq_true, if_true]; omega)
  have n_Sp_p : ∀ a ∈ Sp.addrs, a ≠ p := fun a ha =>
    apart_of_count (R := Sp.addrs) hnd ha (by simp only [Shape.addrs, List.count_append, List.count_cons, beq_self_eq_true, if_true]; omega)
  have n_Sp_u : ∀ a ∈ Sp.addrs, a ≠ u := fun a ha =>
    apart_of_count (R := Sp.addrs) hnd ha (by simp only [Shape.addrs, List.count_append, List.count_cons, beq_self_eq_true, if_true]; omega)
  have n_Sp_g : ∀ a ∈ Sp.addrs, a ≠ g := fun a ha =>
    apart_of_count (R := Sp.addrs) hnd ha (by simp only [Shape.addrs, List.count_append, List.count_cons, beq_self_eq_true, if_true]; omega)
  have n_Ul_p : ∀ a ∈ Ul.addrs, a ≠ p := fun a ha =>
    apart_of_count (R := Ul.addrs) hnd ha (by simp only [Shape.addrs, List.count_append, List.count_cons, beq_self_eq_true, if_true]; omega)
  have n_Ul_u : ∀ a ∈ Ul.addrs, a ≠ u := fun a ha =>
    apart_of_count (R := Ul.addrs) hnd ha (by simp only [Shape.addrs, List.count_append, List.count_cons, beq_self_eq_true, if_true]; omega)
  have n_Ul_g : ∀ a ∈ Ul.addrs, a ≠ g := fun a ha =>
    apart_of_count (R := Ul.addrs) hnd ha (by simp only [Shape.addrs, List.count_append, List.count_cons, beq_self_eq_true, if_true]; omega)
  have n_Ur_p : ∀ a ∈ Ur.addrs, a ≠ p := fun a ha =>
    apart_of_count (R := Ur.addrs) hnd ha (by simp only [Shape.addrs, List.count_append, List.count_cons, beq_self_eq_true, if_true]; omega)
  have n_Ur_u : ∀ a ∈ Ur.addrs, a ≠ u := fun a ha =>
    apart_of_count (R := Ur.addrs) hnd ha (by simp only [Shape.addrs, List.count_append, List.count_cons, beq_self_eq_true, if_true]; omega)
  have n_Ur_g : ∀ a ∈ Ur.addrs, a ≠ g := fun a ha =>
    apart_of_count (R := Ur.addrs) hnd ha (by simp only [Shape.addrs, List.count_append, List.count_cons, beq_self_eq_true, if_true]; omega)
  have n_c_p : ∀ a ∈ (c2.pre ++ c2.post), a ≠ p := fun a ha =>
    apart_of_count (R := (c2.pre ++ c2.post)) hnd ha (by simp only [Shape.addrs, List.count_append, List.count_cons, beq_self_eq_true, if_true]; omega)
  have n_c_u : ∀ a ∈ (c2.pre ++ c2.post), a ≠ u := fun a ha =>
    apart_of_count (R := (c2.pre ++ c2.post)) hnd ha (by simp only [Shape.addrs, List.count_append, List.count_cons, beq_self_eq_true, if_true]; omega)
  have n_c_g : ∀ a ∈ (c2.pre ++ c2.post), a ≠ g := fun a ha =>
    apart_of_count (R := (c2.pre ++ c2.post)) hnd ha (by simp only [Shape.addrs, List.count_append, List.count_cons, beq_self_eq_true, if_true]; omega)
  have eX := (fun a ha => h3o a (n_X_p a ha) (n_X_u a ha) (n_X_g a ha))
  have eSp := (fun a ha => h3o a (n_Sp_p a ha) (n_Sp_u a ha) (n_Sp_g a ha))
  have eUl := (fun a ha => h3o a (n_Ul_p a ha) (n_Ul_u a ha) (n_Ul_g a ha))
  have eUr := (fun a ha => h3o a (n_Ur_p a ha) (n_Ur_u a ha) (n_Ur_g a ha))
  have ec := (fun a ha => h3o a (n_c_p a ha) (n_c_u a ha) (n_c_g a ha))
  have rP : RB h3 (.node Sp p (.node L x R)) (k + 1) :=
    RB.black_node h3p (hSp.transport eSp) (hrb.transport eX)
  have rU : RB h3 (.node Ul u Ur) (k + 1) := RB.black_node h3u (hUl.transport eUl) (hUr.transport eUr)
  exact ⟨RB.red_node h3g h3p h3u rP rU, hc2.transfer ec⟩

set_option maxHeartbeats 1600000 in
theorem balancingTreeRot_spec :
    ∀ (fuel : Nat) (t : Tree) (c : Ctx) (L R : Shape) (x : Nat),
      Lay t.heap (c.plug (.node L x R)) none →
      t.root_ = (c.plug (.node L x R)).root →
      (c.plug (.node L x R)).addrs.Nodup →
      (∀ r n, t.root_ = some r → r ≠ x → t.heap r = some n → n.color = .kBLACK) →
      c.depth + 2 ≤ fuel →
      ∃ t' s' r, balancingTreeRot fuel t (some x) = .ok (t', r) ∧ r ≤ 2 ∧ Lay t'.heap s' none ∧
        t'.root_ = s'.root ∧ s'.addrs = (c.plug (.node L x R)).addrs ∧ SamePairs t t' ∧
        (∀ a, a ∉ (c.plug (.node L x R)).addrs → t'.heap a = t.heap a) ∧
        (∀ k N, RB t.heap (.node L x R) k → t.heap.color x = .kRED →
          CtxRB t.heap c k .kBLACK N → RBT t'.heap s') := by
  intro fuel
  induction fuel with
  | zero => intro t c L R x _ _ _ _ hf; omega
  | succ n ih =>
    intro t c L R x hlay0 hroot hnd hblack hfuel
    have hlay := hlay0
    rw [repr_plug] at hlay
    obtain ⟨hc, nx, hx, hxp, hxl, hxr, hL, hR⟩ := hlay
    cases c with
    | top =>
      exact ⟨t, _, 0, balancingTreeRot_exit n t x nx hx (Or.inl (by rw [hxp]; rfl)), (by omega), hlay0, hroot,
        rfl, SamePairs.refl t, fun _ _ => rfl, fun k _ hrb _ _ => ⟨k, hrb⟩⟩
    | left c1 p Rp =>
      obtain ⟨np, hp, hpp, hpl, hpr, hRp, hc1⟩ := hc
      have hxpar : nx.parent = some p := by rw [hxp]; rfl
      by_cases hred : np.color = .kRED
      · cases c1 with
        | top =>
          exfalso
          have hr : t.root_ = some p := by rw [hroot, plug_root]; rfl
          have hpx : p ≠ x := by
            intro e
            rw [plug_addrs] at hnd
            have := (nodup_mid hnd).2.2 x (by simp [Shape.addrs])
            exact this (by simp [Ctx.pre, Ctx.post, e])
          have := hblack p np hr hpx hp
          rw [hred] at this
          exact absurd this (by decide)
        | left c2 g Rg =>
          obtain ⟨ng, hg, hgp, hgl, hgr, hRg, hc2⟩ := hc1
          have hppar : np.parent = some g := by rw [hpp]; rfl
          -- distinctness
          have hnd2 := hnd
          rw [plug_addrs] at hnd2
          simp only [Ctx.pre, Ctx.post, Shape.addrs] at hnd2
          obtain ⟨hmid, hctx, hsep⟩ := nodup_mid hnd2
          have hpost := (List.nodup_append.mp hctx).2.1
          simp only [List.cons_append, List.nodup_cons, List.mem_append, List.mem_cons,
            not_or] at hpost
          obtain ⟨⟨hpRp, hpg, hpRg, hpc2⟩, hRpnd⟩ := hpost
          have hgRg : g ∉ Rg.addrs := by
            have := (List.nodup_append.mp hRpnd).2.1
            simp only [List.nodup_cons, List.mem_append, not_or] at this
            exact this.1.1
          have hxp' : x ≠ p := fun e => hsep x (by simp) (by simp [e])
          have hxg : x ≠ g := fun e => hsep x (by simp) (by simp [e])
          have hpx : p ≠ x := fun e => hxp' e.symm
          have hgx : g ≠ x := fun e => hxg e.symm
          have hgp : g ≠ p := fun e => hpg e.symm
          have hxRp : Rp.root ≠ some x := fun e => hsep x (by simp) (by simp [root_mem e])
          have hxRp' : ¬ some x = Rp.root := fun e => hxRp e.symm
          have hpRg' : Rg.root ≠ some p := fun e => hpRg (root_mem e)
          have hpRg'' : ¬ some p = Rg.root := fun e => hpRg' e.symm
          have hdepth : c2.depth + 2 ≤ n := by simp only [Ctx.depth] at hfuel; omega
          simp only [Shape.root] at hpl
          have rotate_case : (Rg.root = none ∨ ∃ u nu, Rg.root = some u ∧ t.heap u = some nu ∧
              nu.color ≠ .kRED) →
              ∃ t' s' r, balancingTreeRot (n + 1) t (some x) = .ok (t', r) ∧ r ≤ 2 ∧
                Lay t'.heap s' none ∧
                t'.root_ = s'.root ∧
                s'.addrs = ((Ctx.left (Ctx.left c2 g Rg) p Rp).plug (.node L x R)).addrs ∧
                SamePairs t t' ∧
                (∀ a, a ∉ ((Ctx.left (Ctx.left c2 g Rg) p Rp).plug (.node L x R)).addrs → t'.heap a = t.heap a) ∧
                (∀ k N, RB t.heap (.node L x R) k → t.heap.color x = .kRED →
                  CtxRB t.heap (Ctx.left (Ctx.left c2 g Rg) p Rp) k .kBLACK N → RBT t'.heap s') := by
            -- BLACK or missing uncle, outer grandchild: one rotation at the grandparent
            intro hunc
            have h1 : (t.heap.set p (some { np with color := .kBLACK })) g = some ng := by
              rw [Heap.set_ne _ _ _ _ hgp, hg]
            obtain ⟨t3, hrot, hlay3, hroot3, hsame3, hfr3⟩ :=
              rotateRight_shape
                { t with heap := ((t.heap.set p (some { np with color := .kBLACK })).set g
                    (some { ng with color := .kRED })) }
                c2 (.node L x R) Rp Rg g p
                (by
                  apply Lay.congr _ _ _ hlay0
                  intro a _
                  dsimp only
                  rw [links_set_color _ _ _ _ h1, links_set_color _ _ _ _ hp])
                hroot hnd
            have hlay3' := hlay3
            rw [repr_plug] at hlay3'
            obtain ⟨_, np3, hp3, _, hp3l, _, ⟨nx3, hx3, hx3p, _⟩, _⟩ := hlay3'
            have hcol : np3.color = .kBLACK := by
              have := hsame3.color p
              dsimp only at this
              rw [hp3, Heap.set_ne _ _ _ _ hpg, Heap.set_same] at this
              simpa using this
            have hexit : balancingTreeRot n t3 (some x) = .ok (t3, 0) := by
              obtain ⟨n', rfl⟩ : ∃ n', n = n' + 1 := ⟨n - 1, by omega⟩
              exact balancingTreeRot_exit n' t3 x nx3 hx3
                (Or.inr ⟨p, np3, hx3p, hp3, by rw [hcol]; decide⟩)
            simp only [hgl, hppar, hpl, hpr, hgr] at hrot
            refine ⟨t3, _, 1, ?_, (by omega), hlay3, hroot3, ?_, ?_, ?_, ?_⟩
            · rw [balancingTreeRot]
              rcases hunc with h0 | ⟨u, nu, hu, hnu, hnc⟩
              · simp only [h0] at hrot
                simp only [Tree.parent, Tree.color, Tree.left, Tree.right,
                  Tree.setColor, Heap.read, Heap.modify, Heap.set_same, Heap.set_ne, hx, hp, hg,
                  hxpar, hppar, hgl, hgr, hpl, hpr, hred, h0, hgp, hpg, hxRp',
                  bind_ok, pure_eq_ok, Option.isSome_some, Option.isNone_some,
                  Option.isSome_none, Bool.false_eq_true,
                  if_true, if_false, ne_eq, not_true_eq_false, not_false_eq_true, and_self,
                  and_false, false_and, and_true, true_and, reduceCtorEq, hrot, hexit]
              · have hup : ¬ p = u := fun e => hpRg (root_mem (e ▸ hu))
                simp only [hu] at hrot
                simp only [Tree.parent, Tree.color, Tree.left, Tree.right,
                  Tree.setColor, Heap.read, Heap.modify, Heap.set_same, Heap.set_ne, hx, hp, hg,
                  hxpar, hppar, hgl, hgr, hpl, hpr, hred, hu, hnu, hnc, hgp, hpg, hxRp', hup,
                  bind_ok, pure_eq_ok, Option.isSome_some, Option.isNone_some,
                  Option.isSome_none, Bool.false_eq_true, Option.some.injEq,
                  if_true, if_false, ne_eq, not_true_eq_false, not_false_eq_true, and_self,
                  and_false, false_and, and_true, true_and, reduceCtorEq, hrot, hexit]
            · simp only [plug_addrs, Shape.addrs, Ctx.pre, Ctx.post, List.append_assoc,
                List.cons_append, List.nil_append]
            · refine SamePairs.trans ?_ hsame3.samePairs
              refine ⟨?_, rfl, rfl, rfl, rfl⟩
              intro a
              dsimp only
              rw [kv_set_color _ _ _ _ h1, kv_set_color _ _ _ _ hp]
            · intro a ha
              have ha' := ha
              simp only [plug_addrs, Shape.addrs, Ctx.pre, Ctx.post, List.mem_append, List.mem_cons,
                not_or] at ha'
              rw [hfr3 a (by
                simpa only [plug_addrs, Shape.addrs, Ctx.pre, Ctx.post, List.append_assoc,
                  List.cons_append, List.nil_append] using ha)]
              dsimp only
              rw [Heap.set_ne _ _ _ _ (by tauto), Heap.set_ne _ _ _ _ (by tauto)]
            · intro k N hrb hxc hctx
              obtain ⟨c3p, c3g, c3o⟩ :=
                recolor2_colors t.heap p g np ng .kBLACK .kRED hpg t3.heap hsame3.color
              exact rb_rot_left_left hnd hrb hxc hctx (by rw [color_of_cell hp]; exact hred)
                (rootColor_black_of hunc) c3p c3g c3o
          cases Rg with
          | nil => exact rotate_case (Or.inl rfl)
          | node Ul u Ur =>
            obtain ⟨nu, hnu, -⟩ := hRg
            by_cases hnuc : nu.color = .kRED
            · -- RED uncle: recolour and continue from the grandparent
              have hum : u ∈ (Shape.node Ul u Ur).addrs := by simp [Shape.addrs]
              have hup : u ≠ p := fun e => hpRg (e ▸ hum)
              have hug : u ≠ g := fun e => hgRg (e ▸ hum)
              have hpu : p ≠ u := fun e => hup e.symm
              have hgu : g ≠ u := fun e => hug e.symm
              have h1 : (t.heap.set p (some { np with color := .kBLACK })) u = some nu := by
                rw [Heap.set_ne _ _ _ _ hup, hnu]
              have h2 : ((t.heap.set p (some { np with color := .kBLACK })).set u
                  (some { nu with color := .kBLACK })) g = some ng := by
                rw [Heap.set_ne _ _ _ _ hgu, Heap.set_ne _ _ _ _ hgp, hg]
              obtain ⟨t', s', r', hbal, hr', hlay', hroot', haddrs', hsame', hfr', hrb'⟩ :=
                ih { t with heap := ((t.heap.set p (some { np with color := .kBLACK })).set u
                      (some { nu with color := .kBLACK })).set g (some { ng with color := .kRED }) }
                  c2 (.node (.node L x R) p Rp) (.node Ul u Ur) g
                  (by
                    apply Lay.congr _ _ _ hlay0
                    intro a _
                    dsimp only
                    rw [links_set_color _ _ _ _ h2, links_set_color _ _ _ _ h1,
                      links_set_color _ _ _ _ hp])
                  hroot hnd
                  (by
                    apply root_black_climb t c2 (.node (.node (.node L x R) p Rp) g
                      (.node Ul u Ur)) x g hroot rfl hnd (by simp [Shape.addrs]) hblack
                    intro a hag
                    dsimp only
                    rw [Heap.set_ne _ _ _ _ hag]
                    by_cases hau : a = u
                    · subst hau
                      exact Or.inr ⟨_, Heap.set_same _ _ _, rfl⟩
                    · rw [Heap.set_ne _ _ _ _ hau]
                      by_cases hap : a = p
                      · subst hap
                        exact Or.inr ⟨_, Heap.set_same _ _ _, rfl⟩
                      · exact Or.inl (Heap.set_ne _ _ _ _ hap))
                  hdepth
              simp only [Shape.root] at hgr
              refine ⟨t', s', r', ?_, hr', hlay', hroot', haddrs', ?_, ?_, ?_⟩
              · rw [balancingTreeRot]
                simp only [hgr, hppar, hgl, hpl, hpr, hred, hnuc] at hbal
                simp only [Tree.parent, Tree.color, Tree.left, Tree.right,
                  Tree.setColor, Heap.read, Heap.modify, Heap.set_same, Heap.set_ne, hx, hp, hg,
                  hnu, hxpar, hppar, hgl, hgr, hpl, hpr, hred, hnuc, hup, hug, hgp, hpg, hpu, hgu,
                  bind_ok, pure_eq_ok, Option.isSome_some, Option.isNone_some,
                  Bool.false_eq_true, if_true, if_false, ne_eq, not_true_eq_false,
                  not_false_eq_true, and_self, hbal]
              · refine SamePairs.trans ?_ hsame'
                refine ⟨?_, rfl, rfl, rfl, rfl⟩
                intro a
                dsimp only
                rw [kv_set_color _ _ _ _ h2, kv_set_color _ _ _ _ h1, kv_set_color _ _ _ _ hp]
              · intro a ha
                have ha' := ha
                simp only [plug_addrs, Shape.addrs, Ctx.pre, Ctx.post, List.mem_append, List.mem_cons,
                  not_or] at ha'
                rw [hfr' a (by
                  simpa only [plug_addrs, Shape.addrs, Ctx.pre, Ctx.post, List.append_assoc,
                    List.cons_append, List.nil_append] using ha)]
                dsimp only
                rw [Heap.set_ne _ _ _ _ (by tauto), Heap.set_ne _ _ _ _ (by tauto),
                  Heap.set_ne _ _ _ _ (by tauto)]
              · intro k N hrb hxc hctx
                obtain ⟨c3p, c3u, c3g, c3o⟩ := recolor3_colors t.heap p u g np nu ng hpu hpg hug
                obtain ⟨r1, r2⟩ := rb_rec_left_left hnd hrb hctx
                  (by rw [color_of_cell hp]; exact hred) (by rw [color_of_cell hnu]; exact hnuc)
                  c3p c3u c3g c3o
                exact hrb' (k + 1) N r1 c3g r2
            · exact rotate_case (Or.inr ⟨u, nu, rfl, hnu, hnuc⟩)
        | right c2 Lg g =>
          obtain ⟨ng, hg, hgp, hgl, hgr, hLg, hc2⟩ := hc1
          have hppar : np.parent = some g := by rw [hpp]; rfl
          -- distinctness
          have hnd2 := hnd
          rw [plug_addrs] at hnd2
          simp only [Ctx.pre, Ctx.post, Shape.addrs] at hnd2
          obtain ⟨hmid, hctx, hsep⟩ := nodup_mid hnd2
          have hpre : ∀ a ∈ Lg.addrs ++ [g], a ∉ (p :: Rp.addrs) ++ c2.post := by
            intro a ha hb
            have h1 := (List.nodup_append.mp hctx).2.2
            exact List.disjoint_left.mp h1 (List.mem_append_right _ ha) hb
          have hpg : p ≠ g := fun e => hpre g (by simp) (by simp [e])
          have hgp' : g ≠ p := fun e => hpg e.symm
          have hpLg : p ∉ Lg.addrs := fun e => hpre p (by simp [e]) (by simp)
          have hgLg : g ∉ Lg.addrs := by
            have h1 := (List.nodup_append.mp (List.nodup_append.mp hctx).1).2.1
            exact (nodup_node h1).2.2.1
          have hxp' : x ≠ p := fun e => hsep x (by simp) (by simp [e])
          have hxg : x ≠ g := fun e => hsep x (by simp) (by simp [e])
          have hpx : p ≠ x := fun e => hxp' e.symm
          have hgx : g ≠ x := fun e => hxg e.symm
          have hxRp' : ¬ some x = Rp.root :=
            fun e => hsep x (by simp) (by simp [root_mem e.symm])
          have hxLg : ¬ some x = Lg.root :=
            fun e => hsep x (by simp) (by simp [root_mem e.symm])
          have hpLg' : ¬ some p = Lg.root := fun e => hpLg (root_mem e.symm)
          have hdepth : c2.depth + 2 ≤ n := by simp only [Ctx.depth] at hfuel; omega
          simp only [Shape.root] at hpl
          have rotate_case : (Lg.root = none ∨ ∃ u nu, Lg.root = some u ∧ t.heap u = some nu ∧
              nu.color ≠ .kRED) →
              ∃ t' s' r, balancingTreeRot (n + 1) t (some x) = .ok (t', r) ∧ r ≤ 2 ∧
                Lay t'.heap s' none ∧
                t'.root_ = s'.root ∧
                s'.addrs = ((Ctx.left (Ctx.right c2 Lg g) p Rp).plug (.node L x R)).addrs ∧
                SamePairs t t' ∧
                (∀ a, a ∉ ((Ctx.left (Ctx.right c2 Lg g) p Rp).plug (.node L x R)).addrs → t'.heap a = t.heap a) ∧
                (∀ k N, RB t.heap (.node L x R) k → t.heap.color x = .kRED →
                  CtxRB t.heap (Ctx.left (Ctx.right c2 Lg g) p Rp) k .kBLACK N → RBT t'.heap s') := by
            -- BLACK or missing uncle, inner grandchild: rotate at the parent, then at
            -- the grandparent
            intro hunc
            obtain ⟨t1, hrot1, hlay1, hroot1, hsame1, hfr1⟩ :=
              rotateRight_shape t (Ctx.right c2 Lg g) L R Rp p x hlay0 hroot hnd
            have hlay1' := hlay1
            rw [repr_plug] at hlay1'
            obtain ⟨⟨ng1, hg1, hg1p, hg1l, hg1r, -, -⟩, nx1, hx1, hx1p, hx1l, hx1r, -,
              np1, hp1, hp1p, -⟩ := hlay1'
            simp only [Shape.root] at hg1r hx1r
            have hx1par : nx1.parent = some g := by rw [hx1p]; rfl
            have h1 : (t1.heap.set x (some { nx1 with color := .kBLACK })) g = some ng1 := by
              rw [Heap.set_ne _ _ _ _ hgx, hg1]
            have hnd1 : ((Ctx.right c2 Lg g).plug (.node L x (.node R p Rp))).addrs.Nodup := by
              have : ((Ctx.right c2 Lg g).plug (.node L x (.node R p Rp))).addrs =
                  ((Ctx.left (Ctx.right c2 Lg g) p Rp).plug (.node L x R)).addrs := by
                simp only [plug_addrs, Shape.addrs, Ctx.pre, Ctx.post, List.append_assoc,
                  List.cons_append, List.nil_append]
              rw [this]; exact hnd
            obtain ⟨t4, hrot2, hlay4, hroot4, hsame4, hfr4⟩ :=
              rotateLeft_shape
                { t1 with heap := ((t1.heap.set x (some { nx1 with color := .kBLACK })).set g
                    (some { ng1 with color := .kRED })) }
                c2 Lg L (.node R p Rp) g x
                (by
                  apply Lay.congr _ _ _ hlay1
                  intro a _
                  dsimp only
                  rw [links_set_color _ _ _ _ h1, links_set_color _ _ _ _ hx1])
                hroot1 hnd1
            have hlay4' := hlay4
            rw [repr_plug] at hlay4'
            obtain ⟨-, nx4, hx4, -, -, -, -, np4, hp4, hp4p, -⟩ := hlay4'
            have hcol : nx4.color = .kBLACK := by
              have := hsame4.color x
              dsimp only at this
              rw [hx4, Heap.set_ne _ _ _ _ hxg, Heap.set_same] at this
              simpa using this
            have hexit : balancingTreeRot n t4 (some p) = .ok (t4, 0) := by
              obtain ⟨n', rfl⟩ : ∃ n', n = n' + 1 := ⟨n - 1, by omega⟩
              exact balancingTreeRot_exit n' t4 p np4 hp4
                (Or.inr ⟨x, nx4, hp4p, hx4, by rw [hcol]; decide⟩)
            simp only [hg1l, hx1par, hx1l, hx1r, hg1r] at hrot2
            refine ⟨t4, _, 2, ?_, (by omega), hlay4, hroot4, ?_, ?_, ?_, ?_⟩
            · rw [balancingTreeRot]
              rcases hunc with h0 | ⟨u, nu, hu, hnu, hnc⟩
              · simp only [h0] at hrot2
                simp only [Tree.parent, Tree.color, Tree.left, Tree.right,
                  Tree.setColor, Heap.read, Heap.modify, Heap.set_same, Heap.set_ne, hx, hp, hg,
                  hxpar, hppar, hgl, hgr, hpl, hpr, hred, h0, hgp', hpg, hxRp', hgx, hxg,
                  hx1, hp1, hg1, hp1p, hg1l, hxLg, hx1par, hx1l, hx1r, hg1r,
                  bind_ok, pure_eq_ok, Option.isSome_some, Option.isNone_some,
                  Option.isSome_none, Bool.false_eq_true,
                  if_true, if_false, ne_eq, not_true_eq_false, not_false_eq_true, and_self,
                  and_false, false_and, and_true, true_and, reduceCtorEq, hrot1, hrot2, hexit]
              · have hup : ¬ p = u := fun e => hpLg (root_mem (e ▸ hu))
                have hxu : ¬ x = u :=
                  fun e => hsep x (by simp) (by simp [root_mem (e ▸ hu)])
                simp only [hu] at hrot2
                simp only [Tree.parent, Tree.color, Tree.left, Tree.right,
                  Tree.setColor, Heap.read, Heap.modify, Heap.set_same, Heap.set_ne, hx, hp, hg,
                  hxpar, hppar, hgl, hgr, hpl, hpr, hred, hu, hnu, hnc, hgp', hpg, hxRp', hup,
                  hgx, hxg, hx1, hp1, hg1, hp1p, hg1l, hxu, hx1par, hx1l, hx1r, hg1r,
                  bind_ok, pure_eq_ok, Option.isSome_some, Option.isNone_some,
                  Option.isSome_none, Bool.false_eq_true, Option.some.injEq,
                  if_true, if_false, ne_eq, not_true_eq_false, not_false_eq_true, and_self,
                  and_false, false_and, and_true, true_and, reduceCtorEq, hrot1, hrot2, hexit]
            · simp only [plug_addrs, Shape.addrs, Ctx.pre, Ctx.post, List.append_assoc,
                List.cons_append, List.nil_append]
            · refine SamePairs.trans hsame1.samePairs (SamePairs.trans ?_ hsame4.samePairs)
              refine ⟨?_, rfl, rfl, rfl, rfl⟩
              intro a
              dsimp only
              rw [kv_set_color _ _ _ _ h1, kv_set_color _ _ _ _ hx1]
            · intro a ha
              have ha' := ha
              simp only [plug_addrs, Shape.addrs, Ctx.pre, Ctx.post, List.mem_append, List.mem_cons,
                not_or] at ha'
              rw [hfr4 a (by
                simpa only [plug_addrs, Shape.addrs, Ctx.pre, Ctx.post, List.append_assoc,
                  List.cons_append, List.nil_append] using ha)]
              dsimp only
              rw [Heap.set_ne _ _ _ _ (by tauto), Heap.set_ne _ _ _ _ (by tauto)]
              exact hfr1 a (by
                simpa only [plug_addrs, Shape.addrs, Ctx.pre, Ctx.post, List.append_assoc,
                  List.cons_append, List.nil_append] using ha)
            · intro k N hrb hxc hctx
              obtain ⟨c4x, c4g, c4o⟩ :=
                recolor2_colors t1.heap x g nx1 ng1 .kBLACK .kRED hxg t4.heap hsame4.color
              exact rb_rot_left_right hnd hrb hxc hctx (by rw [color_of_cell hp]; exact hred)
                (rootColor_black_of hunc) c4x c4g
                (fun a h1 h2 => (c4o a h1 h2).trans (color_of_map (hsame1.color a)))
          cases Lg with
          | nil => exact rotate_case (Or.inl rfl)
          | node Ul u Ur =>
            obtain ⟨nu, hnu, -⟩ := hLg
            by_cases hnuc : nu.color = .kRED
            · -- RED uncle: recolour and continue from the grandparent
              have hum : u ∈ (Shape.node Ul u Ur).addrs := by simp [Shape.addrs]
              have hup : u ≠ p := fun e => hpLg (e ▸ hum)
              have hug : u ≠ g := fun e => hgLg (e ▸ hum)
              have hpu : p ≠ u := fun e => hup e.symm
              have hgu : g ≠ u := fun e => hug e.symm
              have h1 : (t.heap.set p (some { np with color := .kBLACK })) u = some nu := by
                rw [Heap.set_ne _ _ _ _ hup, hnu]
              have h2 : ((t.heap.set p (some { np with color := .kBLACK })).set u
                  (some { nu with color := .kBLACK })) g = some ng := by
                rw [Heap.set_ne _ _ _ _ hgu, Heap.set_ne _ _ _ _ hgp', hg]
              obtain ⟨t', s', r', hbal, hr', hlay', hroot', haddrs', hsame', hfr', hrb'⟩ :=
                ih { t with heap := ((t.heap.set p (some { np with color := .kBLACK })).set u
                      (some { nu with color := .kBLACK })).set g (some { ng with color := .kRED }) }
                  c2 (.node Ul u Ur) (.node (.node L x R) p Rp) g
                  (by
                    apply Lay.congr _ _ _ hlay0
                    intro a _
                    dsimp only
                    rw [links_set_color _ _ _ _ h2, links_set_color _ _ _ _ h1,
                      links_set_color _ _ _ _ hp])
                  hroot hnd
                  (by
                    apply root_black_climb t c2 (.node (.node Ul u Ur) g
                      (.node (.node L x R) p Rp)) x g hroot rfl hnd (by simp [Shape.addrs]) hblack
                    intro a hag
                    dsimp only
                    rw [Heap.set_ne _ _ _ _ hag]
                    by_cases hau : a = u
                    · subst hau
                      exact Or.inr ⟨_, Heap.set_same _ _ _, rfl⟩
                    · rw [Heap.set_ne _ _ _ _ hau]
                      by_cases hap : a = p
                      · subst hap
                        exact Or.inr ⟨_, Heap.set_same _ _ _, rfl⟩
                      · exact Or.inl (Heap.set_ne _ _ _ _ hap))
                  hdepth
              simp only [Shape.root] at hgl
              refine ⟨t', s', r', ?_, hr', hlay', hroot', haddrs', ?_, ?_, ?_⟩
              · rw [balancingTreeRot]
                simp only [hgr, hppar, hgl, hpl, hpr, hred, hnuc] at hbal
                simp only [Tree.parent, Tree.color, Tree.left, Tree.right,
                  Tree.setColor, Heap.read, Heap.modify, Heap.set_same, Heap.set_ne, hx, hp, hg,
                  hnu, hxpar, hppar, hgl, hgr, hpl, hpr, hred, hnuc, hup, hug, hgp', hpg, hpu,
                  hgu, bind_ok, pure_eq_ok, Option.isSome_some, Option.isNone_some,
                  Bool.false_eq_true, if_true, if_false, ne_eq, not_true_eq_false,
                  not_false_eq_true, and_self, Option.some.injEq, reduceCtorEq, hbal]
              · refine SamePairs.trans ?_ hsame'
                refine ⟨?_, rfl, rfl, rfl, rfl⟩
                intro a
                dsimp only
                rw [kv_set_color _ _ _ _ h2, kv_set_color _ _ _ _ h1, kv_set_color _ _ _ _ hp]
              · intro a ha
                have ha' := ha
                simp only [plug_addrs, Shape.addrs, Ctx.pre, Ctx.post, List.mem_append, List.mem_cons,
                  not_or] at ha'
                rw [hfr' a (by
                  simpa only [plug_addrs, Shape.addrs, Ctx.pre, Ctx.post, List.append_assoc,
                    List.cons_append, List.nil_append] using ha)]
                dsimp only
                rw [Heap.set_ne _ _ _ _ (by tauto), Heap.set_ne _ _ _ _ (by tauto),
                  Heap.set_ne _ _ _ _ (by tauto)]
              · intro k N hrb hxc hctx
                obtain ⟨c3p, c3u, c3g, c3o⟩ := recolor3_colors t.heap p u g np nu ng hpu hpg hug
                obtain ⟨r1, r2⟩ := rb_rec_left_right hnd hrb hctx
                  (by rw [color_of_cell hp]; exact hred) (by rw [color_of_cell hnu]; exact hnuc)
                  c3p c3u c3g c3o
                exact hrb' (k + 1) N r1 c3g r2
            · exact rotate_case (Or.inr ⟨u, nu, rfl, hnu, hnuc⟩)
      · exact ⟨t, _, 0, balancingTreeRot_exit n t x nx hx (Or.inr ⟨p, np, hxpar, hp, hred⟩), (by omega), hlay0,
          hroot, rfl, SamePairs.refl t, fun _ _ => rfl, fun _ N hrb _ hctx =>
            ⟨N, RB.plug hrb (CtxRB.left_black hctx (by rw [color_of_cell hp]; exact hred))⟩⟩
    | right c1 Lp p =>
      obtain ⟨np, hp, hpp, hpl, hpr, hLp, hc1⟩ := hc
      have hxpar : nx.parent = some p := by rw [hxp]; rfl
      by_cases hred : np.color = .kRED
      · cases c1 with
        | top =>
          exfalso
          have hr : t.root_ = some p := by rw [hroot, plug_root]; rfl
          have hpx : p ≠ x := by
            intro e
            rw [plug_addrs] at hnd
            have := (nodup_mid hnd).2.2 x (by simp [Shape.addrs])
            exact this (by simp [Ctx.pre, Ctx.post, e])
          have := hblack p np hr hpx hp
          rw [hred] at this
          exact absurd this (by decide)
        | right c2 Lg g =>
          obtain ⟨ng, hg, hgp, hgl, hgr, hLg, hc2⟩ := hc1
          have hppar : np.parent = some g := by rw [hpp]; rfl
          -- distinctness
          have hnd2 := hnd
          rw [plug_addrs] at hnd2
          simp only [Ctx.pre, Ctx.post, Shape.addrs] at hnd2
          obtain ⟨hmid, hctx, hsep⟩ := nodup_mid hnd2
          have hpre := (List.nodup_append.mp hctx).1
          obtain ⟨hLgg, hLpp, hsepLp⟩ := @nodup_mid (c2.pre ++ (Lg.addrs ++ [g]))
            (Lp.addrs ++ [p]) [] (by simpa using hpre)
          have hpg : p ≠ g := fun e => hsepLp p (by simp) (by simp [e])
          have hgp' : g ≠ p := fun e => hpg e.symm
          have hpLg : p ∉ Lg.addrs := fun e => hsepLp p (by simp) (by simp [e])
          have hgLg : g ∉ Lg.addrs := by
            have h1 : (c2.pre ++ (Lg.addrs ++ [g])).Nodup := by simpa using hLpp
            exact (nodup_node (List.nodup_append.mp h1).2.1).2.2.1
          have hxp' : x ≠ p := fun e => hsep x (by simp) (by simp [e])
          have hxg : x ≠ g := fun e => hsep x (by simp) (by simp [e])
          have hpx : p ≠ x := fun e => hxp' e.symm
          have hgx : g ≠ x := fun e => hxg e.symm
          have hxLp' : ¬ some x = Lp.root :=
            fun e => hsep x (by simp) (by simp [root_mem e.symm])
          have hpLg' : ¬ some p = Lg.root := fun e => hpLg (root_mem e.symm)
          have hdepth : c2.depth + 2 ≤ n := by simp only [Ctx.depth] at hfuel; omega
          simp only [Shape.root] at hpr
          have rotate_case : (Lg.root = none ∨ ∃ u nu, Lg.root = some u ∧ t.heap u = some nu ∧
              nu.color ≠ .kRED) →
              ∃ t' s' r, balancingTreeRot (n + 1) t (some x) = .ok (t', r) ∧ r ≤ 2 ∧
                Lay t'.heap s' none ∧
                t'.root_ = s'.root ∧
                s'.addrs = ((Ctx.right (Ctx.right c2 Lg g) Lp p).plug (.node L x R)).addrs ∧
                SamePairs t t' ∧
                (∀ a, a ∉ ((Ctx.right (Ctx.right c2 Lg g) Lp p).plug (.node L x R)).addrs → t'.heap a = t.heap a) ∧
                (∀ k N, RB t.heap (.node L x R) k → t.heap.color x = .kRED →
                  CtxRB t.heap (Ctx.right (Ctx.right c2 Lg g) Lp p) k .kBLACK N → RBT t'.heap s') := by
            -- BLACK or missing uncle, outer grandchild: one rotation at the grandparent
            intro hunc
            have h1 : (t.heap.set p (some { np with color := .kBLACK })) g = some ng := by
              rw [Heap.set_ne _ _ _ _ hgp', hg]
            obtain ⟨t3, hrot, hlay3, hroot3, hsame3, hfr3⟩ :=
              rotateLeft_shape
                { t with heap := ((t.heap.set p (some { np with color := .kBLACK })).set g
                    (some { ng with color := .kRED })) }
                c2 Lg Lp (.node L x R) g p
                (by
                  apply Lay.congr _ _ _ hlay0
                  intro a _
                  dsimp only
                  rw [links_set_color _ _ _ _ h1, links_set_color _ _ _ _ hp])
                hroot hnd
            have hlay3' := hlay3
            rw [repr_plug] at hlay3'
            obtain ⟨-, np3, hp3, -, -, -, -, nx3, hx3, hx3p, -⟩ := hlay3'
            have hcol : np3.color = .kBLACK := by
              have := hsame3.color p
              dsimp only at this
              rw [hp3, Heap.set_ne _ _ _ _ hpg, Heap.set_same] at this
              simpa using this
            have hexit : balancingTreeRot n t3 (some x) = .ok (t3, 0) := by
              obtain ⟨n', rfl⟩ : ∃ n', n = n' + 1 := ⟨n - 1, by omega⟩
              exact balancingTreeRot_exit n' t3 x nx3 hx3
                (Or.inr ⟨p, np3, hx3p, hp3, by rw [hcol]; decide⟩)
            simp only [hgl, hgr, hppar, hpl, hpr] at hrot
            refine ⟨t3, _, 1, ?_, (by omega), hlay3, hroot3, ?_, ?_, ?_, ?_⟩
            · rw [balancingTreeRot]
              rcases hunc with h0 | ⟨u, nu, hu, hnu, hnc⟩
              · simp only [h0] at hrot
                simp only [Tree.parent, Tree.color, Tree.left, Tree.right,
                  Tree.setColor, Heap.read, Heap.modify, Heap.set_same, Heap.set_ne, hx, hp, hg,
                  hxpar, hppar, hgl, hgr, hpl, hpr, hred, h0, hgp', hpg, hxLp',
                  bind_ok, pure_eq_ok, Option.isSome_some, Option.isNone_some,
                  Option.isSome_none, Bool.false_eq_true,
                  if_true, if_false, ne_eq, not_true_eq_false, not_false_eq_true, and_self,
                  and_false, false_and, and_true, true_and, reduceCtorEq, hrot, hexit]
              · have hup : ¬ p = u := fun e => hpLg (root_mem (e ▸ hu))
                simp only [hu] at hrot
                simp only [Tree.parent, Tree.color, Tree.left, Tree.right,
                  Tree.setColor, Heap.read, Heap.modify, Heap.set_same, Heap.set_ne, hx, hp, hg,
                  hxpar, hppar, hgl, hgr, hpl, hpr, hred, hu, hnu, hnc, hgp', hpg, hxLp', hup,
                  bind_ok, pure_eq_ok, Option.isSome_some, Option.isNone_some,
                  Option.isSome_none, Bool.false_eq_true, Option.some.injEq,
                  if_true, if_false, ne_eq, not_true_eq_false, not_false_eq_true, and_self,
                  and_false, false_and, and_true, true_and, reduceCtorEq, hrot, hexit]
            · simp only [plug_addrs, Shape.addrs, Ctx.pre, Ctx.post, List.append_assoc,
                List.cons_append, List.nil_append]
            · refine SamePairs.trans ?_ hsame3.samePairs
              refine ⟨?_, rfl, rfl, rfl, rfl⟩
              intro a
              dsimp only
              rw [kv_set_color _ _ _ _ h1, kv_set_color _ _ _ _ hp]
            · intro a ha
              have ha' := ha
              simp only [plug_addrs, Shape.addrs, Ctx.pre, Ctx.post, List.mem_append, List.mem_cons,
                not_or] at ha'
              rw [hfr3 a (by
                simpa only [plug_addrs, Shape.addrs, Ctx.pre, Ctx.post, List.append_assoc,
                  List.cons_append, List.nil_append] using ha)]
              dsimp only
              rw [Heap.set_ne _ _ _ _ (by tauto), Heap.set_ne _ _ _ _ (by tauto)]
            · intro k N hrb hxc hctx
              obtain ⟨c3p, c3g, c3o⟩ :=
                recolor2_colors t.heap p g np ng .kBLACK .kRED hpg t3.heap hsame3.color
              exact rb_rot_right_right hnd hrb hxc hctx (by rw [color_of_cell hp]; exact hred)
                (rootColor_black_of hunc) c3p c3g c3o
          cases Lg with
          | nil => exact rotate_case (Or.inl rfl)
          | node Ul u Ur =>
            obtain ⟨nu, hnu, -⟩ := hLg
            by_cases hnuc : nu.color = .kRED
            · -- RED uncle: recolour and continue from the grandparent
              have hum : u ∈ (Shape.node Ul u Ur).addrs := by simp [Shape.addrs]
              have hup : u ≠ p := fun e => hpLg (e ▸ hum)
              have hug : u ≠ g := fun e => hgLg (e ▸ hum)
              have hpu : p ≠ u := fun e => hup e.symm
              have hgu : g ≠ u := fun e => hug e.symm
              have h1 : (t.heap.set p (some { np with color := .kBLACK })) u = some nu := by
                rw [Heap.set_ne _ _ _ _ hup, hnu]
              have h2 : ((t.heap.set p (some { np with color := .kBLACK })).set u
                  (some { nu with color := .kBLACK })) g = some ng := by
                rw [Heap.set_ne _ _ _ _ hgu, Heap.set_ne _ _ _ _ hgp', hg]
              obtain ⟨t', s', r', hbal, hr', hlay', hroot', haddrs', hsame', hfr', hrb'⟩ :=
                ih { t with heap := ((t.heap.set p (some { np with color := .kBLACK })).set u
                      (some { nu with color := .kBLACK })).set g (some { ng with color := .kRED }) }
                  c2 (.node Ul u Ur) (.node Lp p (.node L x R)) g
                  (by
                    apply Lay.congr _ _ _ hlay0
                    intro a _
                    dsimp only
                    rw [links_set_color _ _ _ _ h2, links_set_color _ _ _ _ h1,
                      links_set_color _ _ _ _ hp])
                  hroot hnd
                  (by
                    apply root_black_climb t c2 (.node (.node Ul u Ur) g
                      (.node Lp p (.node L x R))) x g hroot rfl hnd (by simp [Shape.addrs]) hblack
                    intro a hag
                    dsimp only
                    rw [Heap.set_ne _ _ _ _ hag]
                    by_cases hau : a = u
                    · subst hau
                      exact Or.inr ⟨_, Heap.set_same _ _ _, rfl⟩
                    · rw [Heap.set_ne _ _ _ _ hau]
                      by_cases hap : a = p
                      · subst hap
                        exact Or.inr ⟨_, Heap.set_same _ _ _, rfl⟩
                      · exact Or.inl (Heap.set_ne _ _ _ _ hap))
                  hdepth
              simp only [Shape.root] at hgl
              refine ⟨t', s', r', ?_, hr', hlay', hroot', haddrs', ?_, ?_, ?_⟩
              · rw [balancingTreeRot]
                simp only [hgr, hppar, hgl, hpl, hpr, hred, hnuc] at hbal
                simp only [Tree.parent, Tree.color, Tree.left, Tree.right,
                  Tree.setColor, Heap.read, Heap.modify, Heap.set_same, Heap.set_ne, hx, hp, hg,
                  hnu, hxpar, hppar, hgl, hgr, hpl, hpr, hred, hnuc, hup, hug, hgp', hpg, hpu,
                  hgu, bind_ok, pure_eq_ok, Option.isSome_some, Option.isNone_some,
                  Bool.false_eq_true, if_true, if_false, ne_eq, not_true_eq_false,
                  not_false_eq_true, and_self, Option.some.injEq, reduceCtorEq, hbal]
              · refine SamePairs.trans ?_ hsame'
                refine ⟨?_, rfl, rfl, rfl, rfl⟩
                intro a
                dsimp only
                rw [kv_set_color _ _ _ _ h2, kv_set_color _ _ _ _ h1, kv_set_color _ _ _ _ hp]
              · intro a ha
                have ha' := ha
                simp only [plug_addrs, Shape.addrs, Ctx.pre, Ctx.post, List.mem_append, List.mem_cons,
                  not_or] at ha'
                rw [hfr' a (by
                  simpa only [plug_addrs, Shape.addrs, Ctx.pre, Ctx.post, List.append_assoc,
                    List.cons_append, List.nil_append] using ha)]
                dsimp only
                rw [Heap.set_ne _ _ _ _ (by tauto), Heap.set_ne _ _ _ _ (by tauto),
                  Heap.set_ne _ _ _ _ (by tauto)]
              · intro k N hrb hxc hctx
                obtain ⟨c3p, c3u, c3g, c3o⟩ := recolor3_colors t.heap p u g np nu ng hpu hpg hug
                obtain ⟨r1, r2⟩ := rb_rec_right_right hnd hrb hctx
                  (by rw [color_of_cell hp]; exact hred) (by rw [color_of_cell hnu]; exact hnuc)
                  c3p c3u c3g c3o
                exact hrb' (k + 1) N r1 c3g r2
            · exact rotate_case (Or.inr ⟨u, nu, rfl, hnu, hnuc⟩)
        | left c2 g Rg =>
          obtain ⟨ng, hg, hgp, hgl, hgr, hRg, hc2⟩ := hc1
          have hppar : np.parent = some g := by rw [hpp]; rfl
          -- distinctness
          have hnd2 := hnd
          rw [plug_addrs] at hnd2
          simp only [Ctx.pre, Ctx.post, Shape.addrs] at hnd2
          obtain ⟨hmid, hctx, hsep⟩ := nodup_mid hnd2
          have hpost := (List.nodup_append.mp hctx).2.1
          have hdis := (List.nodup_append.mp hctx).2.2
          have hpg : p ≠ g := fun e =>
            @hdis p (by simp) (by simp [e])
          have hgp' : g ≠ p := fun e => hpg e.symm
          have hpRg : p ∉ Rg.addrs := fun e =>
            @hdis p (by simp) (by simp [e])
          have hgRg : g ∉ Rg.addrs := by
            simp only [List.cons_append, List.nodup_cons, List.mem_append, not_or] at hpost
            exact hpost.1.1
          have hxp' : x ≠ p := fun e => hsep x (by simp) (by simp [e])
          have hxg : x ≠ g := fun e => hsep x (by simp) (by simp [e])
          have hpx : p ≠ x := fun e => hxp' e.symm
          have hgx : g ≠ x := fun e => hxg e.symm
          have hxLp' : ¬ some x = Lp.root :=
            fun e => hsep x (by simp) (by simp [root_mem e.symm])
          have hxRg : ¬ some x = Rg.root :=
            fun e => hsep x (by simp) (by simp [root_mem e.symm])
          have hpRg' : ¬ some p = Rg.root := fun e => hpRg (root_mem e.symm)
          have hdepth : c2.depth + 2 ≤ n := by simp only [Ctx.depth] at hfuel; omega
          simp only [Shape.root] at hpr
          have rotate_case : (Rg.root = none ∨ ∃ u nu, Rg.root = some u ∧ t.heap u = some nu ∧
              nu.color ≠ .kRED) →
              ∃ t' s' r, balancingTreeRot (n + 1) t (some x) = .ok (t', r) ∧ r ≤ 2 ∧
                Lay t'.heap s' none ∧
                t'.root_ = s'.root ∧
                s'.addrs = ((Ctx.right (Ctx.left c2 g Rg) Lp p).plug (.node L x R)).addrs ∧
                SamePairs t t' ∧
                (∀ a, a ∉ ((Ctx.right (Ctx.left c2 g Rg) Lp p).plug (.node L x R)).addrs → t'.heap a = t.heap a) ∧
                (∀ k N, RB t.heap (.node L x R) k → t.heap.color x = .kRED →
                  CtxRB t.heap (Ctx.right (Ctx.left c2 g Rg) Lp p) k .kBLACK N → RBT t'.heap s') := by
            -- BLACK or missing uncle, inner grandchild: rotate at the parent, then at
            -- the grandparent
            intro hunc
            obtain ⟨t1, hrot1, hlay1, hroot1, hsame1, hfr1⟩ :=
              rotateLeft_shape t (Ctx.left c2 g Rg) Lp L R p x hlay0 hroot hnd
            have hlay1' := hlay1
            rw [repr_plug] at hlay1'
            obtain ⟨⟨ng1, hg1, hg1p, hg1l, hg1r, -, -⟩, nx1, hx1, hx1p, hx1l, hx1r,
              ⟨np1, hp1, hp1p, -⟩, -⟩ := hlay1'
            simp only [Shape.root] at hg1l hx1l
            have hx1par : nx1.parent = some g := by rw [hx1p]; rfl
            have h1 : (t1.heap.set x (some { nx1 with color := .kBLACK })) g = some ng1 := by
              rw [Heap.set_ne _ _ _ _ hgx, hg1]
            have hnd1 : ((Ctx.left c2 g Rg).plug (.node (.node Lp p L) x R)).addrs.Nodup := by
              have : ((Ctx.left c2 g Rg).plug (.node (.node Lp p L) x R)).addrs =
                  ((Ctx.right (Ctx.left c2 g Rg) Lp p).plug (.node L x R)).addrs := by
                simp only [plug_addrs, Shape.addrs, Ctx.pre, Ctx.post, List.append_assoc,
                  List.cons_append, List.nil_append]
              rw [this]; exact hnd
            obtain ⟨t4, hrot2, hlay4, hroot4, hsame4, hfr4⟩ :=
              rotateRight_shape
                { t1 with heap := ((t1.heap.set x (some { nx1 with color := .kBLACK })).set g
                    (some { ng1 with color := .kRED })) }
                c2 (.node Lp p L) R Rg g x
                (by
                  apply Lay.congr _ _ _ hlay1
                  intro a _
                  dsimp only
                  rw [links_set_color _ _ _ _ h1, links_set_color _ _ _ _ hx1])
                hroot1 hnd1
            have hlay4' := hlay4
            rw [repr_plug] at hlay4'
            obtain ⟨-, nx4, hx4, -, -, -, ⟨np4, hp4, hp4p, -⟩, -⟩ := hlay4'
            have hcol : nx4.color = .kBLACK := by
              have := hsame4.color x
              dsimp only at this
              rw [hx4, Heap.set_ne _ _ _ _ hxg, Heap.set_same] at this
              simpa using this
            have hexit : balancingTreeRot n t4 (some p) = .ok (t4, 0) := by
              obtain ⟨n', rfl⟩ : ∃ n', n = n' + 1 := ⟨n - 1, by omega⟩
              exact balancingTreeRot_exit n' t4 p np4 hp4
                (Or.inr ⟨x, nx4, hp4p, hx4, by rw [hcol]; decide⟩)
            simp only [hg1l, hx1par, hx1l, hx1r, hg1r] at hrot2
            refine ⟨t4, _, 2, ?_, (by omega), hlay4, hroot4, ?_, ?_, ?_, ?_⟩
            · rw [balancingTreeRot]
              rcases hunc with h0 | ⟨u, nu, hu, hnu, hnc⟩
              · simp only [h0] at hrot2
                simp only [Tree.parent, Tree.color, Tree.left, Tree.right,
                  Tree.setColor, Heap.read, Heap.modify, Heap.set_same, Heap.set_ne, hx, hp, hg,
                  hxpar, hppar, hgl, hgr, hpl, hpr, hred, h0, hgp', hpg, hxLp', hgx, hxg,
                  hx1, hp1, hg1, hp1p, hg1l, hxRg, hx1par, hx1l, hx1r, hg1r,
                  bind_ok, pure_eq_ok, Option.isSome_some, Option.isNone_some,
                  Option.isSome_none, Bool.false_eq_true,
                  if_true, if_false, ne_eq, not_true_eq_false, not_false_eq_true, and_self,
                  and_false, false_and, and_true, true_and, reduceCtorEq, hrot1, hrot2, hexit]
              · have hup : ¬ p = u := fun e => hpRg (root_mem (e ▸ hu))
                have hxu : ¬ x = u :=
                  fun e => hsep x (by simp) (by simp [root_mem (e ▸ hu)])
                simp only [hu] at hrot2
                simp only [Tree.parent, Tree.color, Tree.left, Tree.right,
                  Tree.setColor, Heap.read, Heap.modify, Heap.set_same, Heap.set_ne, hx, hp, hg,
                  hxpar, hppar, hgl, hgr, hpl, hpr, hred, hu, hnu, hnc, hgp', hpg, hxLp', hup,
                  hgx, hxg, hx1, hp1, hg1, hp1p, hg1l, hxu, hx1par, hx1l, hx1r, hg1r,
                  bind_ok, pure_eq_ok, Option.isSome_some, Option.isNone_some,
                  Option.isSome_none, Bool.false_eq_true, Option.some.injEq,
                  if_true, if_false, ne_eq, not_true_eq_false, not_false_eq_true, and_self,
                  and_false, false_and, and_true, true_and, reduceCtorEq, hrot1, hrot2, hexit]
            · simp only [plug_addrs, Shape.addrs, Ctx.pre, Ctx.post, List.append_assoc,
                List.cons_append, List.nil_append]
            · refine SamePairs.trans hsame1.samePairs (SamePairs.trans ?_ hsame4.samePairs)
              refine ⟨?_, rfl, rfl, rfl, rfl⟩
              intro a
              dsimp only
              rw [kv_set_color _ _ _ _ h1, kv_set_color _ _ _ _ hx1]
            · intro a ha
              have ha' := ha
              simp only [plug_addrs, Shape.addrs, Ctx.pre, Ctx.post, List.mem_append, List.mem_cons,
                not_or] at ha'
              rw [hfr4 a (by
                simpa only [plug_addrs, Shape.addrs, Ctx.pre, Ctx.post, List.append_assoc,
                  List.cons_append, List.nil_append] using ha)]
              dsimp only
              rw [Heap.set_ne _ _ _ _ (by tauto), Heap.set_ne _ _ _ _ (by tauto)]
              exact hfr1 a (by
                simpa only [plug_addrs, Shape.addrs, Ctx.pre, Ctx.post, List.append_assoc,
                  List.cons_append, List.nil_append] using ha)
            · intro k N hrb hxc hctx
              obtain ⟨c4x, c4g, c4o⟩ :=
                recolor2_colors t1.heap x g nx1 ng1 .kBLACK .kRED hxg t4.heap hsame4.color
              exact rb_rot_right_left hnd hrb hxc hctx (by rw [color_of_cell hp]; exact hred)
                (rootColor_black_of hunc) c4x c4g
                (fun a h1 h2 => (c4o a h1 h2).trans (color_of_map (hsame1.color a)))
          cases Rg with
          | nil => exact rotate_case (Or.inl rfl)
          | node Ul u Ur =>
            obtain ⟨nu, hnu, -⟩ := hRg
            by_cases hnuc : nu.color = .kRED
            · -- RED uncle: recolour and continue from the grandparent
              have hum : u ∈ (Shape.node Ul u Ur).addrs := by simp [Shape.addrs]
              have hup : u ≠ p := fun e => hpRg (e ▸ hum)
              have hug : u ≠ g := fun e => hgRg (e ▸ hum)
              have hpu : p ≠ u := fun e => hup e.symm
              have hgu : g ≠ u := fun e => hug e.symm
              have h1 : (t.heap.set p (some { np with color := .kBLACK })) u = some nu := by
                rw [Heap.set_ne _ _ _ _ hup, hnu]
              have h2 : ((t.heap.set p (some { np with color := .kBLACK })).set u
                  (some { nu with color := .kBLACK })) g = some ng := by
                rw [Heap.set_ne _ _ _ _ hgu, Heap.set_ne _ _ _ _ hgp', hg]
              obtain ⟨t', s', r', hbal, hr', hlay', hroot', haddrs', hsame', hfr', hrb'⟩ :=
                ih { t with heap := ((t.heap.set p (some { np with color := .kBLACK })).set u
                      (some { nu with color := .kBLACK })).set g (some { ng with color := .kRED }) }
                  c2 (.node Lp p (.node L x R)) (.node Ul u Ur) g
                  (by
                    apply Lay.congr _ _ _ hlay0
                    intro a _
                    dsimp only
                    rw [links_set_color _ _ _ _ h2, links_set_color _ _ _ _ h1,
                      links_set_color _ _ _ _ hp])
                  hroot hnd
                  (by
                    apply root_black_climb t c2 (.node (.node Lp p (.node L x R)) g
                      (.node Ul u Ur)) x g hroot rfl hnd (by simp [Shape.addrs]) hblack
                    intro a hag
                    dsimp only
                    rw [Heap.set_ne _ _ _ _ hag]
                    by_cases hau : a = u
                    · subst hau
                      exact Or.inr ⟨_, Heap.set_same _ _ _, rfl⟩
                    · rw [Heap.set_ne _ _ _ _ hau]
                      by_cases hap : a = p
                      · subst hap
                        exact Or.inr ⟨_, Heap.set_same _ _ _, rfl⟩
                      · exact Or.inl (Heap.set_ne _ _ _ _ hap))
                  hdepth
              simp only [Shape.root] at hgr
              refine ⟨t', s', r', ?_, hr', hlay', hroot', haddrs', ?_, ?_, ?_⟩
              · rw [balancingTreeRot]
                simp only [hgr, hppar, hgl, hpl, hpr, hred, hnuc] at hbal
                simp only [Tree.parent, Tree.color, Tree.left, Tree.right,
                  Tree.setColor, Heap.read, Heap.modify, Heap.set_same, Heap.set_ne, hx, hp, hg,
                  hnu, hxpar, hppar, hgl, hgr, hpl, hpr, hred, hnuc, hup, hug, hgp', hpg, hpu,
                  hgu, bind_ok, pure_eq_ok, Option.isSome_some, Option.isNone_some,
                  Bool.false_eq_true, if_true, if_false, ne_eq, not_true_eq_false,
                  not_false_eq_true, and_self, Option.some.injEq, reduceCtorEq, hbal]
              · refine SamePairs.trans ?_ hsame'
                refine ⟨?_, rfl, rfl, rfl, rfl⟩
                intro a
                dsimp only
                rw [kv_set_color _ _ _ _ h2, kv_set_color _ _ _ _ h1, kv_set_color _ _ _ _ hp]
              · intro a ha
                have ha' := ha
                simp only [plug_addrs, Shape.addrs, Ctx.pre, Ctx.post, List.mem_append, List.mem_cons,
                  not_or] at ha'
                rw [hfr' a (by
                  simpa only [plug_addrs, Shape.addrs, Ctx.pre, Ctx.post, List.append_assoc,
                    List.cons_append, List.nil_append] using ha)]
                dsimp only
                rw [Heap.set_ne _ _ _ _ (by tauto), Heap.set_ne _ _ _ _ (by tauto),
                  Heap.set_ne _ _ _ _ (by tauto)]
              · intro k N hrb hxc hctx
                obtain ⟨c3p, c3u, c3g, c3o⟩ := recolor3_colors t.heap p u g np nu ng hpu hpg hug
                obtain ⟨r1, r2⟩ := rb_rec_right_left hnd hrb hctx
                  (by rw [color_of_cell hp]; exact hred) (by rw [color_of_cell hnu]; exact hnuc)
                  c3p c3u c3g c3o
                exact hrb' (k + 1) N r1 c3g r2
            · exact rotate_case (Or.inr ⟨u, nu, rfl, hnu, hnuc⟩)
      · exact ⟨t, _, 0, balancingTreeRot_exit n t x nx hx (Or.inr ⟨p, np, hxpar, hp, hred⟩), (by omega), hlay0,
          hroot, rfl, SamePairs.refl t, fun _ _ => rfl, fun _ N hrb _ hctx =>
            ⟨N, RB.plug hrb (CtxRB.right_black hctx (by rw [color_of_cell hp]; exact hred))⟩⟩


/-- The specification of `balancingTree`, read off from that of the counting
version. -/
theorem balancingTree_spec :
    ∀ (fuel : Nat) (t : Tree) (c : Ctx) (L R : Shape) (x : Nat),
      Lay t.heap (c.plug (.node L x R)) none →
      t.root_ = (c.plug (.node L x R)).root →
      (c.plug (.node L x R)).addrs.Nodup →
      (∀ r n, t.root_ = some r → r ≠ x → t.heap r = some n → n.color = .kBLACK) →
      c.depth + 2 ≤ fuel →
      ∃ t' s', balancingTree fuel t (some x) = .ok t' ∧ Lay t'.heap s' none ∧
        t'.root_ = s'.root ∧ s'.addrs = (c.plug (.node L x R)).addrs ∧ SamePairs t t' ∧
        (∀ a, a ∉ (c.plug (.node L x R)).addrs → t'.heap a = t.heap a) ∧
        (∀ k N, RB t.heap (.node L x R) k → t.heap.color x = .kRED →
          CtxRB t.heap c k .kBLACK N → RBT t'.heap s') := by
  intro fuel t c L R x hlay hroot hnd hblack hfuel
  obtain ⟨t', s', r, hbal, -, h1, h2, h3, h4, h5, h6⟩ :=
    balancingTreeRot_spec fuel t c L R x hlay hroot hnd hblack hfuel
  refine ⟨t', s', ?_, h1, h2, h3, h4, h5, h6⟩
  have := balancingTreeRot_fst fuel t (some x)
  rw [hbal] at this
  exact this.symm
/-! ## Insertion of a node -/

theorem Heap.set_set (h : Heap) (a : Nat) (v w : Option Node) :
    (h.set a v).set a w = h.set a w := by
  funext b
  by_cases hb : b = a <;> simp [Heap.set, hb]

theorem blackenRoot_spec (t : Tree) (s : Shape) (hlay : Lay t.heap s none)
    (hroot : t.root_ = s.root) :
    ∃ t', blackenRoot t = .ok t' ∧ Lay t'.heap s none ∧ t'.root_ = s.root ∧
      rootBlack t' = true ∧ SamePairs t t' ∧ ∀ b, b ∉ s.addrs → t'.heap b = t.heap b := by
  cases s with
  | nil =>
    refine ⟨t, ?_, hlay, hroot, ?_, SamePairs.refl t, fun _ _ => rfl⟩
    · simp [blackenRoot, hroot, Shape.root]
    · simp [rootBlack, hroot, Shape.root]
  | node l a r =>
    obtain ⟨na, ha, -⟩ := id hlay
    simp only [Shape.root] at hroot
    refine ⟨{ t with heap := t.heap.set a (some { na with color := .kBLACK }) }, ?_, ?_, hroot,
      ?_, ⟨?_, rfl, rfl, rfl, rfl⟩, ?_⟩
    · simp [blackenRoot, hroot, Tree.setColor, Heap.modify, ha]
    · apply Lay.congr _ _ _ hlay
      intro b _
      exact links_set_color _ _ _ _ ha b
    · simp [rootBlack, hroot, Heap.set_same]
    · intro b
      exact kv_set_color _ _ _ _ ha b
    · intro b hb
      dsimp only
      rw [Heap.set_ne _ _ _ _ (fun e => hb (by simp [Shape.addrs, e]))]

theorem sorted_node {h : Heap} {l r : Shape} {a : Nat}
    (hs : ((Shape.node l a r).addrs.map h.key).Pairwise (· ≤ ·)) :
    (l.addrs.map h.key).Pairwise (· ≤ ·) ∧ (r.addrs.map h.key).Pairwise (· ≤ ·) ∧
      (∀ b ∈ l.addrs, h.key b ≤ h.key a) ∧ (∀ b ∈ r.addrs, h.key a ≤ h.key b) := by
  simp only [Shape.addrs, List.map_append, List.map_cons, List.pairwise_append,
    List.pairwise_cons, List.mem_map, List.mem_cons, forall_exists_index, and_imp,
    forall_apply_eq_imp_iff₂] at hs
  obtain ⟨hl, ⟨hra, hr⟩, hlr⟩ := hs
  refine ⟨hl, hr, ?_, hra⟩
  intro b hb
  exact hlr b hb (h.key a) (Or.inl rfl)

theorem height_le_size (s : Shape) : s.height ≤ s.size := by
  induction s with
  | nil => simp [Shape.height, Shape.size]
  | node l a r ihl ihr => simp only [Shape.height, Shape.size]; omega

theorem size_eq_length (s : Shape) : s.size = s.addrs.length := by
  induction s with
  | nil => rfl
  | node l a r ihl ihr => simp [Shape.size, Shape.addrs, ihl, ihr]; omega

/-- Variant of the root-blackening lemma with the execution as first argument. -/
theorem blackenRoot_keeps_rb {t t' : Tree} {s : Shape} (hb : blackenRoot t = .ok t')
    (hlay : Lay t.heap s none) (hroot : t.root_ = s.root) (hrb : RBT t.heap s) :
    RBT t'.heap s :=
  blackenRoot_rb hlay hroot hb hrb

theorem insertNode_leaf (f : Nat) (t : Tree) (c : Ctx) (i : Nat) (ni : Node)
    (hlay : Lay t.heap (c.plug .nil) none) (hroot : t.root_ = (c.plug .nil).root)
    (hnd : (c.plug .nil).addrs.Nodup) (hi : i ∉ (c.plug .nil).addrs)
    (hni : t.heap i = some ni) (hb : rootBlack t = true) (hf : c.depth + 2 ≤ f) :
    ∃ t' s', insertNode (f + 1) t (some i) c.slot c.parent = .ok t' ∧ Lay t'.heap s' none ∧
      t'.root_ = s'.root ∧ rootBlack t' = true ∧ s'.addrs = c.pre ++ i :: c.post ∧
      SamePairs { t with size_ := t.size_ + 1 } t' ∧
      (∀ a, a ≠ i → a ∉ (c.plug .nil).addrs → t'.heap a = t.heap a) ∧
      (∀ N, CtxRB t.heap c 0 .kBLACK N → RBT t'.heap s') := by
  rw [plug_addrs] at hi hnd
  simp only [Shape.addrs, List.append_nil, List.mem_append, not_or] at hi hnd
  cases c with
  | top =>
    rw [plug_root] at hroot
    simp only [Ctx.rootOf, Shape.root] at hroot
    refine ⟨{ t with
        heap := t.heap.set i
          (some { ni with color := .kBLACK, parent := none, left := none, right := none }),
        size_ := t.size_ + 1, root_ := some i }, .node .nil i .nil, ?_, ?_, rfl, ?_, ?_, ?_,
      ?_, ?_⟩
    · rw [insertNode]
      simp only [Ctx.slot, Ctx.parent, Tree.getSlot, Tree.setSlot, Tree.setColor,
        Tree.setParent, Tree.setLeft, Tree.setRight, Tree.parent, Tree.color, blackenRoot,
        Heap.read, Heap.modify, Heap.set_same, Heap.set_set, hroot, hni, bind_ok, pure_eq_ok,
        Option.isNone_none, Option.isSome_some, Option.isSome_none, if_true, if_false,
        Bool.false_eq_true, false_and]
    · exact ⟨_, Heap.set_same _ _ _, rfl, rfl, rfl, trivial, trivial⟩
    · simp [rootBlack, Heap.set_same]
    · simp [Shape.addrs, Ctx.pre, Ctx.post]
    · refine ⟨?_, rfl, rfl, rfl, rfl⟩
      intro a
      by_cases ha : a = i
      · subst ha; simp [Heap.set_same, hni, Node.kv]
      · simp [Heap.set_ne _ _ _ _ ha]
    · intro a ha _
      dsimp only
      rw [Heap.set_ne _ _ _ _ ha]
    · intro N _
      exact ⟨1, RB.black_node (color_set_same _ _ _) rfl rfl⟩
  | left c1 p r =>
    have hlay' := hlay
    rw [repr_plug] at hlay'
    obtain ⟨⟨np, hp, hpp, hpl, hpr, hr, hc1⟩, -⟩ := hlay'
    simp only [Shape.root] at hpl
    have hpi : p ≠ i := fun e => hi.2 (by simp [Ctx.post, e])
    have hip : i ≠ p := fun e => hpi e.symm
    have hctxnd : (c1.pre ++ (p :: r.addrs ++ c1.post)).Nodup := by
      simpa [Ctx.pre, Ctx.post] using hnd
    have hpnot : p ∉ c1.pre ∧ p ∉ r.addrs ∧ p ∉ c1.post := by
      obtain ⟨-, h2, h3⟩ := List.nodup_append.mp hctxnd
      have h4 : p ∉ r.addrs ++ c1.post := (List.nodup_cons.mp h2).1
      simp only [List.mem_append, not_or] at h4
      exact ⟨fun e => h3 e (by simp), h4.1, h4.2⟩
    have h1 : (t.heap.set i (some { ni with color := .kRED, parent := some p, left := none, right := none })) p = some np := by
      rw [Heap.set_ne _ _ _ _ hpi, hp]
    have hagree : ∀ a, a ≠ i → a ≠ p →
        ((t.heap.set i (some { ni with color := .kRED, parent := some p, left := none, right := none })).set p (some { np with left := some i })) a = t.heap a := by
      intro a hai hap
      rw [Heap.set_ne _ _ _ _ hap, Heap.set_ne _ _ _ _ hai]
    have hlay2 : Lay ((t.heap.set i (some { ni with color := .kRED, parent := some p, left := none, right := none })).set p (some { np with left := some i }))
        ((Ctx.left c1 p r).plug (.node .nil i .nil)) none := by
      rw [repr_plug]
      refine ⟨⟨_, Heap.set_same _ _ _, hpp, rfl, hpr, ?_, ?_⟩,
        ⟨{ ni with color := .kRED, parent := some p, left := none, right := none }, ?_, rfl, rfl,
          rfl, trivial, trivial⟩⟩
      · apply Lay.congr _ _ _ hr
        intro a ha
        rw [hagree a (fun e => hi.2 (by simp [Ctx.post, ← e, ha]))
          (fun e => hpnot.2.1 (e ▸ ha))]
      · apply CtxLay.congrCtx _ _ _ hc1
        intro a ha
        rw [hagree a
          (fun e => by
            rcases List.mem_append.mp ha with h | h
            · exact hi.1 (by simpa [Ctx.pre, ← e] using h)
            · exact hi.2 (by simp [Ctx.post, ← e, h]))
          (fun e => by
            rcases List.mem_append.mp ha with h | h
            · exact hpnot.1 (e ▸ h)
            · exact hpnot.2.2 (e ▸ h))]
      · rw [Heap.set_ne _ _ _ _ hip, Heap.set_same]
    have hroot2 : t.root_ = ((Ctx.left c1 p r).plug (.node .nil i .nil)).root := by
      rw [hroot, plug_root, plug_root]; rfl
    have hnd2 : ((Ctx.left c1 p r).plug (.node .nil i .nil)).addrs.Nodup := by
      rw [plug_addrs]
      simp only [Shape.addrs, List.nil_append, List.append_assoc, List.singleton_append]
      rw [List.nodup_append] at hnd ⊢
      refine ⟨hnd.1, List.nodup_cons.mpr ⟨hi.2, hnd.2.1⟩, ?_⟩
      intro a ha hb
      rcases List.mem_cons.mp hb with h | h
      · exact hi.1 (h ▸ ha)
      · exact hnd.2.2 ha h
    have haddrs : ((Ctx.left c1 p r).plug (.node .nil i .nil)).addrs =
        (Ctx.left c1 p r).pre ++ i :: (Ctx.left c1 p r).post := by
      rw [plug_addrs]; simp [Shape.addrs]
    have hframe : ∀ a, a ≠ i → a ∉ ((Ctx.left c1 p r).plug .nil).addrs →
        a ∉ ((Ctx.left c1 p r).plug (.node .nil i .nil)).addrs ∧ a ≠ p := by
      intro a hai ha
      rw [plug_addrs] at ha
      rw [haddrs]
      simp only [Shape.addrs, List.append_nil, List.mem_append, List.mem_cons, not_or, Ctx.pre,
        Ctx.post] at ha ⊢
      tauto
    have hsame2 : SamePairs { t with size_ := t.size_ + 1 }
        { t with
          heap := (t.heap.set i (some { ni with color := .kRED, parent := some p, left := none, right := none })).set p (some { np with left := some i }),
          size_ := t.size_ + 1 } := by
      refine ⟨?_, rfl, rfl, rfl, rfl⟩
      intro a
      dsimp only
      by_cases hap : a = p
      · subst hap; simp [Heap.set_same, hp, Node.kv]
      · rw [Heap.set_ne _ _ _ _ hap]
        by_cases hai : a = i
        · subst hai; simp [Heap.set_same, hni, Node.kv]
        · rw [Heap.set_ne _ _ _ _ hai]
    by_cases hred : np.color = .kRED
    · obtain ⟨t3, s3, hbal, hlay3, hroot3, haddrs3, hsame3, hfr3, hrb3⟩ :=
        balancingTree_spec f
          { t with
            heap := (t.heap.set i (some { ni with color := .kRED, parent := some p, left := none, right := none })).set p (some { np with left := some i }),
            size_ := t.size_ + 1 }
          (Ctx.left c1 p r) .nil .nil i hlay2 hroot2 hnd2
          (by
            intro q n hq hqi hn
            dsimp only at hq hn
            have hb' := hb
            simp only [rootBlack, hq] at hb'
            by_cases hqp : q = p
            · subst hqp
              rw [Heap.set_same] at hn
              rw [hp] at hb'
              cases hn
              simpa using hb'
            · rw [Heap.set_ne _ _ _ _ hqp, Heap.set_ne _ _ _ _ hqi] at hn
              rw [hn] at hb'
              simpa using hb')
          hf
      obtain ⟨t4, hblk, hlay4, hroot4, hblack4, hsame4, hfr4⟩ := blackenRoot_spec t3 s3 hlay3 hroot3
      refine ⟨t4, s3, ?_, hlay4, hroot4, hblack4, haddrs3.trans haddrs,
        SamePairs.trans hsame2 (SamePairs.trans hsame3 hsame4),
        fun a hai ha => by
          obtain ⟨h1', h2'⟩ := hframe a hai ha
          rw [hfr4 a (by rw [haddrs3]; exact h1'), hfr3 a h1']
          exact hagree a hai h2', ?_⟩
      simp only [hred] at hbal
      rw [insertNode]
      simp only [Ctx.slot, Ctx.parent, Tree.getSlot, Tree.setSlot, Tree.setColor,
        Tree.setParent, Tree.setLeft, Tree.setRight, Tree.parent, Tree.color, Tree.left,
        Tree.right, Heap.read, Heap.modify, Heap.set_same, Heap.set_set, Heap.set_ne, hp, hpl,
        hni, hpi, hip, hred, bind_ok, pure_eq_ok, Option.isNone_none, Option.isSome_some,
        Option.isSome_none, if_true, if_false, Bool.false_eq_true, false_and, ne_eq,
        not_false_eq_true, and_self, hbal, hblk]
      intro N hctx
      obtain ⟨rbi, hci⟩ := leaf_rb t.heap
        { ni with color := .kRED, parent := some p, left := none, right := none }
        { np with left := some i } hip rfl
      exact blackenRoot_rb hlay3 hroot3 hblk (hrb3 0 N rbi hci
        (leaf_ctx_rb _ _ hp rfl (fun hm => (List.mem_append.1 hm).elim hi.1 hi.2) hctx))
    · obtain ⟨t4, hblk, hlay4, hroot4, hblack4, hsame4, hfr4⟩ :=
        blackenRoot_spec
          { t with
            heap := (t.heap.set i (some { ni with color := .kRED, parent := some p, left := none, right := none })).set p (some { np with left := some i }),
            size_ := t.size_ + 1 }
          _ hlay2 hroot2
      refine ⟨t4, _, ?_, hlay4, hroot4, hblack4, haddrs, SamePairs.trans hsame2 hsame4,
        fun a hai ha => by
          obtain ⟨h1', h2'⟩ := hframe a hai ha
          rw [hfr4 a h1']
          exact hagree a hai h2', ?_⟩
      rw [insertNode]
      simp only [Ctx.slot, Ctx.parent, Tree.getSlot, Tree.setSlot, Tree.setColor,
        Tree.setParent, Tree.setLeft, Tree.setRight, Tree.parent, Tree.color, Tree.left,
        Tree.right, Heap.read, Heap.modify, Heap.set_same, Heap.set_set, Heap.set_ne, hp, hpl,
        hni, hpi, hip, hred, bind_ok, pure_eq_ok, Option.isNone_none, Option.isSome_some,
        Option.isSome_none, if_true, if_false, Bool.false_eq_true, false_and, ne_eq,
        not_false_eq_true, and_self, and_false, hblk]
      intro N hctx
      obtain ⟨rbi, hci⟩ := leaf_rb t.heap
        { ni with color := .kRED, parent := some p, left := none, right := none }
        { np with left := some i } hip rfl
      have hpc : ((t.heap.set i (some
          { ni with color := .kRED, parent := some p, left := none, right := none })).set p
          (some { np with left := some i })).color p ≠ .kRED := by
        rw [color_set_same]; exact hred
      have hc2 := leaf_ctx_rb
        { ni with color := .kRED, parent := some p, left := none, right := none }
        { np with left := some i } hp rfl
        (fun hm => (List.mem_append.1 hm).elim hi.1 hi.2) hctx
      exact blackenRoot_keeps_rb hblk hlay2 hroot2 ⟨N, RB.plug rbi (CtxRB.left_black hc2 hpc)⟩
  | right c1 l p =>
    have hlay' := hlay
    rw [repr_plug] at hlay'
    obtain ⟨⟨np, hp, hpp, hpl, hpr, hl, hc1⟩, -⟩ := hlay'
    simp only [Shape.root] at hpr
    have hpi : p ≠ i := fun e => hi.1 (by simp [Ctx.pre, e])
    have hip : i ≠ p := fun e => hpi e.symm
    have hctxnd : (c1.pre ++ (l.addrs ++ [p]) ++ c1.post).Nodup := by
      simpa [Ctx.pre, Ctx.post] using hnd
    have hpnot : p ∉ c1.pre ∧ p ∉ l.addrs ∧ p ∉ c1.post := by
      obtain ⟨h1, -, h3⟩ := nodup_mid hctxnd
      have h4 := h3 p (by simp)
      simp only [List.mem_append, not_or] at h4
      exact ⟨h4.1, (nodup_node h1).2.2.1, h4.2⟩
    have h1 : (t.heap.set i (some { ni with color := .kRED, parent := some p, left := none, right := none })) p = some np := by
      rw [Heap.set_ne _ _ _ _ hpi, hp]
    have hagree : ∀ a, a ≠ i → a ≠ p →
        ((t.heap.set i (some { ni with color := .kRED, parent := some p, left := none, right := none })).set p (some { np with right := some i })) a = t.heap a := by
      intro a hai hap
      rw [Heap.set_ne _ _ _ _ hap, Heap.set_ne _ _ _ _ hai]
    have hlay2 : Lay ((t.heap.set i (some { ni with color := .kRED, parent := some p, left := none, right := none })).set p (some { np with right := some i }))
        ((Ctx.right c1 l p).plug (.node .nil i .nil)) none := by
      rw [repr_plug]
      refine ⟨⟨_, Heap.set_same _ _ _, hpp, hpl, rfl, ?_, ?_⟩,
        ⟨{ ni with color := .kRED, parent := some p, left := none, right := none }, ?_, rfl, rfl,
          rfl, trivial, trivial⟩⟩
      · apply Lay.congr _ _ _ hl
        intro a ha
        rw [hagree a (fun e => hi.1 (by simp [Ctx.pre, ← e, ha]))
          (fun e => hpnot.2.1 (e ▸ ha))]
      · apply CtxLay.congrCtx _ _ _ hc1
        intro a ha
        rw [hagree a
          (fun e => by
            rcases List.mem_append.mp ha with h | h
            · exact hi.1 (by simp [Ctx.pre, ← e, h])
            · exact hi.2 (by simpa [Ctx.post, ← e] using h))
          (fun e => by
            rcases List.mem_append.mp ha with h | h
            · exact hpnot.1 (e ▸ h)
            · exact hpnot.2.2 (e ▸ h))]
      · rw [Heap.set_ne _ _ _ _ hip, Heap.set_same]
    have hroot2 : t.root_ = ((Ctx.right c1 l p).plug (.node .nil i .nil)).root := by
      rw [hroot, plug_root, plug_root]; rfl
    have hnd2 : ((Ctx.right c1 l p).plug (.node .nil i .nil)).addrs.Nodup := by
      rw [plug_addrs]
      simp only [Shape.addrs, List.nil_append, List.append_assoc, List.singleton_append]
      rw [List.nodup_append] at hnd ⊢
      refine ⟨hnd.1, List.nodup_cons.mpr ⟨hi.2, hnd.2.1⟩, ?_⟩
      intro a ha hb
      rcases List.mem_cons.mp hb with h | h
      · exact hi.1 (h ▸ ha)
      · exact hnd.2.2 ha h
    have haddrs : ((Ctx.right c1 l p).plug (.node .nil i .nil)).addrs =
        (Ctx.right c1 l p).pre ++ i :: (Ctx.right c1 l p).post := by
      rw [plug_addrs]; simp [Shape.addrs]
    have hframe : ∀ a, a ≠ i → a ∉ ((Ctx.right c1 l p).plug .nil).addrs →
        a ∉ ((Ctx.right c1 l p).plug (.node .nil i .nil)).addrs ∧ a ≠ p := by
      intro a hai ha
      rw [plug_addrs] at ha
      rw [haddrs]
      simp only [Shape.addrs, List.append_nil, List.mem_append, List.mem_cons, not_or, Ctx.pre,
        Ctx.post] at ha ⊢
      tauto
    have hsame2 : SamePairs { t with size_ := t.size_ + 1 }
        { t with
          heap := (t.heap.set i (some { ni with color := .kRED, parent := some p, left := none, right := none })).set p (some { np with right := some i }),
          size_ := t.size_ + 1 } := by
      refine ⟨?_, rfl, rfl, rfl, rfl⟩
      intro a
      dsimp only
      by_cases hap : a = p
      · subst hap; simp [Heap.set_same, hp, Node.kv]
      · rw [Heap.set_ne _ _ _ _ hap]
        by_cases hai : a = i
        · subst hai; simp [Heap.set_same, hni, Node.kv]
        · rw [Heap.set_ne _ _ _ _ hai]
    by_cases hred : np.color = .kRED
    · obtain ⟨t3, s3, hbal, hlay3, hroot3, haddrs3, hsame3, hfr3, hrb3⟩ :=
        balancingTree_spec f
          { t with
            heap := (t.heap.set i (some { ni with color := .kRED, parent := some p, left := none, right := none })).set p (some { np with right := some i }),
            size_ := t.size_ + 1 }
          (Ctx.right c1 l p) .nil .nil i hlay2 hroot2 hnd2
          (by
            intro q n hq hqi hn
            dsimp only at hq hn
            have hb' := hb
            simp only [rootBlack, hq] at hb'
            by_cases hqp : q = p
            · subst hqp
              rw [Heap.set_same] at hn
              rw [hp] at hb'
              cases hn
              simpa using hb'
            · rw [Heap.set_ne _ _ _ _ hqp, Heap.set_ne _ _ _ _ hqi] at hn
              rw [hn] at hb'
              simpa using hb')
          hf
      obtain ⟨t4, hblk, hlay4, hroot4, hblack4, hsame4, hfr4⟩ := blackenRoot_spec t3 s3 hlay3 hroot3
      refine ⟨t4, s3, ?_, hlay4, hroot4, hblack4, haddrs3.trans haddrs,
        SamePairs.trans hsame2 (SamePairs.trans hsame3 hsame4),
        fun a hai ha => by
          obtain ⟨h1', h2'⟩ := hframe a hai ha
          rw [hfr4 a (by rw [haddrs3]; exact h1'), hfr3 a h1']
          exact hagree a hai h2', ?_⟩
      simp only [hred] at hbal
      rw [insertNode]
      simp only [Ctx.slot, Ctx.parent, Tree.getSlot, Tree.setSlot, Tree.setColor,
        Tree.setParent, Tree.setLeft, Tree.setRight, Tree.parent, Tree.color, Tree.left,
        Tree.right, Heap.read, Heap.modify, Heap.set_same, Heap.set_set, Heap.set_ne, hp, hpr,
        hni, hpi, hip, hred, bind_ok, pure_eq_ok, Option.isNone_none, Option.isSome_some,
        Option.isSome_none, if_true, if_false, Bool.false_eq_true, false_and, ne_eq,
        not_false_eq_true, and_self, hbal, hblk]
      intro N hctx
      obtain ⟨rbi, hci⟩ := leaf_rb t.heap
        { ni with color := .kRED, parent := some p, left := none, right := none }
        { np with right := some i } hip rfl
      exact blackenRoot_rb hlay3 hroot3 hblk (hrb3 0 N rbi hci
        (leaf_ctx_rb _ _ hp rfl (fun hm => (List.mem_append.1 hm).elim hi.1 hi.2) hctx))
    · obtain ⟨t4, hblk, hlay4, hroot4, hblack4, hsame4, hfr4⟩ :=
        blackenRoot_spec
          { t with
            heap := (t.heap.set i (some { ni with color := .kRED, parent := some p, left := none, right := none })).set p (some { np with right := some i }),
            size_ := t.size_ + 1 }
          _ hlay2 hroot2
      refine ⟨t4, _, ?_, hlay4, hroot4, hblack4, haddrs, SamePairs.trans hsame2 hsame4,
        fun a hai ha => by
          obtain ⟨h1', h2'⟩ := hframe a hai ha
          rw [hfr4 a h1']
          exact hagree a hai h2', ?_⟩
      rw [insertNode]
      simp only [Ctx.slot, Ctx.parent, Tree.getSlot, Tree.setSlot, Tree.setColor,
        Tree.setParent, Tree.setLeft, Tree.setRight, Tree.parent, Tree.color, Tree.left,
        Tree.right, Heap.read, Heap.modify, Heap.set_same, Heap.set_set, Heap.set_ne, hp, hpr,
        hni, hpi, hip, hred, bind_ok, pure_eq_ok, Option.isNone_none, Option.isSome_some,
        Option.isSome_none, if_true, if_false, Bool.false_eq_true, false_and, ne_eq,
        not_false_eq_true, and_self, and_false, hblk]
      intro N hctx
      obtain ⟨rbi, hci⟩ := leaf_rb t.heap
        { ni with color := .kRED, parent := some p, left := none, right := none }
        { np with right := some i } hip rfl
      have hpc : ((t.heap.set i (some
          { ni with color := .kRED, parent := some p, left := none, right := none })).set p
          (some { np with right := some i })).color p ≠ .kRED := by
        rw [color_set_same]; exact hred
      have hc2 := leaf_ctx_rb
        { ni with color := .kRED, parent := some p, left := none, right := none }
        { np with right := some i } hp rfl
        (fun hm => (List.mem_append.1 hm).elim hi.1 hi.2) hctx
      exact blackenRoot_keeps_rb hblk hlay2 hroot2 ⟨N, RB.plug rbi (CtxRB.right_black hc2 hpc)⟩

theorem getSlot_ctx (t : Tree) (c : Ctx) (q : Ptr) (hc : CtxLay t.heap c q)
    (hroot : t.root_ = c.rootOf q) : t.getSlot c.slot = .ok q := by
  cases c with
  | top => simp [Ctx.slot, Tree.getSlot, hroot, Ctx.rootOf]
  | left c1 p r =>
    obtain ⟨np, hp, -, hpl, -⟩ := hc
    simp [Ctx.slot, Tree.getSlot, Tree.left, Heap.read, hp, hpl]
  | right c1 l p =>
    obtain ⟨np, hp, -, -, hpr, -⟩ := hc
    simp [Ctx.slot, Tree.getSlot, Tree.right, Heap.read, hp, hpr]

theorem insertNode_spec :
    ∀ (s : Shape) (fuel : Nat) (t : Tree) (c : Ctx) (i : Nat) (ni : Node),
      Lay t.heap (c.plug s) none →
      t.root_ = (c.plug s).root →
      (c.plug s).addrs.Nodup →
      i ∉ (c.plug s).addrs →
      t.heap i = some ni →
      rootBlack t = true →
      (s.addrs.map t.heap.key).Pairwise (· ≤ ·) →
      c.depth + 2 * s.height + 3 ≤ fuel →
      ∃ t' s', insertNode fuel t (some i) c.slot c.parent = .ok t' ∧ Lay t'.heap s' none ∧
        t'.root_ = s'.root ∧ rootBlack t' = true ∧
        (∃ l1 l2, s.addrs = l1 ++ l2 ∧ s'.addrs = c.pre ++ (l1 ++ i :: l2) ++ c.post ∧
          (∀ a ∈ l1, t.heap.key a ≤ ni.key) ∧ (∀ a ∈ l2, ni.key < t.heap.key a)) ∧
        SamePairs { t with size_ := t.size_ + 1 } t' ∧
        (∀ a, a ≠ i → a ∉ (c.plug s).addrs → t'.heap a = t.heap a) ∧
        (RBT t.heap (c.plug s) → RBT t'.heap s') := by
  intro s
  induction s with
  | nil =>
    intro fuel t c i ni hlay hroot hnd hi hni hb _ hf
    obtain ⟨f, rfl⟩ : ∃ f, fuel = f + 1 := ⟨fuel - 1, by omega⟩
    obtain ⟨t', s', h1, h2, h3, h4, h5, h6, h7, h8⟩ :=
      insertNode_leaf f t c i ni hlay hroot hnd hi hni hb (by simp only [Shape.height] at hf; omega)
    exact ⟨t', s', h1, h2, h3, h4, ⟨[], [], rfl, by simpa using h5, by simp, by simp⟩, h6, h7,
      fun hr => by
        obtain ⟨N, hN⟩ := hr
        obtain ⟨n, hn, hcn⟩ := hN.unplug
        have h0 : n = 0 := hn
        subst h0
        exact h8 N hcn⟩
  | node l a r ihl ihr =>
    intro fuel t c i ni hlay hroot hnd hi hni hb hs hf
    obtain ⟨f, rfl⟩ : ∃ f, fuel = f + 1 := ⟨fuel - 1, by omega⟩
    have hlay' := hlay
    rw [repr_plug] at hlay'
    obtain ⟨hc, na, ha, -⟩ := hlay'
    have hslot : t.getSlot c.slot = .ok (some a) :=
      getSlot_ctx t c (some a) hc (by rw [hroot, plug_root]; rfl)
    have hka : t.heap.key a = na.key := by simp [Heap.key, Heap.pair, ha]
    obtain ⟨hsl, hsr, hla, hra⟩ := sorted_node hs
    simp only [Shape.height] at hf
    by_cases hlt : ni.key < na.key
    · obtain ⟨t1, s1, hrec, hlay1, hroot1, -, ⟨l1, l2, e1, e2, o1, o2⟩, hsame1, hfr1, hrb1⟩ :=
        ihl f t (Ctx.left c a r) i ni hlay hroot hnd hi hni hb hsl
          (by simp only [Ctx.depth]; omega)
      obtain ⟨t2, hblk, hlay2, hroot2, hblack2, hsame2, hfr2⟩ :=
        blackenRoot_spec t1 s1 hlay1 hroot1
      simp only [Ctx.slot, Ctx.parent] at hrec
      refine ⟨t2, s1, ?_, hlay2, hroot2, hblack2, ⟨l1, l2 ++ a :: r.addrs, ?_, ?_, o1, ?_⟩,
        SamePairs.trans hsame1 hsame2,
        fun b hbi hb' => by
          rw [hfr2 b (by
            rw [e2]
            have hb2 : b ∉ ((Ctx.left c a r).plug l).addrs := hb'
            rw [plug_addrs, e1] at hb2
            simp only [List.mem_append, List.mem_cons, not_or] at hb2 ⊢
            tauto)]
          exact hfr1 b hbi hb',
        fun hr => blackenRoot_rb hlay1 hroot1 hblk (hrb1 hr)⟩
      · rw [insertNode]
        simp only [hslot, bind_ok, Option.isNone_some, Bool.false_eq_true, if_false, Tree.key,
          Heap.read, hni, ha, pure_eq_ok, hlt, if_true, hrec, hblk]
      · simp [Shape.addrs, e1]
      · rw [e2]; simp [Ctx.pre, Ctx.post]
      · intro b hb'
        rcases List.mem_append.mp hb' with h | h
        · exact o2 b h
        · rcases List.mem_cons.mp h with h | h
          · rw [h, hka]; exact hlt
          · have := hra b h
            rw [hka] at this
            omega
    · obtain ⟨t1, s1, hrec, hlay1, hroot1, -, ⟨l1, l2, e1, e2, o1, o2⟩, hsame1, hfr1, hrb1⟩ :=
        ihr f t (Ctx.right c l a) i ni hlay hroot hnd hi hni hb hsr
          (by simp only [Ctx.depth]; omega)
      obtain ⟨t2, hblk, hlay2, hroot2, hblack2, hsame2, hfr2⟩ :=
        blackenRoot_spec t1 s1 hlay1 hroot1
      simp only [Ctx.slot, Ctx.parent] at hrec
      refine ⟨t2, s1, ?_, hlay2, hroot2, hblack2, ⟨l.addrs ++ a :: l1, l2, ?_, ?_, ?_, o2⟩,
        SamePairs.trans hsame1 hsame2,
        fun b hbi hb' => by
          rw [hfr2 b (by
            rw [e2]
            have hb2 : b ∉ ((Ctx.right c l a).plug r).addrs := hb'
            rw [plug_addrs, e1] at hb2
            simp only [List.mem_append, List.mem_cons, not_or] at hb2 ⊢
            tauto)]
          exact hfr1 b hbi hb',
        fun hr => blackenRoot_rb hlay1 hroot1 hblk (hrb1 hr)⟩
      · rw [insertNode]
        simp only [hslot, bind_ok, Option.isNone_some, Bool.false_eq_true, if_false, Tree.key,
          Heap.read, hni, ha, pure_eq_ok, hlt, hrec, hblk]
      · simp [Shape.addrs, e1]
      · rw [e2]; simp [Ctx.pre, Ctx.post]
      · intro b hb'
        rcases List.mem_append.mp hb' with h | h
        · have := hla b h
          rw [hka] at this
          omega
        · rcases List.mem_cons.mp h with h | h
          · rw [h, hka]; omega
          · exact o1 b h

/-! ## Reading a well-formed tree -/

theorem inorder_eq (h : Heap) :
    ∀ (s : Shape) (par : Ptr) (fuel : Nat), Lay h s par → s.height < fuel →
      inorder fuel h s.root = s.addrs := by
  intro s
  induction s with
  | nil =>
    intro par fuel _ hf
    cases fuel with
    | zero => omega
    | succ f => rfl
  | node l a r ihl ihr =>
    intro par fuel hlay hf
    obtain ⟨n, hn, -, hl, hr, hll, hlr⟩ := hlay
    cases fuel with
    | zero => omega
    | succ f =>
      simp only [Shape.height] at hf
      change inorder (f + 1) h (some a) = _
      simp only [inorder, hn, hl, hr, Shape.addrs]
      rw [ihl _ f hll (by omega), ihr _ f hlr (by omega)]

theorem Shaped.addr_lt {t : Tree} {s : Shape} (h : Shaped t s) :
    ∀ a ∈ s.addrs, a < t.next := by
  intro a ha
  by_contra hge
  have h1 := h.fresh a (by omega)
  have h2 := h.lay.live a ha
  rw [h1] at h2
  simp at h2

theorem Shaped.size_le {t : Tree} {s : Shape} (h : Shaped t s) : s.size ≤ t.next := by
  rw [size_eq_length]
  have hsub : s.addrs ⊆ List.range t.next := by
    intro a ha
    exact List.mem_range.mpr (h.addr_lt a ha)
  have := (List.subperm_of_subset h.nodup hsub).length_le
  simpa using this

theorem Shaped.toList_eq {t : Tree} {s : Shape} (h : Shaped t s) :
    t.toList = s.addrs.map t.heap.pair := by
  unfold Tree.toList
  rw [h.root, inorder_eq t.heap s none (t.next + 1) h.lay]
  have := height_le_size s
  have := h.size_le
  omega

theorem Shaped.keys_eq {t : Tree} {s : Shape} (h : Shaped t s) :
    t.toList.map Prod.fst = s.addrs.map t.heap.key := by
  rw [h.toList_eq, List.map_map]
  rfl

/-- `findNode` on a laid-out shape returns, with enough fuel, either null or a
node of the shape holding the key. -/
theorem findNode_sound (h : Heap) (k : Int) :
    ∀ (s : Shape) (par : Ptr) (fuel : Nat), Lay h s par → s.height < fuel →
      ∃ r, findNode fuel h s.root k = .ok r ∧
        (r = none ∨ ∃ a, r = some a ∧ a ∈ s.addrs ∧ h.key a = k) := by
  intro s
  induction s with
  | nil =>
    intro par fuel _ hf
    cases fuel with
    | zero => omega
    | succ f => exact ⟨none, by simp [findNode, Shape.root], Or.inl rfl⟩
  | node l a r ihl ihr =>
    intro par fuel hr hf
    obtain ⟨n, hn, hp, hl, hrr, hrl, hrr2⟩ := hr
    cases fuel with
    | zero => omega
    | succ f =>
      have hkey : h.key a = n.key := by simp [Heap.key, Heap.pair, hn]
      simp only [Shape.height] at hf
      simp only [findNode, Shape.root, Heap.read, hn, bind_ok]
      by_cases h1 : n.key > k
      · simp only [h1, if_true]
        obtain ⟨r1, e1, h2⟩ := ihl (some a) f hrl (by omega)
        rw [hl, e1]
        refine ⟨r1, rfl, ?_⟩
        rcases h2 with rn | ⟨b, rb, hb, hkb⟩
        · exact Or.inl rn
        · exact Or.inr ⟨b, rb, by simp [Shape.addrs, hb], hkb⟩
      · simp only [h1, if_false]
        by_cases h2 : n.key < k
        · simp only [h2, if_true]
          obtain ⟨r1, e1, h3⟩ := ihr (some a) f hrr2 (by omega)
          rw [hrr, e1]
          refine ⟨r1, rfl, ?_⟩
          rcases h3 with rn | ⟨b, rb, hb, hkb⟩
          · exact Or.inl rn
          · exact Or.inr ⟨b, rb, by simp [Shape.addrs, hb], hkb⟩
        · simp only [h2, if_false]
          exact ⟨some a, rfl, Or.inr ⟨a, rfl, by simp [Shape.addrs], by rw [hkey]; omega⟩⟩

/-- On an ordered shape `findNode` finds every key that is present. -/
theorem findNode_complete (h : Heap) (k : Int) :
    ∀ (s : Shape) (par : Ptr) (fuel : Nat), Lay h s par → s.height < fuel →
      (s.addrs.map h.key).Pairwise (· ≤ ·) → k ∈ s.addrs.map h.key →
      ∃ a, findNode fuel h s.root k = .ok (some a) ∧ a ∈ s.addrs ∧ h.key a = k := by
  intro s
  induction s with
  | nil =>
    intro par fuel _ _ _ hk
    simp [Shape.addrs] at hk
  | node l a r ihl ihr =>
    intro par fuel hr hf hs hk
    obtain ⟨n, hn, hp, hl, hrr, hrl, hrr2⟩ := hr
    cases fuel with
    | zero => omega
    | succ f =>
      have hkey : h.key a = n.key := by simp [Heap.key, Heap.pair, hn]
      obtain ⟨hsl, hsr, hla, hra⟩ := sorted_node hs
      simp only [Shape.height] at hf
      simp only [Shape.addrs, List.map_append, List.map_cons, List.mem_append, List.mem_cons,
        List.mem_map] at hk
      simp only [findNode, Shape.root, Heap.read, hn, bind_ok]
      by_cases h1 : n.key > k
      · simp only [h1, if_true]
        have hkl : k ∈ l.addrs.map h.key := by
          rcases hk with ⟨b, hb, e⟩ | e | ⟨b, hb, e⟩
          · exact List.mem_map.mpr ⟨b, hb, e⟩
          · rw [hkey] at e; omega
          · have := hra b hb; rw [hkey] at this; omega
        obtain ⟨b, e1, hb, hkb⟩ := ihl (some a) f hrl (by omega) hsl hkl
        rw [hl, e1]
        exact ⟨b, rfl, by simp [Shape.addrs, hb], hkb⟩
      · simp only [h1, if_false]
        by_cases h2 : n.key < k
        · simp only [h2, if_true]
          have hkr : k ∈ r.addrs.map h.key := by
            rcases hk with ⟨b, hb, e⟩ | e | ⟨b, hb, e⟩
            · have := hla b hb; rw [hkey] at this; omega
            · rw [hkey] at e; omega
            · exact List.mem_map.mpr ⟨b, hb, e⟩
          obtain ⟨b, e1, hb, hkb⟩ := ihr (some a) f hrr2 (by omega) hsr hkr
          rw [hrr, e1]
          exact ⟨b, rfl, by simp [Shape.addrs, hb], hkb⟩
        · simp only [h2, if_false]
          exact ⟨a, rfl, by simp [Shape.addrs], by rw [hkey]; omega⟩

/-- `findMax` on a laid-out shape returns its last node in symmetric order. -/
theorem findMax_spec (h : Heap) :
    ∀ (s : Shape) (par : Ptr) (fuel : Nat), Lay h s par → s.height < fuel →
      findMax fuel h s.root = .ok s.addrs.getLast? := by
  intro s
  induction s with
  | nil =>
    intro par fuel _ hf
    cases fuel with
    | zero => omega
    | succ f => rfl
  | node l a r ihl ihr =>
    intro par fuel hlay hf
    obtain ⟨n, hn, -, hl, hr, hll, hlr⟩ := hlay
    cases fuel with
    | zero => omega
    | succ f =>
      simp only [Shape.height] at hf
      change findMax (f + 1) h (some a) = _
      simp only [findMax, Heap.read, hn, bind_ok]
      cases r with
      | nil =>
        simp only [Shape.root] at hr
        simp [hr, Shape.addrs]
      | node rl b rr =>
        have := ihr (some a) f hlr (by simp only [Shape.height] at hf ⊢; omega)
        simp only [Shape.root] at hr this
        simp only [hr, Option.isSome_some, if_true, this]
        congr 1
        have e : (Shape.node l a (Shape.node rl b rr)).addrs =
            (l.addrs ++ [a]) ++ (Shape.node rl b rr).addrs := by
          simp [Shape.addrs]
        rw [e, List.getLast?_append_of_ne_nil _ (by simp [Shape.addrs])]

/-- `end()` returns on every well-formed tree. -/
theorem Shaped.end_ok {t : Tree} {s : Shape} (h : Shaped t s) (fuel : Nat)
    (hf : s.height < fuel) :
    t.end fuel = .ok { ptr_ := t.sentinel_, first_ := t.root_, last_ := s.addrs.getLast? } := by
  simp only [Tree.end, h.root, findMax_spec t.heap s none fuel h.lay hf, bind_ok, pure_eq_ok]

/-! ## `insert` keeps the invariant -/

theorem SamePairs.pair_eq {t t' : Tree} (h : SamePairs t t') (a : Nat) :
    t'.heap.pair a = t.heap.pair a := by
  have := h.kv a
  unfold Heap.pair
  rcases h1 : t.heap a with _ | n <;> rcases h2 : t'.heap a with _ | n' <;>
    simp [h1, h2, Node.kv] at this ⊢
  exact this

theorem SamePairs.key_eq {t t' : Tree} (h : SamePairs t t') (a : Nat) :
    t'.heap.key a = t.heap.key a := by
  unfold Heap.key
  rw [h.pair_eq]

theorem SamePairs.none_iff {t t' : Tree} (h : SamePairs t t') (a : Nat) :
    t'.heap a = none ↔ t.heap a = none := by
  have := h.kv a
  rcases h1 : t.heap a with _ | n <;> rcases h2 : t'.heap a with _ | n' <;>
    simp [h1, h2] at this ⊢

theorem pairwise_insert_le {l1 l2 : List Int} {k : Int}
    (hs : (l1 ++ l2).Pairwise (· ≤ ·)) (h1 : ∀ a ∈ l1, a ≤ k) (h2 : ∀ a ∈ l2, k < a) :
    (l1 ++ k :: l2).Pairwise (· ≤ ·) := by
  rw [List.pairwise_append] at hs ⊢
  refine ⟨hs.1, List.pairwise_cons.mpr ⟨fun a ha => le_of_lt (h2 a ha), hs.2.1⟩, ?_⟩
  intro a ha b hb
  rcases List.mem_cons.mp hb with e | e
  · rw [e]; exact h1 a ha
  · exact hs.2.2 a ha b e

theorem pairwise_insert_lt {l1 l2 : List Int} {k : Int}
    (hs : (l1 ++ l2).Pairwise (· < ·)) (h1 : ∀ a ∈ l1, a < k) (h2 : ∀ a ∈ l2, k < a) :
    (l1 ++ k :: l2).Pairwise (· < ·) := by
  rw [List.pairwise_append] at hs ⊢
  refine ⟨hs.1, List.pairwise_cons.mpr ⟨fun a ha => h2 a ha, hs.2.1⟩, ?_⟩
  intro a ha b hb
  rcases List.mem_cons.mp hb with e | e
  · rw [e]; exact h1 a ha
  · exact hs.2.2 a ha b e

/-- What `insert` needs from the state after its allocations. -/
theorem insert_core (t T2 : Tree) (s : Shape) (k v : Int) (fuel i : Nat) (ni : Node)
    (hinv : Inv t s) (hnew : t.type_ = .kUNIQUE → k ∉ s.addrs.map t.heap.key)
    (hf : 2 * s.height + 3 ≤ fuel)
    (hagree : ∀ a, a < t.next → T2.heap a = t.heap a)
    (hi : T2.heap i = some ni) (hik : ni.key = k) (hiv : ni.val = v) (hige : t.next ≤ i)
    (hnext : T2.next = i + 1) (hfresh2 : ∀ a, T2.next ≤ a → T2.heap a = none)
    (hroot2 : T2.root_ = t.root_) (hsize2 : T2.size_ = t.size_) (htype2 : T2.type_ = t.type_)
    (hsent2 : ∀ a, T2.sentinel_ = some a → a ≠ i ∧ a ∉ s.addrs ∧ (T2.heap a).isSome = true) :
    ∃ t' s', insertNode fuel T2 (some i) .root none = .ok t' ∧
      Inv t' s' ∧ i ∉ s.addrs ∧ t'.heap.pair i = (k, v) ∧
      (∀ a ∈ s.addrs, t'.heap.pair a = t.heap.pair a) ∧
      (∃ l1 l2, s.addrs = l1 ++ l2 ∧ s'.addrs = l1 ++ i :: l2 ∧
        (∀ a ∈ l1, t.heap.key a ≤ k) ∧ (∀ a ∈ l2, k < t.heap.key a)) ∧
      t'.size_ = t.size_ + 1 ∧ t'.type_ = t.type_ ∧ t'.sentinel_ = T2.sentinel_ ∧
      (∀ a, a ≠ i → a ∉ s.addrs → t'.heap a = T2.heap a) ∧
      (RBT t.heap s → RBT t'.heap s') := by
  have hsh := hinv.shaped
  have hlt := hsh.addr_lt
  have his : i ∉ s.addrs := fun e => by have := hlt i e; omega
  have hag : ∀ a ∈ s.addrs, T2.heap a = t.heap a := fun a ha => hagree a (hlt a ha)
  have hlay2 : Lay T2.heap (Ctx.top.plug s) none := by
    apply Lay.congr _ _ _ hsh.lay
    intro a ha
    rw [hag a ha]
  have hkey2 : ∀ a ∈ s.addrs, T2.heap.key a = t.heap.key a := by
    intro a ha
    simp only [Heap.key, Heap.pair, hag a ha]
  have hsorted2 : (s.addrs.map T2.heap.key).Pairwise (· ≤ ·) := by
    rw [List.map_congr_left hkey2]
    exact hinv.sorted
  have hblack2 : rootBlack T2 = true := by
    have := hinv.black
    unfold rootBlack at this ⊢
    rw [hroot2]
    rcases hr : t.root_ with _ | r
    · rfl
    · rw [hr] at this
      have hrm : r ∈ s.addrs := root_mem (by rw [← hsh.root, hr])
      simp only [] at this ⊢
      rw [hag r hrm]
      exact this
  obtain ⟨t', s', hins, hlay', hroot', hblack', ⟨l1, l2, e1, e2, o1, o2⟩, hsame, hframe,
      hrbt⟩ :=
    insertNode_spec s fuel T2 Ctx.top i ni hlay2 (by rw [hroot2, hsh.root]; rfl)
      hsh.nodup his hi hblack2 hsorted2 (by simp only [Ctx.depth]; omega)
  simp only [Ctx.pre, Ctx.post, List.nil_append, List.append_nil] at e2
  have hpair' : ∀ a, t'.heap.pair a = T2.heap.pair a := fun a => hsame.pair_eq a
  have hkey' : ∀ a, t'.heap.key a = T2.heap.key a := fun a => hsame.key_eq a
  have hki : t'.heap.key i = k := by
    rw [hkey']; simp [Heap.key, Heap.pair, hi, hik]
  have hl1 : ∀ a ∈ l1, a ∈ s.addrs := fun a ha => by rw [e1]; simp [ha]
  have hl2 : ∀ a ∈ l2, a ∈ s.addrs := fun a ha => by rw [e1]; simp [ha]
  have hkeys : s'.addrs.map t'.heap.key = l1.map t.heap.key ++ k :: l2.map t.heap.key := by
    rw [e2, List.map_append, List.map_cons, hki]
    congr 1
    · apply List.map_congr_left
      intro a ha
      rw [hkey', hkey2 a (hl1 a ha)]
    · congr 1
      apply List.map_congr_left
      intro a ha
      rw [hkey', hkey2 a (hl2 a ha)]
  have hold : s.addrs.map t.heap.key = l1.map t.heap.key ++ l2.map t.heap.key := by
    rw [e1, List.map_append]
  have o1' : ∀ a ∈ l1, T2.heap.key a ≤ ni.key := o1
  have o2' : ∀ a ∈ l2, ni.key < T2.heap.key a := o2
  have p1 : ∀ a ∈ l1, t.heap.key a ≤ k := fun a ha => by
    have := o1' a ha
    rw [hkey2 a (hl1 a ha), hik] at this
    exact this
  have p2 : ∀ a ∈ l2, k < t.heap.key a := fun a ha => by
    have := o2' a ha
    rw [hkey2 a (hl2 a ha), hik] at this
    exact this
  refine ⟨t', s', hins, ?_, his, ?_, ?_, ⟨l1, l2, e1, e2, p1, p2⟩, ?_, ?_, hsame.sentinel,
    hframe, fun hr => hrbt (by
      obtain ⟨N, hN⟩ := hr
      exact ⟨N, hN.transport (fun a ha => by simp only [Heap.color, hag a ha])⟩)⟩
  · refine ⟨⟨hroot', hlay', ?_, ?_⟩, ?_, ?_, hblack', ?_, ?_⟩
    · rw [e2]
      have := hsh.nodup
      rw [e1] at this his
      rw [List.nodup_append] at this ⊢
      simp only [List.mem_append, not_or] at his
      refine ⟨this.1, List.nodup_cons.mpr ⟨his.2, this.2.1⟩, ?_⟩
      intro a ha hb
      rcases List.mem_cons.mp hb with e | e
      · exact his.1 (e ▸ ha)
      · exact this.2.2 ha e
    · intro a ha
      rw [hsame.next] at ha
      rw [hsame.none_iff]
      exact hfresh2 a ha
    · rw [hkeys]
      apply pairwise_insert_le
      · rw [← hold]; exact hinv.sorted
      · intro x hx
        obtain ⟨a, ha, rfl⟩ := List.mem_map.mp hx
        exact p1 a ha
      · intro x hx
        obtain ⟨a, ha, rfl⟩ := List.mem_map.mp hx
        exact p2 a ha
    · intro hu
      have hu' : t.type_ = .kUNIQUE := by rw [← htype2, ← hsame.type]; exact hu
      rw [hkeys]
      apply pairwise_insert_lt
      · rw [← hold]; exact hinv.strict hu'
      · intro x hx
        obtain ⟨a, ha, rfl⟩ := List.mem_map.mp hx
        have h1 := p1 a ha
        have h2 : t.heap.key a ≠ k := fun e =>
          hnew hu' (List.mem_map.mpr ⟨a, hl1 a ha, e⟩)
        omega
      · intro x hx
        obtain ⟨a, ha, rfl⟩ := List.mem_map.mp hx
        exact p2 a ha
    · intro a ha
      rw [hsame.sentinel] at ha
      obtain ⟨h1, h2, h3⟩ := hsent2 a ha
      refine ⟨?_, ?_⟩
      · rw [e2]
        intro hm
        rcases List.mem_append.mp hm with e | e
        · exact h2 (hl1 a e)
        · rcases List.mem_cons.mp e with e | e
          · exact h1 e
          · exact h2 (hl2 a e)
      · rcases h4 : t'.heap a with _ | n
        · rw [(hsame.none_iff a).mp h4] at h3
          simp at h3
        · rfl
    · rw [hsame.size]
      simp only [hsize2, hinv.size, size_eq_length, e1, e2, List.length_append,
        List.length_cons]
      omega
  · rw [hpair']; simp [Heap.pair, hi, hik, hiv]
  · intro a ha
    rw [hpair', Heap.pair, Heap.pair, hag a ha]
  · rw [hsame.size]; simp [hsize2]
  · rw [hsame.type]; exact htype2

/-! ## The public `insert` -/

theorem Inv.empty (ty : Uniq) : Inv (Tree.empty ty) .nil := by
  refine ⟨⟨rfl, trivial, List.nodup_nil, fun _ _ => rfl⟩, List.Pairwise.nil,
    fun _ => List.Pairwise.nil, rfl, ?_, rfl⟩
  intro a ha
  simp [Tree.empty] at ha

/-- The state after the lazy creation of the sentinel. -/
theorem ensureSentinel_spec (t : Tree) (s : Shape) (hinv : Inv t s) :
    t.ensureSentinel.root_ = t.root_ ∧ t.ensureSentinel.size_ = t.size_ ∧
      t.ensureSentinel.type_ = t.type_ ∧ t.next ≤ t.ensureSentinel.next ∧
      (∀ a, a < t.next → t.ensureSentinel.heap a = t.heap a) ∧
      (∀ a, t.ensureSentinel.next ≤ a → t.ensureSentinel.heap a = none) ∧
      ∃ sa, t.ensureSentinel.sentinel_ = some sa ∧ sa < t.ensureSentinel.next ∧
        sa ∉ s.addrs ∧ (t.ensureSentinel.heap sa).isSome = true := by
  have hlt := hinv.shaped.addr_lt
  rcases hs : t.sentinel_ with _ | sa
  · have e : t.ensureSentinel = { (t.newNode 0 0 .kRED).1 with sentinel_ := some t.next } := by
      simp [Tree.ensureSentinel, hs, Tree.newNode]
    rw [e]
    refine ⟨rfl, rfl, rfl, by simp [Tree.newNode], ?_, ?_, t.next, rfl, by simp [Tree.newNode],
      fun hm => by have := hlt _ hm; omega, by simp [Tree.newNode, Heap.set_same]⟩
    · intro a ha
      simp only [Tree.newNode]
      rw [Heap.set_ne _ _ _ _ (by omega)]
    · intro a ha
      simp only [Tree.newNode] at ha ⊢
      rw [Heap.set_ne _ _ _ _ (by omega)]
      exact hinv.shaped.fresh a (by omega)
  · have e : t.ensureSentinel = t := by simp [Tree.ensureSentinel, hs]
    rw [e]
    obtain ⟨h1, h2⟩ := hinv.sentinel sa hs
    refine ⟨rfl, rfl, rfl, le_refl _, fun _ _ => rfl, hinv.shaped.fresh, sa, hs, ?_, h1, h2⟩
    by_contra hge
    rw [hinv.shaped.fresh sa (by omega)] at h2
    simp at h2

/-- Inserting a key that UNIQUE mode does not reject: the call returns, the
invariant is kept, the new node holds the pair and stands in the symmetric order
after every key not above it and before every key above it; the new node is
allocated at or above the allocation mark, no cell below the mark changes except
those of the tree itself, and a red-black colouring of the tree is kept. -/
theorem insert_fresh_rb (t : Tree) (s : Shape) (k v : Int) (fuel : Nat)
    (hinv : Inv t s) (hnew : t.type_ = .kUNIQUE → k ∉ s.addrs.map t.heap.key)
    (hf : 2 * s.height + 4 ≤ fuel) :
    ∃ t' s' i, t.insert fuel k v =
        .ok (t', { ptr_ := some i, first_ := t'.root_, last_ := t'.sentinel_ }) ∧
      Inv t' s' ∧ i ∉ s.addrs ∧ t'.heap.pair i = (k, v) ∧
      (∀ a ∈ s.addrs, t'.heap.pair a = t.heap.pair a) ∧
      (∃ l1 l2, s.addrs = l1 ++ l2 ∧ s'.addrs = l1 ++ i :: l2 ∧
        (∀ a ∈ l1, t.heap.key a ≤ k) ∧ (∀ a ∈ l2, k < t.heap.key a)) ∧
      t'.size_ = t.size_ + 1 ∧ t'.type_ = t.type_ ∧ t.next ≤ i ∧
      (∀ a, a < t.next → a ∉ s.addrs → t'.heap a = t.heap a) ∧
      (RBT t.heap s → RBT t'.heap s') := by
  have hsh := hinv.shaped
  have hd : t.type_ = .kUNIQUE → findNode fuel t.heap t.root_ k = .ok none := by
    intro hu
    obtain ⟨r, hr, hcase⟩ := findNode_sound t.heap k s none fuel hsh.lay (by omega)
    rw [← hsh.root] at hr
    rcases hcase with rfl | ⟨a, rfl, ha, hk⟩
    · exact hr
    · exact absurd (List.mem_map.mpr ⟨a, ha, hk⟩) (hnew hu)
  obtain ⟨hr1, hz1, hy1, hn1, hag1, hfr1, sa, hsa, hsalt, hsas, hsal⟩ :=
    ensureSentinel_spec t s hinv
  have e : t.insert fuel k v = (do
      let t' ← insertNode fuel (t.ensureSentinel.newNode k v .kRED).1
        (some t.ensureSentinel.next) .root none
      pure (t', { ptr_ := some t.ensureSentinel.next, first_ := t'.root_,
                  last_ := t'.sentinel_ })) := by
    unfold Tree.insert
    by_cases hu : t.type_ = .kUNIQUE
    · simp only [hu, hd hu, bind_ok, if_true, Option.isSome_none, Bool.false_eq_true,
        and_false, if_false]
      rfl
    · simp only [hu, if_false, false_and, pure_eq_ok, bind_ok]
      rfl
  obtain ⟨t', s', hins, hinv', h1, h2, h3, h4, h5, h6, -, h7, h8⟩ :=
    insert_core t (t.ensureSentinel.newNode k v .kRED).1 s k v fuel t.ensureSentinel.next
      { key := k, val := v, color := .kRED, parent := none, left := none, right := none }
      hinv hnew (by omega)
      (by
        intro a ha
        simp only [Tree.newNode]
        rw [Heap.set_ne _ _ _ _ (by omega)]
        exact hag1 a ha)
      (by simp only [Tree.newNode, Heap.set_same])
      rfl rfl hn1 rfl
      (by
        intro a ha
        simp only [Tree.newNode] at ha ⊢
        rw [Heap.set_ne _ _ _ _ (by omega)]
        exact hfr1 a (by omega))
      hr1 hz1 hy1
      (by
        intro a ha
        simp only [Tree.newNode] at ha
        rw [hsa] at ha
        cases ha
        refine ⟨by omega, hsas, ?_⟩
        simp only [Tree.newNode]
        rw [Heap.set_ne _ _ _ _ (by omega)]
        exact hsal)
  refine ⟨t', s', t.ensureSentinel.next, ?_, hinv', h1, h2, h3, h4, h5, h6, hn1, ?_, h8⟩
  · rw [e, hins]
    rfl
  · intro a ha has
    rw [h7 a (by omega) has]
    simp only [Tree.newNode]
    rw [Heap.set_ne _ _ _ _ (by omega)]
    exact hag1 a ha

/-- Inserting a key that UNIQUE mode does not reject, with the frame of the call:
the new node is allocated at or above the allocation mark and no cell below the
mark changes except those of the tree itself. -/
theorem insert_fresh_frame (t : Tree) (s : Shape) (k v : Int) (fuel : Nat)
    (hinv : Inv t s) (hnew : t.type_ = .kUNIQUE → k ∉ s.addrs.map t.heap.key)
    (hf : 2 * s.height + 4 ≤ fuel) :
    ∃ t' s' i, t.insert fuel k v =
        .ok (t', { ptr_ := some i, first_ := t'.root_, last_ := t'.sentinel_ }) ∧
      Inv t' s' ∧ i ∉ s.addrs ∧ t'.heap.pair i = (k, v) ∧
      (∀ a ∈ s.addrs, t'.heap.pair a = t.heap.pair a) ∧
      (∃ l1 l2, s.addrs = l1 ++ l2 ∧ s'.addrs = l1 ++ i :: l2 ∧
        (∀ a ∈ l1, t.heap.key a ≤ k) ∧ (∀ a ∈ l2, k < t.heap.key a)) ∧
      t'.size_ = t.size_ + 1 ∧ t'.type_ = t.type_ ∧ t.next ≤ i ∧
      ∀ a, a < t.next → a ∉ s.addrs → t'.heap a = t.heap a := by
  obtain ⟨t', s', i, h0, h1, h2, h3, h4, h5, h6, h7, h8, h9, -⟩ :=
    insert_fresh_rb t s k v fuel hinv hnew hf
  exact ⟨t', s', i, h0, h1, h2, h3, h4, h5, h6, h7, h8, h9⟩

/-- Inserting a key that UNIQUE mode does not reject: the call returns, the
invariant is kept, the new node holds the pair and stands in the symmetric order
after every key not above it and before every key above it. -/
theorem insert_fresh (t : Tree) (s : Shape) (k v : Int) (fuel : Nat)
    (hinv : Inv t s) (hnew : t.type_ = .kUNIQUE → k ∉ s.addrs.map t.heap.key)
    (hf : 2 * s.height + 4 ≤ fuel) :
    ∃ t' s' i, t.insert fuel k v =
        .ok (t', { ptr_ := some i, first_ := t'.root_, last_ := t'.sentinel_ }) ∧
      Inv t' s' ∧ i ∉ s.addrs ∧ t'.heap.pair i = (k, v) ∧
      (∀ a ∈ s.addrs, t'.heap.pair a = t.heap.pair a) ∧
      (∃ l1 l2, s.addrs = l1 ++ l2 ∧ s'.addrs = l1 ++ i :: l2 ∧
        (∀ a ∈ l1, t.heap.key a ≤ k) ∧ (∀ a ∈ l2, k < t.heap.key a)) ∧
      t'.size_ = t.size_ + 1 ∧ t'.type_ = t.type_ := by
  obtain ⟨t', s', i, h0, h1, h2, h3, h4, h5, h6, h7, -⟩ :=
    insert_fresh_frame t s k v fuel hinv hnew hf
  exact ⟨t', s', i, h0, h1, h2, h3, h4, h5, h6, h7⟩

/-- In UNIQUE mode a key that is present is refused: the tree is returned as it
was, with the end iterator. -/
theorem insert_dup (t : Tree) (s : Shape) (k v : Int) (fuel : Nat)
    (hsh : Shaped t s) (hsorted : (s.addrs.map t.heap.key).Pairwise (· ≤ ·))
    (hu : t.type_ = .kUNIQUE) (hk : k ∈ s.addrs.map t.heap.key) (hf : s.height < fuel) :
    t.insert fuel k v =
      .ok (t, { ptr_ := t.sentinel_, first_ := t.root_, last_ := s.addrs.getLast? }) := by
  obtain ⟨a, hfind, -, -⟩ := findNode_complete t.heap k s none fuel hsh.lay hf hsorted hk
  rw [← hsh.root] at hfind
  unfold Tree.insert
  simp only [hu, if_true, hfind, bind_ok, Option.isSome_some, and_self, hsh.end_ok fuel hf,
    pure_eq_ok]

/-- Every `insert` on a tree satisfying the invariant returns and keeps it. -/
theorem insert_total (t : Tree) (s : Shape) (k v : Int) (fuel : Nat)
    (hinv : Inv t s) (hf : 2 * s.height + 4 ≤ fuel) :
    ∃ t' it s', t.insert fuel k v = .ok (t', it) ∧ Inv t' s' ∧ s'.size ≤ s.size + 1 ∧
      t'.type_ = t.type_ := by
  by_cases hdup : t.type_ = .kUNIQUE ∧ k ∈ s.addrs.map t.heap.key
  · exact ⟨t, _, s, insert_dup t s k v fuel hinv.shaped hinv.sorted hdup.1 hdup.2 (by omega),
      hinv, by omega, rfl⟩
  · obtain ⟨t', s', i, hins, hinv', -, -, -, -, hsz, hty⟩ :=
      insert_fresh t s k v fuel hinv (fun hu hk => hdup ⟨hu, hk⟩) hf
    refine ⟨t', _, s', hins, hinv', ?_, hty⟩
    rw [← hinv'.size, ← hinv.size, hsz]

/-- A run of `insert` calls from a tree satisfying the invariant returns and
ends in a tree satisfying it. -/
theorem run_inserts (fuel : Nat) :
    ∀ (ps : List (Int × Int)) (t : Tree) (s : Shape), Inv t s →
      2 * (s.size + ps.length) + 4 ≤ fuel →
      ∃ t' s', Tree.run fuel t (insertOps ps) = .ok t' ∧ Inv t' s' ∧
        s'.size ≤ s.size + ps.length ∧ t'.type_ = t.type_ := by
  intro ps
  induction ps with
  | nil =>
    intro t s hinv _
    exact ⟨t, s, rfl, hinv, by simp, rfl⟩
  | cons p ps ih =>
    intro t s hinv hf
    have hh := height_le_size s
    simp only [List.length_cons] at hf
    obtain ⟨t1, it, s1, hins, hinv1, hsz1, hty1⟩ :=
      insert_total t s p.1 p.2 fuel hinv (by omega)
    obtain ⟨t', s', hrun, hinv', hsz', hty'⟩ := ih t1 s1 hinv1 (by omega)
    refine ⟨t', s', ?_, hinv', by simp only [List.length_cons]; omega, by rw [hty', hty1]⟩
    simp only [insertOps, List.map_cons, Tree.run, Tree.step, hins, bind_ok, pure_eq_ok]
    exact hrun

/-! ## The specification of `find`, `insert` and `erase` of an absent key -/

theorem Iter.eq_self (it : Iter) : Iter.eq it it = true := by
  simp [Iter.eq]

theorem singletonTree_inv : Inv singletonTree singletonShape := by
  refine ⟨⟨rfl, ?_, by decide, ?_⟩, ?_, ?_, rfl, ?_, rfl⟩
  · exact ⟨_, rfl, rfl, rfl, rfl, trivial, trivial⟩
  · intro a ha
    have h1 : a ≠ 1 := by change 2 ≤ a at ha; omega
    have h0 : a ≠ 0 := by change 2 ≤ a at ha; omega
    simp [singletonTree, h1, h0]
  · simp [singletonShape, Shape.addrs]
  · intro _
    simp [singletonShape, Shape.addrs]
  · intro a ha
    have : a = 0 := by
      simp only [singletonTree, Option.some.injEq] at ha
      exact ha.symm
    subst this
    exact ⟨by decide, rfl⟩

/-- In a strictly ordered shape no two nodes hold the same key. -/
theorem key_inj {h : Heap} {l : List Nat} (hs : (l.map h.key).Pairwise (· < ·))
    {a b : Nat} (ha : a ∈ l) (hb : b ∈ l) (e : h.key a = h.key b) : a = b := by
  by_contra hne
  have hp : l.Pairwise (fun x y => h.key x ≠ h.key y) :=
    (List.pairwise_map.mp hs).imp (fun hlt => ne_of_lt hlt)
  exact hp.forall (fun x y hxy => hxy.symm) ha hb hne e

/-- The lookup on a tree satisfying the invariant. -/
theorem find_spec (t : Tree) (s : Shape) (k : Int) (fuel : Nat) (hinv : Inv t s)
    (hu : t.type_ = .kUNIQUE) (hf : s.height < fuel) :
    ∃ it, t.find fuel k = .ok it ∧
      (∀ v, (k, v) ∈ t.toList → it.deref t.heap = .ok (k, v)) ∧
      (k ∉ t.toList.map Prod.fst → t.end fuel = .ok it) := by
  have hsh := hinv.shaped
  by_cases hk : k ∈ s.addrs.map t.heap.key
  · obtain ⟨a, hfind, ha, hka⟩ :=
      findNode_complete t.heap k s none fuel hsh.lay hf hinv.sorted hk
    rw [← hsh.root] at hfind
    refine ⟨{ ptr_ := some a, first_ := t.root_, last_ := t.sentinel_ }, ?_, ?_, ?_⟩
    · simp only [Tree.find, hfind, bind_ok, Option.isSome_some, if_true, pure_eq_ok]
    · intro v hv
      rw [hsh.toList_eq] at hv
      obtain ⟨b, hb, hpb⟩ := List.mem_map.mp hv
      have hkb : t.heap.key b = k := by simp only [Heap.key, hpb]
      have hab : a = b := key_inj (hinv.strict hu) ha hb (by rw [hka, hkb])
      subst hab
      obtain ⟨n, hn⟩ := Option.isSome_iff_exists.mp (hsh.lay.live a ha)
      simp only [Heap.pair, hn] at hpb
      simp only [Iter.deref, Heap.read, hn, bind_ok, pure_eq_ok, hpb]
    · intro hno
      rw [hsh.keys_eq] at hno
      exact absurd hk hno
  · obtain ⟨r, hfind, hcase⟩ := findNode_sound t.heap k s none fuel hsh.lay hf
    rw [← hsh.root] at hfind
    rcases hcase with rfl | ⟨a, rfl, ha, hka⟩
    · refine ⟨_, ?_, ?_, fun _ => hsh.end_ok fuel hf⟩
      · simp only [Tree.find, hfind, bind_ok, Option.isSome_none, Bool.false_eq_true, if_false,
          hsh.end_ok fuel hf]
      · intro v hv
        exfalso
        apply hk
        rw [← hsh.keys_eq]
        exact List.mem_map.mpr ⟨(k, v), hv, rfl⟩
    · exact absurd (List.mem_map.mpr ⟨a, ha, hka⟩) hk

/-- Claim C3. For every UNIQUE tree built from the empty tree by a list of
`insert` calls and every key `k`: the calls and `find(k)` return; when a pair
`(k, v)` is in the tree, the iterator that `find(k)` returns dereferences to that
pair; when no pair of the tree has key `k`, it is the iterator that `end()`
returns, so `operator==` holds between the two. -/
theorem find_on_tree_built_by_inserts (ps : List (Int × Int)) (k : Int) (fuel : Nat)
    (hf : 2 * ps.length + 4 ≤ fuel) :
    ∃ t it, Tree.run fuel (Tree.empty .kUNIQUE) (insertOps ps) = .ok t ∧
      t.find fuel k = .ok it ∧
      (∀ v, (k, v) ∈ t.toList → it.deref t.heap = .ok (k, v)) ∧
      (k ∉ t.toList.map Prod.fst →
        ∃ e, t.end fuel = .ok e ∧ it = e ∧ Iter.eq it e = true) := by
  obtain ⟨t, s, hrun, hinv, hsz, hty⟩ :=
    run_inserts fuel ps (Tree.empty .kUNIQUE) .nil (Inv.empty .kUNIQUE)
      (by simp only [Shape.size]; omega)
  have hh := height_le_size s
  simp only [Shape.size] at hsz
  obtain ⟨it, hfind, hin, hout⟩ := find_spec t s k fuel hinv hty (by omega)
  exact ⟨t, it, hrun, hfind, hin, fun hno => ⟨it, hout hno, rfl, Iter.eq_self it⟩⟩

set_option maxRecDepth 100000 in
/-- Instance of C3: the tree built by inserting (1, 10) and (2, 20) holds these two
pairs, and `find(2)` returns an iterator that dereferences to (2, 20). -/
theorem find_on_tree_built_by_inserts_witness :
    2 * [((1 : Int), (10 : Int)), (2, 20)].length + 4 ≤ 8 ∧
    ∃ t it, Tree.run 8 (Tree.empty .kUNIQUE) (insertOps [(1, 10), (2, 20)]) = .ok t ∧
      t.toList = [(1, 10), (2, 20)] ∧ t.find 8 2 = .ok it ∧
      it.deref t.heap = .ok (2, 20) := by
  refine ⟨by decide, ?_⟩
  obtain ⟨t, it, hrun, hfind, hin, -⟩ :=
    find_on_tree_built_by_inserts [(1, 10), (2, 20)] 2 8 (by decide)
  have hl : (Tree.run 8 (Tree.empty .kUNIQUE) (insertOps [(1, 10), (2, 20)])).map
      (fun t => t.toList) = .ok [(1, 10), (2, 20)] := by decide
  rw [hrun] at hl
  have hl2 : t.toList = [(1, 10), (2, 20)] := by
    simpa [Except.map] using hl
  exact ⟨t, it, hrun, hl2, hfind, hin 20 (by rw [hl2]; simp)⟩

/-- Claim C4. In UNIQUE mode, on a well-formed tree with ordered keys,
`insert` of a pair whose key is already present returns the iterator that `end()`
returns (so `operator==` holds between the two) and the tree it leaves is the
tree it was given: same size, same in-order sequence of pairs, hence the value
stored under the key is not overwritten. -/
theorem insert_present_key_is_refused (t : Tree) (s : Shape) (k v : Int) (fuel : Nat)
    (hsh : Shaped t s) (hsorted : (t.toList.map Prod.fst).Pairwise (· ≤ ·))
    (hu : t.type_ = .kUNIQUE) (hk : k ∈ t.toList.map Prod.fst) (hf : s.height < fuel) :
    ∃ t' it e, t.insert fuel k v = .ok (t', it) ∧ t.end fuel = .ok e ∧
      Iter.eq it e = true ∧ t'.size = t.size ∧ t'.toList = t.toList ∧
      (∀ w, (k, w) ∈ t.toList → (k, w) ∈ t'.toList) ∧ t' = t := by
  rw [hsh.keys_eq] at hsorted hk
  exact ⟨t, _, _, insert_dup t s k v fuel hsh hsorted hu hk hf, hsh.end_ok fuel hf,
    Iter.eq_self _, rfl, rfl, fun _ h => h, rfl⟩

/-- Instance of C4: `insert` of (1, 99) into the tree holding (1, 10). -/
theorem insert_present_key_is_refused_witness :
    ∃ t' it e, singletonTree.insert 4 1 99 = .ok (t', it) ∧ singletonTree.end 4 = .ok e ∧
      Iter.eq it e = true ∧ t'.size = singletonTree.size ∧
      t'.toList = singletonTree.toList ∧
      (∀ w, ((1 : Int), w) ∈ singletonTree.toList → ((1 : Int), w) ∈ t'.toList) ∧
      t' = singletonTree :=
  insert_present_key_is_refused singletonTree singletonShape 1 99 4 singletonTree_inv.shaped
    (by decide) rfl (by decide) (by decide)

/-- `findMin` on a laid-out shape returns its first node in symmetric order. -/
theorem findMin_spec (h : Heap) :
    ∀ (s : Shape) (par : Ptr) (fuel : Nat), Lay h s par → s.height < fuel →
      findMin fuel h s.root = .ok s.addrs.head? := by
  intro s
  induction s with
  | nil =>
    intro par fuel _ hf
    cases fuel with
    | zero => omega
    | succ f => rfl
  | node l a r ihl ihr =>
    intro par fuel hlay hf
    obtain ⟨n, hn, -, hl, hr, hll, hlr⟩ := hlay
    cases fuel with
    | zero => omega
    | succ f =>
      simp only [Shape.height] at hf
      change findMin (f + 1) h (some a) = _
      simp only [findMin, Heap.read, hn, bind_ok]
      cases l with
      | nil =>
        simp only [Shape.root] at hl
        simp [hl, Shape.addrs]
      | node ll b lr =>
        have := ihl (some a) f hll (by simp only [Shape.height] at hf ⊢; omega)
        simp only [Shape.root] at hl this
        simp only [hl, Option.isSome_some, if_true, this]
        simp [Shape.addrs]

theorem plug_height (c : Ctx) (s : Shape) : c.depth + s.height ≤ (c.plug s).height := by
  induction c generalizing s with
  | top => simp [Ctx.plug, Ctx.depth]
  | left c a r ih =>
    have := ih (.node s a r)
    simp only [Ctx.plug, Ctx.depth, Shape.height] at this ⊢
    omega
  | right c l a ih =>
    have := ih (.node l a s)
    simp only [Ctx.plug, Ctx.depth, Shape.height] at this ⊢
    omega

/-- Every node of a shape is the top of a subshape in some context. -/
theorem plug_decomp : ∀ (s : Shape) (c : Ctx) (a : Nat), a ∈ s.addrs →
    ∃ (c' : Ctx) (L R : Shape), c.plug s = c'.plug (.node L a R) := by
  intro s
  induction s with
  | nil => intro c a ha; simp [Shape.addrs] at ha
  | node l b r ihl ihr =>
    intro c a ha
    simp only [Shape.addrs, List.mem_append, List.mem_cons] at ha
    rcases ha with ha | rfl | ha
    · exact ihl (.left c b r) a ha
    · exact ⟨c, l, r, rfl⟩
    · exact ihr (.right c l b) a ha

/-- The loop of `operator++` climbs to the first node after the hole. -/
theorem climbRight_spec (h : Heap) :
    ∀ (c : Ctx) (x : Nat) (fuel : Nat), CtxLay h c (some x) → (c.pre ++ x :: c.post).Nodup →
      c.depth < fuel → climbRight fuel h (some x) c.parent = .ok c.post.head? := by
  intro c
  induction c with
  | top =>
    intro x fuel _ _ hf
    cases fuel with
    | zero => omega
    | succ f => rfl
  | left c p r _ =>
    intro x fuel hlay hnd hf
    obtain ⟨n, hn, -, -, hr, -, -⟩ := hlay
    cases fuel with
    | zero => omega
    | succ f =>
      have hx : ¬ some x = n.right := by
        intro e
        rw [hr] at e
        have hm := root_mem e.symm
        have := (nodup_node hnd).2.2.2.1
        exact this (by simp [Ctx.post, hm])
      rw [show (Ctx.left c p r).parent = some p from rfl]
      simp only [climbRight, Option.isNone_some, Bool.false_eq_true, if_false,
        Heap.read, hn, bind_ok, hx, pure_eq_ok, Ctx.post, List.cons_append, List.head?_cons]
  | right c l p ih =>
    intro x fuel hlay hnd hf
    obtain ⟨n, hn, hp, -, hr, -, hc⟩ := hlay
    cases fuel with
    | zero => omega
    | succ f =>
      simp only [Ctx.depth] at hf
      have hnd' : (c.pre ++ p :: c.post).Nodup := by
        simp only [Ctx.pre, Ctx.post, List.append_assoc, List.singleton_append] at hnd
        have h1 := (List.nodup_append.mp hnd).1
        have h2 := (List.nodup_append.mp hnd).2.1
        have h3 := (List.nodup_append.mp hnd).2.2
        have h4 := (List.nodup_append.mp h2).2.1
        have h5 := (List.nodup_append.mp h2).2.2
        simp only [List.nodup_cons] at h4
        rw [List.nodup_append]
        refine ⟨h1, List.nodup_cons.mpr ⟨?_, h4.2.2⟩, ?_⟩
        · intro hm
          exact h4.1 (List.mem_cons_of_mem _ hm)
        · intro a ha hb
          rcases List.mem_cons.mp hb with e | e
          · exact h3 ha (by simp [e])
          · exact h3 ha (by simp [e])
      have := ih p f hc hnd' (by omega)
      rw [show (Ctx.right c l p).parent = some p from rfl]
      simp only [climbRight, Option.isNone_some, Bool.false_eq_true, if_false,
        Heap.read, hn, bind_ok, hr, if_true, hp, this, Ctx.post]

/-- The loop of `operator--` climbs to the last node before the hole. -/
theorem climbLeft_spec (h : Heap) :
    ∀ (c : Ctx) (x : Nat) (fuel : Nat), CtxLay h c (some x) → (c.pre ++ x :: c.post).Nodup →
      c.depth < fuel → climbLeft fuel h (some x) c.parent = .ok c.pre.getLast? := by
  intro c
  induction c with
  | top =>
    intro x fuel _ _ hf
    cases fuel with
    | zero => omega
    | succ f => rfl
  | right c l p _ =>
    intro x fuel hlay hnd hf
    obtain ⟨n, hn, -, hl, -, -, -⟩ := hlay
    cases fuel with
    | zero => omega
    | succ f =>
      have hx : ¬ some x = n.left := by
        intro e
        rw [hl] at e
        have hm := root_mem e.symm
        have := (nodup_node hnd).2.2.1
        exact this (by simp [Ctx.pre, hm])
      rw [show (Ctx.right c l p).parent = some p from rfl]
      simp only [climbLeft, Option.isNone_some, Bool.false_eq_true, if_false,
        Heap.read, hn, bind_ok, hx, pure_eq_ok, Ctx.pre]
      simp
  | left c p r ih =>
    intro x fuel hlay hnd hf
    obtain ⟨n, hn, hp, hl, -, -, hc⟩ := hlay
    cases fuel with
    | zero => omega
    | succ f =>
      simp only [Ctx.depth] at hf
      have hnd' : (c.pre ++ p :: c.post).Nodup := by
        simp only [Ctx.pre, Ctx.post, List.cons_append] at hnd
        have h1 := (List.nodup_append.mp hnd).1
        have h2 := (List.nodup_append.mp hnd).2.1
        have h3 := (List.nodup_append.mp hnd).2.2
        simp only [List.nodup_cons, List.mem_cons, List.mem_append, not_or] at h2
        obtain ⟨-, ⟨-, hpc⟩, h6⟩ := h2
        rw [List.nodup_append]
        refine ⟨h1, List.nodup_cons.mpr ⟨hpc, (List.nodup_append.mp h6).2.1⟩, ?_⟩
        intro a ha hb
        rcases List.mem_cons.mp hb with e | e
        · exact h3 ha (by simp [e])
        · exact h3 ha (by simp [e])
      have := ih p f hc hnd' (by omega)
      rw [show (Ctx.left c p r).parent = some p from rfl]
      simp only [climbLeft, Option.isNone_some, Bool.false_eq_true, if_false,
        Heap.read, hn, bind_ok, hl, if_true, hp, this, Ctx.pre]

theorem getLast?_mid {pre post : List Nat} {b : Nat} (hnd : (pre ++ b :: post).Nodup) :
    (pre ++ b :: post).getLast? = some b ↔ post = [] := by
  constructor
  · intro h
    by_contra hne
    obtain ⟨x, hx⟩ : ∃ x, post.getLast? = some x := by
      cases hp : post.getLast? with
      | none => exact absurd (List.getLast?_eq_none_iff.mp hp) hne
      | some x => exact ⟨x, rfl⟩
    have e : (pre ++ b :: post) = (pre ++ [b]) ++ post := by simp
    rw [e, List.getLast?_append_of_ne_nil _ hne, hx] at h
    have hm : x ∈ post := List.mem_of_getLast?_eq_some hx
    have := (nodup_node hnd).2.2.2.1
    simp only [Option.some.injEq] at h
    exact this (h ▸ hm)
  · rintro rfl
    simp

theorem split_unique {l1 l2 l1' l2' : List Nat} {a : Nat} (hnd : (l1 ++ a :: l2).Nodup)
    (e : l1 ++ a :: l2 = l1' ++ a :: l2') : l1 = l1' ∧ l2 = l2' := by
  induction l1 generalizing l1' with
  | nil =>
    cases l1' with
    | nil => simpa using e
    | cons x xs =>
      exfalso
      simp only [List.nil_append, List.cons_append, List.cons.injEq] at e
      have := (List.nodup_cons.mp hnd).1
      apply this
      rw [e.2]
      simp
  | cons y ys ih =>
    cases l1' with
    | nil =>
      exfalso
      simp only [List.nil_append, List.cons_append, List.cons.injEq] at e
      have := (List.nodup_cons.mp hnd).1
      apply this
      rw [e.1]
      simp
    | cons x xs =>
      simp only [List.cons_append, List.cons.injEq] at e
      have := ih (List.nodup_cons.mp hnd).2 e.2
      exact ⟨by rw [e.1, this.1], this.2⟩

theorem ctx_nodup {c : Ctx} {s : Shape} {x : Nat} (hx : x ∈ s.addrs)
    (hnd : (c.plug s).addrs.Nodup) : (c.pre ++ x :: c.post).Nodup := by
  rw [plug_addrs] at hnd
  obtain ⟨-, hctx, hsep⟩ := nodup_mid hnd
  rw [List.nodup_middle]
  exact List.nodup_cons.mpr ⟨hsep x hx, hctx⟩

/-- One step of `operator++` from the top node of a subshape: to the first node
of its right subshape, else to the first node after the hole, else (at the last
node) the pointer and the sentinel are swapped. -/
theorem inc_at (h : Heap) (c : Ctx) (L R : Shape) (b : Nat) (sent : Ptr) (fuel : Nat)
    (hlay : Lay h (c.plug (.node L b R)) none)
    (hnd : (c.plug (.node L b R)).addrs.Nodup)
    (hs : sent ≠ (c.plug (.node L b R)).addrs.getLast?)
    (hf : (c.plug (.node L b R)).height < fuel) :
    Iter.inc fuel h { ptr_ := some b, first_ := (c.plug (.node L b R)).root, last_ := sent } =
      .ok (match R.addrs ++ c.post with
        | [] => { ptr_ := sent, first_ := (c.plug (.node L b R)).root, last_ := some b }
        | nx :: _ => { ptr_ := some nx, first_ := (c.plug (.node L b R)).root,
                       last_ := sent }) := by
  have hmax := findMax_spec h _ none fuel hlay hf
  have haddrs : (c.plug (.node L b R)).addrs = (c.pre ++ L.addrs) ++ b :: (R.addrs ++ c.post) := by
    rw [plug_addrs]; simp [Shape.addrs]
  have hnd2 := hnd
  rw [haddrs] at hnd2
  have hlast := getLast?_mid hnd2
  rw [← haddrs] at hlast
  have hh := plug_height c (.node L b R)
  obtain ⟨hc, nb, hb, hbp, hbl, hbr, hL, hR⟩ := (repr_plug h c _).mp hlay
  unfold Iter.inc
  simp only [hmax, bind_ok]
  cases hrest : R.addrs ++ c.post with
  | nil =>
    rw [hlast.mpr hrest]
    simp
  | cons nx tl =>
    have hne : ¬ (some b = (c.plug (.node L b R)).addrs.getLast?) := by
      intro e
      have := hlast.mp e.symm
      rw [hrest] at this
      exact absurd this (by simp)
    simp only [hne, if_false, Option.isSome_some, true_and, ne_eq, hs, not_false_eq_true,
      if_true, Heap.read, hb, bind_ok]
    cases R with
    | nil =>
      simp only [Shape.root] at hbr
      simp only [Shape.addrs, List.nil_append] at hrest
      have hcl := climbRight_spec h c b fuel hc
        (ctx_nodup (by simp [Shape.addrs]) hnd) (by omega)
      simp only [hbr, Option.isSome_none, Bool.false_eq_true, if_false, hbp, hcl, bind_ok,
        pure_eq_ok, hrest, List.head?_cons]
    | node Rl r Rr =>
      have hmin := findMin_spec h _ (some b) fuel hR (by
        simp only [Shape.height] at hh ⊢; omega)
      simp only [Shape.root] at hbr hmin
      simp only [Shape.addrs, List.append_assoc] at hrest hmin
      simp only [hbr, Option.isSome_some, if_true, hmin, bind_ok, pure_eq_ok]
      cases hRl : Rl.addrs with
      | nil =>
        rw [hRl] at hrest
        simp only [List.nil_append, List.cons_append, List.cons.injEq] at hrest
        simp [hrest.1]
      | cons y ys =>
        rw [hRl] at hrest
        simp only [List.cons_append, List.cons.injEq] at hrest
        simp [hrest.1]

/-- One step of `operator--` from the top node of a subshape: to the last node
of its left subshape, else to the last node before the hole, else (at the first
node) the iterator stays. -/
theorem dec_at (h : Heap) (c : Ctx) (L R : Shape) (b : Nat) (sent : Ptr) (fuel : Nat)
    (hlay : Lay h (c.plug (.node L b R)) none)
    (hnd : (c.plug (.node L b R)).addrs.Nodup)
    (hs : sent ≠ (c.plug (.node L b R)).addrs.getLast?)
    (hf : (c.plug (.node L b R)).height < fuel) :
    Iter.dec fuel h { ptr_ := some b, first_ := (c.plug (.node L b R)).root, last_ := sent } =
      .ok (match (c.pre ++ L.addrs).getLast? with
        | none => { ptr_ := some b, first_ := (c.plug (.node L b R)).root, last_ := sent }
        | some pv => { ptr_ := some pv, first_ := (c.plug (.node L b R)).root,
                       last_ := sent }) := by
  have hmax := findMax_spec h _ none fuel hlay hf
  have hmin0 := findMin_spec h _ none fuel hlay hf
  have haddrs : (c.plug (.node L b R)).addrs = (c.pre ++ L.addrs) ++ b :: (R.addrs ++ c.post) := by
    rw [plug_addrs]; simp [Shape.addrs]
  have hh := plug_height c (.node L b R)
  obtain ⟨hc, nb, hb, hbp, hbl, hbr, hL, hR⟩ := (repr_plug h c _).mp hlay
  unfold Iter.dec
  simp only [hmax, bind_ok, hs, if_false, Option.isSome_some, if_true, Heap.read, hb]
  cases L with
  | nil =>
    simp only [Shape.root] at hbl
    simp only [Shape.addrs, List.append_nil] at haddrs ⊢
    have hcl := climbLeft_spec h c b fuel hc
      (ctx_nodup (by simp [Shape.addrs]) hnd) (by omega)
    simp only [hbl, Option.isSome_none, Bool.false_eq_true, if_false, hmin0, bind_ok, haddrs]
    cases hpre : c.pre with
    | nil =>
      simp
    | cons y ys =>
      have hne : some b ≠ (y :: ys ++ b :: (R.addrs ++ c.post)).head? := by
        simp only [List.cons_append, List.head?_cons, ne_eq, Option.some.injEq]
        intro e
        have hnd2 := hnd
        rw [haddrs, hpre] at hnd2
        have := (nodup_node hnd2).2.2.1
        exact this (by simp [e])
      rw [hpre] at hcl
      simp only [ne_eq, hne, not_false_eq_true, if_true, hbp, hcl, bind_ok, pure_eq_ok]
      cases hg : (y :: ys).getLast? with
      | none => simp at hg
      | some pv => rfl
  | node Ll l Lr =>
    have hmx := findMax_spec h _ (some b) fuel hL (by
      simp only [Shape.height] at hh ⊢; omega)
    simp only [Shape.root] at hbl hmx
    simp only [hbl, Option.isSome_some, if_true, hmx, bind_ok, pure_eq_ok]
    have hne : (Shape.node Ll l Lr).addrs ≠ [] := by simp [Shape.addrs]
    rw [List.getLast?_append_of_ne_nil _ hne]
    cases hg : (Shape.node Ll l Lr).addrs.getLast? with
    | none => exact absurd (List.getLast?_eq_none_iff.mp hg) hne
    | some pv => rfl

theorem Shaped.nodes_eq {t : Tree} {s : Shape} (h : Shaped t s) : t.nodes = s.addrs := by
  unfold Tree.nodes
  rw [h.root, inorder_eq t.heap s none (t.next + 1) h.lay]
  have := height_le_size s
  have := h.size_le
  omega

theorem sentinel_ne_last {t : Tree} {s : Shape}
    (hsent : ∀ sa, t.sentinel_ = some sa → sa ∉ s.addrs) (hne : s.addrs ≠ []) :
    t.sentinel_ ≠ s.addrs.getLast? := by
  intro e
  cases hg : s.addrs.getLast? with
  | none => exact hne (List.getLast?_eq_none_iff.mp hg)
  | some x =>
    rw [hg] at e
    exact hsent x e (List.mem_of_getLast?_eq_some hg)

/-- Stepping forward from a node of a well-formed tree leads to the next node in
symmetric order, and from the last node to the end position. -/
theorem Shaped.inc_pos {t : Tree} {s : Shape} (hsh : Shaped t s)
    (hsent : ∀ sa, t.sentinel_ = some sa → sa ∉ s.addrs) (fuel : Nat) (hf : s.height < fuel)
    (pre : List Nat) (a : Nat) (rest : List Nat) (e : s.addrs = pre ++ a :: rest) :
    (t.pos a).inc fuel t.heap = .ok (t.posOr
      { ptr_ := t.sentinel_, first_ := t.root_, last_ := s.addrs.getLast? } rest) := by
  have ha : a ∈ s.addrs := by rw [e]; simp
  obtain ⟨c, L, R, hs⟩ := plug_decomp s .top a ha
  simp only [Ctx.plug] at hs
  have hlay := hsh.lay
  have hnd := hsh.nodup
  have hne : s.addrs ≠ [] := by rw [e]; simp
  have hsl := sentinel_ne_last hsent hne
  have hroot := hsh.root
  rw [hs] at hlay hnd hf hsl hroot
  have := inc_at t.heap c L R a t.sentinel_ fuel hlay hnd hsl hf
  rw [← hroot] at this
  have haddrs : (c.plug (.node L a R)).addrs = (c.pre ++ L.addrs) ++ a :: (R.addrs ++ c.post) := by
    rw [plug_addrs]; simp [Shape.addrs]
  have e2 : (c.pre ++ L.addrs) ++ a :: (R.addrs ++ c.post) = pre ++ a :: rest := by
    rw [← haddrs, ← hs, e]
  have hrest := (split_unique (by rw [← haddrs]; exact hnd) e2).2
  unfold Tree.pos
  rw [this, hrest]
  cases rest with
  | nil =>
    have hl : s.addrs.getLast? = some a := by rw [e]; simp
    simp only [Tree.posOr, hl]
  | cons b tl => rfl

/-- Stepping backward from a node of a well-formed tree leads to the previous node
in symmetric order. -/
theorem Shaped.dec_pos {t : Tree} {s : Shape} (hsh : Shaped t s)
    (hsent : ∀ sa, t.sentinel_ = some sa → sa ∉ s.addrs) (fuel : Nat) (hf : s.height < fuel)
    (pre : List Nat) (a b : Nat) (rest : List Nat) (e : s.addrs = pre ++ a :: b :: rest) :
    (t.pos b).dec fuel t.heap = .ok (t.pos a) := by
  have hb : b ∈ s.addrs := by rw [e]; simp
  obtain ⟨c, L, R, hs⟩ := plug_decomp s .top b hb
  simp only [Ctx.plug] at hs
  have hlay := hsh.lay
  have hnd := hsh.nodup
  have hne : s.addrs ≠ [] := by rw [e]; simp
  have hsl := sentinel_ne_last hsent hne
  have hroot := hsh.root
  rw [hs] at hlay hnd hf hsl hroot
  have := dec_at t.heap c L R b t.sentinel_ fuel hlay hnd hsl hf
  rw [← hroot] at this
  have haddrs : (c.plug (.node L b R)).addrs = (c.pre ++ L.addrs) ++ b :: (R.addrs ++ c.post) := by
    rw [plug_addrs]; simp [Shape.addrs]
  have e2 : (c.pre ++ L.addrs) ++ b :: (R.addrs ++ c.post) = (pre ++ [a]) ++ b :: rest := by
    rw [← haddrs, ← hs, e]; simp
  have hpre := (split_unique (by rw [← haddrs]; exact hnd) e2).1
  unfold Tree.pos
  rw [this, hpre]
  simp

/-- Stepping backward from the end position leads to the last node. -/
theorem dec_end (t : Tree) (s : Shape) (hsh : Shaped t s) (fuel : Nat) (hf : s.height < fuel) :
    Iter.dec fuel t.heap
        { ptr_ := t.sentinel_, first_ := t.root_, last_ := s.addrs.getLast? } =
      .ok { ptr_ := s.addrs.getLast?, first_ := t.root_, last_ := t.sentinel_ } := by
  have hmax := findMax_spec t.heap s none fuel hsh.lay hf
  rw [← hsh.root] at hmax
  unfold Iter.dec
  simp only [hmax, bind_ok, if_true, pure_eq_ok]

/-- A position at a node differs from the end position. -/
theorem pos_ne_end {t : Tree} {s : Shape}
    (hsent : ∀ sa, t.sentinel_ = some sa → sa ∉ s.addrs) {a : Nat} (ha : a ∈ s.addrs)
    (l : Ptr) : Iter.eq (t.pos a) { ptr_ := t.sentinel_, first_ := t.root_, last_ := l } =
      false := by
  have : some a ≠ t.sentinel_ := fun e => hsent a e.symm ha
  simp [Iter.eq, Tree.pos, this]

theorem Shaped.begin_ok {t : Tree} {s : Shape} (h : Shaped t s) (fuel : Nat)
    (hf : s.height < fuel) :
    t.begin fuel =
      .ok { ptr_ := s.addrs.head?, first_ := t.root_, last_ := t.sentinel_ } := by
  simp only [Tree.begin, h.root, findMin_spec t.heap s none fuel h.lay hf, bind_ok, pure_eq_ok]

/-- The iterator steps of a tree satisfying the invariant. -/
theorem Inv.steps {t : Tree} {s : Shape} (hinv : Inv t s) (fuel : Nat) (hf : s.height < fuel) :
    ∃ e, t.end fuel = .ok e ∧
      (∀ a rest, t.nodes = a :: rest → t.begin fuel = .ok (t.pos a)) ∧
      (∀ pre a b rest, t.nodes = pre ++ a :: b :: rest →
        (t.pos a).inc fuel t.heap = .ok (t.pos b)) ∧
      (∀ pre a, t.nodes = pre ++ [a] →
        (t.pos a).inc fuel t.heap = .ok e ∧ e.dec fuel t.heap = .ok (t.pos a)) ∧
      (∀ pre a b rest, t.nodes = pre ++ a :: b :: rest →
        (t.pos b).dec fuel t.heap = .ok (t.pos a)) := by
  have hsh := hinv.shaped
  have hsent : ∀ sa, t.sentinel_ = some sa → sa ∉ s.addrs := fun sa h => (hinv.sentinel sa h).1
  rw [hsh.nodes_eq]
  refine ⟨_, hsh.end_ok fuel hf, ?_, ?_, ?_, ?_⟩
  · intro a rest e
    rw [hsh.begin_ok fuel hf, e]
    rfl
  · intro pre a b rest e
    rw [hsh.inc_pos hsent fuel hf pre a (b :: rest) e]
    rfl
  · intro pre a e
    constructor
    · rw [hsh.inc_pos hsent fuel hf pre a [] e]
      rfl
    · rw [dec_end t s hsh fuel hf, e]
      simp [Tree.pos]
  · intro pre a b rest e
    exact hsh.dec_pos hsent fuel hf pre a b rest e

/-- Claim C15. For every tree built from the empty tree (UNIQUE or NON_UNIQUE) by
a list of `insert` calls, with in-order nodes n0 .. n(m-1): when m ≥ 1, `begin()`
is the position at n0; `++` at a node leads to the next node; `++` at the last
node yields the iterator `end()` returns; `--` applied to `end()` leads to the
last node; and `--` at a node that has a predecessor leads to it. -/
theorem iterator_steps_follow_inorder (ty : Uniq) (ps : List (Int × Int)) (fuel : Nat)
    (hf : 2 * ps.length + 4 ≤ fuel) :
    ∃ t e, Tree.run fuel (Tree.empty ty) (insertOps ps) = .ok t ∧ t.end fuel = .ok e ∧
      t.toList = t.nodes.map t.heap.pair ∧
      (∀ a rest, t.nodes = a :: rest → t.begin fuel = .ok (t.pos a)) ∧
      (∀ pre a b rest, t.nodes = pre ++ a :: b :: rest →
        (t.pos a).inc fuel t.heap = .ok (t.pos b)) ∧
      (∀ pre a, t.nodes = pre ++ [a] →
        (t.pos a).inc fuel t.heap = .ok e ∧ e.dec fuel t.heap = .ok (t.pos a)) ∧
      (∀ pre a b rest, t.nodes = pre ++ a :: b :: rest →
        (t.pos b).dec fuel t.heap = .ok (t.pos a)) := by
  obtain ⟨t, s, hrun, hinv, hsz, -⟩ :=
    run_inserts fuel ps (Tree.empty ty) .nil (Inv.empty ty) (by simp only [Shape.size]; omega)
  have hh := height_le_size s
  simp only [Shape.size] at hsz
  obtain ⟨e, he, h1, h2, h3, h4⟩ := hinv.steps fuel (by omega)
  exact ⟨t, e, hrun, he, rfl, h1, h2, h3, h4⟩

set_option maxRecDepth 100000 in
/-- Instance of C15: in the tree built by inserting the keys 2, 1, 3 the nodes are,
in order, at the addresses 2, 1, 3; `++` at the node of key 1 leads to the node of
key 2 and `--` leads back. -/
theorem iterator_steps_follow_inorder_witness :
    ∃ t, Tree.run 10 (Tree.empty .kUNIQUE) (insertOps [(2, 20), (1, 10), (3, 30)]) = .ok t ∧
      t.nodes = [2, 1, 3] ∧ t.toList = [(1, 10), (2, 20), (3, 30)] ∧
      t.begin 10 = .ok (t.pos 2) ∧
      (t.pos 2).inc 10 t.heap = .ok (t.pos 1) ∧ (t.pos 1).dec 10 t.heap = .ok (t.pos 2) := by
  obtain ⟨t, e, hrun, -, -, hb, hi, -, hd⟩ :=
    iterator_steps_follow_inorder .kUNIQUE [(2, 20), (1, 10), (3, 30)] 10 (by decide)
  have hl : (Tree.run 10 (Tree.empty .kUNIQUE) (insertOps [(2, 20), (1, 10), (3, 30)])).map
      (fun t => (t.nodes, t.toList)) = .ok ([2, 1, 3], [(1, 10), (2, 20), (3, 30)]) := by
    decide
  rw [hrun] at hl
  have hl2 : t.nodes = [2, 1, 3] ∧ t.toList = [(1, 10), (2, 20), (3, 30)] := by
    simpa [Except.map] using hl
  exact ⟨t, hrun, hl2.1, hl2.2, hb 2 [1, 3] hl2.1, hi [] 2 1 [3] hl2.1, hd [] 2 1 [3] hl2.1⟩

/-! ## Loops over the positions of a tree -/

theorem Inv.walk {t : Tree} {s : Shape} (hinv : Inv t s) (fuel : Nat) (hf : s.height < fuel)
    (hemp : s.addrs = [] → t.sentinel_ = none) :
    Walk fuel t { ptr_ := t.sentinel_, first_ := t.root_, last_ := s.addrs.getLast? }
      t.nodes := by
  have hsh := hinv.shaped
  have hsent : ∀ sa, t.sentinel_ = some sa → sa ∉ s.addrs := fun sa h => (hinv.sentinel sa h).1
  rw [hsh.nodes_eq]
  refine ⟨hsh.end_ok fuel hf, ?_, ?_⟩
  · rw [hsh.begin_ok fuel hf]
    cases hs : s.addrs with
    | nil => simp [Tree.posOr, hemp hs]
    | cons a rest => rfl
  · intro pre a rest e
    have ha : a ∈ s.addrs := by rw [e]; simp
    refine ⟨pos_ne_end hsent ha _, ?_, hsh.inc_pos hsent fuel hf pre a rest e⟩
    obtain ⟨n, hn⟩ := Option.isSome_iff_exists.mp (hsh.lay.live a ha)
    simp [Iter.derefKey, Tree.pos, Heap.read, hn, Heap.key, Heap.pair]

/-- A sorted list of nodes splits into the keys below `k`, equal to `k` and
above `k`. -/
theorem sorted_split (key : Nat → Int) (k : Int) :
    ∀ l : List Nat, (l.map key).Pairwise (· ≤ ·) →
      ∃ l1 l2 l3, l = l1 ++ l2 ++ l3 ∧ (∀ a ∈ l1, key a < k) ∧ (∀ a ∈ l2, key a = k) ∧
        (∀ a ∈ l3, k < key a) := by
  intro l
  induction l with
  | nil => intro _; exact ⟨[], [], [], rfl, by simp, by simp, by simp⟩
  | cons a rest ih =>
    intro hs
    simp only [List.map_cons, List.pairwise_cons, List.mem_map, forall_exists_index, and_imp,
      forall_apply_eq_imp_iff₂] at hs
    obtain ⟨ha, hrest⟩ := hs
    obtain ⟨r1, r2, r3, e, h1, h2, h3⟩ := ih hrest
    rcases lt_trichotomy (key a) k with hlt | heq | hgt
    · refine ⟨a :: r1, r2, r3, by simp [e], ?_, h2, h3⟩
      intro b hb
      rcases List.mem_cons.mp hb with rfl | hb
      · exact hlt
      · exact h1 b hb
    · have hr1 : r1 = [] := by
        cases r1 with
        | nil => rfl
        | cons b bs =>
          exfalso
          have := ha b (by rw [e]; simp)
          have := h1 b (by simp)
          omega
      subst hr1
      refine ⟨[], a :: r2, r3, by simp [e], by simp, ?_, h3⟩
      intro b hb
      rcases List.mem_cons.mp hb with rfl | hb
      · exact heq
      · exact h2 b hb
    · have hr1 : r1 = [] := by
        cases r1 with
        | nil => rfl
        | cons b bs =>
          exfalso
          have := ha b (by rw [e]; simp)
          have := h1 b (by simp)
          omega
      have hr2 : r2 = [] := by
        cases r2 with
        | nil => rfl
        | cons b bs =>
          exfalso
          have := ha b (by rw [e]; simp)
          have := h2 b (by simp)
          omega
      subst hr1 hr2
      refine ⟨[], [], a :: r3, by simp [e], by simp, by simp, ?_⟩
      intro b hb
      rcases List.mem_cons.mp hb with rfl | hb
      · exact hgt
      · exact h3 b hb

theorem Iter.eq_refl (it : Iter) : Iter.eq it it = true := by
  simp [Iter.eq]

theorem posOr_cons (t : Tree) (e : Iter) (a : Nat) (l : List Nat) :
    t.posOr e (a :: l) = t.pos a := rfl

theorem posOr_nil (t : Tree) (e : Iter) : t.posOr e [] = e := rfl

/-- The loop of `upper_bound` stops at the first key above `k`. -/
theorem upperBoundLoop_spec {fuel : Nat} {t : Tree} {e : Iter} {ns : List Nat}
    (W : Walk fuel t e ns) (k : Int) (l3 : List Nat) (h3 : ∀ a ∈ l3, k < t.heap.key a) :
    ∀ (m pre : List Nat) (n : Nat), ns = pre ++ m ++ l3 → (∀ a ∈ m, t.heap.key a ≤ k) →
      (m ++ l3).length < n →
      upperBoundLoop n fuel t (t.posOr e (m ++ l3)) k e = .ok (t.posOr e l3) := by
  intro m
  induction m with
  | nil =>
    intro pre n hns _ hn
    cases n with
    | zero => omega
    | succ n =>
      cases l3 with
      | nil =>
        simp only [List.nil_append, posOr_cons, posOr_nil, upperBoundLoop, W.end_eq, bind_ok,
          Iter.eq_refl, if_true, pure_eq_ok]
      | cons a r =>
        obtain ⟨hne, hk, -⟩ := W.step pre a r (by simpa using hns)
        have := h3 a (by simp)
        simp only [List.nil_append, posOr_cons, posOr_nil, upperBoundLoop, W.end_eq, bind_ok, hne,
          Bool.false_eq_true, if_false, hk, gt_iff_lt, this, if_true, pure_eq_ok]
  | cons a r ih =>
    intro pre n hns hm hn
    cases n with
    | zero => omega
    | succ n =>
      obtain ⟨hne, hk, hinc⟩ := W.step pre a (r ++ l3) (by simpa using hns)
      have hle := hm a (by simp)
      have hnlt : ¬ k < t.heap.key a := by omega
      have := ih (pre ++ [a]) n (by simpa using hns) (fun b hb => hm b (by simp [hb]))
        (by simp only [List.cons_append, List.length_cons] at hn; omega)
      simp only [List.cons_append, posOr_cons, posOr_nil, upperBoundLoop, W.end_eq, bind_ok, hne,
        Bool.false_eq_true, if_false, hk, gt_iff_lt, hnlt, hinc, this]

/-- The loop of `lower_bound` stops at the first key not below `k`. -/
theorem lowerBoundLoop_spec {fuel : Nat} {t : Tree} {e : Iter} {ns : List Nat}
    (W : Walk fuel t e ns) (k : Int) (l2 l3 : List Nat) (h2 : ∀ a ∈ l2, t.heap.key a = k)
    (h3 : ∀ a ∈ l3, k < t.heap.key a) :
    ∀ (m pre : List Nat) (n : Nat), ns = pre ++ m ++ (l2 ++ l3) →
      (∀ a ∈ m, t.heap.key a < k) → (m ++ (l2 ++ l3)).length < n →
      lowerBoundLoop n fuel t (t.posOr e (m ++ (l2 ++ l3))) k e =
        .ok (t.posOr e (l2 ++ l3)) := by
  intro m
  induction m with
  | nil =>
    intro pre n hns _ hn
    cases n with
    | zero => omega
    | succ n =>
      cases l2 with
      | nil =>
        cases l3 with
        | nil =>
          simp only [List.nil_append, posOr_cons, posOr_nil, lowerBoundLoop, W.end_eq, bind_ok,
            Iter.eq_refl, if_true, pure_eq_ok]
        | cons a r =>
          obtain ⟨hne, hk, -⟩ := W.step pre a r (by simpa using hns)
          have := h3 a (by simp)
          have hneq : ¬ t.heap.key a = k := by omega
          simp only [List.nil_append, posOr_cons, posOr_nil, lowerBoundLoop, W.end_eq, bind_ok, hne,
            Bool.false_eq_true, if_false, hk, hneq, gt_iff_lt, this, if_true, pure_eq_ok]
      | cons a r =>
        obtain ⟨hne, hk, -⟩ := W.step pre a (r ++ l3) (by simpa using hns)
        have := h2 a (by simp)
        simp only [List.nil_append, List.cons_append, posOr_cons, posOr_nil, lowerBoundLoop, W.end_eq,
          bind_ok, hne, Bool.false_eq_true, if_false, hk, this, if_true, pure_eq_ok]
  | cons a r ih =>
    intro pre n hns hm hn
    cases n with
    | zero => omega
    | succ n =>
      obtain ⟨hne, hk, hinc⟩ := W.step pre a (r ++ (l2 ++ l3)) (by simpa using hns)
      have hlt := hm a (by simp)
      have hneq : ¬ t.heap.key a = k := by omega
      have hnlt : ¬ k < t.heap.key a := by omega
      have := ih (pre ++ [a]) n (by simpa using hns) (fun b hb => hm b (by simp [hb]))
        (by simp only [List.cons_append, List.length_cons] at hn; omega)
      simp only [List.cons_append, posOr_cons, posOr_nil, lowerBoundLoop, W.end_eq, bind_ok, hne,
        Bool.false_eq_true, if_false, hk, hneq, gt_iff_lt, hnlt, hinc, this]

/-- The loop of `equal_range` once the first element equal to `k` is recorded. -/
theorem equalRangeLoop_found {fuel : Nat} {t : Tree} {e : Iter} {ns : List Nat}
    (W : Walk fuel t e ns) (k : Int) (l3 : List Nat) (h3 : ∀ a ∈ l3, k < t.heap.key a)
    (first : Iter) :
    ∀ (m pre : List Nat) (n cnt : Nat), ns = pre ++ m ++ l3 → (∀ a ∈ m, t.heap.key a = k) →
      cnt ≠ 0 → (m ++ l3).length < n →
      equalRangeLoop n fuel t (t.posOr e (m ++ l3)) k first e cnt =
        .ok (first, t.posOr e l3) := by
  intro m
  induction m with
  | nil =>
    intro pre n cnt hns _ hc hn
    cases n with
    | zero => omega
    | succ n =>
      cases l3 with
      | nil =>
        simp only [List.nil_append, posOr_cons, posOr_nil, equalRangeLoop, W.end_eq, bind_ok,
          Iter.eq_refl, if_true, pure_eq_ok]
      | cons a r =>
        obtain ⟨hne, hk, -⟩ := W.step pre a r (by simpa using hns)
        have := h3 a (by simp)
        simp only [List.nil_append, posOr_cons, posOr_nil, equalRangeLoop, W.end_eq, bind_ok, hne,
          Bool.false_eq_true, if_false, hk, hc, and_false, gt_iff_lt, this, if_true,
          pure_eq_ok]
  | cons a r ih =>
    intro pre n cnt hns hm hc hn
    cases n with
    | zero => omega
    | succ n =>
      obtain ⟨hne, hk, hinc⟩ := W.step pre a (r ++ l3) (by simpa using hns)
      have heq := hm a (by simp)
      have hnlt : ¬ k < t.heap.key a := by omega
      have := ih (pre ++ [a]) n cnt (by simpa using hns) (fun b hb => hm b (by simp [hb])) hc
        (by simp only [List.cons_append, List.length_cons] at hn; omega)
      simp only [List.cons_append, posOr_cons, posOr_nil, equalRangeLoop, W.end_eq, bind_ok, hne,
        Bool.false_eq_true, if_false, hk, hc, and_false, gt_iff_lt, hnlt, hinc, this]

/-- The loop of `equal_range` from the start. -/
theorem equalRangeLoop_spec {fuel : Nat} {t : Tree} {e : Iter} {ns : List Nat}
    (W : Walk fuel t e ns) (k : Int) (l2 l3 : List Nat) (h2 : ∀ a ∈ l2, t.heap.key a = k)
    (h3 : ∀ a ∈ l3, k < t.heap.key a) :
    ∀ (m pre : List Nat) (n : Nat), ns = pre ++ m ++ (l2 ++ l3) →
      (∀ a ∈ m, t.heap.key a < k) → (m ++ (l2 ++ l3)).length < n →
      equalRangeLoop n fuel t (t.posOr e (m ++ (l2 ++ l3))) k e e 0 =
        .ok (t.posOr e (l2 ++ l3), t.posOr e l3) := by
  intro m
  induction m with
  | nil =>
    intro pre n hns _ hn
    cases n with
    | zero => omega
    | succ n =>
      cases l2 with
      | nil =>
        cases l3 with
        | nil =>
          simp only [List.nil_append, posOr_cons, posOr_nil, equalRangeLoop, W.end_eq, bind_ok,
            Iter.eq_refl, if_true, pure_eq_ok]
        | cons a r =>
          obtain ⟨hne, hk, -⟩ := W.step pre a r (by simpa using hns)
          have := h3 a (by simp)
          have hneq : ¬ t.heap.key a = k := by omega
          simp only [List.nil_append, posOr_cons, posOr_nil, equalRangeLoop, W.end_eq, bind_ok, hne,
            Bool.false_eq_true, if_false, hk, hneq, false_and, gt_iff_lt, this, if_true,
            pure_eq_ok]
      | cons a r =>
        obtain ⟨hne, hk, hinc⟩ := W.step pre a (r ++ l3) (by simpa using hns)
        have heq := h2 a (by simp)
        have := equalRangeLoop_found W k l3 h3 (t.pos a) r (pre ++ [a]) n 1
          (by simpa using hns) (fun b hb => h2 b (by simp [hb])) (by decide)
          (by simp only [List.nil_append, List.cons_append, List.length_cons] at hn; omega)
        simp only [List.nil_append, List.cons_append, posOr_cons, posOr_nil, equalRangeLoop, W.end_eq,
          bind_ok, hne, Bool.false_eq_true, if_false, hk, heq, and_self, if_true, hinc,
          zero_add, this]
  | cons a r ih =>
    intro pre n hns hm hn
    cases n with
    | zero => omega
    | succ n =>
      obtain ⟨hne, hk, hinc⟩ := W.step pre a (r ++ (l2 ++ l3)) (by simpa using hns)
      have hlt := hm a (by simp)
      have hneq : ¬ t.heap.key a = k := by omega
      have hnlt : ¬ k < t.heap.key a := by omega
      have := ih (pre ++ [a]) n (by simpa using hns) (fun b hb => hm b (by simp [hb]))
        (by simp only [List.cons_append, List.length_cons] at hn; omega)
      simp only [List.cons_append, posOr_cons, posOr_nil, equalRangeLoop, W.end_eq, bind_ok, hne,
        Bool.false_eq_true, if_false, hk, hneq, false_and, gt_iff_lt, hnlt, hinc, this]

/-- The loop of `count` over keys above `k` with nothing counted. -/
theorem countLoop_above {fuel : Nat} {t : Tree} {e : Iter} {ns : List Nat}
    (W : Walk fuel t e ns) (k : Int) :
    ∀ (l3 pre : List Nat) (n : Nat), ns = pre ++ l3 → (∀ a ∈ l3, k < t.heap.key a) →
      l3.length < n → countLoop n fuel t.heap (t.posOr e l3) e k 0 = .ok 0 := by
  intro l3
  induction l3 with
  | nil =>
    intro pre n _ _ hn
    cases n with
    | zero => omega
    | succ n => simp only [posOr_cons, posOr_nil, countLoop, Iter.eq_refl, if_true, pure_eq_ok]
  | cons a r ih =>
    intro pre n hns h3 hn
    cases n with
    | zero => omega
    | succ n =>
      obtain ⟨hne, hk, hinc⟩ := W.step pre a r hns
      have := h3 a (by simp)
      have hneq : ¬ t.heap.key a = k := by omega
      have := ih (pre ++ [a]) n (by simpa using hns) (fun b hb => h3 b (by simp [hb]))
        (by simp only [List.length_cons] at hn; omega)
      simp only [posOr_cons, posOr_nil, countLoop, hne, Bool.false_eq_true, if_false, hk, bind_ok, hneq,
        ne_eq, not_true_eq_false, hinc, this]

/-- The loop of `count` inside the run of keys equal to `k`. -/
theorem countLoop_run {fuel : Nat} {t : Tree} {e : Iter} {ns : List Nat}
    (W : Walk fuel t e ns) (k : Int) (l3 : List Nat) (h3 : ∀ a ∈ l3, k < t.heap.key a) :
    ∀ (m pre : List Nat) (n cnt : Nat), ns = pre ++ m ++ l3 → (∀ a ∈ m, t.heap.key a = k) →
      (m ++ l3).length < n →
      countLoop n fuel t.heap (t.posOr e (m ++ l3)) e k cnt = .ok (cnt + m.length) := by
  intro m
  induction m with
  | nil =>
    intro pre n cnt hns _ hn
    by_cases hc : cnt = 0
    · subst hc
      simpa using countLoop_above W k l3 pre n (by simpa using hns) h3 (by simpa using hn)
    · cases n with
      | zero => omega
      | succ n =>
        cases l3 with
        | nil =>
          simp only [List.nil_append, posOr_cons, posOr_nil, countLoop, Iter.eq_refl, if_true,
            pure_eq_ok, List.length_nil, add_zero]
        | cons a r =>
          obtain ⟨hne, hk, -⟩ := W.step pre a r (by simpa using hns)
          have := h3 a (by simp)
          have hneq : ¬ t.heap.key a = k := by omega
          simp only [List.nil_append, posOr_cons, posOr_nil, countLoop, hne, Bool.false_eq_true, if_false,
            hk, bind_ok, hneq, ne_eq, hc, not_false_eq_true, if_true, pure_eq_ok,
            List.length_nil, add_zero]
  | cons a r ih =>
    intro pre n cnt hns hm hn
    cases n with
    | zero => omega
    | succ n =>
      obtain ⟨hne, hk, hinc⟩ := W.step pre a (r ++ l3) (by simpa using hns)
      have heq := hm a (by simp)
      have := ih (pre ++ [a]) n (cnt + 1) (by simpa using hns)
        (fun b hb => hm b (by simp [hb]))
        (by simp only [List.cons_append, List.length_cons] at hn; omega)
      simp only [List.cons_append, posOr_cons, posOr_nil, countLoop, hne, Bool.false_eq_true, if_false,
        hk, bind_ok, heq, if_true, hinc, this, List.length_cons]
      congr 1
      omega

/-- The loop of `count` from the start. -/
theorem countLoop_spec {fuel : Nat} {t : Tree} {e : Iter} {ns : List Nat}
    (W : Walk fuel t e ns) (k : Int) (l2 l3 : List Nat) (h2 : ∀ a ∈ l2, t.heap.key a = k)
    (h3 : ∀ a ∈ l3, k < t.heap.key a) :
    ∀ (m pre : List Nat) (n : Nat), ns = pre ++ m ++ (l2 ++ l3) →
      (∀ a ∈ m, t.heap.key a < k) → (m ++ (l2 ++ l3)).length < n →
      countLoop n fuel t.heap (t.posOr e (m ++ (l2 ++ l3))) e k 0 = .ok l2.length := by
  intro m
  induction m with
  | nil =>
    intro pre n hns _ hn
    have := countLoop_run W k l3 h3 l2 pre n 0 (by simpa using hns) h2 (by simpa using hn)
    simpa using this
  | cons a r ih =>
    intro pre n hns hm hn
    cases n with
    | zero => omega
    | succ n =>
      obtain ⟨hne, hk, hinc⟩ := W.step pre a (r ++ (l2 ++ l3)) (by simpa using hns)
      have hlt := hm a (by simp)
      have hneq : ¬ t.heap.key a = k := by omega
      have := ih (pre ++ [a]) n (by simpa using hns) (fun b hb => hm b (by simp [hb]))
        (by simp only [List.cons_append, List.length_cons] at hn; omega)
      simp only [List.cons_append, posOr_cons, posOr_nil, countLoop, hne, Bool.false_eq_true, if_false,
        hk, bind_ok, hneq, ne_eq, not_true_eq_false, hinc, this]

/-! ## Runs of `insert` and the multiset lookups -/

/-- One `insert` on a tree satisfying the invariant: the call returns, the
invariant is kept, and the in-order sequence either is unchanged (UNIQUE mode,
key present) or gains the pair. -/
theorem insert_step (t : Tree) (s : Shape) (k v : Int) (fuel : Nat)
    (hinv : Inv t s) (hf : 2 * s.height + 4 ≤ fuel)
    (hemp : s.addrs = [] → t.sentinel_ = none) :
    ∃ t' it s', t.insert fuel k v = .ok (t', it) ∧ Inv t' s' ∧
      (s'.addrs = [] → t'.sentinel_ = none) ∧ s'.size ≤ s.size + 1 ∧ t'.type_ = t.type_ ∧
      ((t.type_ = .kUNIQUE ∧ k ∈ t.toList.map Prod.fst ∧ t'.toList = t.toList) ∨
        ((t.type_ = .kUNIQUE → k ∉ t.toList.map Prod.fst) ∧
          t'.toList.Perm ((k, v) :: t.toList))) := by
  by_cases hdup : t.type_ = .kUNIQUE ∧ k ∈ s.addrs.map t.heap.key
  · refine ⟨t, _, s, insert_dup t s k v fuel hinv.shaped hinv.sorted hdup.1 hdup.2 (by omega),
      hinv, hemp, by omega, rfl, Or.inl ⟨hdup.1, ?_, rfl⟩⟩
    rw [hinv.shaped.keys_eq]
    exact hdup.2
  · obtain ⟨t', s', i, hins, hinv', -, hpi, hold, ⟨l1, l2, e1, e2, -, -⟩, hsz, hty⟩ :=
      insert_fresh t s k v fuel hinv (fun hu hk => hdup ⟨hu, hk⟩) hf
    have hl1 : ∀ a ∈ l1, a ∈ s.addrs := fun a ha => by rw [e1]; simp [ha]
    have hl2 : ∀ a ∈ l2, a ∈ s.addrs := fun a ha => by rw [e1]; simp [ha]
    refine ⟨t', _, s', hins, hinv', ?_, ?_, hty, Or.inr ⟨?_, ?_⟩⟩
    · intro h0
      rw [e2] at h0
      simp at h0
    · rw [← hinv'.size, ← hinv.size, hsz]
    · intro hu hk
      rw [hinv.shaped.keys_eq] at hk
      exact hdup ⟨hu, hk⟩
    · rw [hinv'.shaped.toList_eq, hinv.shaped.toList_eq, e2, e1, List.map_append,
        List.map_cons, List.map_append, hpi,
        List.map_congr_left (fun a ha => hold a (hl1 a ha)),
        List.map_congr_left (fun a ha => hold a (hl2 a ha))]
      exact List.perm_middle

/-- A run of `multiset::insert` calls on a NON_UNIQUE tree satisfying the
invariant returns; the elements afterwards are the inserted ones and the former
ones. -/
theorem run_msOps (fuel : Nat) :
    ∀ (xs : List Int) (t : Tree) (s : Shape), Inv t s → t.type_ = .kNON_UNIQUE →
      (s.addrs = [] → t.sentinel_ = none) → 2 * (s.size + xs.length) + 4 ≤ fuel →
      ∃ t' s', Tree.run fuel t (msOps xs) = .ok t' ∧ Inv t' s' ∧
        (s'.addrs = [] → t'.sentinel_ = none) ∧ s'.size ≤ s.size + xs.length ∧
        (t'.toList.map Prod.fst).Perm (xs ++ t.toList.map Prod.fst) := by
  intro xs
  induction xs with
  | nil =>
    intro t s hinv _ hemp _
    exact ⟨t, s, rfl, hinv, hemp, by simp, by simp⟩
  | cons x xs ih =>
    intro t s hinv hty hemp hf
    have hh := height_le_size s
    simp only [List.length_cons] at hf
    obtain ⟨t1, it, s1, hins, hinv1, hemp1, hsz1, hty1, hcase⟩ :=
      insert_step t s x x fuel hinv (by omega) hemp
    have hperm1 : t1.toList.Perm ((x, x) :: t.toList) := by
      rcases hcase with ⟨hu, -, -⟩ | ⟨-, hp⟩
      · rw [hty] at hu
        exact absurd hu (by decide)
      · exact hp
    obtain ⟨t', s', hrun, hinv', hemp', hsz', hperm'⟩ :=
      ih t1 s1 hinv1 (by rw [hty1, hty]) hemp1 (by omega)
    refine ⟨t', s', ?_, hinv', hemp', by simp only [List.length_cons]; omega, ?_⟩
    · simp only [msOps, List.map_cons, Tree.run, Tree.step, hins, bind_ok, pure_eq_ok]
      exact hrun
    · refine hperm'.trans ?_
      have := (hperm1.map Prod.fst)
      simp only [List.map_cons] at this
      refine (List.Perm.append_left xs this).trans ?_
      simp only [List.cons_append]
      exact List.perm_middle

/-- The lookups of a multiset on a tree satisfying the invariant. -/
theorem lookups_spec (t : Tree) (s : Shape) (k : Int) (fuel : Nat) (hinv : Inv t s)
    (hemp : s.addrs = [] → t.sentinel_ = none) (hf : s.size < fuel) :
    ∃ e l1 l2 l3, t.end fuel = .ok e ∧ t.nodes = l1 ++ l2 ++ l3 ∧
      (∀ a ∈ l1, t.heap.key a < k) ∧ (∀ a ∈ l2, t.heap.key a = k) ∧
      (∀ a ∈ l3, k < t.heap.key a) ∧
      t.lowerBound fuel k = .ok (t.posOr e (l2 ++ l3)) ∧
      t.upperBound fuel k = .ok (t.posOr e l3) ∧
      t.equalRange fuel k = .ok (t.posOr e (l2 ++ l3), t.posOr e l3) ∧
      t.count fuel k = .ok l2.length ∧ (t.toList.map Prod.fst).count k = l2.length := by
  have hh := height_le_size s
  have W := hinv.walk fuel (by omega) hemp
  have hsorted := hinv.sorted
  rw [← hinv.shaped.nodes_eq] at hsorted
  obtain ⟨l1, l2, l3, e, h1, h2, h3⟩ := sorted_split t.heap.key k t.nodes hsorted
  have hlen : (l1 ++ (l2 ++ l3)).length < fuel := by
    rw [← List.append_assoc, ← e, hinv.shaped.nodes_eq, ← size_eq_length]
    exact hf
  have e' : t.nodes = l1 ++ (l2 ++ l3) := by rw [e, List.append_assoc]
  refine ⟨_, l1, l2, l3, W.end_eq, e, h1, h2, h3, ?_, ?_, ?_, ?_, ?_⟩
  · have := lowerBoundLoop_spec W k l2 l3 h2 h3 l1 [] fuel (by simpa using e') h1 hlen
    simp only [Tree.lowerBound, W.end_eq, W.begin_eq, bind_ok, e', this]
  · have := upperBoundLoop_spec W k l3 h3 (l1 ++ l2) [] fuel (by simpa using e)
      (by
        intro a ha
        rcases List.mem_append.mp ha with h | h
        · exact le_of_lt (h1 a h)
        · exact le_of_eq (h2 a h))
      (by simpa using hlen)
    simp only [Tree.upperBound, W.end_eq, W.begin_eq, bind_ok, e, this]
  · have := equalRangeLoop_spec W k l2 l3 h2 h3 l1 [] fuel (by simpa using e') h1 hlen
    simp only [Tree.equalRange, W.end_eq, W.begin_eq, bind_ok, e', this]
  · have := countLoop_spec W k l2 l3 h2 h3 l1 [] fuel (by simpa using e') h1 hlen
    simp only [Tree.count, W.end_eq, W.begin_eq, bind_ok, e', this]
  · rw [hinv.shaped.keys_eq, ← hinv.shaped.nodes_eq, e]
    simp only [List.map_append, List.count_append]
    have c1 : (l1.map t.heap.key).count k = 0 := by
      rw [List.count_eq_zero]
      intro hm
      obtain ⟨a, ha, hk⟩ := List.mem_map.mp hm
      have := h1 a ha
      omega
    have c3 : (l3.map t.heap.key).count k = 0 := by
      rw [List.count_eq_zero]
      intro hm
      obtain ⟨a, ha, hk⟩ := List.mem_map.mp hm
      have := h3 a ha
      omega
    have c2 : (l2.map t.heap.key).count k = l2.length := by
      rw [List.count_eq_length.mpr, List.length_map]
      intro b hb
      obtain ⟨a, ha, hk⟩ := List.mem_map.mp hb
      rw [← hk]
      exact (h2 a ha).symm
    omega

/-- Claim C19. For every multiset built from the empty multiset by a list `xs` of
`insert` calls and every key `k`: the calls and `count(k)` return, the stored
elements are the inserted ones, and `count(k)` is the number of stored elements
equal to `k`, which is the number of times `k` was inserted (0 when `k` is
absent). -/
theorem count_is_multiplicity (xs : List Int) (k : Int) (fuel : Nat)
    (hf : 2 * xs.length + 4 ≤ fuel) :
    ∃ t, Tree.run fuel (Tree.empty .kNON_UNIQUE) (msOps xs) = .ok t ∧
      (t.toList.map Prod.fst).Perm xs ∧
      t.count fuel k = .ok ((t.toList.map Prod.fst).count k) ∧
      t.count fuel k = .ok (xs.count k) ∧
      (k ∉ xs → t.count fuel k = .ok 0) := by
  obtain ⟨t, s, hrun, hinv, hemp, hsz, hperm⟩ :=
    run_msOps fuel xs (Tree.empty .kNON_UNIQUE) .nil (Inv.empty .kNON_UNIQUE) rfl (fun _ => rfl)
      (by simp only [Shape.size]; omega)
  simp only [Shape.size, zero_add] at hsz
  have hperm' : (t.toList.map Prod.fst).Perm xs := by
    simpa [Tree.toList, Tree.empty, inorder] using hperm
  obtain ⟨e, l1, l2, l3, -, -, -, -, -, -, -, -, hc, hcnt⟩ :=
    lookups_spec t s k fuel hinv hemp (by omega)
  have hx : xs.count k = l2.length := by rw [← hperm'.count_eq, hcnt]
  refine ⟨t, hrun, hperm', by rw [hc, hcnt], by rw [hc, hx], ?_⟩
  intro hk
  rw [hc, ← hx, List.count_eq_zero.mpr hk]

set_option maxRecDepth 100000 in
/-- Instance of C19: in the multiset built by inserting 2, 1, 2, 3, 2 the
elements are 1, 2, 2, 2, 3 and `count(2)` is 3. -/
theorem count_is_multiplicity_witness :
    ∃ t, Tree.run 14 (Tree.empty .kNON_UNIQUE) (msOps [2, 1, 2, 3, 2]) = .ok t ∧
      t.toList.map Prod.fst = [1, 2, 2, 2, 3] ∧ t.count 14 2 = .ok 3 := by
  obtain ⟨t, hrun, -, -, hc, -⟩ := count_is_multiplicity [2, 1, 2, 3, 2] 2 14 (by decide)
  have hl : (Tree.run 14 (Tree.empty .kNON_UNIQUE) (msOps [2, 1, 2, 3, 2])).map
      (fun t => t.toList.map Prod.fst) = .ok [1, 2, 2, 2, 3] := by decide
  rw [hrun] at hl
  have hl2 : t.toList.map Prod.fst = [1, 2, 2, 2, 3] := by
    simpa [Except.map] using hl
  exact ⟨t, hrun, hl2, by rw [hc]; rfl⟩

/-- Claim C20. For every multiset built from the empty multiset by a list of
`insert` calls and every key `k`: the in-order nodes split into those below `k`,
those equal to `k` and those above `k`; `lower_bound(k)` is the position at which
the second part starts and `upper_bound(k)` the position at which the third part
starts (each is `end()` when nothing is left); `equal_range(k)` returns exactly
this pair, so the positions from `first` up to `last` are the elements equal to
`k`, and their number is `count(k)`. -/
theorem equal_range_is_lower_and_upper_bound (xs : List Int) (k : Int) (fuel : Nat)
    (hf : 2 * xs.length + 4 ≤ fuel) :
    ∃ t e l1 l2 l3 lb ub, Tree.run fuel (Tree.empty .kNON_UNIQUE) (msOps xs) = .ok t ∧
      t.end fuel = .ok e ∧ t.nodes = l1 ++ l2 ++ l3 ∧
      (∀ a ∈ l1, t.heap.key a < k) ∧ (∀ a ∈ l2, t.heap.key a = k) ∧
      (∀ a ∈ l3, k < t.heap.key a) ∧
      t.lowerBound fuel k = .ok lb ∧ lb = t.posOr e (l2 ++ l3) ∧
      t.upperBound fuel k = .ok ub ∧ ub = t.posOr e l3 ∧
      t.equalRange fuel k = .ok (lb, ub) ∧ t.count fuel k = .ok l2.length := by
  obtain ⟨t, s, hrun, hinv, hemp, hsz, -⟩ :=
    run_msOps fuel xs (Tree.empty .kNON_UNIQUE) .nil (Inv.empty .kNON_UNIQUE) rfl (fun _ => rfl)
      (by simp only [Shape.size]; omega)
  simp only [Shape.size, zero_add] at hsz
  obtain ⟨e, l1, l2, l3, he, hn, h1, h2, h3, hlb, hub, her, hc, -⟩ :=
    lookups_spec t s k fuel hinv hemp (by omega)
  exact ⟨t, e, l1, l2, l3, _, _, hrun, he, hn, h1, h2, h3, hlb, rfl, hub, rfl, her, hc⟩

set_option maxRecDepth 100000 in
/-- Instance of C20: in the multiset built by inserting 2, 1, 2, 3 the nodes are,
in order, at the addresses 2, 1, 3, 4 (keys 1, 2, 2, 3), and `equal_range(2)` is
the pair of the positions at the addresses 1 and 4. -/
theorem equal_range_is_lower_and_upper_bound_witness :
    ∃ t, Tree.run 12 (Tree.empty .kNON_UNIQUE) (msOps [2, 1, 2, 3]) = .ok t ∧
      t.nodes = [2, 1, 3, 4] ∧ t.toList.map Prod.fst = [1, 2, 2, 3] ∧
      t.equalRange 12 2 = .ok (t.pos 1, t.pos 4) ∧ t.lowerBound 12 2 = .ok (t.pos 1) ∧
      t.upperBound 12 2 = .ok (t.pos 4) ∧ t.count 12 2 = .ok 2 := by
  obtain ⟨t, e, l1, l2, l3, lb, ub, hrun, he, hn, h1, h2, h3, hlb, elb, hub, eub, her, hc⟩ :=
    equal_range_is_lower_and_upper_bound [2, 1, 2, 3] 2 12 (by decide)
  have hl : (Tree.run 12 (Tree.empty .kNON_UNIQUE) (msOps [2, 1, 2, 3])).bind
      (fun t => (t.equalRange 12 2).bind (fun r => (t.count 12 2).map (fun c =>
        (t.nodes, t.toList.map Prod.fst, decide (r = (t.pos 1, t.pos 4)), c)))) =
      .ok ([2, 1, 3, 4], [1, 2, 2, 3], true, 2) := by decide
  rw [hrun] at hl
  simp only [Except.bind, her, hc, Except.map, Except.ok.injEq, Prod.mk.injEq,
    decide_eq_true_eq] at hl
  obtain ⟨hn2, hk2, hr2, hc2⟩ := hl
  refine ⟨t, hrun, hn2, hk2, ?_, ?_, ?_, ?_⟩
  · rw [her, hr2.1, hr2.2]
  · rw [hlb, hr2.1]
  · rw [hub, hr2.2]
  · rw [hc, hc2]

/-! ## Iterators across an insertion -/

/-- Claim C16, as the code has it. On a tree satisfying the invariant, let an
iterator designate the element at node `a` and let `insert` add a key that is not
present.  The iterator still dereferences to the same pair.  An iterator keeps the
root and the sentinel it was created with: when the insertion has left both in
place, stepping the iterator forward leads to the in-order successor of `a` in
the updated tree, and to the iterator its `end()` returns exactly when `a` is its
last node. -/
theorem iterator_after_insert (t : Tree) (s : Shape) (k v : Int) (fuel a : Nat)
    (hinv : Inv t s) (ha : a ∈ t.nodes) (hnew : k ∉ t.toList.map Prod.fst)
    (hf : 2 * s.size + 4 ≤ fuel) :
    ∃ t' it, t.insert fuel k v = .ok (t', it) ∧
      (t.pos a).deref t.heap = .ok (t.heap.pair a) ∧
      (t.pos a).deref t'.heap = .ok (t.heap.pair a) ∧
      (t'.root_ = t.root_ → t'.sentinel_ = t.sentinel_ →
        ∃ e' pre rest, t'.end fuel = .ok e' ∧ t'.nodes = pre ++ a :: rest ∧
          (t.pos a).inc fuel t'.heap = .ok (t'.posOr e' rest)) := by
  have hh := height_le_size s
  rw [hinv.shaped.nodes_eq] at ha
  rw [hinv.shaped.keys_eq] at hnew
  obtain ⟨t', s', i, hins, hinv', -, -, hold, ⟨l1, l2, e1, e2, -, -⟩, hsz, -⟩ :=
    insert_fresh t s k v fuel hinv (fun _ => hnew) (by omega)
  have ha' : a ∈ s'.addrs := by
    rw [e2]
    rw [e1] at ha
    rcases List.mem_append.mp ha with h | h
    · simp [h]
    · simp [h]
  have hsize' : s'.size = s.size + 1 := by rw [← hinv'.size, ← hinv.size, hsz]
  have hh' := height_le_size s'
  refine ⟨t', _, hins, ?_, ?_, ?_⟩
  · obtain ⟨n, hn⟩ := Option.isSome_iff_exists.mp (hinv.shaped.lay.live a ha)
    simp [Iter.deref, Tree.pos, Heap.read, hn, Heap.pair]
  · obtain ⟨n, hn⟩ := Option.isSome_iff_exists.mp (hinv'.shaped.lay.live a ha')
    have := hold a ha
    simp only [Heap.pair, hn] at this
    simp only [Iter.deref, Tree.pos, Heap.read, hn, bind_ok, pure_eq_ok, this]
    rfl
  · intro hroot hsent
    obtain ⟨pre, rest, e⟩ := List.append_of_mem ha'
    have hsent' : ∀ sa, t'.sentinel_ = some sa → sa ∉ s'.addrs :=
      fun sa h => (hinv'.sentinel sa h).1
    have hpos : t.pos a = t'.pos a := by simp [Tree.pos, hroot, hsent]
    refine ⟨_, pre, rest, hinv'.shaped.end_ok fuel (by omega), ?_, ?_⟩
    · rw [hinv'.shaped.nodes_eq, e]
    · rw [hpos]
      exact hinv'.shaped.inc_pos hsent' fuel (by omega) pre a rest e

/-- Instance of the amended C16: the iterator at the node of key 1 in the tree
holding (1, 10), across `insert` of (2, 20). -/
theorem iterator_after_insert_witness :
    ∃ t' it, singletonTree.insert 6 2 20 = .ok (t', it) ∧
      (singletonTree.pos 1).deref singletonTree.heap = .ok (singletonTree.heap.pair 1) ∧
      (singletonTree.pos 1).deref t'.heap = .ok (singletonTree.heap.pair 1) ∧
      (t'.root_ = singletonTree.root_ → t'.sentinel_ = singletonTree.sentinel_ →
        ∃ e' pre rest, t'.end 6 = .ok e' ∧ t'.nodes = pre ++ 1 :: rest ∧
          (singletonTree.pos 1).inc 6 t'.heap = .ok (t'.posOr e' rest)) :=
  iterator_after_insert singletonTree singletonShape 2 20 6 1 singletonTree_inv
    (by decide) (by decide) (by decide)

/-! ## No function but `erase(first, last)` raises the range error -/

theorem nr_ok {α : Type} (a : α) : NoRange (Except.ok a : Except Fault α) :=
  ⟨by simp⟩

theorem nr_pure {α : Type} (a : α) : NoRange (pure a : Except Fault α) :=
  ⟨by simp [pure, Except.pure]⟩

theorem nr_null {α : Type} : NoRange (Except.error .nullDeref : Except Fault α) :=
  ⟨by simp⟩

theorem nr_dangling {α : Type} : NoRange (Except.error .dangling : Except Fault α) :=
  ⟨by simp⟩

theorem nr_fuel {α : Type} : NoRange (Except.error .fuel : Except Fault α) :=
  ⟨by simp⟩

theorem nr_bind {α β : Type} {x : Except Fault α} {f : α → Except Fault β}
    (hx : NoRange x) (hf : ∀ a, NoRange (f a)) : NoRange (x >>= f) := by
  cases x with
  | error e =>
    refine ⟨?_⟩
    have := hx.ne
    simpa [bind, Except.bind] using this
  | ok a => exact hf a

theorem Heap.read_nr (h : Heap) (p : Ptr) : NoRange (Heap.read h p) := by
  unfold Heap.read
  repeat' first
    | with_reducible apply nr_ok
    | with_reducible apply nr_pure
    | with_reducible apply nr_null
    | with_reducible apply nr_dangling
    | with_reducible apply nr_fuel
    | with_reducible apply nr_bind
    | intro _
    | simp only []
    | split

theorem Heap.modify_nr (h : Heap) (p : Ptr) (f : Node → Node) : NoRange (Heap.modify h p f) := by
  unfold Heap.modify
  repeat' first
    | with_reducible apply nr_ok
    | with_reducible apply nr_pure
    | with_reducible apply nr_null
    | with_reducible apply nr_dangling
    | with_reducible apply nr_fuel
    | with_reducible apply nr_bind
    | intro _
    | simp only []
    | split

theorem Tree.key_nr (t : Tree) (p : Ptr) : NoRange (Tree.key t p) := by
  unfold Tree.key
  repeat' first
    | with_reducible apply Heap.read_nr
    | with_reducible apply nr_ok
    | with_reducible apply nr_pure
    | with_reducible apply nr_null
    | with_reducible apply nr_dangling
    | with_reducible apply nr_fuel
    | with_reducible apply nr_bind
    | intro _
    | simp only []
    | split

theorem Tree.color_nr (t : Tree) (p : Ptr) : NoRange (Tree.color t p) := by
  unfold Tree.color
  repeat' first
    | with_reducible apply Heap.read_nr
    | with_reducible apply nr_ok
    | with_reducible apply nr_pure
    | with_reducible apply nr_null
    | with_reducible apply nr_dangling
    | with_reducible apply nr_fuel
    | with_reducible apply nr_bind
    | intro _
    | simp only []
    | split

theorem Tree.parent_nr (t : Tree) (p : Ptr) : NoRange (Tree.parent t p) := by
  unfold Tree.parent
  repeat' first
    | with_reducible apply Heap.read_nr
    | with_reducible apply nr_ok
    | with_reducible apply nr_pure
    | with_reducible apply nr_null
    | with_reducible apply nr_dangling
    | with_reducible apply nr_fuel
    | with_reducible apply nr_bind
    | intro _
    | simp only []
    | split

theorem Tree.left_nr (t : Tree) (p : Ptr) : NoRange (Tree.left t p) := by
  unfold Tree.left
  repeat' first
    | with_reducible apply Heap.read_nr
    | with_reducible apply nr_ok
    | with_reducible apply nr_pure
    | with_reducible apply nr_null
    | with_reducible apply nr_dangling
    | with_reducible apply nr_fuel
    | with_reducible apply nr_bind
    | intro _
    | simp only []
    | split

theorem Tree.right_nr (t : Tree) (p : Ptr) : NoRange (Tree.right t p) := by
  unfold Tree.right
  repeat' first
    | with_reducible apply Heap.read_nr
    | with_reducible apply nr_ok
    | with_reducible apply nr_pure
    | with_reducible apply nr_null
    | with_reducible apply nr_dangling
    | with_reducible apply nr_fuel
    | with_reducible apply nr_bind
    | intro _
    | simp only []
    | split

theorem Tree.setColor_nr (t : Tree) (p : Ptr) (c : Colors) : NoRange (Tree.setColor t p c) := by
  unfold Tree.setColor
  repeat' first
    | with_reducible apply Heap.modify_nr
    | with_reducible apply nr_ok
    | with_reducible apply nr_pure
    | with_reducible apply nr_null
    | with_reducible apply nr_dangling
    | with_reducible apply nr_fuel
    | with_reducible apply nr_bind
    | intro _
    | simp only []
    | split

theorem Tree.setParent_nr (t : Tree) (p q : Ptr) : NoRange (Tree.setParent t p q) := by
  unfold Tree.setParent
  repeat' first
    | with_reducible apply Heap.modify_nr
    | with_reducible apply nr_ok
    | with_reducible apply nr_pure
    | with_reducible apply nr_null
    | with_reducible apply nr_dangling
    | with_reducible apply nr_fuel
    | with_reducible apply nr_bind
    | intro _
    | simp only []
    | split

theorem Tree.setLeft_nr (t : Tree) (p q : Ptr) : NoRange (Tree.setLeft t p q) := by
  unfold Tree.setLeft
  repeat' first
    | with_reducible apply Heap.modify_nr
    | with_reducible apply nr_ok
    | with_reducible apply nr_pure
    | with_reducible apply nr_null
    | with_reducible apply nr_dangling
    | with_reducible apply nr_fuel
    | with_reducible apply nr_bind
    | intro _
    | simp only []
    | split

theorem Tree.setRight_nr (t : Tree) (p q : Ptr) : NoRange (Tree.setRight t p q) := by
  unfold Tree.setRight
  repeat' first
    | with_reducible apply Heap.modify_nr
    | with_reducible apply nr_ok
    | with_reducible apply nr_pure
    | with_reducible apply nr_null
    | with_reducible apply nr_dangling
    | with_reducible apply nr_fuel
    | with_reducible apply nr_bind
    | intro _
    | simp only []
    | split

theorem Tree.setPair_nr (t : Tree) (p : Ptr) (k v : Int) : NoRange (Tree.setPair t p k v) := by
  unfold Tree.setPair
  repeat' first
    | with_reducible apply Heap.modify_nr
    | with_reducible apply nr_ok
    | with_reducible apply nr_pure
    | with_reducible apply nr_null
    | with_reducible apply nr_dangling
    | with_reducible apply nr_fuel
    | with_reducible apply nr_bind
    | intro _
    | simp only []
    | split

theorem Tree.deleteNode_nr (t : Tree) (p : Ptr) : NoRange (Tree.deleteNode t p) := by
  unfold Tree.deleteNode
  repeat' first
    | with_reducible apply nr_ok
    | with_reducible apply nr_pure
    | with_reducible apply nr_null
    | with_reducible apply nr_dangling
    | with_reducible apply nr_fuel
    | with_reducible apply nr_bind
    | intro _
    | simp only []
    | split

theorem rotateLeft_nr (t : Tree) (p : Ptr) : NoRange (rotateLeft t p) := by
  unfold rotateLeft
  repeat' first
    | with_reducible apply Tree.setRight_nr
    | with_reducible apply Tree.setLeft_nr
    | with_reducible apply Tree.setParent_nr
    | with_reducible apply Tree.right_nr
    | with_reducible apply Tree.left_nr
    | with_reducible apply Tree.parent_nr
    | with_reducible apply nr_ok
    | with_reducible apply nr_pure
    | with_reducible apply nr_null
    | with_reducible apply nr_dangling
    | with_reducible apply nr_fuel
    | with_reducible apply nr_bind
    | intro _
    | simp only []
    | split

theorem rotateRight_nr (t : Tree) (p : Ptr) : NoRange (rotateRight t p) := by
  unfold rotateRight
  repeat' first
    | with_reducible apply Tree.setRight_nr
    | with_reducible apply Tree.setLeft_nr
    | with_reducible apply Tree.setParent_nr
    | with_reducible apply Tree.right_nr
    | with_reducible apply Tree.left_nr
    | with_reducible apply Tree.parent_nr
    | with_reducible apply nr_ok
    | with_reducible apply nr_pure
    | with_reducible apply nr_null
    | with_reducible apply nr_dangling
    | with_reducible apply nr_fuel
    | with_reducible apply nr_bind
    | intro _
    | simp only []
    | split

theorem blackenRoot_nr (t : Tree) : NoRange (blackenRoot t) := by
  unfold blackenRoot
  repeat' first
    | with_reducible apply Tree.setColor_nr
    | with_reducible apply nr_ok
    | with_reducible apply nr_pure
    | with_reducible apply nr_null
    | with_reducible apply nr_dangling
    | with_reducible apply nr_fuel
    | with_reducible apply nr_bind
    | intro _
    | simp only []
    | split

theorem swapColors_nr : ∀ (n : Nat), ∀ (x0 x1 : _), NoRange (swapColors n x0 x1) := by
  intro n
  induction n with
  | zero =>
    intros
    exact nr_fuel
  | succ n ih =>
    intros
    unfold swapColors
    repeat' first
      | with_reducible apply ih
      | with_reducible apply blackenRoot_nr
      | with_reducible apply Tree.setColor_nr
      | with_reducible apply Tree.right_nr
      | with_reducible apply Tree.left_nr
      | with_reducible apply Tree.parent_nr
      | with_reducible apply Tree.color_nr
      | with_reducible apply nr_ok
      | with_reducible apply nr_pure
      | with_reducible apply nr_null
      | with_reducible apply nr_dangling
      | with_reducible apply nr_fuel
      | with_reducible apply nr_bind
      | intro _
      | simp only []
      | split

theorem findMax_nr : ∀ (n : Nat), ∀ (x0 x1 : _), NoRange (findMax n x0 x1) := by
  intro n
  induction n with
  | zero =>
    intros
    exact nr_fuel
  | succ n ih =>
    intros
    unfold findMax
    repeat' first
      | with_reducible apply ih
      | with_reducible apply Tree.right_nr
      | with_reducible apply Heap.read_nr
      | with_reducible apply nr_ok
      | with_reducible apply nr_pure
      | with_reducible apply nr_null
      | with_reducible apply nr_dangling
      | with_reducible apply nr_fuel
      | with_reducible apply nr_bind
      | intro _
      | simp only []
      | split

theorem findMin_nr : ∀ (n : Nat), ∀ (x0 x1 : _), NoRange (findMin n x0 x1) := by
  intro n
  induction n with
  | zero =>
    intros
    exact nr_fuel
  | succ n ih =>
    intros
    unfold findMin
    repeat' first
      | with_reducible apply ih
      | with_reducible apply Tree.left_nr
      | with_reducible apply Heap.read_nr
      | with_reducible apply nr_ok
      | with_reducible apply nr_pure
      | with_reducible apply nr_null
      | with_reducible apply nr_dangling
      | with_reducible apply nr_fuel
      | with_reducible apply nr_bind
      | intro _
      | simp only []
      | split

theorem findNode_nr : ∀ (n : Nat), ∀ (x0 x1 x2 : _), NoRange (findNode n x0 x1 x2) := by
  intro n
  induction n with
  | zero =>
    intros
    exact nr_fuel
  | succ n ih =>
    intros
    unfold findNode
    repeat' first
      | with_reducible apply ih
      | with_reducible apply Tree.right_nr
      | with_reducible apply Tree.left_nr
      | with_reducible apply Tree.key_nr
      | with_reducible apply Heap.read_nr
      | with_reducible apply nr_ok
      | with_reducible apply nr_pure
      | with_reducible apply nr_null
      | with_reducible apply nr_dangling
      | with_reducible apply nr_fuel
      | with_reducible apply nr_bind
      | intro _
      | simp only []
      | split

theorem Tree.begin_nr (fuel : Nat) (t : Tree) : NoRange (Tree.begin fuel t) := by
  unfold Tree.begin
  repeat' first
    | with_reducible apply findMin_nr
    | with_reducible apply nr_ok
    | with_reducible apply nr_pure
    | with_reducible apply nr_null
    | with_reducible apply nr_dangling
    | with_reducible apply nr_fuel
    | with_reducible apply nr_bind
    | intro _
    | simp only []
    | split

theorem Tree.end_nr (fuel : Nat) (t : Tree) : NoRange (Tree.end fuel t) := by
  unfold Tree.end
  repeat' first
    | with_reducible apply findMax_nr
    | with_reducible apply nr_ok
    | with_reducible apply nr_pure
    | with_reducible apply nr_null
    | with_reducible apply nr_dangling
    | with_reducible apply nr_fuel
    | with_reducible apply nr_bind
    | intro _
    | simp only []
    | split

theorem Tree.find_nr (fuel : Nat) (t : Tree) (key : Int) : NoRange (Tree.find fuel t key) := by
  unfold Tree.find
  repeat' first
    | with_reducible apply Tree.end_nr
    | with_reducible apply findNode_nr
    | with_reducible apply nr_ok
    | with_reducible apply nr_pure
    | with_reducible apply nr_null
    | with_reducible apply nr_dangling
    | with_reducible apply nr_fuel
    | with_reducible apply nr_bind
    | intro _
    | simp only []
    | split

theorem Tree.getSlot_nr (t : Tree) (s : Slot) : NoRange (Tree.getSlot t s) := by
  unfold Tree.getSlot
  repeat' first
    | with_reducible apply Tree.right_nr
    | with_reducible apply Tree.left_nr
    | with_reducible apply nr_ok
    | with_reducible apply nr_pure
    | with_reducible apply nr_null
    | with_reducible apply nr_dangling
    | with_reducible apply nr_fuel
    | with_reducible apply nr_bind
    | intro _
    | simp only []
    | split

theorem Tree.setSlot_nr (t : Tree) (s : Slot) (q : Ptr) : NoRange (Tree.setSlot t s q) := by
  unfold Tree.setSlot
  repeat' first
    | with_reducible apply Tree.setRight_nr
    | with_reducible apply Tree.setLeft_nr
    | with_reducible apply nr_ok
    | with_reducible apply nr_pure
    | with_reducible apply nr_null
    | with_reducible apply nr_dangling
    | with_reducible apply nr_fuel
    | with_reducible apply nr_bind
    | intro _
    | simp only []
    | split

theorem climbRight_nr : ∀ (n : Nat), ∀ (x0 x1 x2 : _), NoRange (climbRight n x0 x1 x2) := by
  intro n
  induction n with
  | zero =>
    intros
    exact nr_fuel
  | succ n ih =>
    intros
    unfold climbRight
    repeat' first
      | with_reducible apply ih
      | with_reducible apply Tree.right_nr
      | with_reducible apply Tree.parent_nr
      | with_reducible apply Heap.read_nr
      | with_reducible apply nr_ok
      | with_reducible apply nr_pure
      | with_reducible apply nr_null
      | with_reducible apply nr_dangling
      | with_reducible apply nr_fuel
      | with_reducible apply nr_bind
      | intro _
      | simp only []
      | split

theorem climbLeft_nr : ∀ (n : Nat), ∀ (x0 x1 x2 : _), NoRange (climbLeft n x0 x1 x2) := by
  intro n
  induction n with
  | zero =>
    intros
    exact nr_fuel
  | succ n ih =>
    intros
    unfold climbLeft
    repeat' first
      | with_reducible apply ih
      | with_reducible apply Tree.left_nr
      | with_reducible apply Tree.parent_nr
      | with_reducible apply Heap.read_nr
      | with_reducible apply nr_ok
      | with_reducible apply nr_pure
      | with_reducible apply nr_null
      | with_reducible apply nr_dangling
      | with_reducible apply nr_fuel
      | with_reducible apply nr_bind
      | intro _
      | simp only []
      | split

theorem Iter.inc_nr (fuel : Nat) (h : Heap) (it : Iter) : NoRange (Iter.inc fuel h it) := by
  unfold Iter.inc
  repeat' first
    | with_reducible apply climbRight_nr
    | with_reducible apply findMin_nr
    | with_reducible apply findMax_nr
    | with_reducible apply Tree.right_nr
    | with_reducible apply Tree.parent_nr
    | with_reducible apply Heap.read_nr
    | with_reducible apply nr_ok
    | with_reducible apply nr_pure
    | with_reducible apply nr_null
    | with_reducible apply nr_dangling
    | with_reducible apply nr_fuel
    | with_reducible apply nr_bind
    | intro _
    | simp only []
    | split

theorem Iter.dec_nr (fuel : Nat) (h : Heap) (it : Iter) : NoRange (Iter.dec fuel h it) := by
  unfold Iter.dec
  repeat' first
    | with_reducible apply climbLeft_nr
    | with_reducible apply findMin_nr
    | with_reducible apply findMax_nr
    | with_reducible apply Tree.left_nr
    | with_reducible apply Tree.parent_nr
    | with_reducible apply Heap.read_nr
    | with_reducible apply nr_ok
    | with_reducible apply nr_pure
    | with_reducible apply nr_null
    | with_reducible apply nr_dangling
    | with_reducible apply nr_fuel
    | with_reducible apply nr_bind
    | intro _
    | simp only []
    | split

theorem Iter.deref_nr (h : Heap) (it : Iter) : NoRange (Iter.deref h it) := by
  unfold Iter.deref
  repeat' first
    | with_reducible apply Tree.key_nr
    | with_reducible apply Heap.read_nr
    | with_reducible apply nr_ok
    | with_reducible apply nr_pure
    | with_reducible apply nr_null
    | with_reducible apply nr_dangling
    | with_reducible apply nr_fuel
    | with_reducible apply nr_bind
    | intro _
    | simp only []
    | split

theorem removeConnect_nr (t : Tree) (p : Ptr) : NoRange (removeConnect t p) := by
  unfold removeConnect
  repeat' first
    | with_reducible apply Tree.setRight_nr
    | with_reducible apply Tree.setLeft_nr
    | with_reducible apply Tree.left_nr
    | with_reducible apply Tree.parent_nr
    | with_reducible apply nr_ok
    | with_reducible apply nr_pure
    | with_reducible apply nr_null
    | with_reducible apply nr_dangling
    | with_reducible apply nr_fuel
    | with_reducible apply nr_bind
    | intro _
    | simp only []
    | split

theorem brotherOf_nr (t : Tree) (p q : Ptr) : NoRange (brotherOf t p q) := by
  unfold brotherOf
  repeat' first
    | with_reducible apply Tree.right_nr
    | with_reducible apply Tree.left_nr
    | with_reducible apply nr_ok
    | with_reducible apply nr_pure
    | with_reducible apply nr_null
    | with_reducible apply nr_dangling
    | with_reducible apply nr_fuel
    | with_reducible apply nr_bind
    | intro _
    | simp only []
    | split

theorem isLeftOf_nr (t : Tree) (p q : Ptr) : NoRange (isLeftOf t p q) := by
  unfold isLeftOf
  repeat' first
    | with_reducible apply Tree.left_nr
    | with_reducible apply nr_ok
    | with_reducible apply nr_pure
    | with_reducible apply nr_null
    | with_reducible apply nr_dangling
    | with_reducible apply nr_fuel
    | with_reducible apply nr_bind
    | intro _
    | simp only []
    | split

theorem swapColor_nr (t : Tree) (p q : Ptr) : NoRange (swapColor t p q) := by
  unfold swapColor
  repeat' first
    | with_reducible apply Tree.setColor_nr
    | with_reducible apply Tree.color_nr
    | with_reducible apply nr_ok
    | with_reducible apply nr_pure
    | with_reducible apply nr_null
    | with_reducible apply nr_dangling
    | with_reducible apply nr_fuel
    | with_reducible apply nr_bind
    | intro _
    | simp only []
    | split

theorem redParBlackSonRedLeft_nr (fuel : Nat) (t : Tree) (p : Ptr) : NoRange (redParBlackSonRedLeft fuel t p) := by
  unfold redParBlackSonRedLeft
  repeat' first
    | with_reducible apply isLeftOf_nr
    | with_reducible apply brotherOf_nr
    | with_reducible apply removeConnect_nr
    | with_reducible apply swapColors_nr
    | with_reducible apply rotateRight_nr
    | with_reducible apply rotateLeft_nr
    | with_reducible apply Tree.parent_nr
    | with_reducible apply nr_ok
    | with_reducible apply nr_pure
    | with_reducible apply nr_null
    | with_reducible apply nr_dangling
    | with_reducible apply nr_fuel
    | with_reducible apply nr_bind
    | intro _
    | simp only []
    | split

theorem redParBlackSonRedRight_nr (fuel : Nat) (t : Tree) (p : Ptr) : NoRange (redParBlackSonRedRight fuel t p) := by
  unfold redParBlackSonRedRight
  repeat' first
    | with_reducible apply swapColor_nr
    | with_reducible apply isLeftOf_nr
    | with_reducible apply brotherOf_nr
    | with_reducible apply removeConnect_nr
    | with_reducible apply swapColors_nr
    | with_reducible apply rotateRight_nr
    | with_reducible apply rotateLeft_nr
    | with_reducible apply Tree.parent_nr
    | with_reducible apply nr_ok
    | with_reducible apply nr_pure
    | with_reducible apply nr_null
    | with_reducible apply nr_dangling
    | with_reducible apply nr_fuel
    | with_reducible apply nr_bind
    | intro _
    | simp only []
    | split

theorem blackParRedSonBlackRight_nr (t : Tree) (p : Ptr) : NoRange (blackParRedSonBlackRight t p) := by
  unfold blackParRedSonBlackRight
  repeat' first
    | with_reducible apply swapColor_nr
    | with_reducible apply isLeftOf_nr
    | with_reducible apply brotherOf_nr
    | with_reducible apply removeConnect_nr
    | with_reducible apply rotateRight_nr
    | with_reducible apply rotateLeft_nr
    | with_reducible apply Tree.right_nr
    | with_reducible apply Tree.left_nr
    | with_reducible apply Tree.parent_nr
    | with_reducible apply nr_ok
    | with_reducible apply nr_pure
    | with_reducible apply nr_null
    | with_reducible apply nr_dangling
    | with_reducible apply nr_fuel
    | with_reducible apply nr_bind
    | intro _
    | simp only []
    | split

theorem blackParRedBrosBlackRightRedLeft_nr (fuel : Nat) (t : Tree) (p : Ptr) : NoRange (blackParRedBrosBlackRightRedLeft fuel t p) := by
  unfold blackParRedBrosBlackRightRedLeft
  repeat' first
    | with_reducible apply swapColor_nr
    | with_reducible apply brotherOf_nr
    | with_reducible apply removeConnect_nr
    | with_reducible apply swapColors_nr
    | with_reducible apply rotateLeft_nr
    | with_reducible apply Tree.parent_nr
    | with_reducible apply nr_ok
    | with_reducible apply nr_pure
    | with_reducible apply nr_null
    | with_reducible apply nr_dangling
    | with_reducible apply nr_fuel
    | with_reducible apply nr_bind
    | intro _
    | simp only []
    | split

theorem hasColor_nr (t : Tree) (p : Ptr) (c : Colors) : NoRange (hasColor t p c) := by
  unfold hasColor
  repeat' first
    | with_reducible apply Tree.color_nr
    | with_reducible apply nr_ok
    | with_reducible apply nr_pure
    | with_reducible apply nr_null
    | with_reducible apply nr_dangling
    | with_reducible apply nr_fuel
    | with_reducible apply nr_bind
    | intro _
    | simp only []
    | split

theorem fixDoubleBlack_nr : ∀ (n : Nat), ∀ (x0 x1 : _), NoRange (fixDoubleBlack n x0 x1) := by
  intro n
  induction n with
  | zero =>
    intros
    exact nr_fuel
  | succ n ih =>
    intros
    unfold fixDoubleBlack
    repeat' first
      | with_reducible apply ih
      | with_reducible apply hasColor_nr
      | with_reducible apply brotherOf_nr
      | with_reducible apply rotateRight_nr
      | with_reducible apply rotateLeft_nr
      | with_reducible apply Tree.setColor_nr
      | with_reducible apply Tree.right_nr
      | with_reducible apply Tree.left_nr
      | with_reducible apply Tree.parent_nr
      | with_reducible apply Tree.color_nr
      | with_reducible apply nr_ok
      | with_reducible apply nr_pure
      | with_reducible apply nr_null
      | with_reducible apply nr_dangling
      | with_reducible apply nr_fuel
      | with_reducible apply nr_bind
      | intro _
      | simp only []
      | split

theorem blackParBlackBrosBlackAll_nr (fuel : Nat) (t : Tree) (p : Ptr) : NoRange (blackParBlackBrosBlackAll fuel t p) := by
  unfold blackParBlackBrosBlackAll
  repeat' first
    | with_reducible apply fixDoubleBlack_nr
    | with_reducible apply brotherOf_nr
    | with_reducible apply removeConnect_nr
    | with_reducible apply Tree.setColor_nr
    | with_reducible apply Tree.parent_nr
    | with_reducible apply Tree.color_nr
    | with_reducible apply nr_ok
    | with_reducible apply nr_pure
    | with_reducible apply nr_null
    | with_reducible apply nr_dangling
    | with_reducible apply nr_fuel
    | with_reducible apply nr_bind
    | intro _
    | simp only []
    | split

theorem blackParBlackBrosRedRightGran_nr (t : Tree) (p : Ptr) : NoRange (blackParBlackBrosRedRightGran t p) := by
  unfold blackParBlackBrosRedRightGran
  repeat' first
    | with_reducible apply swapColor_nr
    | with_reducible apply isLeftOf_nr
    | with_reducible apply brotherOf_nr
    | with_reducible apply removeConnect_nr
    | with_reducible apply rotateRight_nr
    | with_reducible apply rotateLeft_nr
    | with_reducible apply Tree.setColor_nr
    | with_reducible apply Tree.parent_nr
    | with_reducible apply nr_ok
    | with_reducible apply nr_pure
    | with_reducible apply nr_null
    | with_reducible apply nr_dangling
    | with_reducible apply nr_fuel
    | with_reducible apply nr_bind
    | intro _
    | simp only []
    | split

theorem blackParBlackBrosRedLeftOrAllGran_nr (t : Tree) (p : Ptr) : NoRange (blackParBlackBrosRedLeftOrAllGran t p) := by
  unfold blackParBlackBrosRedLeftOrAllGran
  repeat' first
    | with_reducible apply isLeftOf_nr
    | with_reducible apply removeConnect_nr
    | with_reducible apply rotateRight_nr
    | with_reducible apply rotateLeft_nr
    | with_reducible apply Tree.setColor_nr
    | with_reducible apply Tree.right_nr
    | with_reducible apply Tree.left_nr
    | with_reducible apply Tree.parent_nr
    | with_reducible apply nr_ok
    | with_reducible apply nr_pure
    | with_reducible apply nr_null
    | with_reducible apply nr_dangling
    | with_reducible apply nr_fuel
    | with_reducible apply nr_bind
    | intro _
    | simp only []
    | split

set_option maxHeartbeats 4000000 in
theorem deleteBlackNoChild_nr (fuel : Nat) (t : Tree) (p : Ptr) : NoRange (deleteBlackNoChild fuel t p) := by
  unfold deleteBlackNoChild
  repeat' first
    | with_reducible apply blackParBlackBrosRedLeftOrAllGran_nr
    | with_reducible apply blackParBlackBrosRedRightGran_nr
    | with_reducible apply blackParBlackBrosBlackAll_nr
    | with_reducible apply hasColor_nr
    | with_reducible apply blackParRedBrosBlackRightRedLeft_nr
    | with_reducible apply blackParRedSonBlackRight_nr
    | with_reducible apply redParBlackSonRedRight_nr
    | with_reducible apply redParBlackSonRedLeft_nr
    | with_reducible apply swapColor_nr
    | with_reducible apply isLeftOf_nr
    | with_reducible apply brotherOf_nr
    | with_reducible apply removeConnect_nr
    | with_reducible apply Tree.right_nr
    | with_reducible apply Tree.left_nr
    | with_reducible apply Tree.parent_nr
    | with_reducible apply Tree.color_nr
    | with_reducible apply nr_ok
    | with_reducible apply nr_pure
    | with_reducible apply nr_null
    | with_reducible apply nr_dangling
    | with_reducible apply nr_fuel
    | with_reducible apply nr_bind
    | intro _
    | simp only []
    | split

theorem deleteOneChild_nr (t : Tree) (p : Ptr) (child : Slot) : NoRange (deleteOneChild t p child) := by
  unfold deleteOneChild
  repeat' first
    | with_reducible apply Tree.setSlot_nr
    | with_reducible apply Tree.getSlot_nr
    | with_reducible apply Tree.setPair_nr
    | with_reducible apply Tree.key_nr
    | with_reducible apply Heap.read_nr
    | with_reducible apply nr_ok
    | with_reducible apply nr_pure
    | with_reducible apply nr_null
    | with_reducible apply nr_dangling
    | with_reducible apply nr_fuel
    | with_reducible apply nr_bind
    | intro _
    | simp only []
    | split

set_option maxHeartbeats 4000000 in
theorem deleteTwoChild_nr (fuel : Nat) (t : Tree) (p : Ptr) : NoRange (deleteTwoChild fuel t p) := by
  unfold deleteTwoChild
  repeat' first
    | with_reducible apply deleteOneChild_nr
    | with_reducible apply deleteBlackNoChild_nr
    | with_reducible apply removeConnect_nr
    | with_reducible apply findMin_nr
    | with_reducible apply findMax_nr
    | with_reducible apply Tree.setPair_nr
    | with_reducible apply Tree.right_nr
    | with_reducible apply Tree.left_nr
    | with_reducible apply Tree.color_nr
    | with_reducible apply Tree.key_nr
    | with_reducible apply Heap.read_nr
    | with_reducible apply nr_ok
    | with_reducible apply nr_pure
    | with_reducible apply nr_null
    | with_reducible apply nr_dangling
    | with_reducible apply nr_fuel
    | with_reducible apply nr_bind
    | intro _
    | simp only []
    | split

theorem extractNode_nr (fuel : Nat) (t : Tree) (p : Ptr) : NoRange (extractNode fuel t p) := by
  unfold extractNode
  repeat' first
    | with_reducible apply deleteTwoChild_nr
    | with_reducible apply deleteOneChild_nr
    | with_reducible apply deleteBlackNoChild_nr
    | with_reducible apply removeConnect_nr
    | with_reducible apply Tree.right_nr
    | with_reducible apply Tree.left_nr
    | with_reducible apply Tree.color_nr
    | with_reducible apply nr_ok
    | with_reducible apply nr_pure
    | with_reducible apply nr_null
    | with_reducible apply nr_dangling
    | with_reducible apply nr_fuel
    | with_reducible apply nr_bind
    | intro _
    | simp only []
    | split

theorem Tree.erase_nr (fuel : Nat) (t : Tree) (key : Int) : NoRange (Tree.erase fuel t key) := by
  unfold Tree.erase
  repeat' first
    | with_reducible apply extractNode_nr
    | with_reducible apply Iter.inc_nr
    | with_reducible apply Tree.end_nr
    | with_reducible apply findNode_nr
    | with_reducible apply Tree.deleteNode_nr
    | with_reducible apply nr_ok
    | with_reducible apply nr_pure
    | with_reducible apply nr_null
    | with_reducible apply nr_dangling
    | with_reducible apply nr_fuel
    | with_reducible apply nr_bind
    | intro _
    | simp only []
    | split

theorem cleanTree_nr : ∀ (n : Nat), ∀ (x0 x1 : _), NoRange (cleanTree n x0 x1) := by
  intro n
  induction n with
  | zero =>
    intros
    exact nr_fuel
  | succ n ih =>
    intros
    unfold cleanTree
    repeat' first
      | with_reducible apply ih
      | with_reducible apply Tree.setSlot_nr
      | with_reducible apply Tree.getSlot_nr
      | with_reducible apply Tree.deleteNode_nr
      | with_reducible apply nr_ok
      | with_reducible apply nr_pure
      | with_reducible apply nr_null
      | with_reducible apply nr_dangling
      | with_reducible apply nr_fuel
      | with_reducible apply nr_bind
      | intro _
      | simp only []
      | split

theorem Tree.clear_nr (fuel : Nat) (t : Tree) : NoRange (Tree.clear fuel t) := by
  unfold Tree.clear
  repeat' first
    | with_reducible apply cleanTree_nr
    | with_reducible apply Tree.deleteNode_nr
    | with_reducible apply nr_ok
    | with_reducible apply nr_pure
    | with_reducible apply nr_null
    | with_reducible apply nr_dangling
    | with_reducible apply nr_fuel
    | with_reducible apply nr_bind
    | intro _
    | simp only []
    | split

theorem rangeLoop_nr : ∀ (n : Nat), ∀ (x0 x1 x2 x3 x4 : _), NoRange (rangeLoop n x0 x1 x2 x3 x4) := by
  intro n
  induction n with
  | zero =>
    intros
    exact nr_fuel
  | succ n ih =>
    intros
    unfold rangeLoop
    repeat' first
      | with_reducible apply ih
      | with_reducible apply Tree.erase_nr
      | with_reducible apply Iter.deref_nr
      | with_reducible apply Iter.inc_nr
      | with_reducible apply Tree.end_nr
      | with_reducible apply Tree.begin_nr
      | with_reducible apply nr_ok
      | with_reducible apply nr_pure
      | with_reducible apply nr_null
      | with_reducible apply nr_dangling
      | with_reducible apply nr_fuel
      | with_reducible apply nr_bind
      | intro _
      | simp only []
      | split

/-! ## The validation of `erase(first, last)` -/

theorem Iter.eq_iff (a b : Iter) : Iter.eq a b = true ↔ a = b := by
  cases a
  cases b
  simp [Iter.eq]

theorem Iter.eq_false_iff (a b : Iter) : Iter.eq a b = false ↔ a ≠ b := by
  have := Iter.eq_iff a b
  cases h : Iter.eq a b
  · simp only [true_iff]
    intro e
    rw [this.mpr e] at h
    exact absurd h (by decide)
  · simp only [reduceCtorEq, false_iff, ne_eq, not_not]
    exact this.mp h

theorem pos_inj (t : Tree) {a b : Nat} (h : t.pos a = t.pos b) : a = b := by
  simpa [Tree.pos] using h

/-- The validation loop stops once both ends are found. -/
theorem rangeScan_done (n fuel : Nat) (t : Tree) (e first last i : Iter)
    (he : t.end fuel = .ok e) :
    rangeScan (n + 1) fuel t first last i true true = .ok (true, true) := by
  simp [rangeScan, he]

/-- The validation loop when `last` is the end position. -/
theorem rangeScan_last_end {fuel : Nat} {t : Tree} {e : Iter} {ns : List Nat}
    (W : Walk fuel t e ns) (first last : Iter) (hl : last = e) :
    ∀ (cur pre : List Nat) (n : Nat), ns = pre ++ cur → cur.length < n →
      rangeScan n fuel t first last (t.posOr e cur) false true =
        .ok (cur.any (fun a => first.eq (t.pos a)), true) := by
  intro cur
  induction cur with
  | nil =>
    intro pre n _ hn
    cases n with
    | zero => omega
    | succ n => simp [rangeScan, W.end_eq, posOr_nil, Iter.eq_refl]
  | cons a rest ih =>
    intro pre n hns hn
    cases n with
    | zero => omega
    | succ n =>
      obtain ⟨hne, -, hinc⟩ := W.step pre a rest hns
      simp only [List.length_cons] at hn
      by_cases hfa : first.eq (t.pos a) = true
      · obtain ⟨n', rfl⟩ : ∃ n', n = n' + 1 := ⟨n - 1, by omega⟩
        have hd := rangeScan_done n' fuel t e first last (t.posOr e rest) W.end_eq
        simp [rangeScan, W.end_eq, posOr_cons, hne, hfa, hl, Iter.eq_refl, hinc, hd]
      · have hfa' : first.eq (t.pos a) = false := by simpa using hfa
        have := ih (pre ++ [a]) n (by simpa using hns) (by omega)
        simp [rangeScan, W.end_eq, posOr_cons, hne, hfa', hinc, this]

/-- The validation loop after `first` is found, `last` not being the end. -/
theorem rangeScan_after_first {fuel : Nat} {t : Tree} {e : Iter} {ns : List Nat}
    (W : Walk fuel t e ns) (first last : Iter) (hfl : first ≠ last) :
    ∀ (cur pre : List Nat) (n : Nat), ns = pre ++ cur → cur.length < n →
      rangeScan n fuel t first last (t.posOr e cur) true false =
        .ok (true, cur.any (fun a => last.eq (t.pos a))) := by
  intro cur
  induction cur with
  | nil =>
    intro pre n _ hn
    cases n with
    | zero => omega
    | succ n => simp [rangeScan, W.end_eq, posOr_nil, Iter.eq_refl]
  | cons a rest ih =>
    intro pre n hns hn
    cases n with
    | zero => omega
    | succ n =>
      obtain ⟨hne, -, hinc⟩ := W.step pre a rest hns
      simp only [List.length_cons] at hn
      have ih' := ih (pre ++ [a]) n (by simpa using hns) (by omega)
      by_cases hfa : first.eq (t.pos a) = true
      · have hla : last.eq (t.pos a) = false := by
          rw [Iter.eq_false_iff]
          rw [Iter.eq_iff] at hfa
          intro e1
          exact hfl (hfa.trans e1.symm)
        simp [rangeScan, W.end_eq, posOr_cons, hne, hfa, hla, hinc, ih']
      · have hfa' : first.eq (t.pos a) = false := by simpa using hfa
        by_cases hla : last.eq (t.pos a) = true
        · obtain ⟨n', rfl⟩ : ∃ n', n = n' + 1 := ⟨n - 1, by omega⟩
          have hd := rangeScan_done n' fuel t e first last (t.posOr e rest) W.end_eq
          simp [rangeScan, W.end_eq, posOr_cons, hne, hfa', hla, hinc, hd]
        · have hla' : last.eq (t.pos a) = false := by simpa using hla
          simp [rangeScan, W.end_eq, posOr_cons, hne, hfa', hla', hinc, ih']

/-- The validation loop before `first` is found, `last` not being the end. -/
theorem rangeScan_before_first {fuel : Nat} {t : Tree} {e : Iter} {ns : List Nat}
    (W : Walk fuel t e ns) (first last : Iter) (hfl : first ≠ last) :
    ∀ (m pre : List Nat) (n : Nat) (cur : List Nat), ns = pre ++ m ++ cur →
      (∀ b ∈ m, first.eq (t.pos b) = false) → (m ++ cur).length < n →
      (cur = [] ∨ ∃ a rest, cur = a :: rest ∧ first.eq (t.pos a) = true) →
      rangeScan n fuel t first last (t.posOr e (m ++ cur)) false false =
        .ok (match cur with
          | [] => (false, false)
          | _ :: rest => (true, rest.any (fun a => last.eq (t.pos a)))) := by
  intro m
  induction m with
  | nil =>
    intro pre n cur hns _ hn hcur
    cases n with
    | zero => omega
    | succ n =>
      rcases hcur with rfl | ⟨a, rest, rfl, hfa⟩
      · simp [rangeScan, W.end_eq, posOr_nil, Iter.eq_refl]
      · obtain ⟨hne, -, hinc⟩ := W.step pre a rest (by simpa using hns)
        simp only [List.nil_append, List.length_cons] at hn
        have := rangeScan_after_first W first last hfl rest (pre ++ [a]) n
          (by simpa using hns) (by omega)
        simp [rangeScan, W.end_eq, posOr_cons, hne, hfa, hinc, this]
  | cons b m ih =>
    intro pre n cur hns hm hn hcur
    cases n with
    | zero => omega
    | succ n =>
      obtain ⟨hne, -, hinc⟩ := W.step pre b (m ++ cur) (by simpa using hns)
      have hfb := hm b (by simp)
      simp only [List.cons_append, List.length_cons] at hn
      have := ih (pre ++ [b]) n cur (by simpa using hns) (fun x hx => hm x (by simp [hx]))
        (by omega) hcur
      simp [rangeScan, W.end_eq, posOr_cons, hne, hfb, hinc, this]

/-- Where `erase(first, last)` can raise its range error: nowhere when the range is
the whole tree, and otherwise exactly at the test of the two flags that the
validation loop returns. -/
theorem eraseRange_outcome (fuel : Nat) (t : Tree) (first last b e : Iter)
    (hne : first.eq last = false) (hb : t.begin fuel = .ok b) (he : t.end fuel = .ok e) :
    (first.eq b = true ∧ last.eq e = true → NoRange (t.eraseRange fuel first last)) ∧
    (¬ (first.eq b = true ∧ last.eq e = true) → ∀ hf hl,
      rangeScan fuel fuel t first last b false (last.eq e) = .ok (hf, hl) →
      ((hf = false ∨ hl = false) → t.eraseRange fuel first last = .error .rangeError) ∧
      (hf = true → hl = true → NoRange (t.eraseRange fuel first last))) := by
  refine ⟨?_, ?_⟩
  · intro hall
    unfold Tree.eraseRange
    simp only [hne, Bool.false_eq_true, if_false, hb, he, bind_ok, hall, and_self, if_true]
    repeat' first
      | with_reducible apply Tree.clear_nr
      | with_reducible apply Tree.end_nr
      | with_reducible apply nr_ok
      | with_reducible apply nr_pure
      | with_reducible apply nr_bind
      | intro _
  · intro hall hf hl hscan
    refine ⟨?_, ?_⟩
    · intro hbad
      unfold Tree.eraseRange
      simp only [hne, Bool.false_eq_true, if_false, hb, he, bind_ok, hall, hscan]
      rcases hbad with h | h <;> simp [h]
    · intro h1 h2
      subst h1 h2
      unfold Tree.eraseRange
      simp only [hne, Bool.false_eq_true, if_false, hb, he, bind_ok, hall, hscan,
        not_true_eq_false, or_self]
      repeat' first
        | with_reducible apply rangeLoop_nr
        | with_reducible apply Tree.begin_nr
        | with_reducible apply Tree.end_nr
        | with_reducible apply Tree.find_nr
        | with_reducible apply Iter.dec_nr
        | with_reducible apply Iter.deref_nr
        | with_reducible apply nr_ok
        | with_reducible apply nr_pure
        | with_reducible apply nr_bind
        | intro _
        | split

theorem any_pos_iff (t : Tree) (it : Iter) (l : List Nat) :
    l.any (fun a => it.eq (t.pos a)) = true ↔ ∃ a ∈ l, it = t.pos a := by
  simp [List.any_eq_true, Iter.eq_iff]

/-- The range check of `erase(first, last)` away from the emptied tree.  On a
tree satisfying the invariant in which an empty tree has no sentinel (a tree that
`erase` has emptied keeps its sentinel and is not covered),
`erase(first, last)` with `first != last` raises the range error exactly
when the range is not valid, that is when `first` is not the position at a node of
the tree, or `last` is neither `end()` nor the position at a node further on.  The
error is raised at the test that follows the validation loop, before `clear` or
`erase` is called: the loop only reads the tree, which is therefore unchanged. -/
theorem erase_range_fails_exactly_on_invalid_range (t : Tree) (s : Shape) (fuel : Nat)
    (first last : Iter) (hinv : Inv t s) (hemp : s.addrs = [] → t.sentinel_ = none)
    (hne : first ≠ last) (hf : s.size < fuel) :
    ∃ b e, t.begin fuel = .ok b ∧ t.end fuel = .ok e ∧
      (t.eraseRange fuel first last = .error .rangeError ↔ ¬ t.validRange e first last) ∧
      (t.eraseRange fuel first last = .error .rangeError →
        ∃ flags, rangeScan fuel fuel t first last b false (last.eq e) = .ok flags ∧
          (flags.1 = false ∨ flags.2 = false)) := by
  have hh := height_le_size s
  have W := hinv.walk fuel (by omega) hemp
  generalize ({ ptr_ := t.sentinel_, first_ := t.root_, last_ := s.addrs.getLast? } : Iter) = e
    at W
  have hnd : t.nodes.Nodup := by rw [hinv.shaped.nodes_eq]; exact hinv.shaped.nodup
  have hlen : t.nodes.length < fuel := by
    rw [hinv.shaped.nodes_eq, ← size_eq_length]; exact hf
  have hne' : first.eq last = false := (Iter.eq_false_iff _ _).mpr hne
  obtain ⟨hwhole, hscan⟩ := eraseRange_outcome fuel t first last _ e hne' W.begin_eq W.end_eq
  refine ⟨_, e, W.begin_eq, W.end_eq, ?_⟩
  by_cases hall : first.eq (t.posOr e t.nodes) = true ∧ last.eq e = true
  · -- the whole tree: `clear()`
    have hnr := (hwhole hall).ne
    have hvalid : t.validRange e first last := by
      obtain ⟨h1, h2⟩ := hall
      rw [Iter.eq_iff] at h1 h2
      cases hns : t.nodes with
      | nil =>
        rw [hns, posOr_nil] at h1
        exact absurd (h1.trans h2.symm) hne
      | cons a rest =>
        rw [hns, posOr_cons] at h1
        exact ⟨[], a, rest, hns, h1, Or.inl h2⟩
    exact ⟨⟨fun h => absurd h hnr, fun h => absurd hvalid h⟩, fun h => absurd h hnr⟩
  · have hscan' := hscan hall
    by_cases hle : last = e
    · -- `last` is the end position
      have hle' : last.eq e = true := (Iter.eq_iff _ _).mpr hle
      have hflags := rangeScan_last_end W first last hle t.nodes [] fuel (by simp) hlen
      rw [hle'] at hscan' ⊢
      obtain ⟨hbad, hgood⟩ := hscan' _ _ hflags
      have hv : t.validRange e first last ↔ ∃ a ∈ t.nodes, first = t.pos a := by
        constructor
        · rintro ⟨pre, a, rest, e1, e2, -⟩
          exact ⟨a, by rw [e1]; simp, e2⟩
        · rintro ⟨a, ha, e2⟩
          obtain ⟨pre, rest, e1⟩ := List.append_of_mem ha
          exact ⟨pre, a, rest, e1, e2, Or.inl hle⟩
      cases hany : t.nodes.any (fun a => first.eq (t.pos a)) with
      | false =>
        have herr := hbad (Or.inl hany)
        have hnv : ¬ t.validRange e first last := by
          rw [hv, ← any_pos_iff, hany]
          simp
        exact ⟨⟨fun _ => hnv, fun _ => herr⟩, fun _ => ⟨_, hflags, Or.inl hany⟩⟩
      | true =>
        have hnr := (hgood hany rfl).ne
        have hvalid : t.validRange e first last := by
          rw [hv, ← any_pos_iff, hany]
        exact ⟨⟨fun h => absurd h hnr, fun h => absurd hvalid h⟩, fun h => absurd h hnr⟩
    · -- `last` is not the end position
      have hle' : last.eq e = false := (Iter.eq_false_iff _ _).mpr hle
      by_cases hfound : ∃ a ∈ t.nodes, first = t.pos a
      · obtain ⟨a, ha, e2⟩ := hfound
        obtain ⟨m, rest, e1⟩ := List.append_of_mem ha
        have hm : ∀ b ∈ m, first.eq (t.pos b) = false := by
          intro b hb
          rw [Iter.eq_false_iff, e2]
          intro e3
          have := pos_inj t e3
          subst this
          rw [e1] at hnd
          exact (nodup_node hnd).2.2.1 hb
        have hflags := rangeScan_before_first W first last hne m [] fuel (a :: rest)
          (by simpa using e1) hm (by rw [← e1]; exact hlen)
          (Or.inr ⟨a, rest, rfl, (Iter.eq_iff _ _).mpr e2⟩)
        rw [← e1] at hflags
        simp only at hflags
        rw [hle'] at hscan' ⊢
        obtain ⟨hbad, hgood⟩ := hscan' _ _ hflags
        have hv : t.validRange e first last ↔ ∃ b ∈ rest, last = t.pos b := by
          constructor
          · rintro ⟨pre', a', rest', e1', e2', hl⟩
            have : a' = a := pos_inj t (e2'.symm.trans e2)
            subst this
            have hu := split_unique (by rw [← e1']; exact hnd) (e1'.symm.trans e1)
            rcases hl with hl | ⟨mid, b, r2, e3, e4⟩
            · exact absurd hl hle
            · exact ⟨b, by rw [← hu.2, e3]; simp, e4⟩
          · rintro ⟨b, hb, e4⟩
            obtain ⟨mid, r2, e3⟩ := List.append_of_mem hb
            exact ⟨m, a, rest, e1, e2, Or.inr ⟨mid, b, r2, e3, e4⟩⟩
        cases hany : rest.any (fun a => last.eq (t.pos a)) with
        | false =>
          have herr := hbad (Or.inr hany)
          have hnv : ¬ t.validRange e first last := by
            rw [hv, ← any_pos_iff, hany]
            simp
          exact ⟨⟨fun _ => hnv, fun _ => herr⟩, fun _ => ⟨_, hflags, Or.inr hany⟩⟩
        | true =>
          have hnr := (hgood rfl hany).ne
          have hvalid : t.validRange e first last := by
            rw [hv, ← any_pos_iff, hany]
          exact ⟨⟨fun h => absurd h hnr, fun h => absurd hvalid h⟩, fun h => absurd h hnr⟩
      · have hm : ∀ b ∈ t.nodes, first.eq (t.pos b) = false := by
          intro b hb
          rw [Iter.eq_false_iff]
          intro e3
          exact hfound ⟨b, hb, e3⟩
        have hflags := rangeScan_before_first W first last hne t.nodes [] fuel []
          (by simp) hm (by simpa using hlen) (Or.inl rfl)
        rw [List.append_nil] at hflags
        simp only at hflags
        rw [hle'] at hscan' ⊢
        obtain ⟨hbad, -⟩ := hscan' _ _ hflags
        have herr := hbad (Or.inl rfl)
        have hnv : ¬ t.validRange e first last := by
          rintro ⟨pre, a, rest, e1, e2, -⟩
          exact hfound ⟨a, by rw [e1]; simp, e2⟩
        exact ⟨⟨fun _ => hnv, fun _ => herr⟩, fun _ => ⟨_, hflags, Or.inl rfl⟩⟩

/-- Instance of the range check: on the tree holding (1, 10), the range from the end position
to the position at the node of key 1. -/
theorem erase_range_fails_exactly_on_invalid_range_witness :
    ∃ b e, singletonTree.begin 4 = .ok b ∧ singletonTree.end 4 = .ok e ∧
      (singletonTree.eraseRange 4 { ptr_ := some 0, first_ := some 1, last_ := some 1 }
          (singletonTree.pos 1) = .error .rangeError ↔
        ¬ singletonTree.validRange e { ptr_ := some 0, first_ := some 1, last_ := some 1 }
          (singletonTree.pos 1)) ∧
      (singletonTree.eraseRange 4 { ptr_ := some 0, first_ := some 1, last_ := some 1 }
          (singletonTree.pos 1) = .error .rangeError →
        ∃ flags, rangeScan 4 4 singletonTree
            { ptr_ := some 0, first_ := some 1, last_ := some 1 } (singletonTree.pos 1) b false
            ((singletonTree.pos 1).eq e) = .ok flags ∧
          (flags.1 = false ∨ flags.2 = false)) :=
  erase_range_fails_exactly_on_invalid_range singletonTree singletonShape 4
    { ptr_ := some 0, first_ := some 1, last_ := some 1 } (singletonTree.pos 1)
    singletonTree_inv (fun h => absurd h (by decide)) (by decide) (by decide)

/-! ## The copy constructor -/

/-- One `insert` of a key that UNIQUE mode does not reject, seen from outside the
tree: the in-order sequence gains the pair, the new node lies at or above the
allocation mark, and the cells below the mark that are not nodes of the tree are
left as they were. -/
theorem insert_new_frame (t : Tree) (s : Shape) (k v : Int) (fuel : Nat)
    (hinv : Inv t s) (hnew : t.type_ = .kUNIQUE → k ∉ t.toList.map Prod.fst)
    (hf : 2 * s.height + 4 ≤ fuel) :
    ∃ t' s' it, t.insert fuel k v = .ok (t', it) ∧ Inv t' s' ∧ s'.size = s.size + 1 ∧
      t'.type_ = t.type_ ∧ t'.toList.Perm ((k, v) :: t.toList) ∧
      (∀ a ∈ s'.addrs, a ∈ s.addrs ∨ t.next ≤ a) ∧
      (∀ a, a < t.next → a ∉ s.addrs → t'.heap a = t.heap a) ∧ t.next ≤ t'.next := by
  obtain ⟨t', s', i, hins, hinv', -, hpi, hold, ⟨l1, l2, e1, e2, -, -⟩, hsz, hty, hli, hfr⟩ :=
    insert_fresh_frame t s k v fuel hinv
      (fun hu hk => hnew hu (by rw [hinv.shaped.keys_eq]; exact hk)) hf
  have hl1 : ∀ a ∈ l1, a ∈ s.addrs := fun a ha => by rw [e1]; simp [ha]
  have hl2 : ∀ a ∈ l2, a ∈ s.addrs := fun a ha => by rw [e1]; simp [ha]
  refine ⟨t', s', _, hins, hinv', ?_, hty, ?_, ?_, hfr, ?_⟩
  · rw [← hinv'.size, ← hinv.size, hsz]
  · rw [hinv'.shaped.toList_eq, hinv.shaped.toList_eq, e2, e1, List.map_append,
      List.map_cons, List.map_append, hpi,
      List.map_congr_left (fun a ha => hold a (hl1 a ha)),
      List.map_congr_left (fun a ha => hold a (hl2 a ha))]
    exact List.perm_middle
  · intro a ha
    rw [e2] at ha
    rcases List.mem_append.mp ha with h | h
    · exact Or.inl (hl1 a h)
    · rcases List.mem_cons.mp h with h | h
      · exact Or.inr (h ▸ hli)
      · exact Or.inl (hl2 a h)
  · have := hinv'.shaped.addr_lt i (by rw [e2]; simp)
    omega

theorem nodup_split {α : Type} {l r : List α} {a : α} (h : (l ++ a :: r).Nodup) :
    l.Nodup ∧ r.Nodup ∧ a ∉ l ∧ a ∉ r ∧ ∀ b ∈ l, b ∉ r := by
  simp only [List.nodup_append, List.nodup_cons, List.Disjoint, List.mem_cons] at h
  obtain ⟨h1, ⟨h2, h3⟩, h4⟩ := h
  exact ⟨h1, h3, fun ha => h4 ha (Or.inl rfl), h2, fun b hb hr => h4 hb (Or.inr hr)⟩

theorem pair_congr {h h' : Heap} {a : Nat} (e : h' a = h a) : h'.pair a = h.pair a := by
  simp only [Heap.pair, e]

theorem key_congr {h h' : Heap} {a : Nat} (e : h' a = h a) : h'.key a = h.key a := by
  simp only [Heap.key, pair_congr e]

/-- The walk of `copyTree` over a subtree `u` of the source, whose nodes lie below
the address `lo`, into a tree `c` whose nodes lie at or above `lo` in the same
memory: the call returns, the invariant of the copy is kept, the cells below `lo`
are untouched and the copy gains the pairs of `u`. -/
theorem copyTree_spec (fuel lo : Nat) :
    ∀ (u : Shape) (n : Nat) (c : Tree) (sc : Shape) (par : Ptr),
      Inv c sc → Lay c.heap u par →
      (∀ a ∈ u.addrs, a < lo) → (∀ a ∈ sc.addrs, lo ≤ a) → lo ≤ c.next →
      (c.type_ = .kUNIQUE → ∀ a ∈ u.addrs, c.heap.key a ∉ c.toList.map Prod.fst) →
      (c.type_ = .kUNIQUE → (u.addrs.map c.heap.key).Nodup) →
      u.height < n → 2 * (sc.size + u.size) + 4 ≤ fuel →
      ∃ c' sc', copyTree n fuel c u.root = .ok c' ∧ Inv c' sc' ∧
        (∀ a, a < lo → c'.heap a = c.heap a) ∧ (∀ a ∈ sc'.addrs, lo ≤ a) ∧ lo ≤ c'.next ∧
        c'.type_ = c.type_ ∧ sc'.size = sc.size + u.size ∧
        c'.toList.Perm (c.toList ++ u.addrs.map c.heap.pair) := by
  intro u
  induction u with
  | nil =>
    intro n c sc par hinv _ _ hsc hlo _ _ hn _
    obtain ⟨m, rfl⟩ : ∃ m, n = m + 1 := ⟨n - 1, by omega⟩
    exact ⟨c, sc, by simp [copyTree, Shape.root], hinv, fun _ _ => rfl, hsc, hlo, rfl,
      by simp [Shape.size], by simp [Shape.addrs]⟩
  | node l a r ihl ihr =>
    intro n c sc par hinv hlay hu hsc hlo hfresh hnd hn hf
    obtain ⟨m, rfl⟩ : ∃ m, n = m + 1 := ⟨n - 1, by omega⟩
    obtain ⟨na, ha, -, hal, har, hL, hR⟩ := hlay
    simp only [Shape.height] at hn
    simp only [Shape.size] at hf
    have hhs := height_le_size sc
    have hal' : a < lo := hu a (by simp [Shape.addrs])
    have hlu : ∀ b ∈ l.addrs, b < lo := fun b hb => hu b (by simp [Shape.addrs, hb])
    have hru : ∀ b ∈ r.addrs, b < lo := fun b hb => hu b (by simp [Shape.addrs, hb])
    have hka : c.heap.key a = na.key := by simp [Heap.key, Heap.pair, ha]
    have hpa : c.heap.pair a = (na.key, na.val) := by simp [Heap.pair, ha]
    -- the pair of `a` goes in
    obtain ⟨c1, s1, it, hins, hinv1, hsz1, hty1, hperm1, hmem1, hfr1, hnext1⟩ :=
      insert_new_frame c sc na.key na.val fuel hinv
        (fun hu' => by rw [← hka]; exact hfresh hu' a (by simp [Shape.addrs])) (by omega)
    have hlow1 : ∀ b, b < lo → c1.heap b = c.heap b := fun b hb =>
      hfr1 b (by omega) (fun hm => by have := hsc b hm; omega)
    have hs1 : ∀ b ∈ s1.addrs, lo ≤ b := fun b hb => by
      rcases hmem1 b hb with h | h
      · exact hsc b h
      · omega
    have hmemk1 : ∀ x, x ∈ c1.toList.map Prod.fst ↔ x = na.key ∨ x ∈ c.toList.map Prod.fst := by
      intro x
      rw [(hperm1.map Prod.fst).mem_iff]
      simp
    have hkeyfacts : c.type_ = .kUNIQUE →
        (l.addrs.map c.heap.key).Nodup ∧ (r.addrs.map c.heap.key).Nodup ∧
        c.heap.key a ∉ l.addrs.map c.heap.key ∧ c.heap.key a ∉ r.addrs.map c.heap.key ∧
        ∀ x ∈ l.addrs.map c.heap.key, x ∉ r.addrs.map c.heap.key := by
      intro hu'
      have := hnd hu'
      simp only [Shape.addrs, List.map_append, List.map_cons] at this
      exact nodup_split this
    have hread : c.heap.read (some a) = .ok na := by simp [Heap.read, ha]
    have ha1 : c1.heap a = some na := by rw [hlow1 a hal', ha]
    have hleft : c1.left (some a) = .ok l.root := by
      simp [Tree.left, Heap.read, ha1, hal]
    have hkl1 : ∀ b ∈ l.addrs, c1.heap.key b = c.heap.key b := fun b hb =>
      key_congr (hlow1 b (hlu b hb))
    -- the left subtree
    obtain ⟨c2, s2, hcopy2, hinv2, hlow2, hs2, hlo2, hty2, hsz2, hperm2⟩ :=
      ihl m c1 s1 (some a) hinv1
        (Lay.congr l (some a) (fun b hb => by rw [hlow1 b (hlu b hb)]) hL)
        hlu hs1 (by omega)
        (by
          intro hu1 b hb hm
          have hu' : c.type_ = .kUNIQUE := by rw [← hty1]; exact hu1
          obtain ⟨-, -, h3, -, -⟩ := hkeyfacts hu'
          rw [hkl1 b hb] at hm
          rcases (hmemk1 _).mp hm with h | h
          · exact h3 (by rw [hka, ← h]; exact List.mem_map_of_mem _ hb)
          · exact hfresh hu' b (by simp [Shape.addrs, hb]) h)
        (by
          intro hu1
          have hu' : c.type_ = .kUNIQUE := by rw [← hty1]; exact hu1
          rw [List.map_congr_left hkl1]
          exact (hkeyfacts hu').1)
        (by omega) (by omega)
    have hlow12 : ∀ b, b < lo → c2.heap b = c.heap b := fun b hb => by
      rw [hlow2 b hb, hlow1 b hb]
    have ha2 : c2.heap a = some na := by rw [hlow12 a hal', ha]
    have hright : c2.right (some a) = .ok r.root := by
      simp [Tree.right, Heap.read, ha2, har]
    have hkr2 : ∀ b ∈ r.addrs, c2.heap.key b = c.heap.key b := fun b hb =>
      key_congr (hlow12 b (hru b hb))
    have hmemk2 : ∀ x, x ∈ c2.toList.map Prod.fst ↔
        (x = na.key ∨ x ∈ c.toList.map Prod.fst) ∨ x ∈ l.addrs.map c.heap.key := by
      intro x
      rw [(hperm2.map Prod.fst).mem_iff, List.map_append, List.mem_append, hmemk1,
        List.map_map]
      have : (Prod.fst ∘ c1.heap.pair) = c1.heap.key := rfl
      rw [this, List.map_congr_left hkl1]
    -- the right subtree
    obtain ⟨c3, s3, hcopy3, hinv3, hlow3, hs3, hlo3, hty3, hsz3, hperm3⟩ :=
      ihr m c2 s2 (some a) hinv2
        (Lay.congr r (some a) (fun b hb => by rw [hlow12 b (hru b hb)]) hR)
        hru hs2 hlo2
        (by
          intro hu2 b hb hm
          have hu' : c.type_ = .kUNIQUE := by rw [← hty1, ← hty2]; exact hu2
          obtain ⟨-, -, -, h4, h5⟩ := hkeyfacts hu'
          rw [hkr2 b hb] at hm
          rcases (hmemk2 _).mp hm with (h | h) | h
          · exact h4 (by rw [hka, ← h]; exact List.mem_map_of_mem _ hb)
          · exact hfresh hu' b (by simp [Shape.addrs, hb]) h
          · exact h5 _ h (List.mem_map_of_mem _ hb))
        (by
          intro hu2
          have hu' : c.type_ = .kUNIQUE := by rw [← hty1, ← hty2]; exact hu2
          rw [List.map_congr_left hkr2]
          exact (hkeyfacts hu').2.1)
        (by omega) (by omega)
    refine ⟨c3, s3, ?_, hinv3, ?_, hs3, hlo3, ?_, ?_, ?_⟩
    · show copyTree (m + 1) fuel c (some a) = .ok c3
      simp only [copyTree, Option.isSome_some, if_true, hread, bind_ok, hins, hleft, hcopy2,
        hright, hcopy3]
    · intro b hb
      rw [hlow3 b hb, hlow12 b hb]
    · rw [hty3, hty2, hty1]
    · simp only [Shape.size]
      omega
    · have e1 : l.addrs.map c1.heap.pair = l.addrs.map c.heap.pair :=
        List.map_congr_left (fun b hb => pair_congr (hlow1 b (hlu b hb)))
      have e2 : r.addrs.map c2.heap.pair = r.addrs.map c.heap.pair :=
        List.map_congr_left (fun b hb => pair_congr (hlow12 b (hru b hb)))
      rw [e2] at hperm3
      rw [e1] at hperm2
      refine hperm3.trans ((hperm2.append_right _).trans
        (((hperm1.append_right _).append_right _).trans ?_))
      simp only [Shape.addrs, List.map_append, List.map_cons, hpa, List.cons_append,
        List.append_assoc]
      have := (@List.perm_middle _ (na.key, na.val) (c.toList ++ l.addrs.map c.heap.pair)
        (r.addrs.map c.heap.pair)).symm
      simpa only [List.append_assoc] using this

/-- The loop from a position of the symmetric order to `end()` reads the pairs of
the remaining nodes, in order. -/
theorem pairsLoop_spec {t : Tree} {s : Shape} (hinv : Inv t s) (fuel : Nat)
    (hf : s.height < fuel) :
    ∀ (rest pre : List Nat) (n : Nat), s.addrs = pre ++ rest → rest.length < n →
      pairsLoop n fuel t (t.posOr
        { ptr_ := t.sentinel_, first_ := t.root_, last_ := s.addrs.getLast? } rest) =
        .ok (rest.map t.heap.pair) := by
  have hsh := hinv.shaped
  have hsent : ∀ sa, t.sentinel_ = some sa → sa ∉ s.addrs := fun sa h => (hinv.sentinel sa h).1
  intro rest
  induction rest with
  | nil =>
    intro pre n _ hn
    obtain ⟨m, rfl⟩ : ∃ m, n = m + 1 := ⟨n - 1, by omega⟩
    simp only [pairsLoop, hsh.end_ok fuel hf, bind_ok, posOr_nil, Iter.eq_refl, if_true,
      pure_eq_ok, List.map_nil]
  | cons a rest ih =>
    intro pre n e hn
    obtain ⟨m, rfl⟩ : ∃ m, n = m + 1 := ⟨n - 1, by simp only [List.length_cons] at hn; omega⟩
    have ha : a ∈ s.addrs := by rw [e]; simp
    obtain ⟨na, hna⟩ := Option.isSome_iff_exists.mp (hsh.lay.live a ha)
    have hderef : (t.pos a).deref t.heap = .ok (t.heap.pair a) := by
      simp [Iter.deref, Tree.pos, Heap.read, hna, Heap.pair]
    have hrec := ih (pre ++ [a]) m (by rw [e]; simp)
      (by simp only [List.length_cons] at hn; omega)
    simp only [pairsLoop, hsh.end_ok fuel hf, bind_ok, posOr_cons, pos_ne_end hsent ha,
      Bool.false_eq_true, if_false, hderef, hsh.inc_pos hsent fuel hf pre a rest e, hrec,
      pure_eq_ok, List.map_cons]

/-- On a tree satisfying the invariant, whose sentinel exists only if a node
does, the loop from `begin()` to `end()` reads the in-order sequence of pairs. -/
theorem pairs_spec {t : Tree} {s : Shape} (hinv : Inv t s) (fuel : Nat) (hf : s.size < fuel)
    (hemp : s.addrs = [] → t.sentinel_ = none) : t.pairs fuel = .ok t.toList := by
  have hsh := hinv.shaped
  have hh := height_le_size s
  have hb : t.begin fuel = .ok (t.posOr
      { ptr_ := t.sentinel_, first_ := t.root_, last_ := s.addrs.getLast? } s.addrs) := by
    rw [hsh.begin_ok fuel (by omega)]
    cases hs : s.addrs with
    | nil => simp [Tree.posOr, hemp hs]
    | cons a rest => rfl
  simp only [Tree.pairs, hb, bind_ok]
  rw [pairsLoop_spec hinv fuel (by omega) s.addrs [] fuel rfl
    (by rw [← size_eq_length]; exact hf), hsh.toList_eq]

/-- Two lists of pairs with strictly increasing keys that are permutations of
each other are equal. -/
theorem eq_of_perm_of_strict {l1 l2 : List (Int × Int)} (hp : l1.Perm l2)
    (h1 : (l1.map Prod.fst).Pairwise (· < ·)) (h2 : (l2.map Prod.fst).Pairwise (· < ·)) :
    l1 = l2 := by
  haveI : IsAntisymm (Int × Int) (fun p q => p.1 < q.1) :=
    ⟨fun a b hab hba => absurd hab (not_lt.mpr (le_of_lt hba))⟩
  exact List.eq_of_perm_of_sorted hp (List.pairwise_map.mp h1) (List.pairwise_map.mp h2)

/-- The copy constructor on a UNIQUE tree satisfying the invariant: the call
returns a tree that satisfies the invariant, has a sentinel, and holds the same
in-order sequence of pairs and the same size. -/
theorem copy_spec (t : Tree) (s : Shape) (fuel : Nat) (hinv : Inv t s)
    (hu : t.type_ = .kUNIQUE) (hf : 2 * s.size + 4 ≤ fuel) :
    ∃ c sc, t.copy fuel = .ok c ∧ Inv c sc ∧ sc.size = s.size ∧ c.toList = t.toList ∧
      c.size_ = t.size_ ∧ c.type_ = t.type_ := by
  have hsh := hinv.shaped
  have hlt := hsh.addr_lt
  have hhs := height_le_size s
  have hinv0 : Inv
      { heap := t.heap.set t.next (some { key := 0, val := 0, color := .kRED, parent := none,
                                          left := none, right := none }),
        next := t.next + 1, root_ := none, sentinel_ := some t.next, size_ := 0,
        type_ := t.type_ } .nil := by
    refine ⟨⟨rfl, trivial, List.nodup_nil, ?_⟩, List.Pairwise.nil, fun _ => List.Pairwise.nil,
      rfl, ?_, rfl⟩
    · intro a ha
      dsimp only at ha ⊢
      rw [Heap.set_ne _ _ _ _ (by omega)]
      exact hsh.fresh a (by omega)
    · intro a ha
      dsimp only at ha
      cases ha
      exact ⟨by simp [Shape.addrs], by simp [Heap.set_same]⟩
  have hlow : ∀ (v : Option Node), ∀ a ∈ s.addrs, (t.heap.set t.next v) a = t.heap a := by
    intro v a ha
    have := hlt a ha
    rw [Heap.set_ne _ _ _ _ (by omega)]
  obtain ⟨c, sc, hcopy, hinvc, -, -, -, htyc, hszc, hperm⟩ :=
    copyTree_spec fuel t.next s fuel _ .nil none hinv0
      (Lay.congr s none (fun a ha => by dsimp only; rw [hlow _ a ha]) hsh.lay)
      hlt (by simp [Shape.addrs]) (by dsimp only; omega)
      (by
        intro _ a _
        rw [hinv0.shaped.toList_eq]
        simp [Shape.addrs])
      (by
        intro _
        dsimp only
        rw [List.map_congr_left (fun a ha => key_congr (hlow _ a ha))]
        exact (hinv.strict hu).imp (fun h => ne_of_lt h))
      (by omega) (by simp only [Shape.size]; omega)
  dsimp only at htyc
  simp only [Shape.size, Nat.zero_add] at hszc
  refine ⟨c, sc, ?_, hinvc, hszc, ?_, ?_, htyc⟩
  · simp only [Tree.copy, Tree.newNode]
    rw [← hsh.root] at hcopy
    exact hcopy
  · rw [hinv0.shaped.toList_eq] at hperm
    simp only [Shape.addrs, List.map_nil, List.nil_append] at hperm
    rw [List.map_congr_left (fun a ha => pair_congr (hlow _ a ha)), ← hsh.toList_eq] at hperm
    apply eq_of_perm_of_strict hperm
    · rw [hinvc.shaped.keys_eq]
      exact hinvc.strict (by rw [htyc]; exact hu)
    · rw [hsh.keys_eq]
      exact hinv.strict hu
  · rw [hinvc.size, hinv.size, hszc]

/-- A run of `insert` calls: as `run_inserts`, and moreover the sentinel exists
only when a node does, and a run of at least one call leaves at least one node. -/
theorem run_inserts_nonempty (fuel : Nat) :
    ∀ (ps : List (Int × Int)) (t : Tree) (s : Shape), Inv t s →
      (s.addrs = [] → t.sentinel_ = none) → 2 * (s.size + ps.length) + 4 ≤ fuel →
      ∃ t' s', Tree.run fuel t (insertOps ps) = .ok t' ∧ Inv t' s' ∧
        (s'.addrs = [] → t'.sentinel_ = none) ∧ s'.size ≤ s.size + ps.length ∧
        t'.type_ = t.type_ ∧ t.toList.length ≤ t'.toList.length ∧
        (ps ≠ [] → t'.toList ≠ []) := by
  intro ps
  induction ps with
  | nil =>
    intro t s hinv hemp _
    exact ⟨t, s, rfl, hinv, hemp, by simp, rfl, le_refl _, fun h => absurd rfl h⟩
  | cons p ps ih =>
    intro t s hinv hemp hf
    have hh := height_le_size s
    simp only [List.length_cons] at hf
    obtain ⟨t1, it, s1, hins, hinv1, hemp1, hsz1, hty1, hcase⟩ :=
      insert_step t s p.1 p.2 fuel hinv (by omega) hemp
    obtain ⟨t', s', hrun, hinv', hemp', hsz', hty', hlen', -⟩ :=
      ih t1 s1 hinv1 hemp1 (by omega)
    have hlen1 : t.toList.length ≤ t1.toList.length ∧ t1.toList ≠ [] := by
      rcases hcase with ⟨-, hk, he⟩ | ⟨-, hp⟩
      · rw [he]
        refine ⟨le_refl _, ?_⟩
        intro h0
        rw [h0] at hk
        simp at hk
      · have := hp.length_eq
        simp only [List.length_cons] at this
        refine ⟨by omega, ?_⟩
        intro h0
        rw [h0] at this
        simp at this
    refine ⟨t', s', ?_, hinv', hemp', by simp only [List.length_cons]; omega,
      by rw [hty', hty1], by omega, ?_⟩
    · simp only [insertOps, List.map_cons, Tree.run, Tree.step, hins, bind_ok, pure_eq_ok]
      exact hrun
    · intro _ h0
      have h1 := hlen1.2
      have : 0 < t1.toList.length := List.length_pos.mpr h1
      rw [h0] at hlen'
      simp only [List.length_nil] at hlen'
      omega

/-- The copy of a UNIQUE tree built by at least one `insert`: the copy constructor
returns, the copy has the size of the source, and the loops from `begin()` to
`end()` over the source and over the copy read the same sequence of pairs. -/
theorem copy_of_nonempty_tree_iterates_alike (p : Int × Int) (ps : List (Int × Int))
    (fuel : Nat) (hf : 2 * ps.length + 6 ≤ fuel) :
    ∃ t c, Tree.run fuel (Tree.empty .kUNIQUE) (insertOps (p :: ps)) = .ok t ∧
      t.copy fuel = .ok c ∧ c.size = t.size ∧
      t.pairs fuel = .ok t.toList ∧ c.pairs fuel = .ok t.toList ∧ t.toList ≠ [] := by
  obtain ⟨t, s, hrun, hinv, hemp, hsz, hty, -, hne⟩ :=
    run_inserts_nonempty fuel (p :: ps) (Tree.empty .kUNIQUE) .nil (Inv.empty .kUNIQUE)
      (fun _ => rfl) (by simp only [Shape.size, List.length_cons]; omega)
  simp only [Shape.size, List.length_cons, Nat.zero_add] at hsz
  have hu : t.type_ = .kUNIQUE := hty
  obtain ⟨c, sc, hcopy, hinvc, hszc, hlist, hsize, -⟩ := copy_spec t s fuel hinv hu (by omega)
  have hne' := hne (by simp)
  refine ⟨t, c, hrun, hcopy, hsize, pairs_spec hinv fuel (by omega) hemp, ?_, hne'⟩
  rw [pairs_spec hinvc fuel (by omega) ?_, hlist]
  intro h0
  exfalso
  apply hne'
  rw [← hlist, hinvc.shaped.toList_eq, h0]
  rfl

set_option maxRecDepth 100000 in
/-- Instance: the tree built by inserting the keys 2, 1, 3 and its copy both have
size 3 and read (1, 10), (2, 20), (3, 30) from `begin()` to `end()`. -/
theorem copy_of_nonempty_tree_iterates_alike_witness :
    ∃ t c, Tree.run 10 (Tree.empty .kUNIQUE) (insertOps [(2, 20), (1, 10), (3, 30)]) = .ok t ∧
      t.copy 10 = .ok c ∧ c.size = t.size ∧
      t.pairs 10 = .ok t.toList ∧ c.pairs 10 = .ok t.toList ∧ t.toList ≠ [] :=
  copy_of_nonempty_tree_iterates_alike (2, 20) [(1, 10), (3, 30)] 10 (by decide)

/-! ## The bounds of a multiset and `set::insert` -/

theorem dropWhile_of_split {α : Type} (p : α → Bool) :
    ∀ (l1 l2 : List α), (∀ a ∈ l1, p a = true) → (∀ a ∈ l2.head?, p a = false) →
      (l1 ++ l2).dropWhile p = l2 := by
  intro l1
  induction l1 with
  | nil =>
    intro l2 _ h2
    cases l2 with
    | nil => rfl
    | cons a l => simp [List.dropWhile, h2 a (by simp)]
  | cons b l1 ih =>
    intro l2 h1 h2
    simp only [List.cons_append, List.dropWhile, h1 b (by simp)]
    exact ih l2 (fun a ha => h1 a (by simp [ha])) h2

/-- Claim C21. For every multiset built from the empty multiset by a list of
`insert` calls and every key `k`: `lower_bound(k)` and `upper_bound(k)` return;
`lower_bound(k)` is the position of the first node, in symmetric order, whose key
is not less than `k`, and `upper_bound(k)` the position of the first node whose
key is greater than `k`; each is `end()` when there is no such node. -/
theorem bounds_designate_first_not_less_and_first_greater (xs : List Int) (k : Int)
    (fuel : Nat) (hf : 2 * xs.length + 4 ≤ fuel) :
    ∃ t e lb ub, Tree.run fuel (Tree.empty .kNON_UNIQUE) (msOps xs) = .ok t ∧
      (t.toList.map Prod.fst).Perm xs ∧ t.toList = t.nodes.map t.heap.pair ∧
      t.end fuel = .ok e ∧
      t.lowerBound fuel k = .ok lb ∧
      lb = t.posOr e (t.nodes.dropWhile (fun a => decide (t.heap.key a < k))) ∧
      t.upperBound fuel k = .ok ub ∧
      ub = t.posOr e (t.nodes.dropWhile (fun a => decide (t.heap.key a ≤ k))) := by
  obtain ⟨t, s, hrun, hinv, hemp, hsz, hperm⟩ :=
    run_msOps fuel xs (Tree.empty .kNON_UNIQUE) .nil (Inv.empty .kNON_UNIQUE) rfl (fun _ => rfl)
      (by simp only [Shape.size]; omega)
  simp only [Shape.size, zero_add] at hsz
  have hperm' : (t.toList.map Prod.fst).Perm xs := by
    simpa [Tree.toList, Tree.empty, inorder] using hperm
  obtain ⟨e, l1, l2, l3, he, hn, h1, h2, h3, hlb, hub, -, -, -⟩ :=
    lookups_spec t s k fuel hinv hemp (by omega)
  refine ⟨t, e, _, _, hrun, hperm', rfl, he, hlb, ?_, hub, ?_⟩
  · rw [hn, List.append_assoc, dropWhile_of_split _ l1 (l2 ++ l3)]
    · intro a ha
      simpa using h1 a ha
    · intro a ha
      have hm : a ∈ l2 ++ l3 := List.mem_of_mem_head? ha
      rcases List.mem_append.mp hm with h | h
      · have := h2 a h
        simp only [decide_eq_false_iff_not]
        omega
      · have := h3 a h
        simp only [decide_eq_false_iff_not]
        omega
  · rw [hn, dropWhile_of_split _ (l1 ++ l2) l3]
    · intro a ha
      rcases List.mem_append.mp ha with h | h
      · have := h1 a h
        simp only [decide_eq_true_eq]
        omega
      · have := h2 a h
        simp only [decide_eq_true_eq]
        omega
    · intro a ha
      have := h3 a (List.mem_of_mem_head? ha)
      simp only [decide_eq_false_iff_not]
      omega

set_option maxRecDepth 100000 in
/-- Instance of C21: in the multiset built by inserting 2, 1, 2, 3 the nodes are,
in order, at the addresses 2, 1, 3, 4 (keys 1, 2, 2, 3); `lower_bound(2)` is the
position at address 1, `upper_bound(2)` the position at address 4, and
`upper_bound(3)` is `end()`. -/
theorem bounds_designate_first_not_less_and_first_greater_witness :
    ∃ t e, Tree.run 12 (Tree.empty .kNON_UNIQUE) (msOps [2, 1, 2, 3]) = .ok t ∧
      t.end 12 = .ok e ∧ t.nodes = [2, 1, 3, 4] ∧ t.toList.map Prod.fst = [1, 2, 2, 3] ∧
      t.lowerBound 12 2 = .ok (t.pos 1) ∧ t.upperBound 12 2 = .ok (t.pos 4) ∧
      t.upperBound 12 3 = .ok e := by
  obtain ⟨t, e, lb, ub, hrun, -, -, he, hlb, elb, hub, eub⟩ :=
    bounds_designate_first_not_less_and_first_greater [2, 1, 2, 3] 2 12 (by decide)
  have hl : (Tree.run 12 (Tree.empty .kNON_UNIQUE) (msOps [2, 1, 2, 3])).bind
      (fun t => (t.end 12).bind (fun e => (t.lowerBound 12 2).bind (fun l =>
        (t.upperBound 12 2).bind (fun u => (t.upperBound 12 3).map (fun u3 =>
          (t.nodes, t.toList.map Prod.fst,
            decide (l = t.pos 1 ∧ u = t.pos 4 ∧ u3 = e))))))) =
      .ok ([2, 1, 3, 4], [1, 2, 2, 3], true) := by decide
  rw [hrun] at hl
  simp only [Except.bind, he, hlb, hub] at hl
  rcases h3 : t.upperBound 12 3 with err | u3
  · rw [h3] at hl
    simp [Except.map] at hl
  · rw [h3] at hl
    simp only [Except.map, Except.ok.injEq, Prod.mk.injEq, decide_eq_true_eq] at hl
    obtain ⟨hn2, hk2, e1, e2, e3⟩ := hl
    exact ⟨t, e, hrun, he, hn2, hk2, by rw [hlb, e1], by rw [hub, e2], by rw [h3, e3]⟩

theorem Iter.ne_self (it : Iter) : Iter.ne it it = false := by
  simp [Iter.ne]

theorem vbind_ok {α β : Type} (a : α) (f : α → Except VFault β) :
    (Except.ok a >>= f) = f a := rfl

theorem vpure_ok {α : Type} (a : α) : (pure a : Except VFault α) = Except.ok a := rfl

theorem vbind_eq_ok {α β : Type} {x : Except VFault α} {f : α → Except VFault β} {r : β}
    (h : (x >>= f) = .ok r) : ∃ a, x = .ok a ∧ f a = .ok r := by
  cases x with
  | error e => cases h
  | ok a => exact ⟨a, rfl, h⟩

theorem readCell_some (b : Block) (i : Nat) (h : i < b.length) :
    readCell (some b) i = .ok b[i] := by
  simp [readCell, List.getElem?_eq_getElem h]

theorem readCell_getD (p : Option Block) (i : Nat) (h : i < (p.getD []).length) :
    ∃ c, readCell p i = .ok c ∧ (p.getD [])[i]? = some c := by
  cases p with
  | none => simp at h
  | some b =>
    simp only [Option.getD_some] at h ⊢
    exact ⟨b[i], readCell_some b i h, List.getElem?_eq_getElem h⟩

theorem writeCell_some (b : Block) (i : Nat) (c : Option Int) (h : i < b.length) :
    writeCell (some b) i c = .ok (b.set i c) := by
  simp [writeCell, h]

theorem writeCell_length {p : Option Block} {i : Nat} {c : Option Int} {r : Block}
    (h : writeCell p i c = .ok r) : r.length = (p.getD []).length := by
  cases p with
  | none => cases h
  | some b =>
    simp only [writeCell] at h
    split at h
    · cases h
      simp
    · cases h

/-- The copying loop: the cells `i .. i + k - 1` of the target receive the cells
of the source at the same indices; the other cells of the target stay. -/
theorem copyCells_spec (src : Option Block) :
    ∀ (k i : Nat) (dst : Block), i + k ≤ (src.getD []).length → i + k ≤ dst.length →
      ∃ r, copyCells src k i dst = .ok r ∧ r.length = dst.length ∧
        ∀ j, r[j]? = if i ≤ j ∧ j < i + k then (src.getD [])[j]? else dst[j]? := by
  intro k
  induction k with
  | zero =>
    intro i dst _ _
    refine ⟨dst, rfl, rfl, ?_⟩
    intro j
    rw [if_neg (by omega)]
  | succ k ih =>
    intro i dst hs hd
    obtain ⟨c, hc, hcs⟩ := readCell_getD src i (by omega)
    obtain ⟨r, hr, hlen, hget⟩ := ih (i + 1) (dst.set i c) (by omega)
      (by rw [List.length_set]; omega)
    refine ⟨r, ?_, ?_, ?_⟩
    · simp only [copyCells, hc, vbind_ok, writeCell_some dst i c (by omega)]
      exact hr
    · rw [hlen, List.length_set]
    · intro j
      rw [hget j, List.getElem?_set]
      by_cases h1 : i = j
      · subst h1
        have h2 : ¬ (i + 1 ≤ i ∧ i < i + 1 + k) := by omega
        have h3 : i ≤ i ∧ i < i + (k + 1) := by omega
        have h4 : i < dst.length := by omega
        simp [h2, h3, h4, hcs]
      · by_cases h2 : i + 1 ≤ j ∧ j < i + 1 + k
        · have h3 : i ≤ j ∧ j < i + (k + 1) := by omega
          simp [h2, h3]
        · have h3 : ¬ (i ≤ j ∧ j < i + (k + 1)) := by omega
          simp [h1, h2, h3]

/-- Copying the first `n` cells of a block into a fresh block. -/
theorem copyCells_front (src : Option Block) (n : Nat) (dst : Block)
    (hs : n ≤ (src.getD []).length) (hd : n ≤ dst.length) :
    ∃ r, copyCells src n 0 dst = .ok r ∧ r.length = dst.length ∧
      r.take n = (src.getD []).take n ∧ r.drop n = dst.drop n := by
  obtain ⟨r, hr, hlen, hget⟩ := copyCells_spec src n 0 dst (by omega) (by omega)
  refine ⟨r, hr, hlen, ?_, ?_⟩
  · apply List.ext_getElem?
    intro j
    rw [List.getElem?_take, List.getElem?_take, hget j]
    by_cases hj : j < n
    · simp [hj]
    · simp [hj]
  · apply List.ext_getElem?
    intro j
    rw [List.getElem?_drop, List.getElem?_drop, hget (n + j)]
    have : ¬ (0 ≤ n + j ∧ n + j < 0 + n) := by omega
    simp [this]

theorem take_set_succ (r : Block) (n : Nat) (c : Option Int) (h : n < r.length) :
    (r.set n c).take (n + 1) = r.take n ++ [c] := by
  have hl : (r.take n).length = n := by rw [List.length_take]; omega
  apply List.ext_getElem?
  intro j
  rw [List.getElem?_take, List.getElem?_set]
  by_cases h1 : j < n
  · have h2 : n ≠ j := by omega
    have h3 : j < n + 1 := by omega
    rw [List.getElem?_append_left (by rw [hl]; exact h1), List.getElem?_take]
    simp [h1, h2, h3]
  · rw [List.getElem?_append_right (by rw [hl]; omega), hl]
    by_cases h2 : j = n
    · subst h2
      simp [h]
    · have h3 : ¬ j < n + 1 := by omega
      have h4 : j - n = (j - n - 1) + 1 := by omega
      rw [h4]
      simp [h3]

theorem cells_some (v : vector) (b : Block) (h : v._array = some b) : v.cells = b := by
  simp [vector.cells, h]

/-- The outcome of `push_back` on a vector satisfying the representation
invariant. -/
theorem push_back_spec (v : vector) (x : Int) (hwf : v.WF) :
    ∃ w, v.push_back x = .ok w ∧
      w._capacity = (if v._capacity = v._size then (if v._capacity = 0 then 1 else 2 * v._capacity)
        else v._capacity) ∧
      w._size = v._size + 1 ∧ w.toList = v.toList ++ [some x] ∧ w.WF := by
  obtain ⟨h1, h2⟩ := hwf
  by_cases hc : v._capacity = v._size
  · have hcap : v._size < (if v._capacity ≠ 0 then v._capacity * 2 else 1) := by
      split <;> omega
    obtain ⟨r, hr, hlen, htake, -⟩ := copyCells_front v._array v._size
      (newArray (if v._capacity ≠ 0 then v._capacity * 2 else 1))
      (by unfold vector.cells at h2; omega) (by simp only [newArray, List.length_replicate]; omega)
    simp only [newArray, List.length_replicate] at hlen
    rw [← hlen] at hcap
    refine ⟨{ _array := some (r.set v._size (some x)), _size := v._size + 1,
              _capacity := (if v._capacity ≠ 0 then v._capacity * 2 else 1) }, ?_, ?_, rfl, ?_, ?_⟩
    · simp only [vector.push_back, if_pos hc, hr, vbind_ok, vpure_ok,
        writeCell_some r v._size (some x) hcap]
    · dsimp only
      rw [if_pos hc]
      by_cases h0 : v._capacity = 0
      · simp [h0]
      · simp only [ne_eq, h0, not_false_eq_true, if_true, if_false]
        omega
    · simp only [vector.toList, vector.cells, Option.getD_some]
      rw [take_set_succ r v._size (some x) (by omega), htake]
    · refine ⟨?_, ?_⟩
      · dsimp only; omega
      · simp only [vector.cells, Option.getD_some, List.length_set]
        omega
  · have hlt : v._size < v.cells.length := by omega
    rcases ha : v._array with _ | b
    · simp [vector.cells, ha] at hlt
    · have hb : v.cells = b := cells_some v b ha
      rw [hb] at hlt h2
      refine ⟨{ v with _array := some (b.set v._size (some x)), _size := v._size + 1 }, ?_, ?_,
        rfl, ?_, ?_⟩
      · simp only [vector.push_back, if_neg hc, vbind_ok, vpure_ok, ha,
          writeCell_some b v._size (some x) hlt]
      · simp [hc]
      · simp only [vector.toList, vector.cells, Option.getD_some, ha]
        rw [take_set_succ b v._size (some x) hlt]
      · refine ⟨?_, ?_⟩
        · dsimp only; omega
        · simp only [vector.cells, Option.getD_some, List.length_set]
          exact h2

/-- The outcome of `reserve` on a vector satisfying the representation
invariant. -/
theorem reserve_spec (v : vector) (n : Nat) (hwf : v.WF) :
    ∃ w, v.reserve n = .ok w ∧
      w._capacity = (if v._capacity < n then n else v._capacity) ∧
      w._size = v._size ∧ w.toList = v.toList ∧ w.WF := by
  obtain ⟨h1, h2⟩ := hwf
  by_cases hc : v._capacity < n
  · obtain ⟨r, hr, hlen, htake, -⟩ := copyCells_front v._array v._size (newArray n)
      (by unfold vector.cells at h2; omega) (by simp only [newArray, List.length_replicate]; omega)
    simp only [newArray, List.length_replicate] at hlen
    refine ⟨{ v with _array := some r, _capacity := n }, ?_, ?_, rfl, ?_, ?_⟩
    · simp only [vector.reserve, if_pos hc, hr, vbind_ok, vpure_ok]
    · simp [hc]
    · simp only [vector.toList, vector.cells, Option.getD_some]
      exact htake
    · refine ⟨?_, ?_⟩
      · dsimp only; omega
      · simp only [vector.cells, Option.getD_some]
        omega
  · exact ⟨v, by simp only [vector.reserve, if_neg hc, vpure_ok], by simp [hc], rfl, rfl,
      ⟨h1, h2⟩⟩

/-- The outcome of `shrink_to_fit` on a vector satisfying the representation
invariant. -/
theorem shrink_to_fit_spec (v : vector) (hwf : v.WF) :
    ∃ w, v.shrink_to_fit = .ok w ∧ w._capacity = v._size ∧ w._size = v._size ∧
      w.toList = v.toList ∧ w.WF := by
  obtain ⟨h1, h2⟩ := hwf
  by_cases hc : v._capacity = v._size
  · exact ⟨v, by simp [vector.shrink_to_fit, hc, vpure_ok], hc, rfl, rfl, ⟨h1, h2⟩⟩
  · obtain ⟨r, hr, hlen, htake, -⟩ := copyCells_front v._array v._size (newArray v._size)
      (by unfold vector.cells at h2; omega) (by simp only [newArray, List.length_replicate]; omega)
    simp only [newArray, List.length_replicate] at hlen
    refine ⟨{ v with _array := some r, _capacity := v._size }, ?_, rfl, rfl, ?_, ?_⟩
    · simp only [vector.shrink_to_fit, ne_eq, hc, not_false_eq_true, if_true, hr, vbind_ok,
        vpure_ok]
    · simp only [vector.toList, vector.cells, Option.getD_some]
      exact htake
    · refine ⟨le_refl _, ?_⟩
      simp only [vector.cells, Option.getD_some]
      omega

/-- The shifting loop of `erase`: the cells `index .. index + k - 1` receive the
cells that followed them; the other cells stay. -/
theorem eraseLoop_spec :
    ∀ (k index : Nat) (b : Block), index + k + 1 ≤ b.length →
      ∃ r, eraseLoop k index index (some b) = .ok (some r) ∧ r.length = b.length ∧
        ∀ j, r[j]? = if index ≤ j ∧ j < index + k then b[j + 1]? else b[j]? := by
  intro k
  induction k with
  | zero =>
    intro index b _
    refine ⟨b, rfl, rfl, ?_⟩
    intro j
    rw [if_neg (by omega)]
  | succ k ih =>
    intro index b hb
    obtain ⟨r, hr, hlen, hget⟩ := ih (index + 1) (b.set index b[index + 1])
      (by rw [List.length_set]; omega)
    refine ⟨r, ?_, ?_, ?_⟩
    · simp only [eraseLoop, readCell_some b (index + 1) (by omega), vbind_ok,
        writeCell_some b index _ (show index < b.length by omega)]
      exact hr
    · rw [hlen, List.length_set]
    · intro j
      rw [hget j, List.getElem?_set, List.getElem?_set]
      by_cases h1 : index = j
      · subst h1
        have h2 : ¬ (index + 1 ≤ index ∧ index < index + 1 + k) := by omega
        have h3 : index ≤ index ∧ index < index + (k + 1) := by omega
        have h4 : index < b.length := by omega
        have h5 : index + 1 < b.length := by omega
        simp [h2, h3, h4, List.getElem?_eq_getElem h5]
      · by_cases h2 : index + 1 ≤ j ∧ j < index + 1 + k
        · have h3 : index ≤ j ∧ j < index + (k + 1) := by omega
          have h4 : index ≠ j + 1 := by omega
          simp [h2, h3, h4]
        · have h3 : ¬ (index ≤ j ∧ j < index + (k + 1)) := by omega
          simp [h1, h2, h3]

/-- The outcome of `erase` at the position of an element of a vector satisfying
the representation invariant. -/
theorem erase_spec (v : vector) (i : Nat) (hwf : v.WF) (hi : i < v._size) :
    ∃ w, v.erase i = .ok w ∧ w.toList = v.toList.take i ++ v.toList.drop (i + 1) ∧
      w._size = v._size - 1 ∧ w._capacity = v._capacity ∧ w.WF := by
  obtain ⟨h1, h2⟩ := hwf
  have hlt : v._size ≤ v.cells.length := by omega
  rcases ha : v._array with _ | b
  · simp [vector.cells, ha] at hlt
    omega
  · have hb : v.cells = b := cells_some v b ha
    rw [hb] at hlt h2
    have hdec : decSize v._size = v._size - 1 := by
      unfold decSize
      rw [if_neg (by omega)]
    obtain ⟨r, hr, hlen, hget⟩ := eraseLoop_spec (v._size - 1 - i) i b (by omega)
    refine ⟨{ v with _array := some r, _size := v._size - 1 }, ?_, ?_, rfl, rfl, ?_⟩
    · simp only [vector.erase, vector.begin, Nat.sub_zero, hdec, ha, hr, vbind_ok, vpure_ok]
    · simp only [vector.toList, vector.cells, Option.getD_some, ha]
      apply List.ext_getElem?
      intro j
      rw [List.getElem?_take, hget j]
      have hl : ((b.take v._size).take i).length = i := by
        rw [List.length_take, List.length_take]; omega
      by_cases h3 : j < i
      · rw [List.getElem?_append_left (by rw [hl]; exact h3), List.getElem?_take,
          List.getElem?_take]
        have h4 : ¬ (i ≤ j ∧ j < i + (v._size - 1 - i)) := by omega
        have h5 : j < v._size - 1 := by omega
        have h6 : j < v._size := by omega
        simp [h3, h4, h5, h6]
      · rw [List.getElem?_append_right (by rw [hl]; omega), hl, List.getElem?_drop,
          List.getElem?_take]
        have e : i + 1 + (j - i) = j + 1 := by omega
        rw [e]
        by_cases h5 : j < v._size - 1
        · have h4 : i ≤ j ∧ j < i + (v._size - 1 - i) := by omega
          have h6 : j + 1 < v._size := by omega
          simp [h4, h5, h6]
        · have h6 : ¬ j + 1 < v._size := by omega
          simp [h5, h6]
    · refine ⟨?_, ?_⟩
      · dsimp only; omega
      · simp only [vector.cells, Option.getD_some]
        omega

/-- The element access of a vector satisfying the representation invariant. -/
theorem get_spec (v : vector) (pos : Nat) (hwf : v.WF) (hp : pos < v._size) :
    ∃ c, v.get pos = .ok c ∧ v.at_ pos = .ok c ∧ v.toList[pos]? = some c := by
  obtain ⟨h1, h2⟩ := hwf
  obtain ⟨c, hc, hcs⟩ := readCell_getD v._array pos (by unfold vector.cells at h2; omega)
  have hn : ¬ pos ≥ v._size := by omega
  have hg : v.get pos = .ok c := by simp only [vector.get, if_neg hn, hc]
  refine ⟨c, hg, by simp only [vector.at_, if_neg hn, hg], ?_⟩
  simp only [vector.toList, vector.cells, List.getElem?_take, hp, if_true, hcs]

/-! ## The vector: the representation invariant is kept -/

theorem copyCells_length (src : Option Block) :
    ∀ (k i : Nat) (dst r : Block), copyCells src k i dst = .ok r → r.length = dst.length := by
  intro k
  induction k with
  | zero =>
    intro i dst r h
    cases h
    rfl
  | succ k ih =>
    intro i dst r h
    simp only [copyCells] at h
    obtain ⟨c, -, h⟩ := vbind_eq_ok h
    obtain ⟨d, hd, h⟩ := vbind_eq_ok h
    rw [ih _ _ _ h, writeCell_length hd]
    rfl

theorem insertLoop_length (arr : Option Block) (pos : Nat) (value : Int) :
    ∀ (k i : Nat) (new_arr : Block) (pin : Nat) (r : Block),
      insertLoop arr pos value k i new_arr pin = .ok r → r.length = new_arr.length := by
  intro k
  induction k with
  | zero =>
    intro i new_arr pin r h
    cases h
    rfl
  | succ k ih =>
    intro i new_arr pin r h
    simp only [insertLoop] at h
    obtain ⟨a, -, h⟩ := vbind_eq_ok h
    obtain ⟨p, -, h⟩ := vbind_eq_ok h
    split at h
    · obtain ⟨d1, hd1, h⟩ := vbind_eq_ok h
      obtain ⟨d2, hd2, h⟩ := vbind_eq_ok h
      rw [ih _ _ _ _ h, writeCell_length hd2, Option.getD_some, writeCell_length hd1]
      rfl
    · obtain ⟨d1, hd1, h⟩ := vbind_eq_ok h
      rw [ih _ _ _ _ h, writeCell_length hd1]
      rfl

theorem wf_empty : vector.empty.WF := ⟨le_refl _, by simp [vector.empty]⟩

theorem wf_sized (n : Nat) : (vector.sized n).WF :=
  ⟨le_refl _, by simp [vector.sized, vector.cells]⟩

theorem wf_ofList (items : List Int) : (vector.ofList items).WF :=
  ⟨le_refl _, by simp [vector.ofList, vector.sized, vector.cells]⟩

theorem wf_copy {v w : vector} (h : v.copy = .ok w) : w.WF := by
  simp only [vector.copy] at h
  obtain ⟨b, hb, h⟩ := vbind_eq_ok h
  cases h
  have := copyCells_length _ _ _ _ _ hb
  simp only [List.length_replicate] at this
  exact ⟨le_refl _, by simp [vector.sized, vector.cells, this]⟩

theorem wf_insert {v w : vector} {i it : Nat} {x : Int} (hwf : v.WF)
    (h : v.insert i x = .ok (w, it)) : w.WF := by
  unfold vector.insert at h
  split at h
  · obtain ⟨u, hu, h⟩ := vbind_eq_ok h
    cases h
    obtain ⟨u', hu', -, -, -, hwf'⟩ := push_back_spec v x hwf
    rw [hu] at hu'
    cases hu'
    exact hwf'
  · obtain ⟨r, hr, h⟩ := vbind_eq_ok h
    cases h
    have hlen := insertLoop_length _ _ _ _ _ _ _ _ hr
    simp only [newArray, List.length_replicate] at hlen
    obtain ⟨h1, h2⟩ := hwf
    refine ⟨?_, ?_⟩
    · dsimp only
      split
      · split <;> omega
      · omega
    · simp only [vector.cells, Option.getD_some, hlen]
      exact le_refl _

/-- Every reached vector satisfies the representation invariant. -/
theorem Reached.wf {v : vector} (h : Reached v) : v.WF := by
  induction h with
  | empty => exact wf_empty
  | sized n => exact wf_sized n
  | ofList items => exact wf_ofList items
  | copy _ hc _ => exact wf_copy hc
  | moveTo _ ih => exact ih
  | moveFrom _ _ => exact wf_empty
  | push_back x _ hp ih =>
    obtain ⟨w', hw', -, -, -, hwf'⟩ := push_back_spec _ x ih
    rw [hp] at hw'
    cases hw'
    exact hwf'
  | @pop_back v _ ih =>
    unfold vector.pop_back
    split
    · exact ⟨by dsimp only; have := ih.size_le; omega, ih.cap_le⟩
    · exact ih
  | insert i x it _ _ hins ih => exact wf_insert ih hins
  | erase i _ hi he ih =>
    obtain ⟨w', hw', -, -, -, hwf'⟩ := erase_spec _ i ih hi
    rw [he] at hw'
    cases hw'
    exact hwf'
  | reserve n _ hr ih =>
    obtain ⟨w', hw', -, -, -, hwf'⟩ := reserve_spec _ n ih
    rw [hr] at hw'
    cases hw'
    exact hwf'
  | shrink_to_fit _ hs ih =>
    obtain ⟨w', hw', -, -, -, hwf'⟩ := shrink_to_fit_spec _ ih
    rw [hs] at hw'
    cases hw'
    exact hwf'
  | clear _ ih => exact ⟨le_refl _, Nat.zero_le _⟩
  | swapThis _ _ _ ih2 => exact ih2
  | swapOther _ _ ih1 _ => exact ih1

/-! ## The specification of the vector -/

theorem readCell_ne_outOfRange (p : Option Block) (i : Nat) :
    readCell p i ≠ .error .outOfRange := by
  unfold readCell
  split
  · intro h; cases h
  · split
    · intro h; cases h
    · intro h; cases h

/-- Claim C23. On a vector satisfying the representation invariant,
`push_back(x)` returns; when `size() == capacity()` the capacity becomes 1 if it
was 0 and twice its value otherwise, and when `size() < capacity()` it is
unchanged; in every case `size()` grows by one and the elements are the earlier
ones, in their places, followed by `x`. Five `push_back` calls on the empty
vector give the sizes 1, 2, 3, 4, 5 with the capacities 1, 2, 4, 4, 8. -/
theorem push_back_grows_by_doubling (v : vector) (x : Int) (hwf : v.WF) :
    ∃ w, v.push_back x = .ok w ∧
      (v.size = v.capacity → w.capacity = if v.capacity = 0 then 1 else 2 * v.capacity) ∧
      (v.size < v.capacity → w.capacity = v.capacity) ∧
      w.size = v.size + 1 ∧ w.toList = v.toList ++ [some x] ∧
      ∀ x1 x2 x3 x4 x5 : Int, vector.empty.pushTrace [x1, x2, x3, x4, x5] =
        .ok [(1, 1), (2, 2), (3, 4), (4, 4), (5, 8)] := by
  obtain ⟨w, hw, hcap, hsz, hl, -⟩ := push_back_spec v x hwf
  refine ⟨w, hw, ?_, ?_, hsz, hl, ?_⟩
  · intro he
    simp only [vector.size, vector.capacity] at he ⊢
    rw [hcap, if_pos he.symm]
  · intro hlt
    simp only [vector.size, vector.capacity] at hlt ⊢
    rw [hcap, if_neg (by omega)]
  · intro x1 x2 x3 x4 x5
    rfl

/-- Instance of C23: `push_back(7)` on the vector {1, 2}, whose size and capacity
are 2, gives {1, 2, 7} with capacity 4. -/
theorem push_back_grows_by_doubling_witness :
    ∃ w, (vector.ofList [1, 2]).push_back 7 = .ok w ∧ w.capacity = 4 ∧ w.size = 3 ∧
      w.toList = [some 1, some 2, some 7] := by
  obtain ⟨w, hw, h1, -, h3, h4, -⟩ :=
    push_back_grows_by_doubling (vector.ofList [1, 2]) 7 (wf_ofList [1, 2])
  exact ⟨w, hw, h1 rfl, h3, h4⟩

/-- Claim C24. On a vector satisfying the representation invariant, `reserve(n)`
returns; the capacity is `n` when `n` exceeds the capacity before the call and is
unchanged otherwise; the size and the elements are unchanged. -/
theorem reserve_grows_only (v : vector) (n : Nat) (hwf : v.WF) :
    ∃ w, v.reserve n = .ok w ∧
      (v.capacity < n → w.capacity = n) ∧ (n ≤ v.capacity → w.capacity = v.capacity) ∧
      w.size = v.size ∧ w.toList = v.toList := by
  obtain ⟨w, hw, hcap, hsz, hl, -⟩ := reserve_spec v n hwf
  refine ⟨w, hw, ?_, ?_, hsz, hl⟩
  · intro h
    simp only [vector.capacity] at h ⊢
    rw [hcap, if_pos h]
  · intro h
    simp only [vector.capacity] at h ⊢
    rw [hcap, if_neg (by omega)]

/-- Instance of C24: `reserve(5)` on the vector {1, 2} gives capacity 5 and keeps
the elements; `reserve(1)` keeps the capacity 2. -/
theorem reserve_grows_only_witness :
    (∃ w, (vector.ofList [1, 2]).reserve 5 = .ok w ∧ w.capacity = 5 ∧ w.size = 2 ∧
      w.toList = [some 1, some 2]) ∧
    (∃ w, (vector.ofList [1, 2]).reserve 1 = .ok w ∧ w.capacity = 2) := by
  obtain ⟨w, hw, h1, -, h3, h4⟩ := reserve_grows_only (vector.ofList [1, 2]) 5 (wf_ofList [1, 2])
  obtain ⟨u, hu, -, h2, -, -⟩ := reserve_grows_only (vector.ofList [1, 2]) 1 (wf_ofList [1, 2])
  exact ⟨⟨w, hw, h1 (by decide), h3, h4⟩, ⟨u, hu, h2 (by decide)⟩⟩

/-- Claim C25. For every vector, whatever its size and capacity, after `clear()`
the size is 0 and the capacity is 0 (so it holds no element); the block is kept. -/
theorem clear_resets_size_and_capacity (v : vector) :
    v.clear.size = 0 ∧ v.clear.capacity = 0 ∧ v.clear.toList = [] ∧
      v.clear._array = v._array := by
  refine ⟨rfl, rfl, ?_, rfl⟩
  simp [vector.toList, vector.clear]

/-- Claim C26. On a vector satisfying the representation invariant, `at(pos)`
and `operator[](pos)` throw `std::out_of_range` exactly when `pos >= size()`; for
`pos < size()` both return, and what they return is the element at index `pos`.
Both only read the vector. -/
theorem access_fails_exactly_out_of_range (v : vector) (pos : Nat) (hwf : v.WF) :
    (v.at_ pos = .error .outOfRange ↔ v.size ≤ pos) ∧
    (v.get pos = .error .outOfRange ↔ v.size ≤ pos) ∧
    (pos < v.size →
      ∃ c, v.at_ pos = .ok c ∧ v.get pos = .ok c ∧ v.toList[pos]? = some c) := by
  have hget : v.get pos = .error .outOfRange ↔ v.size ≤ pos := by
    unfold vector.get vector.size
    by_cases h : pos ≥ v._size
    · simp [h]
    · rw [if_neg h]
      constructor
      · intro e
        exact absurd e (readCell_ne_outOfRange _ _)
      · intro e
        omega
  refine ⟨?_, hget, ?_⟩
  · unfold vector.at_
    by_cases h : pos ≥ v._size
    · simp [h, vector.size]
    · rw [if_neg h]
      exact hget
  · intro hp
    obtain ⟨c, h1, h2, h3⟩ := get_spec v pos hwf hp
    exact ⟨c, h2, h1, h3⟩

/-- Instance of C26: on the vector {1, 2, 3}, `at(3)` throws and `at(2)` returns
the element 3. -/
theorem access_fails_exactly_out_of_range_witness :
    (vector.ofList [1, 2, 3]).at_ 3 = .error .outOfRange ∧
    (vector.ofList [1, 2, 3]).at_ 2 = .ok (some 3) := by
  obtain ⟨h1, -, -⟩ :=
    access_fails_exactly_out_of_range (vector.ofList [1, 2, 3]) 3 (wf_ofList [1, 2, 3])
  exact ⟨h1.mpr (le_refl _), by decide⟩

/-- Claim C28. On a non-empty vector satisfying the representation invariant
and for an index `i < size()`, `erase(begin() + i)` returns; the elements
afterwards are those before index `i` followed by those after index `i`; the
size is one less and the capacity is unchanged. -/
theorem erase_shifts_the_tail (v : vector) (i : Nat) (hwf : v.WF) (hi : i < v.size) :
    ∃ w, v.erase (v.begin + i) = .ok w ∧
      w.toList = v.toList.take i ++ v.toList.drop (i + 1) ∧
      w.size + 1 = v.size ∧ w.capacity = v.capacity := by
  obtain ⟨w, hw, hl, hsz, hcap, -⟩ := erase_spec v i hwf hi
  refine ⟨w, ?_, hl, ?_, hcap⟩
  · simp only [vector.begin, Nat.zero_add]
    exact hw
  · simp only [vector.size] at hi ⊢
    omega

/-- Instance of C28: `erase(begin() + 1)` on the vector {1, 2, 3, 4} leaves
{1, 3, 4} with size 3 and capacity 4. -/
theorem erase_shifts_the_tail_witness :
    ∃ w, (vector.ofList [1, 2, 3, 4]).erase 1 = .ok w ∧
      w.toList = [some 1, some 3, some 4] ∧ w.size = 3 ∧ w.capacity = 4 := by
  obtain ⟨w, hw, hl, hsz, hcap⟩ :=
    erase_shifts_the_tail (vector.ofList [1, 2, 3, 4]) 1 (wf_ofList [1, 2, 3, 4]) (by decide)
  refine ⟨w, hw, hl, ?_, hcap⟩
  have : (vector.ofList [1, 2, 3, 4]).size = 4 := rfl
  omega

/-- Claim C30. In every vector state reached by the constructors, `push_back`,
`pop_back`, `insert`, `erase` at the position of an element, `reserve`,
`shrink_to_fit`, `clear` and `swap`, `capacity() >= size()`. -/
theorem capacity_at_least_size (v : vector) (h : Reached v) : v.capacity ≥ v.size :=
  h.wf.size_le

/-- Instance of C30: the vector reached by `vector{1, 2}`, `push_back(3)`,
`erase(begin())`, `shrink_to_fit()`, `reserve(7)`, `pop_back()`. -/
theorem capacity_at_least_size_witness :
    ∃ v, (((vector.ofList [1, 2]).push_back 3).bind (fun v => (v.erase 0).bind (fun v =>
        v.shrink_to_fit.bind (fun v => (v.reserve 7).map (fun v => v.pop_back))))) = .ok v ∧
      v.size = 1 ∧ v.capacity = 7 ∧ v.capacity ≥ v.size := by
  have h1 : (vector.ofList [1, 2]).push_back 3 =
      .ok ⟨some [some 1, some 2, some 3, none], 3, 4⟩ := by decide
  have h2 : vector.erase ⟨some [some 1, some 2, some 3, none], 3, 4⟩ 0 =
      .ok ⟨some [some 2, some 3, some 3, none], 2, 4⟩ := by decide
  have h3 : vector.shrink_to_fit ⟨some [some 2, some 3, some 3, none], 2, 4⟩ =
      .ok ⟨some [some 2, some 3], 2, 2⟩ := by decide
  have h4 : vector.reserve ⟨some [some 2, some 3], 2, 2⟩ 7 =
      .ok ⟨some [some 2, some 3, none, none, none, none, none], 2, 7⟩ := by decide
  have hr : Reached (vector.pop_back ⟨some [some 2, some 3, none, none, none, none, none], 2, 7⟩) :=
    Reached.pop_back (Reached.reserve 7 (Reached.shrink_to_fit (Reached.erase 0
      (Reached.push_back 3 (Reached.ofList [1, 2]) h1) (by decide) h2) h3) h4)
  refine ⟨_, ?_, ?_, ?_, capacity_at_least_size _ hr⟩
  · rw [h1]
    simp only [Except.bind, h2, h3, h4, Except.map]
  · decide
  · decide

/-! ## `insert` where the element at the position occurs once -/

theorem readValue_some (b : Block) (i : Nat) (y : Int) (h : b[i]? = some (some y)) :
    readValue (some b) i = .ok y := by
  simp [readValue, readCell, h, vbind_ok, vpure_ok]

/-- The loop of `insert` when no other element equals the one at `pos`: the new
block receives the elements before `pos`, then `value`, then the elements from
`pos` on. -/
theorem insertLoop_spec (b : Block) (i n : Nat) (x p : Int) (hi : i < n)
    (hp : b[i]? = some (some p)) (hinit : ∀ j, j < n → ∃ y, b[j]? = some (some y))
    (huniq : ∀ j, j < n → j ≠ i → b[j]? ≠ some (some p)) :
    ∀ (k idx : Nat) (na : Block), idx + k = n → n + 1 ≤ na.length →
      ∃ r, insertLoop (some b) i x k idx na (if idx ≤ i then idx else idx + 1) = .ok r ∧
        r.length = na.length ∧
        ∀ j, r[j]? = if (if idx ≤ i then idx else idx + 1) ≤ j ∧ j < n + 1 then
            (if j < i then b[j]? else if j = i then some (some x) else b[j - 1]?)
          else na[j]? := by
  intro k
  induction k with
  | zero =>
    intro idx na hk _
    refine ⟨na, rfl, rfl, ?_⟩
    intro j
    have h1 : ¬ idx ≤ i := by omega
    rw [if_neg h1, if_neg (by omega)]
  | succ k ih =>
    intro idx na hk hna
    obtain ⟨a, ha⟩ := hinit idx (by omega)
    rw [insertLoop, readValue_some b idx a ha, readValue_some b i p hp]
    simp only [vbind_ok]
    by_cases h1 : idx = i
    · -- the element at the position: `value` goes in before it
      subst h1
      have hap : a = p := by
        rw [ha] at hp
        simpa using hp
      obtain ⟨r, hr, hlen, hget⟩ := ih (idx + 1) ((na.set idx (some x)).set (idx + 1) (some p))
        (by omega) (by simp only [List.length_set]; exact hna)
      rw [if_neg (by omega)] at hr hget
      simp only [le_refl, if_true, hap,
        writeCell_some na idx (some x) (by omega), vbind_ok,
        writeCell_some (na.set idx (some x)) (idx + 1) (some p)
          (by rw [List.length_set]; omega)]
      refine ⟨r, hr, by rw [hlen]; simp only [List.length_set], ?_⟩
      intro j
      rw [hget j, List.getElem?_set, List.getElem?_set]
      by_cases h2 : idx + 1 + 1 ≤ j ∧ j < n + 1
      · have h3 : idx ≤ j ∧ j < n + 1 := by omega
        rw [if_pos h2, if_pos h3]
      · rw [if_neg h2]
        by_cases h3 : j = idx
        · subst h3
          have h4 : ¬ j + 1 = j := by omega
          have h5 : j < na.length := by omega
          have h6 : j ≤ j ∧ j < n + 1 := by omega
          simp [h4, h5, h6]
        · by_cases h4 : j = idx + 1
          · subst h4
            have h5 : idx + 1 < na.length := by omega
            have h6 : idx ≤ idx + 1 ∧ idx + 1 < n + 1 := by omega
            have h7 : ¬ idx + 1 < idx := by omega
            simp [h5, h6, h7, hp, List.length_set]
          · have h5 : ¬ (idx ≤ j ∧ j < n + 1) := by omega
            have h6 : ¬ idx + 1 = j := by omega
            have h7 : ¬ idx = j := by omega
            simp [h5, h6, h7]
    · -- another element: it is copied
      have hap : ¬ a = p := by
        intro e
        apply huniq idx (by omega) h1
        rw [ha, e]
      rw [if_neg hap]
      by_cases h2 : idx ≤ i
      · have h3 : idx + 1 ≤ i := by omega
        obtain ⟨r, hr, hlen, hget⟩ := ih (idx + 1) (na.set idx (some a)) (by omega)
          (by simp only [List.length_set]; exact hna)
        rw [if_pos h3] at hr hget
        simp only [if_pos h2, writeCell_some na idx (some a) (by omega), vbind_ok]
        refine ⟨r, hr, by rw [hlen]; simp only [List.length_set], ?_⟩
        intro j
        rw [hget j, List.getElem?_set]
        by_cases h4 : idx + 1 ≤ j ∧ j < n + 1
        · have h5 : idx ≤ j ∧ j < n + 1 := by omega
          rw [if_pos h4, if_pos h5]
        · rw [if_neg h4]
          by_cases h5 : j = idx
          · subst h5
            have h6 : j < na.length := by omega
            have h7 : j ≤ j ∧ j < n + 1 := by omega
            have h8 : j < i := by omega
            simp [h6, h7, h8, ha]
          · have h6 : ¬ (idx ≤ j ∧ j < n + 1) := by omega
            have h7 : ¬ idx = j := by omega
            simp [h6, h7]
      · obtain ⟨r, hr, hlen, hget⟩ := ih (idx + 1) (na.set (idx + 1) (some a)) (by omega)
          (by simp only [List.length_set]; exact hna)
        rw [if_neg (by omega)] at hr hget
        simp only [if_neg h2, writeCell_some na (idx + 1) (some a) (by omega), vbind_ok]
        refine ⟨r, hr, by rw [hlen]; simp only [List.length_set], ?_⟩
        intro j
        rw [hget j, List.getElem?_set]
        by_cases h4 : idx + 1 + 1 ≤ j ∧ j < n + 1
        · have h5 : idx + 1 ≤ j ∧ j < n + 1 := by omega
          rw [if_pos h4, if_pos h5]
        · rw [if_neg h4]
          by_cases h5 : j = idx + 1
          · subst h5
            have h6 : idx + 1 < na.length := by omega
            have h7 : idx + 1 ≤ idx + 1 ∧ idx + 1 < n + 1 := by omega
            have h8 : ¬ idx + 1 < i := by omega
            have h9 : ¬ idx + 1 = i := by omega
            simp [h6, h7, h8, h9, ha]
          · have h6 : ¬ (idx + 1 ≤ j ∧ j < n + 1) := by omega
            have h7 : ¬ idx + 1 = j := by omega
            simp [h6, h7]

/-- The outcome of `insert` at a position from `begin()` to `end()` of a vector
satisfying the representation invariant, all of whose elements have been
assigned and none of whose other elements equals the one at the position: the
elements before the position, then `value`, then the elements from the position
on; the size is one more and the iterator returned designates `value`. -/
theorem insert_where_element_occurs_once (v : vector) (i : Nat) (x : Int) (hwf : v.WF)
    (hi : i ≤ v.size) (hinit : ∀ j, j < v.size → ∃ y, v.toList[j]? = some (some y))
    (huniq : ∀ j, j < v.size → j ≠ i → v.toList[j]? ≠ v.toList[i]?) :
    ∃ w it, v.insert (v.begin + i) x = .ok (w, it) ∧
      w.toList = v.toList.take i ++ some x :: v.toList.drop i ∧
      w.size = v.size + 1 ∧ it = w.begin + i ∧ w.get it = .ok (some x) ∧ w.WF := by
  simp only [vector.size, vector.begin, Nat.zero_add] at hi hinit huniq ⊢
  have hlt : v.toList.length = v._size := by
    simp only [vector.toList, List.length_take]
    have := hwf.size_le
    have := hwf.cap_le
    omega
  by_cases he : i = v._size
  · subst he
    obtain ⟨w, hw, -, hsz, hl, hwf'⟩ := push_back_spec v x hwf
    have hget : w.toList[v._size]? = some (some x) := by
      rw [hl, List.getElem?_append_right (by omega), hlt]
      simp
    obtain ⟨c, hc, -, hc'⟩ := get_spec w v._size hwf' (by omega)
    rw [hget] at hc'
    cases hc'
    refine ⟨w, v._size, ?_, ?_, hsz, rfl, hc, hwf'⟩
    · simp only [vector.insert, vector.end, if_true, hw, vbind_ok, vpure_ok, hsz,
        Nat.add_sub_cancel]
    · rw [hl, List.take_of_length_le (by omega), List.drop_of_length_le (by omega)]
  · have hi' : i < v._size := by omega
    obtain ⟨h1, h2⟩ := hwf
    rcases ha : v._array with _ | b
    · simp [vector.cells, ha] at h2
      omega
    · have hb : v.cells = b := cells_some v b ha
      rw [hb] at h2
      have htl : ∀ j, j < v._size → v.toList[j]? = b[j]? := by
        intro j hj
        simp only [vector.toList, hb, List.getElem?_take, hj, if_true]
      obtain ⟨p, hp⟩ := hinit i hi'
      rw [htl i hi'] at hp
      have hcap : v._size + 1 ≤ (if v._capacity = v._size then
          (if v._capacity ≠ 0 then v._capacity * 2 else 1) else v._capacity) := by
        split
        · split <;> omega
        · omega
      obtain ⟨r, hr, hlen, hget⟩ := insertLoop_spec b i v._size x p hi' hp
        (fun j hj => by rw [← htl j hj]; exact hinit j hj)
        (fun j hj hne => by
          have := huniq j hj hne
          rw [htl j hj, htl i hi', hp] at this
          exact this)
        v._size 0 (newArray (if v._capacity = v._size then
          (if v._capacity ≠ 0 then v._capacity * 2 else 1) else v._capacity))
        (by omega) (by simp only [newArray, List.length_replicate]; exact hcap)
      simp only [Nat.zero_le, if_true, true_and, newArray, List.length_replicate] at hr hlen hget
      have hri : r[i]? = some (some x) := by
        rw [hget i, if_pos (by omega), if_neg (by omega), if_pos rfl]
      refine ⟨{ _array := some r, _size := v._size + 1,
                _capacity := (if v._capacity = v._size then
                  (if v._capacity ≠ 0 then v._capacity * 2 else 1) else v._capacity) }, i, ?_, ?_,
        rfl, rfl, ?_, ?_⟩
      · simp only [vector.insert, vector.end, vector.begin, if_neg he, ha, newArray, hr, vbind_ok,
          vpure_ok, Nat.sub_zero, Nat.zero_add]
      · simp only [vector.toList, vector.cells, Option.getD_some, ha]
        have hl1 : ((b.take v._size).take i).length = i := by
          rw [List.length_take, List.length_take]; omega
        apply List.ext_getElem?
        intro j
        rw [List.getElem?_take, hget j]
        by_cases h3 : j < i
        · rw [List.getElem?_append_left (by rw [hl1]; exact h3), List.getElem?_take,
            List.getElem?_take]
          have h4 : j < v._size + 1 := by omega
          have h5 : j < v._size := by omega
          simp [h3, h4, h5]
        · rw [List.getElem?_append_right (by rw [hl1]; omega), hl1]
          by_cases h4 : j = i
          · subst h4
            have h5 : j < v._size + 1 := by omega
            simp [h5]
          · have h5 : j - i = (j - i - 1) + 1 := by omega
            rw [h5, List.getElem?_cons_succ, List.getElem?_drop, List.getElem?_take]
            have h6 : i + (j - i - 1) = j - 1 := by omega
            rw [h6]
            by_cases h7 : j < v._size + 1
            · have h8 : j - 1 < v._size := by omega
              simp [h3, h4, h7, h8]
            · have h8 : ¬ j - 1 < v._size := by omega
              simp [h7, h8]
      · simp only [vector.get, ge_iff_le]
        rw [if_neg (by omega)]
        simp [readCell, hri]
      · refine ⟨hcap, ?_⟩
        simp only [vector.cells, Option.getD_some, hlen]
        exact le_refl _

/-! ## The list: cells and segments -/

@[simp] theorem lset_cells_same (m : LMem) (a : Nat) (v : Option LNode) :
    (m.set a v).cells a = v := by
  simp [LMem.set]

@[simp] theorem lset_cells_ne (m : LMem) {a b : Nat} (v : Option LNode) (h : b ≠ a) :
    (m.set a v).cells b = m.cells b := by
  simp [LMem.set, h]

@[simp] theorem lset_next (m : LMem) (a : Nat) (v : Option LNode) :
    (m.set a v).next = m.next := rfl

theorem lread_some {m : LMem} {a : Nat} {n : LNode} (h : m.cells a = some n) :
    m.read (some a) = .ok n := by
  simp [LMem.read, h]

theorem lmodify_some {m : LMem} {a : Nat} {n : LNode} (f : LNode → LNode)
    (h : m.cells a = some n) : m.modify (some a) f = .ok (m.set a (some (f n))) := by
  simp [LMem.modify, h]

theorem lfree_some {m : LMem} {a : Nat} {n : LNode} (h : m.cells a = some n) :
    m.free (some a) = .ok (m.set a none) := by
  simp [LMem.free, h]

theorem lalloc_eq (m : LMem) (d : Int) (nx pv : Ptr) :
    m.alloc d nx pv =
      ({ cells := (m.set m.next (some { pNext := nx, pPrev := pv, data := d })).cells,
         next := m.next + 1 }, some m.next) := rfl

@[simp] theorem firstPtr_nil (nxt : Ptr) : firstPtr [] nxt = nxt := rfl

@[simp] theorem firstPtr_cons (p : Nat × Int) (ns : List (Nat × Int)) (nxt : Ptr) :
    firstPtr (p :: ns) nxt = some p.1 := rfl

@[simp] theorem lastPtr_nil (prev : Ptr) : lastPtr prev [] = prev := rfl

@[simp] theorem lastPtr_cons (prev : Ptr) (p : Nat × Int) (ns : List (Nat × Int)) :
    lastPtr prev (p :: ns) = lastPtr (some p.1) ns := rfl

theorem firstPtr_append (P S : List (Nat × Int)) (nxt : Ptr) :
    firstPtr (P ++ S) nxt = firstPtr P (firstPtr S nxt) := by
  cases P <;> rfl

theorem lastPtr_append (prev : Ptr) (P S : List (Nat × Int)) :
    lastPtr prev (P ++ S) = lastPtr (lastPtr prev P) S := by
  induction P generalizing prev with
  | nil => rfl
  | cons p P ih => simp [ih]

@[simp] theorem lastPtr_snoc (prev : Ptr) (P : List (Nat × Int)) (p : Nat × Int) :
    lastPtr prev (P ++ [p]) = some p.1 := by
  rw [lastPtr_append]; rfl

@[simp] theorem addrsOf_nil : addrsOf [] = [] := rfl

@[simp] theorem addrsOf_cons (p : Nat × Int) (ns : List (Nat × Int)) :
    addrsOf (p :: ns) = p.1 :: addrsOf ns := rfl

@[simp] theorem addrsOf_append (P S : List (Nat × Int)) :
    addrsOf (P ++ S) = addrsOf P ++ addrsOf S := by
  simp [addrsOf]

@[simp] theorem valsOf_nil : valsOf [] = [] := rfl

@[simp] theorem valsOf_cons (p : Nat × Int) (ns : List (Nat × Int)) :
    valsOf (p :: ns) = p.2 :: valsOf ns := rfl

@[simp] theorem valsOf_append (P S : List (Nat × Int)) :
    valsOf (P ++ S) = valsOf P ++ valsOf S := by
  simp [valsOf]

@[simp] theorem addrsOf_length (ns : List (Nat × Int)) : (addrsOf ns).length = ns.length := by
  simp [addrsOf]

@[simp] theorem valsOf_length (ns : List (Nat × Int)) : (valsOf ns).length = ns.length := by
  simp [valsOf]

theorem lastPtr_mem (prev : Ptr) (p : Nat × Int) (ns : List (Nat × Int)) :
    ∃ a, a ∈ addrsOf (p :: ns) ∧ lastPtr prev (p :: ns) = some a := by
  induction ns generalizing prev p with
  | nil => exact ⟨p.1, by simp, rfl⟩
  | cons q ns ih =>
    obtain ⟨a, ha, hl⟩ := ih (some p.1) q
    exact ⟨a, by simp at ha ⊢; tauto, by simpa using hl⟩

@[simp] theorem DLseg_nil (c : Nat → Option LNode) (prev nxt : Ptr) :
    DLseg c prev [] nxt ↔ True := Iff.rfl

theorem DLseg_cons (c : Nat → Option LNode) (prev nxt : Ptr) (p : Nat × Int)
    (ns : List (Nat × Int)) :
    DLseg c prev (p :: ns) nxt ↔
      c p.1 = some { pNext := firstPtr ns nxt, pPrev := prev, data := p.2 }
        ∧ DLseg c (some p.1) ns nxt := Iff.rfl

theorem DLseg_append (c : Nat → Option LNode) (prev nxt : Ptr) (P S : List (Nat × Int)) :
    DLseg c prev (P ++ S) nxt ↔
      DLseg c prev P (firstPtr S nxt) ∧ DLseg c (lastPtr prev P) S nxt := by
  induction P generalizing prev with
  | nil => simp
  | cons p P ih =>
    simp only [List.cons_append, DLseg_cons, ih, firstPtr_append, lastPtr_cons, and_assoc]

theorem DLseg_congr {c c' : Nat → Option LNode} {prev nxt : Ptr} {ns : List (Nat × Int)}
    (h : ∀ a ∈ addrsOf ns, c' a = c a) (hs : DLseg c prev ns nxt) : DLseg c' prev ns nxt := by
  induction ns generalizing prev with
  | nil => trivial
  | cons p ns ih =>
    rw [DLseg_cons] at hs ⊢
    exact ⟨by rw [h p.1 (by simp)]; exact hs.1,
      ih (fun a ha => h a (by simp [ha])) hs.2⟩

@[simp] theorem FwdSeg_nil (c : Nat → Option LNode) (nxt : Ptr) :
    FwdSeg c [] nxt ↔ True := Iff.rfl

theorem FwdSeg_cons (c : Nat → Option LNode) (nxt : Ptr) (p : Nat × Int)
    (ns : List (Nat × Int)) :
    FwdSeg c (p :: ns) nxt ↔
      (∃ n, c p.1 = some n ∧ n.pNext = firstPtr ns nxt ∧ n.data = p.2)
        ∧ FwdSeg c ns nxt := Iff.rfl

theorem FwdSeg_append (c : Nat → Option LNode) (nxt : Ptr) (P S : List (Nat × Int)) :
    FwdSeg c (P ++ S) nxt ↔ FwdSeg c P (firstPtr S nxt) ∧ FwdSeg c S nxt := by
  induction P with
  | nil => simp
  | cons p P ih =>
    simp only [List.cons_append, FwdSeg_cons, ih, firstPtr_append, and_assoc]

theorem FwdSeg_congr {c c' : Nat → Option LNode} {nxt : Ptr} {ns : List (Nat × Int)}
    (h : ∀ a ∈ addrsOf ns, c' a = c a) (hs : FwdSeg c ns nxt) : FwdSeg c' ns nxt := by
  induction ns with
  | nil => trivial
  | cons p ns ih =>
    rw [FwdSeg_cons] at hs ⊢
    exact ⟨by rw [h p.1 (by simp)]; exact hs.1,
      ih (fun a ha => h a (by simp [ha])) hs.2⟩

theorem DLseg.fwd {c : Nat → Option LNode} {prev nxt : Ptr} {ns : List (Nat × Int)}
    (hs : DLseg c prev ns nxt) : FwdSeg c ns nxt := by
  induction ns generalizing prev with
  | nil => trivial
  | cons p ns ih =>
    rw [DLseg_cons] at hs
    rw [FwdSeg_cons]
    exact ⟨⟨_, hs.1, rfl, rfl⟩, ih hs.2⟩

theorem chain_of_fwd {c : LMem} {ns : List (Nat × Int)} (fuel : Nat)
    (hs : FwdSeg c.cells ns none) (hf : ns.length ≤ fuel) :
    chain fuel c (firstPtr ns none) = addrsOf ns := by
  induction ns generalizing fuel with
  | nil => cases fuel <;> rfl
  | cons p ns ih =>
    rw [FwdSeg_cons] at hs
    obtain ⟨⟨n, hc, hn, _⟩, hrest⟩ := hs
    cases fuel with
    | zero => simp at hf
    | succ fuel =>
      have := ih fuel hrest (by simpa using hf)
      simp [chain, hc, hn, this]

theorem data_of_fwd {c : LMem} {nxt : Ptr} {ns : List (Nat × Int)}
    (hs : FwdSeg c.cells ns nxt) : (addrsOf ns).map c.data = valsOf ns := by
  induction ns with
  | nil => rfl
  | cons p ns ih =>
    rw [FwdSeg_cons] at hs
    obtain ⟨⟨n, hc, _, hd⟩, hrest⟩ := hs
    simp [LMem.data, hc, hd, ih hrest]

theorem length_le_of_bound {as : List Nat} {N : Nat} (hn : as.Nodup)
    (hb : ∀ a ∈ as, a < N) : as.length ≤ N := by
  have h1 : as.toFinset ⊆ Finset.range N := by
    intro a ha
    simp only [List.mem_toFinset] at ha
    simpa using hb a ha
  have h2 := Finset.card_le_card h1
  rw [List.toFinset_card_of_nodup hn] at h2
  simpa using h2

theorem nodup_parts {P Q : List Nat} {p c : Nat} (h : (P ++ [p] ++ c :: Q).Nodup) :
    P.Nodup ∧ Q.Nodup ∧ p ∉ P ∧ p ∉ Q ∧ c ∉ P ∧ c ∉ Q ∧ p ≠ c ∧ ∀ a ∈ P, a ∉ Q := by
  simp only [List.nodup_append, List.nodup_cons, List.disjoint_left, List.mem_append,
    List.mem_cons, List.mem_singleton, List.not_mem_nil, List.nodup_nil, or_false] at h
  obtain ⟨⟨h1, -, h2⟩, ⟨h3, h4⟩, h5⟩ := h
  refine ⟨h1, h4, ?_, ?_, ?_, h3, ?_, ?_⟩
  · intro hm; exact h2 hm rfl
  · intro hm; exact h5 (Or.inr rfl) (Or.inr hm)
  · intro hm; exact h5 (Or.inl hm) (Or.inl rfl)
  · intro e; exact h5 (Or.inr rfl) (Or.inl e)
  · intro a ha hq; exact h5 (Or.inl ha) (Or.inr hq)

theorem nodup_insert_mid {A B : List Nat} {n : Nat} (h : (A ++ B).Nodup) (hn : n ∉ A ++ B) :
    (A ++ n :: B).Nodup := by
  rw [List.nodup_middle, List.nodup_cons]
  exact ⟨hn, h⟩

theorem toList_of_fwd {m : LMem} {l : list} {ns : List (Nat × Int)}
    (hs : FwdSeg m.cells ns none) (hh : l.head = firstPtr ns none)
    (hn : (addrsOf ns).Nodup) (hb : ∀ a ∈ addrsOf ns, a < m.next) :
    l.toList m = valsOf ns := by
  have hl : ns.length ≤ m.next + 1 := by
    have := length_le_of_bound hn hb
    simp at this; omega
  simp only [list.toList, list.nodes, hh, chain_of_fwd _ hs hl, data_of_fwd hs]

theorem LWF.walk_eq {m : LMem} {l : list} {ns : List (Nat × Int)} (h : LWF m l ns) :
    l.toList m = valsOf ns :=
  toList_of_fwd h.seg.fwd h.head h.nodup h.bound

theorem lwf_empty (m : LMem) : LWF m list.empty [] :=
  ⟨trivial, by simp, by simp, rfl, rfl, rfl⟩

theorem LWF.nil_eq {m : LMem} {l : list} (h : LWF m l []) : l = list.empty := by
  cases l
  have h1 := h.head; have h2 := h.tail; have h3 := h.size
  simp at h1 h2 h3
  simp [list.empty, h1, h2, h3]

theorem Ext.rfl_ext (m : LMem) (old : List Nat) : Ext m m old old :=
  ⟨Nat.le_refl _, fun _ _ _ => rfl, fun _ h => Or.inl h⟩

theorem Ext.andThen {m m' m'' : LMem} {A B C : List Nat} (h1 : Ext m m' A B)
    (h2 : Ext m' m'' B C) : Ext m m'' A C := by
  refine ⟨Nat.le_trans h1.next_le h2.next_le, ?_, ?_⟩
  · intro a ha hA
    rw [h2.same a (Nat.lt_of_lt_of_le ha h1.next_le), h1.same a ha hA]
    intro hB
    rcases h1.fresh a hB with h | h
    · exact hA h
    · omega
  · intro a ha
    rcases h2.fresh a ha with h | h
    · exact h1.fresh a h
    · exact Or.inr (Nat.le_trans h1.next_le h)

theorem Ext.widen {m m' : LMem} {A A' B B' : List Nat} (h : Ext m m' A B)
    (hA : ∀ a ∈ A, a ∈ A') (hB : ∀ a ∈ B', a ∈ B) : Ext m m' A' B' :=
  ⟨h.next_le, fun a ha hn => h.same a ha (fun hh => hn (hA a hh)),
    fun a ha => (h.fresh a (hB a ha)).imp (hA a) id⟩

/-- A list laid out apart from the nodes worked on is laid out as before in the
new store, and apart from the nodes that result. -/
theorem LWF.carry {m m' : LMem} {l : list} {ns : List (Nat × Int)} {old new : List Nat}
    (h : LWF m l ns) (he : Ext m m' old new) (hd : ∀ a ∈ addrsOf ns, a ∉ old) :
    LWF m' l ns ∧ ∀ a ∈ addrsOf ns, a ∉ new := by
  refine ⟨⟨DLseg_congr (fun a ha => he.same a (h.bound a ha) (hd a ha)) h.seg, h.nodup,
    fun a ha => Nat.lt_of_lt_of_le (h.bound a ha) he.next_le, h.head, h.tail, h.size⟩, ?_⟩
  intro a ha hn
  rcases he.fresh a hn with h1 | h1
  · exact hd a ha h1
  · have := h.bound a ha; omega

/-! ## The list: one operation at a time -/

theorem nil_or_snoc {α : Type} (ns : List α) : ns = [] ∨ ∃ P t, ns = P ++ [t] := by
  rcases List.eq_nil_or_concat ns with h | ⟨P, t, h⟩
  · exact Or.inl h
  · exact Or.inr ⟨P, t, by simpa using h⟩

theorem firstPtr_some (P : List (Nat × Int)) (b : Nat) :
    ∃ a, firstPtr P (some b) = some a ∧ (a = b ∨ a ∈ addrsOf P) := by
  cases P with
  | nil => exact ⟨b, rfl, Or.inl rfl⟩
  | cons p P => exact ⟨p.1, rfl, Or.inr (by simp)⟩

theorem LWF.tail_cell {m : LMem} {l : list} {P : List (Nat × Int)} {t : Nat × Int}
    (h : LWF m l (P ++ [t])) :
    m.cells t.1 = some { pNext := none, pPrev := lastPtr none P, data := t.2 }
      ∧ DLseg m.cells none P (some t.1) ∧ l.tail = some t.1
      ∧ t.1 ∉ addrsOf P ∧ l.head = firstPtr P (some t.1) := by
  have hs := h.seg
  rw [DLseg_append, DLseg_cons] at hs
  have hn := h.nodup
  rw [addrsOf_append, List.nodup_append] at hn
  refine ⟨hs.2.1, hs.1, by simpa using h.tail, ?_, by simpa [firstPtr_append] using h.head⟩
  intro hm
  exact hn.2.2 hm (by simp)

theorem list_push_back_spec {m : LMem} {l : list} {ns : List (Nat × Int)} (h : LWF m l ns)
    (v : Int) :
    ∃ m' l', l.push_back m v = .ok (m', l') ∧ LWF m' l' (ns ++ [(m.next, v)])
      ∧ m'.next = m.next + 1 ∧ ∀ a, a ≠ m.next → a ∉ addrsOf ns → m'.cells a = m.cells a := by
  rcases nil_or_snoc ns with rfl | ⟨P, t, rfl⟩
  · have hl := h.nil_eq
    subst hl
    refine ⟨_, _, by simp [list.push_back, lalloc_eq, list.empty]; exact ⟨rfl, rfl⟩, ?_, rfl, ?_⟩
    · refine ⟨?_, by simp, by simp, rfl, rfl, rfl⟩
      simp [DLseg_cons]
    · intro a ha _
      simp [LMem.set, ha]
  · obtain ⟨hc, hP, ht, hnot, hh⟩ := h.tail_cell
    have hb : t.1 < m.next := h.bound t.1 (by simp)
    have hne : t.1 ≠ m.next := by omega
    obtain ⟨a0, ha0, _⟩ := firstPtr_some P t.1
    rw [ha0] at hh
    have hsz := h.size
    obtain ⟨sz, hd, tl⟩ := l
    simp only at hh ht hsz
    subst hh ht
    simp [list.push_back, lalloc_eq, LMem.modify, LMem.set, hne, hc]
    refine ⟨_, _, ⟨rfl, rfl⟩, ?_, rfl, ?_⟩
    · have hPb : ∀ a ∈ addrsOf P, a < m.next := fun a ha => h.bound a (by simp [ha])
      refine ⟨?_, ?_, ?_, by simp [firstPtr_append, ha0], ?_, by simp [hsz]⟩
      · rw [DLseg_append]
        refine ⟨DLseg_congr ?_ hP, ?_⟩
        · intro a ha
          have h1 : a ≠ t.1 := fun e => hnot (e ▸ ha)
          have h2 : a ≠ m.next := by have := hPb a ha; omega
          simp [h1, h2]
        · simp [DLseg_cons, hne.symm]
      · have hn := h.nodup
        simp only [addrsOf_append, addrsOf_cons, addrsOf_nil] at hn ⊢
        rw [List.nodup_append] at hn ⊢
        refine ⟨hn.1, by simp [hne], ?_⟩
        intro a ha hb2
        simp at hb2
        rcases hb2 with rfl | rfl
        · exact hnot ha
        · have := hPb _ ha; omega
      · intro a ha
        simp at ha
        rcases ha with ha | rfl | rfl
        · have := hPb _ ha; simp; omega
        · simp; omega
        · simp
      · rw [show P ++ [t, (m.next, v)] = (P ++ [t]) ++ [(m.next, v)] by simp, lastPtr_snoc]
    · intro a h1 _ h3
      simp [h1, h3]

theorem LWF.head_cell {m : LMem} {l : list} {p : Nat × Int} {S : List (Nat × Int)}
    (h : LWF m l (p :: S)) :
    m.cells p.1 = some { pNext := firstPtr S none, pPrev := none, data := p.2 }
      ∧ DLseg m.cells (some p.1) S none ∧ l.head = some p.1
      ∧ p.1 ∉ addrsOf S ∧ l.tail = lastPtr (some p.1) S := by
  have hs := h.seg
  rw [DLseg_cons] at hs
  have hn := h.nodup
  rw [addrsOf_cons, List.nodup_cons] at hn
  exact ⟨hs.1, hs.2, h.head, hn.1, h.tail⟩

theorem lastPtr_some (S : List (Nat × Int)) (b : Nat) :
    ∃ a, lastPtr (some b) S = some a ∧ (a = b ∨ a ∈ addrsOf S) := by
  cases S with
  | nil => exact ⟨b, rfl, Or.inl rfl⟩
  | cons p S =>
    obtain ⟨a, ha, hl⟩ := lastPtr_mem (some b) p S
    exact ⟨a, hl, Or.inr ha⟩

/-- Changing what the first node points back to. -/
theorem DLseg.set_prev {c : Nat → Option LNode} {prev nxt : Ptr} {p : Nat × Int}
    {S : List (Nat × Int)} (hs : DLseg c prev (p :: S) nxt) (hn : p.1 ∉ addrsOf S) (q : Ptr)
    {c' : Nat → Option LNode}
    (h1 : c' p.1 = some { pNext := firstPtr S nxt, pPrev := q, data := p.2 })
    (h2 : ∀ a ∈ addrsOf S, c' a = c a) : DLseg c' q (p :: S) nxt := by
  rw [DLseg_cons] at hs ⊢
  exact ⟨h1, DLseg_congr h2 hs.2⟩

theorem list_push_front_spec {m : LMem} {l : list} {ns : List (Nat × Int)} (h : LWF m l ns)
    (v : Int) :
    ∃ m' l', l.push_front m v = .ok (m', l') ∧ LWF m' l' ((m.next, v) :: ns)
      ∧ m'.next = m.next + 1 ∧ ∀ a, a ≠ m.next → a ∉ addrsOf ns → m'.cells a = m.cells a := by
  cases ns with
  | nil =>
    have hl := h.nil_eq
    subst hl
    refine ⟨_, _, by simp [list.push_front, lalloc_eq, list.empty]; exact ⟨rfl, rfl⟩, ?_, rfl, ?_⟩
    · refine ⟨?_, by simp, by simp, rfl, rfl, rfl⟩
      simp [DLseg_cons]
    · intro a ha _
      simp [LMem.set, ha]
  | cons p S =>
    obtain ⟨hc, hS, hh, hnot, ht⟩ := h.head_cell
    have hb : p.1 < m.next := h.bound p.1 (by simp)
    have hne : p.1 ≠ m.next := by omega
    obtain ⟨a0, ha0, _⟩ := lastPtr_some S p.1
    rw [ha0] at ht
    have hsz := h.size
    obtain ⟨sz, hd, tl⟩ := l
    simp only at hh ht hsz
    subst hh ht
    simp [list.push_front, lalloc_eq, LMem.modify, LMem.set, hne, hc]
    refine ⟨_, _, ⟨rfl, rfl⟩, ?_, rfl, ?_⟩
    · have hSb : ∀ a ∈ addrsOf S, a < m.next := fun a ha => h.bound a (by simp [ha])
      refine ⟨?_, ?_, ?_, rfl, by simp [ha0], by simp [hsz]⟩
      · rw [DLseg_cons]
        refine ⟨by simp [hne.symm], ?_⟩
        refine DLseg.set_prev h.seg hnot _ (by simp) ?_
        intro a ha
        have h1 : a ≠ p.1 := fun e => hnot (e ▸ ha)
        have h2 : a ≠ m.next := by have := hSb a ha; omega
        simp [h1, h2]
      · have hn := h.nodup
        simp only [addrsOf_cons] at hn ⊢
        rw [List.nodup_cons]
        refine ⟨?_, hn⟩
        intro hm
        have := h.bound m.next (by simpa using hm)
        omega
      · intro a ha
        simp at ha
        rcases ha with rfl | rfl | ha
        · simp
        · simp; omega
        · have := hSb _ ha; simp; omega
    · intro a h1 h3 _
      simp [h1, h3]

theorem decSize_succ (n : Nat) : decSize (n + 1) = n := by
  simp [decSize]

theorem list_pop_front_spec {m : LMem} {l : list} {ns : List (Nat × Int)} (h : LWF m l ns) :
    ∃ m' l', l.pop_front m = .ok (m', l') ∧ LWF m' l' ns.tail
      ∧ m'.next = m.next ∧ ∀ a, a ∉ addrsOf ns → m'.cells a = m.cells a := by
  cases ns with
  | nil =>
    have hl := h.nil_eq
    subst hl
    exact ⟨m, list.empty, by simp [list.pop_front, list.empty], h, rfl, fun _ _ => rfl⟩
  | cons p S =>
    obtain ⟨hc, hS, hh, hnot, ht⟩ := h.head_cell
    have hsz := h.size
    obtain ⟨sz, hd, tl⟩ := l
    simp only at hh ht hsz
    subst hh ht hsz
    have hSb : ∀ a ∈ addrsOf S, a < m.next := fun a ha => h.bound a (by simp [ha])
    have hnS : (addrsOf S).Nodup := by
      have := h.nodup
      simp only [addrsOf_cons, List.nodup_cons] at this
      exact this.2
    cases S with
    | nil =>
      simp [list.pop_front, LMem.read, LMem.free, hc, decSize]
      refine ⟨_, _, ⟨rfl, rfl⟩, ?_, rfl, ?_⟩
      · exact ⟨trivial, by simp, by simp, rfl, rfl, rfl⟩
      · intro a ha
        simp [ha]
    | cons s S =>
      have hs := hS
      rw [DLseg_cons] at hs
      have hne : s.1 ≠ p.1 := fun e => hnot (by simp [e])
      simp [list.pop_front, LMem.read, LMem.free, LMem.modify, hc, hs.1, hne, hne.symm,
        decSize]
      refine ⟨_, _, ⟨rfl, rfl⟩, ?_, rfl, ?_⟩
      · refine ⟨?_, hnS, ?_, rfl, rfl, rfl⟩
        · have hn2 : s.1 ∉ addrsOf S := by
            simp only [addrsOf_cons, List.nodup_cons] at hnS
            exact hnS.1
          refine DLseg.set_prev hS hn2 none (by simp [hne]) ?_
          intro a ha
          have h1 : a ≠ p.1 := fun e => hnot (by simp [← e, ha])
          have h2 : a ≠ s.1 := fun e => hn2 (e ▸ ha)
          simp [h1, h2]
        · intro a ha
          exact hSb a ha
      · intro a h1 h2 _
        simp [h1, h2]

theorem clearLoop_spec (k : Nat) {m : LMem} {l : list} {ns : List (Nat × Int)}
    (h : LWF m l ns) :
    ∃ m' l', clearLoop k m l = .ok (m', l') ∧ LWF m' l' (ns.drop k)
      ∧ m'.next = m.next ∧ ∀ a, a ∉ addrsOf ns → m'.cells a = m.cells a := by
  induction k generalizing m l ns with
  | zero => exact ⟨m, l, rfl, by simpa using h, rfl, fun _ _ => rfl⟩
  | succ k ih =>
    obtain ⟨m1, l1, e1, w1, n1, f1⟩ := list_pop_front_spec h
    obtain ⟨m2, l2, e2, w2, n2, f2⟩ := ih w1
    refine ⟨m2, l2, by simp [clearLoop, e1, e2], ?_, by omega, ?_⟩
    · cases ns with
      | nil => simpa using w2
      | cons p S => simpa using w2
    · intro a ha
      rw [f2 a, f1 a ha]
      intro hm
      exact ha (by
        cases ns with
        | nil => simp at hm
        | cons p S => simp at hm ⊢; exact Or.inr hm)

theorem list_clear_spec {m : LMem} {l : list} {ns : List (Nat × Int)} (h : LWF m l ns) :
    ∃ m', l.clear m = .ok (m', list.empty) ∧ m'.next = m.next
      ∧ ∀ a, a ∉ addrsOf ns → m'.cells a = m.cells a := by
  obtain ⟨m', l', e, w, n, f⟩ := clearLoop_spec (l.size + 1) h
  have : ns.drop (l.size + 1) = [] := by
    apply List.drop_eq_nil_of_le
    have := h.size
    simp [list.size]; omega
  rw [this] at w
  have hl := w.nil_eq
  subst hl
  exact ⟨m', e, n, f⟩

theorem list_end_spec {m : LMem} {l : list} {ns : List (Nat × Int)} (h : LWF m l ns) :
    l.end m = .ok { m_ptr := none, last_node := l.tail } := by
  rcases nil_or_snoc ns with rfl | ⟨P, t, rfl⟩
  · have hl := h.nil_eq
    subst hl
    rfl
  · obtain ⟨hc, _, ht, _, hh⟩ := h.tail_cell
    obtain ⟨a0, ha0, _⟩ := firstPtr_some P t.1
    simp [list.end, hh, ha0, ht, LMem.read, hc]

theorem list_insert_spec {m : LMem} {l : list} {P Q : List (Nat × Int)}
    (h : LWF m l (P ++ Q)) (pos : LIter) (hp : pos.m_ptr = firstPtr Q none) (v : Int) :
    ∃ m' l' it, l.insert m pos v = .ok (m', l', it)
      ∧ LWF m' l' (P ++ (m.next, v) :: Q) ∧ m'.next = m.next + 1
      ∧ (∀ a, a ≠ m.next → a ∉ addrsOf (P ++ Q) → m'.cells a = m.cells a)
      ∧ it.m_ptr = some m.next := by
  rcases nil_or_snoc P with rfl | ⟨P, p, rfl⟩
  · obtain ⟨m', l', e, w, n, f⟩ := list_push_front_spec h v
    have hb : pos.eq l.begin = true := by
      simp [LIter.eq, list.begin, hp, h.head]
    refine ⟨m', l', l'.begin, by simp [list.insert, hb, e], w, n, f, ?_⟩
    simp [list.begin, w.head]
  · have hhead : ∃ a0, l.head = some a0 ∧ a0 ∈ addrsOf (P ++ [p]) := by
      have := h.head
      cases P with
      | nil => exact ⟨p.1, by simpa using this, by simp⟩
      | cons q P => exact ⟨q.1, by simpa using this, by simp⟩
    obtain ⟨a0, ha0, hmem0⟩ := hhead
    have hn := h.nodup
    cases Q with
    | nil =>
      simp only [List.append_nil] at h
      have hp0 : pos.m_ptr = none := by simpa using hp
      have hb : pos.eq l.begin = false := by
        simp [LIter.eq, list.begin, hp0, ha0]
      obtain ⟨m', l', e, w, n, f⟩ := list_push_back_spec h v
      have he : pos.eq { m_ptr := none, last_node := l.tail } = true := by
        simp [LIter.eq, hp0]
      refine ⟨m', l', { m_ptr := l'.tail, last_node := l'.tail }, ?_, by simpa using w, n,
        by simpa using f, by rw [w.tail, lastPtr_snoc]⟩
      simp [list.insert, hb, list_end_spec h, he, e, list_end_spec w, LIter.dec]
    | cons c Q =>
      have hp0 : pos.m_ptr = some c.1 := by simpa using hp
      have hs := h.seg
      rw [DLseg_append, DLseg_append, DLseg_cons, DLseg_cons] at hs
      obtain ⟨⟨hP, hcp, -⟩, hcc, hQ⟩ := hs
      simp only [firstPtr_cons, firstPtr_nil, lastPtr_snoc] at hcp hcc hQ hP
      simp only [addrsOf_append, addrsOf_cons, addrsOf_nil] at hn hmem0
      have hnc : c.1 ∉ addrsOf P ++ [p.1] := by
        rw [List.nodup_append] at hn
        exact fun hm => hn.2.2 hm (by simp)
      have hb : pos.eq l.begin = false := by
        simp only [LIter.eq, list.begin, hp0, ha0, decide_eq_false_iff_not]
        intro e
        injection e with e
        exact hnc (e ▸ hmem0)
      have hbd : ∀ a ∈ addrsOf ((P ++ [p]) ++ c :: Q), a < m.next := h.bound
      have hpb : p.1 < m.next := hbd _ (by simp)
      have hcb : c.1 < m.next := hbd _ (by simp)
      have hpc : p.1 ≠ c.1 := by
        intro e
        exact hnc (by simp [← e])
      have hpn : p.1 ≠ m.next := by omega
      have hcn : c.1 ≠ m.next := by omega
      have he : pos.eq { m_ptr := none, last_node := l.tail } = false := by
        simp [LIter.eq, hp0]
      simp [list.insert, hb, list_end_spec h, he, hp0, lalloc_eq, LMem.read,
        LMem.modify, LMem.set, hcc, hcp, hpc, hpc.symm, hpn, hcn, hpn.symm, hcn.symm]
      refine ⟨_, _, _, ⟨rfl, rfl, rfl⟩, ?_, rfl, ?_, rfl⟩
      · obtain ⟨-, -, hnP, hpQ, hcP, hcQ, -, hPQ⟩ := nodup_parts hn
        have hPb : ∀ a ∈ addrsOf P, a < m.next := fun a ha => hbd a (by simp [ha])
        have hQb : ∀ a ∈ addrsOf Q, a < m.next := fun a ha => hbd a (by simp [ha])
        refine ⟨?_, ?_, ?_, ?_, ?_, ?_⟩
        · rw [DLseg_append, DLseg_cons, DLseg_cons, DLseg_cons]
          refine ⟨DLseg_congr ?_ hP, by simp [hpc], by simp [hpn.symm, hcn.symm], by simp,
            DLseg_congr ?_ hQ⟩
          · intro a ha
            have h1 : a ≠ c.1 := fun e => hcP (e ▸ ha)
            have h2 : a ≠ p.1 := fun e => hnP (e ▸ ha)
            have h3 : a ≠ m.next := by have := hPb a ha; omega
            simp [h1, h2, h3]
          · intro a ha
            have h1 : a ≠ c.1 := fun e => hcQ (e ▸ ha)
            have h2 : a ≠ p.1 := fun e => hpQ (e ▸ ha)
            have h3 : a ≠ m.next := by have := hQb a ha; omega
            simp [h1, h2, h3]
        · have := nodup_insert_mid (n := m.next) hn (fun hm => by
            have := hbd m.next (by simpa using hm)
            omega)
          simpa using this
        · intro a ha
          simp only [addrsOf_append, addrsOf_cons, List.mem_append, List.mem_cons] at ha
          show a < m.next + 1
          rcases ha with ha | rfl | rfl | rfl | ha
          · have := hPb _ ha; omega
          · omega
          · omega
          · omega
          · have := hQb _ ha; omega
        · have := h.head
          simp only [List.append_assoc, firstPtr_append] at this ⊢
          simpa using this
        · have := h.tail
          simp only [List.append_assoc, lastPtr_append, lastPtr_cons, lastPtr_nil] at this ⊢
          simpa using this
        · have := h.size
          simp at this ⊢
          omega
      · intro a h1 _ h3 h4 _
        simp [h1, h3, h4]

/-! ## The list: `merge` -/

theorem mergeVals_nil_left (rs : List Int) : mergeVals [] rs = rs := by
  cases rs <;> simp [mergeVals]

theorem mergeVals_nil_right (qs : List Int) : mergeVals qs [] = qs := by
  cases qs <;> simp [mergeVals]

theorem mergeVals_cons_cons (y x : Int) (qs rs : List Int) :
    mergeVals (y :: qs) (x :: rs) =
      if x ≤ y then x :: mergeVals (y :: qs) rs else y :: mergeVals qs (x :: rs) := by
  rw [mergeVals]

theorem mergeVals_perm (qs rs : List Int) : (mergeVals qs rs).Perm (qs ++ rs) := by
  induction qs generalizing rs with
  | nil => simp [mergeVals_nil_left]
  | cons y qs ihq =>
    induction rs with
    | nil => simp [mergeVals_nil_right]
    | cons x rs ihr =>
      rw [mergeVals_cons_cons]
      split
      · refine (List.Perm.cons x ihr).trans ?_
        exact (@List.perm_middle _ x (y :: qs) rs).symm
      · exact List.Perm.cons y (ihq (x :: rs))

theorem mergeVals_sorted (qs rs : List Int) (hq : qs.Sorted (· ≤ ·)) (hr : rs.Sorted (· ≤ ·)) :
    (mergeVals qs rs).Sorted (· ≤ ·) := by
  induction qs generalizing rs with
  | nil => simpa [mergeVals_nil_left] using hr
  | cons y qs ihq =>
    induction rs with
    | nil => simpa [mergeVals_nil_right] using hq
    | cons x rs ihr =>
      rw [mergeVals_cons_cons]
      rw [List.sorted_cons] at hq hr
      split
      · rename_i hxy
        rw [List.sorted_cons]
        refine ⟨?_, ihr hr.2⟩
        intro b hb
        have := (mergeVals_perm (y :: qs) rs).mem_iff.1 hb
        simp only [List.mem_append, List.mem_cons] at this
        rcases this with (rfl | h) | h
        · exact hxy
        · exact le_trans hxy (hq.1 b h)
        · exact hr.1 b h
      · rename_i hxy
        rw [List.sorted_cons]
        refine ⟨?_, ihq (x :: rs) hq.2 (List.sorted_cons.2 hr)⟩
        intro b hb
        have := (mergeVals_perm qs (x :: rs)).mem_iff.1 hb
        simp only [List.mem_append, List.mem_cons] at this
        rcases this with h | rfl | h
        · exact hq.1 b h
        · omega
        · have := hr.1 b h; omega

theorem firstPtr_eq_none (Q : List (Nat × Int)) : firstPtr Q none = none ↔ Q = [] := by
  cases Q <;> simp

theorem mergeLoop_spec (fuel : Nat) {m : LMem} {this : list} {P Q R : List (Nat × Int)}
    (h : LWF m this (P ++ Q)) (hR : FwdSeg m.cells R none)
    (hRb : ∀ a ∈ addrsOf R, a < m.next) (hRd : ∀ a ∈ addrsOf R, a ∉ addrsOf (P ++ Q))
    (ft fo lt lo : LIter) (hft : ft.m_ptr = firstPtr Q none) (hfo : fo.m_ptr = firstPtr R none)
    (hlt : lt.m_ptr = none) (hlo : lo.m_ptr = none) (hf : Q.length + R.length < fuel) :
    ∃ m' this' M R' fo', mergeLoop fuel m this ft fo lt lo = .ok (m', this', fo')
      ∧ LWF m' this' (P ++ M) ∧ valsOf M ++ valsOf R' = mergeVals (valsOf Q) (valsOf R)
      ∧ FwdSeg m'.cells R' none ∧ fo'.m_ptr = firstPtr R' none
      ∧ (∀ a ∈ addrsOf R', a ∈ addrsOf R) ∧ R'.length ≤ R.length
      ∧ Ext m m' (addrsOf (P ++ Q)) (addrsOf (P ++ M)) := by
  induction fuel generalizing m this P Q R ft fo with
  | zero => omega
  | succ fuel ih =>
    rw [mergeLoop]
    cases Q with
    | nil =>
      have e1 : ft.eq lt = true := by simp [LIter.eq, hft, hlt]
      simp only [e1, Bool.not_true, Bool.false_and, Bool.false_eq_true, if_false]
      exact ⟨m, this, [], R, fo, rfl, h, by simp [mergeVals_nil_left], hR, hfo,
        fun a ha => ha, Nat.le_refl _, Ext.rfl_ext _ _⟩
    | cons c Q =>
      have e1 : ft.eq lt = false := by simp [LIter.eq, hft, hlt]
      cases R with
      | nil =>
        have e2 : fo.eq lo = true := by simp [LIter.eq, hfo, hlo]
        simp only [e1, e2, Bool.not_true, Bool.and_false, Bool.false_eq_true, if_false]
        exact ⟨m, this, c :: Q, [], fo, rfl, h, by simp [mergeVals_nil_right], hR, hfo,
          fun a ha => ha, Nat.le_refl _, Ext.rfl_ext _ _⟩
      | cons r R =>
        have e2 : fo.eq lo = false := by simp [LIter.eq, hfo, hlo]
        simp only [e1, e2, Bool.not_false, Bool.and_self, if_true]
        rw [FwdSeg_cons] at hR
        obtain ⟨⟨rn, hrc, hrn, hrd⟩, hR2⟩ := hR
        have hs := h.seg
        rw [DLseg_append, DLseg_cons] at hs
        have hcc := hs.2.1
        have hx : fo.deref m = .ok r.2 := by
          simp [LIter.deref, hfo, LMem.read, hrc, hrd]
        have hy : ft.deref m = .ok c.2 := by
          simp [LIter.deref, hft, LMem.read, hcc]
        simp only [hx, hy, bind_ok]
        by_cases hxy : r.2 ≤ c.2
        · simp only [hxy, if_true]
          obtain ⟨m1, l1, it, e, w, n, f, -⟩ := list_insert_spec h ft hft r.2
          have hrne : r.1 ≠ m.next := by have := hRb r.1 (by simp); omega
          have hrc1 : m1.cells r.1 = some rn := by
            rw [f r.1 hrne (hRd r.1 (by simp))]; exact hrc
          have hinc : fo.inc m1 = .ok { fo with m_ptr := firstPtr R none } := by
            simp [LIter.inc, hfo, LMem.read, hrc1, hrn]
          have w' : LWF m1 l1 ((P ++ [(m.next, r.2)]) ++ c :: Q) := by simpa using w
          have hR1 : FwdSeg m1.cells R none := by
            refine FwdSeg_congr ?_ hR2
            intro a ha
            have h1 : a ≠ m.next := by have := hRb a (by simp [ha]); omega
            exact f a h1 (hRd a (by simp [ha]))
          obtain ⟨m', this', M, R', fo', e', w2, hv, hR', hfo', hsub, hle, hext⟩ :=
            ih w' hR1 (fun a ha => by have := hRb a (by simp [ha]); omega)
              (fun a ha => by
                have h1 := hRd a (by simp [ha])
                have h2 := hRb a (by simp [ha])
                simp only [addrsOf_append, addrsOf_cons, addrsOf_nil, List.mem_append,
                  List.mem_cons, List.not_mem_nil, or_false] at h1 ⊢
                intro hm
                rcases hm with (hm | hm) | hm
                · exact h1 (Or.inl hm)
                · omega
                · exact h1 (Or.inr hm))
              ft { fo with m_ptr := firstPtr R none } hft rfl (by simp at hf ⊢; omega)
          refine ⟨m', this', (m.next, r.2) :: M, R', fo', ?_, by simpa using w2, ?_, hR', hfo',
            fun a ha => by simp [hsub a ha], by simp; omega, ?_⟩
          · simp only [e, bind_ok, hinc]
            exact e'
          · simp only [valsOf_cons, List.cons_append, hv, mergeVals_cons_cons, hxy, if_true]
          · have hext1 : Ext m m1 (addrsOf (P ++ c :: Q))
                (addrsOf ((P ++ [(m.next, r.2)]) ++ c :: Q)) := by
              refine ⟨by omega, fun a ha hn => f a (by omega) hn, ?_⟩
              intro a ha
              simp only [addrsOf_append, addrsOf_cons, addrsOf_nil, List.mem_append,
                List.mem_cons, List.not_mem_nil, or_false] at ha ⊢
              rcases ha with (ha | ha) | ha
              · exact Or.inl (Or.inl ha)
              · exact Or.inr (by omega)
              · exact Or.inl (Or.inr ha)
            have := hext1.andThen hext
            simpa using this
        · simp only [hxy, if_false]
          have hinc : ft.inc m = .ok { ft with m_ptr := firstPtr Q none } := by
            simp [LIter.inc, hft, LMem.read, hcc]
          have w' : LWF m this ((P ++ [c]) ++ Q) := by simpa using h
          have hR1 : FwdSeg m.cells (r :: R) none := by
            rw [FwdSeg_cons]; exact ⟨⟨rn, hrc, hrn, hrd⟩, hR2⟩
          obtain ⟨m', this', M, R', fo', e', w2, hv, hR', hfo', hsub, hle, hext⟩ :=
            ih w' hR1 hRb (by simpa using hRd)
              { ft with m_ptr := firstPtr Q none } fo rfl hfo (by simp at hf ⊢; omega)
          refine ⟨m', this', c :: M, R', fo', ?_, by simpa using w2, ?_, hR', hfo', hsub, hle,
            by simpa using hext⟩
          · simp only [hinc, bind_ok]
            exact e'
          · simp only [valsOf_cons, List.cons_append, hv, mergeVals_cons_cons, hxy, if_false]

theorem mergeRest_spec (fuel : Nat) {m : LMem} {this : list} {N R : List (Nat × Int)}
    (h : LWF m this N) (hR : FwdSeg m.cells R none)
    (hRb : ∀ a ∈ addrsOf R, a < m.next) (hRd : ∀ a ∈ addrsOf R, a ∉ addrsOf N)
    (fo lo : LIter) (hfo : fo.m_ptr = firstPtr R none) (hlo : lo.m_ptr = none)
    (hf : R.length < fuel) :
    ∃ m' this' N', mergeRest fuel m this fo lo = .ok (m', this')
      ∧ LWF m' this' (N ++ N') ∧ valsOf N' = valsOf R
      ∧ Ext m m' (addrsOf N) (addrsOf (N ++ N')) := by
  induction fuel generalizing m this N R fo with
  | zero => omega
  | succ fuel ih =>
    rw [mergeRest]
    cases R with
    | nil =>
      have e2 : fo.eq lo = true := by simp [LIter.eq, hfo, hlo]
      simp only [e2, Bool.not_true, Bool.false_eq_true, if_false]
      exact ⟨m, this, [], rfl, by simpa using h, rfl, by simpa using Ext.rfl_ext _ _⟩
    | cons r R =>
      have e2 : fo.eq lo = false := by simp [LIter.eq, hfo, hlo]
      simp only [e2, Bool.not_false, if_true]
      rw [FwdSeg_cons] at hR
      obtain ⟨⟨rn, hrc, hrn, hrd⟩, hR2⟩ := hR
      have hx : fo.deref m = .ok r.2 := by
        simp [LIter.deref, hfo, LMem.read, hrc, hrd]
      simp only [hx, bind_ok]
      obtain ⟨m1, l1, e, w, n, f⟩ := list_push_back_spec h r.2
      have hrne : r.1 ≠ m.next := by have := hRb r.1 (by simp); omega
      have hrc1 : m1.cells r.1 = some rn := by
        rw [f r.1 hrne (hRd r.1 (by simp))]; exact hrc
      have hinc : fo.inc m1 = .ok { fo with m_ptr := firstPtr R none } := by
        simp [LIter.inc, hfo, LMem.read, hrc1, hrn]
      have hR1 : FwdSeg m1.cells R none := by
        refine FwdSeg_congr ?_ hR2
        intro a ha
        have h1 : a ≠ m.next := by have := hRb a (by simp [ha]); omega
        exact f a h1 (hRd a (by simp [ha]))
      obtain ⟨m', this', N', e', w2, hv, hext⟩ :=
        ih w hR1 (fun a ha => by have := hRb a (by simp [ha]); omega)
          (fun a ha => by
            have h1 := hRd a (by simp [ha])
            have h2 := hRb a (by simp [ha])
            simp only [addrsOf_append, addrsOf_cons, addrsOf_nil, List.mem_append,
              List.mem_cons, List.not_mem_nil, or_false] at h1 ⊢
            intro hm
            rcases hm with hm | hm
            · exact h1 hm
            · omega)
          { fo with m_ptr := firstPtr R none } rfl (by simp at hf ⊢; omega)
      refine ⟨m', this', (m.next, r.2) :: N', ?_, by simpa using w2, by simp [hv, hrd], ?_⟩
      · simp only [e, bind_ok, hinc]
        exact e'
      · have hext1 : Ext m m1 (addrsOf N) (addrsOf (N ++ [(m.next, r.2)])) := by
          refine ⟨by omega, fun a ha hn => f a (by omega) hn, ?_⟩
          intro a ha
          simp only [addrsOf_append, addrsOf_cons, addrsOf_nil, List.mem_append,
            List.mem_cons, List.not_mem_nil, or_false] at ha ⊢
          rcases ha with ha | ha
          · exact Or.inl ha
          · exact Or.inr (by omega)
        have := hext1.andThen hext
        simpa using this

theorem list_merge_spec (fuel : Nat) {m : LMem} {this other : list} {A B : List (Nat × Int)}
    (hA : LWF m this A) (hB : LWF m other B) (hd : ∀ a ∈ addrsOf B, a ∉ addrsOf A)
    (hf : A.length + B.length < fuel) :
    ∃ m' this' N, this.merge fuel m other = .ok (m', this', list.empty)
      ∧ LWF m' this' N ∧ valsOf N = mergeVals (valsOf A) (valsOf B)
      ∧ Ext m m' (addrsOf A ++ addrsOf B) (addrsOf N) := by
  have hA' : LWF m this ([] ++ A) := by simpa using hA
  obtain ⟨m1, l1, M, R', fo', e1, w1, hv1, hR1, hfo1, hsub1, hlen, hext1⟩ :=
    mergeLoop_spec fuel hA' hB.seg.fwd hB.bound (by simpa using hd) this.begin other.begin
      { m_ptr := none, last_node := this.tail } { m_ptr := none, last_node := other.tail }
      (by simp [list.begin, hA.head]) (by simp [list.begin, hB.head]) rfl rfl hf
  simp only [List.nil_append] at w1 hext1
  have hRb1 : ∀ a ∈ addrsOf R', a < m1.next := fun a ha =>
    Nat.lt_of_lt_of_le (hB.bound a (hsub1 a ha)) hext1.next_le
  have hRd1 : ∀ a ∈ addrsOf R', a ∉ addrsOf M := by
    intro a ha hm
    rcases hext1.fresh a hm with h | h
    · exact hd a (hsub1 a ha) h
    · have := hB.bound a (hsub1 a ha); omega
  obtain ⟨m2, l2, N', e2, w2, hv2, hext2⟩ :=
    mergeRest_spec fuel w1 hR1 hRb1 hRd1 fo' { m_ptr := none, last_node := other.tail }
      hfo1 rfl (by omega)
  have hext12 := hext1.andThen hext2
  obtain ⟨hB2, hBd2⟩ := hB.carry hext12 hd
  obtain ⟨m3, e3, n3, f3⟩ := list_clear_spec hB2
  refine ⟨m3, l2, M ++ N', ?_, ?_, by simp [hv2, hv1], ?_⟩
  · simp only [list.merge, list_end_spec hA, list_end_spec hB, bind_ok, e1, e2, e3]
    rfl
  · exact ⟨DLseg_congr (fun a ha => f3 a (fun hb => hBd2 a hb ha)) w2.seg, w2.nodup,
      fun a ha => by rw [n3]; exact w2.bound a ha, w2.head, w2.tail, w2.size⟩
  · refine ⟨by rw [n3]; exact hext12.next_le, ?_, ?_⟩
    · intro a ha hn
      simp only [List.mem_append, not_or] at hn
      rw [f3 a hn.2, hext12.same a ha hn.1]
    · intro a ha
      rcases hext12.fresh a ha with h | h
      · exact Or.inl (by simp [h])
      · exact Or.inr h

/-! ## The list: `sort` -/

theorem Ext.add {m m' : LMem} {A B : List Nat} (h : Ext m m' A B) (C : List Nat) :
    Ext m m' (A ++ C) (B ++ C) := by
  refine ⟨h.next_le, fun a ha hn => h.same a ha (fun hh => hn (by simp [hh])), ?_⟩
  intro a ha
  simp only [List.mem_append] at ha ⊢
  rcases ha with ha | ha
  · exact (h.fresh a ha).imp Or.inl id
  · exact Or.inl (Or.inr ha)

theorem advance_spec {m : LMem} {P Q : List (Nat × Int)} {nxt : Ptr}
    (hs : FwdSeg m.cells (P ++ Q) nxt) (it : LIter) (hit : it.m_ptr = firstPtr (P ++ Q) nxt) :
    LIter.advance m P.length it = .ok { it with m_ptr := firstPtr Q nxt } := by
  induction P generalizing it with
  | nil =>
    simp only [List.nil_append] at hit
    simp [LIter.advance, ← hit]
  | cons p P ih =>
    simp only [List.cons_append, FwdSeg_cons] at hs
    obtain ⟨⟨n, hc, hn, -⟩, hrest⟩ := hs
    have hinc : it.inc m = .ok { it with m_ptr := firstPtr (P ++ Q) nxt } := by
      simp [LIter.inc, hit, LMem.read, hc, hn]
    simp only [List.length_cons, LIter.advance, hinc, bind_ok]
    exact ih hrest _ rfl

theorem list_half_divide_spec {m : LMem} {this : list} {P Q : List (Nat × Int)} {p c : Nat × Int}
    (h : LWF m this ((P ++ [p]) ++ c :: Q)) (hk : this.Size / 2 = (P ++ [p]).length)
    (tmp : list) :
    ∃ m' this' tmp', this.half_divide m tmp = .ok (m', this', tmp')
      ∧ LWF m' this' (c :: Q) ∧ LWF m' tmp' (P ++ [p]) ∧ m'.next = m.next
      ∧ ∀ a, a ∉ addrsOf ((P ++ [p]) ++ c :: Q) → m'.cells a = m.cells a := by
  have hadv := advance_spec h.seg.fwd this.begin (by simp [list.begin, h.head])
  have hs := h.seg
  rw [DLseg_append, DLseg_append, DLseg_cons, DLseg_cons] at hs
  obtain ⟨⟨hP, hcp, -⟩, hcc, hQ⟩ := hs
  simp only [firstPtr_cons, firstPtr_nil, lastPtr_snoc] at hcp hcc hQ hP
  have hn := h.nodup
  simp only [addrsOf_append, addrsOf_cons, addrsOf_nil] at hn
  obtain ⟨hPn, hQn, hnP, hpQ, hcP, hcQ, hpc, hPQ⟩ := nodup_parts hn
  have hbd : ∀ a ∈ addrsOf ((P ++ [p]) ++ c :: Q), a < m.next := h.bound
  simp only [list.half_divide, hk, hadv, bind_ok, firstPtr_cons, LMem.read, hcc,
    LMem.modify, hcp, lset_cells_ne _ _ hpc.symm]
  refine ⟨_, _, _, rfl, ?_, ?_, rfl, ?_⟩
  · refine ⟨?_, ?_, ?_, rfl, ?_, ?_⟩
    · rw [DLseg_cons]
      refine ⟨by simp, DLseg_congr ?_ hQ⟩
      intro a ha
      have h1 : a ≠ c.1 := fun e => hcQ (e ▸ ha)
      have h2 : a ≠ p.1 := fun e => hpQ (e ▸ ha)
      simp [h1, h2]
    · simp [hcQ, hQn]
    · intro a ha
      exact hbd a (by simp at ha ⊢; tauto)
    · have := h.tail
      simpa [lastPtr_append] using this
    · have := h.size
      simp at this hk ⊢
      omega
  · refine ⟨?_, ?_, ?_, ?_, by simp, by simp [hk]⟩
    · rw [DLseg_append, DLseg_cons]
      refine ⟨DLseg_congr ?_ hP, by simp [hpc], trivial⟩
      intro a ha
      have h1 : a ≠ c.1 := fun e => hcP (e ▸ ha)
      have h2 : a ≠ p.1 := fun e => hnP (e ▸ ha)
      simp [h1, h2]
    · rw [addrsOf_append, List.nodup_append]
      refine ⟨hPn, by simp, ?_⟩
      intro a ha hb
      simp at hb
      exact hnP (hb ▸ ha)
    · intro a ha
      exact hbd a (by simp at ha ⊢; tauto)
    · have := h.head
      simpa [firstPtr_append] using this
  · intro a ha
    simp only [addrsOf_append, addrsOf_cons, addrsOf_nil, List.mem_append, List.mem_cons,
      List.not_mem_nil, or_false, not_or] at ha
    simp [ha.1.2, ha.2.1]

theorem split_middle (ns : List (Nat × Int)) (h : 2 ≤ ns.length) :
    ∃ P p c Q, ns = (P ++ [p]) ++ c :: Q ∧ (P ++ [p]).length = ns.length / 2 := by
  have h1 : (ns.take (ns.length / 2)).length = ns.length / 2 := by
    rw [List.length_take]; omega
  have h2 : (ns.drop (ns.length / 2)).length = ns.length - ns.length / 2 := by
    rw [List.length_drop]
  rcases nil_or_snoc (ns.take (ns.length / 2)) with e | ⟨P, p, e⟩
  · rw [e] at h1; simp at h1; omega
  · cases hq : ns.drop (ns.length / 2) with
    | nil => rw [hq] at h2; simp at h2; omega
    | cons c Q =>
      refine ⟨P, p, c, Q, ?_, by rw [← e, h1]⟩
      rw [← e, ← hq, List.take_append_drop]

theorem sorted_of_length_le_one (xs : List Int) (h : xs.length ≤ 1) : xs.Sorted (· ≤ ·) := by
  match xs, h with
  | [], _ => simp
  | [_], _ => simp
  | _ :: _ :: _, h => simp at h

theorem clear_of_empty (m : LMem) : list.empty.clear m = .ok (m, list.empty) := by
  simp [list.clear, clearLoop, list.pop_front, list.empty, list.size]

theorem list_sort_spec (lfuel fuel : Nat) {m : LMem} {this : list} {ns : List (Nat × Int)}
    (h : LWF m this ns) (hl : ns.length < lfuel) (hf : ns.length < fuel) :
    ∃ m' this' N, list.sort lfuel fuel m this = .ok (m', this')
      ∧ LWF m' this' N ∧ (valsOf N).Sorted (· ≤ ·) ∧ (valsOf N).Perm (valsOf ns)
      ∧ Ext m m' (addrsOf ns) (addrsOf N) := by
  induction fuel generalizing m this ns with
  | zero => omega
  | succ fuel ih =>
    rw [list.sort]
    by_cases hsz : this.Size > 1
    · simp only [hsz, if_true]
      have hlen : 2 ≤ ns.length := by have := h.size; omega
      obtain ⟨P, p, c, Q, hns, hmid⟩ := split_middle ns hlen
      subst hns
      obtain ⟨m1, this1, tmp1, e1, wq, wp, n1, f1⟩ :=
        list_half_divide_spec h (by rw [h.size, hmid]) list.empty
      have hn := h.nodup
      simp only [addrsOf_append, addrsOf_cons, addrsOf_nil] at hn
      obtain ⟨hPn, hQn, hnP, hpQ, hcP, hcQ, hpc, hPQ⟩ := nodup_parts hn
      have hdisj : ∀ a ∈ addrsOf (P ++ [p]), a ∉ addrsOf (c :: Q) := by
        intro a ha hb
        simp only [addrsOf_append, addrsOf_cons, addrsOf_nil, List.mem_append, List.mem_cons,
          List.not_mem_nil, or_false] at ha hb
        rcases ha with ha | ha <;> rcases hb with hb | hb
        · exact hcP (hb ▸ ha)
        · exact hPQ a ha hb
        · exact hpc (ha.symm.trans hb)
        · exact hpQ (ha ▸ hb)
      have hlenP : (P ++ [p]).length + (c :: Q).length = ((P ++ [p]) ++ c :: Q).length := by
        simp only [List.length_append]
      have hE1 : Ext m m1 (addrsOf ((P ++ [p]) ++ c :: Q)) (addrsOf (c :: Q) ++ addrsOf (P ++ [p])) := by
        refine ⟨by omega, fun a _ hn => f1 a hn, ?_⟩
        intro a ha
        left
        simp only [addrsOf_append, addrsOf_cons, addrsOf_nil, List.mem_append, List.mem_cons,
          List.not_mem_nil, or_false] at ha ⊢
        tauto
      -- the recursive call on `this`
      have hstep2 : ∃ m2 this2 N2,
          (if this1.Size > 1 then list.sort lfuel fuel m1 this1 else pure (m1, this1))
            = .ok (m2, this2)
          ∧ LWF m2 this2 N2 ∧ (valsOf N2).Sorted (· ≤ ·) ∧ (valsOf N2).Perm (valsOf (c :: Q))
          ∧ Ext m1 m2 (addrsOf (c :: Q)) (addrsOf N2) := by
        by_cases h1 : this1.Size > 1
        · simp only [h1, if_true]
          exact ih wq (by omega) (by simp at hmid hf ⊢; omega)
        · simp only [h1, if_false]
          exact ⟨m1, this1, c :: Q, rfl, wq,
            sorted_of_length_le_one _ (by rw [valsOf_length, ← wq.size]; omega),
            List.Perm.refl _, Ext.rfl_ext _ _⟩
      obtain ⟨m2, this2, N2, e2, w2, s2, p2, x2⟩ := hstep2
      obtain ⟨wp2, hd2⟩ := wp.carry x2 hdisj
      have hstep3 : ∃ m3 tmp3 N3,
          (if tmp1.Size > 1 then list.sort lfuel fuel m2 tmp1 else pure (m2, tmp1))
            = .ok (m3, tmp3)
          ∧ LWF m3 tmp3 N3 ∧ (valsOf N3).Sorted (· ≤ ·) ∧ (valsOf N3).Perm (valsOf (P ++ [p]))
          ∧ Ext m2 m3 (addrsOf (P ++ [p])) (addrsOf N3) := by
        by_cases h1 : tmp1.Size > 1
        · simp only [h1, if_true]
          exact ih wp2 (by omega) (by simp at hmid hf ⊢; omega)
        · simp only [h1, if_false]
          exact ⟨m2, tmp1, P ++ [p], rfl, wp2,
            sorted_of_length_le_one _ (by rw [valsOf_length, ← wp2.size]; omega),
            List.Perm.refl _, Ext.rfl_ext _ _⟩
      obtain ⟨m3, tmp3, N3, e3, w3, s3, p3, x3⟩ := hstep3
      obtain ⟨w23, hd3⟩ := w2.carry x3 (fun a ha hb => hd2 a hb ha)
      have hl2 : N2.length = (c :: Q).length := by
        have := p2.length_eq; simpa using this
      have hl3 : N3.length = (P ++ [p]).length := by
        have := p3.length_eq; simpa using this
      obtain ⟨m4, this4, N4, e4, w4, v4, x4⟩ :=
        list_merge_spec lfuel w23 w3 (fun a ha hb => hd3 a hb ha) (by omega)
      refine ⟨m4, this4, N4, ?_, w4, ?_, ?_, ?_⟩
      · simp only [e1, bind_ok, e2, e3, e4, clear_of_empty]
        rfl
      · rw [v4]; exact mergeVals_sorted _ _ s2 s3
      · rw [v4]
        refine (mergeVals_perm _ _).trans ?_
        refine (List.Perm.append p2 p3).trans ?_
        rw [valsOf_append (P ++ [p])]
        exact List.perm_append_comm
      · have hE2 := (x2.add (addrsOf (P ++ [p])))
        have hE3 : Ext m2 m3 (addrsOf N2 ++ addrsOf (P ++ [p])) (addrsOf N2 ++ addrsOf N3) :=
          (x3.add (addrsOf N2)).widen (fun a ha => by simp at ha ⊢; tauto)
            (fun a ha => by simp at ha ⊢; tauto)
        exact hE1.andThen (hE2.andThen (hE3.andThen x4))
    · simp only [hsz, if_false, bind_ok, pure_eq_ok, clear_of_empty]
      exact ⟨m, this, ns, rfl, h,
        sorted_of_length_le_one _ (by rw [valsOf_length, ← h.size]; omega),
        List.Perm.refl _, Ext.rfl_ext _ _⟩

/-! ## The list: `unique` -/

theorem popAllLoop_spec (fuel : Nat) {m : LMem} {l : list} {ns : List (Nat × Int)}
    (h : LWF m l ns) (hf : ns.length < fuel) :
    ∃ m', popAllLoop fuel m l = .ok (m', list.empty) ∧ m'.next = m.next
      ∧ ∀ a, a ∉ addrsOf ns → m'.cells a = m.cells a := by
  induction fuel generalizing m l ns with
  | zero => omega
  | succ fuel ih =>
    rw [popAllLoop]
    cases ns with
    | nil =>
      have hl := h.nil_eq
      subst hl
      exact ⟨m, by simp [list.empty], rfl, fun _ _ => rfl⟩
    | cons p S =>
      have hsz : l.Size ≠ 0 := by rw [h.size]; simp
      simp only [hsz, ne_eq, not_false_eq_true, if_true]
      obtain ⟨m1, l1, e1, w1, n1, f1⟩ := list_pop_front_spec h
      obtain ⟨m2, e2, n2, f2⟩ := ih w1 (by simp at hf ⊢; omega)
      refine ⟨m2, by simp only [e1, bind_ok]; exact e2, by omega, ?_⟩
      intro a ha
      rw [f2 a (fun hm => ha (by simp at hm ⊢; exact Or.inr hm)), f1 a ha]

theorem copyLoop_spec (fuel : Nat) {m : LMem} {this : list} {N R : List (Nat × Int)}
    (h : LWF m this N) (hR : FwdSeg m.cells R none)
    (hRb : ∀ a ∈ addrsOf R, a < m.next) (hRd : ∀ a ∈ addrsOf R, a ∉ addrsOf N)
    (hf : R.length < fuel) :
    ∃ m' this' N', copyLoop fuel m this (firstPtr R none) = .ok (m', this')
      ∧ LWF m' this' (N ++ N') ∧ valsOf N' = valsOf R
      ∧ Ext m m' (addrsOf N) (addrsOf (N ++ N')) := by
  induction fuel generalizing m this N R with
  | zero => omega
  | succ fuel ih =>
    rw [copyLoop]
    cases R with
    | nil =>
      simp only [firstPtr_nil, Option.isSome_none, Bool.false_eq_true, if_false]
      exact ⟨m, this, [], rfl, by simpa using h, rfl, by simpa using Ext.rfl_ext _ _⟩
    | cons r R =>
      simp only [firstPtr_cons, Option.isSome_some, if_true]
      rw [FwdSeg_cons] at hR
      obtain ⟨⟨rn, hrc, hrn, hrd⟩, hR2⟩ := hR
      obtain ⟨m1, l1, e, w, n, f⟩ := list_push_back_spec h r.2
      have hrne : r.1 ≠ m.next := by have := hRb r.1 (by simp); omega
      have hrc1 : m1.cells r.1 = some rn := by
        rw [f r.1 hrne (hRd r.1 (by simp))]; exact hrc
      have hR1 : FwdSeg m1.cells R none := by
        refine FwdSeg_congr ?_ hR2
        intro a ha
        have h1 : a ≠ m.next := by have := hRb a (by simp [ha]); omega
        exact f a h1 (hRd a (by simp [ha]))
      obtain ⟨m', this', N', e', w2, hv, hext⟩ :=
        ih w hR1 (fun a ha => by have := hRb a (by simp [ha]); omega)
          (fun a ha => by
            have h1 := hRd a (by simp [ha])
            have h2 := hRb a (by simp [ha])
            simp only [addrsOf_append, addrsOf_cons, addrsOf_nil, List.mem_append,
              List.mem_cons, List.not_mem_nil, or_false] at h1 ⊢
            intro hm
            rcases hm with hm | hm
            · exact h1 hm
            · omega)
          (by simp at hf ⊢; omega)
      refine ⟨m', this', (m.next, r.2) :: N', ?_, by simpa using w2, by simp [hv, hrd], ?_⟩
      · simp only [LMem.read, hrc, bind_ok, hrd, e, hrc1, hrn]
        exact e'
      · have hext1 : Ext m m1 (addrsOf N) (addrsOf (N ++ [(m.next, r.2)])) := by
          refine ⟨by omega, fun a ha hn => f a (by omega) hn, ?_⟩
          intro a ha
          simp only [addrsOf_append, addrsOf_cons, addrsOf_nil, List.mem_append,
            List.mem_cons, List.not_mem_nil, or_false] at ha ⊢
          rcases ha with ha | ha
          · exact Or.inl ha
          · exact Or.inr (by omega)
        have := hext1.andThen hext
        simpa using this

theorem list_assign_spec (fuel : Nat) {m : LMem} {this l : list} {A B : List (Nat × Int)}
    (hA : LWF m this A) (hB : LWF m l B) (hd : ∀ a ∈ addrsOf B, a ∉ addrsOf A)
    (hfA : A.length < fuel) (hfB : B.length < fuel) :
    ∃ m' this' N, this.assign fuel m l = .ok (m', this')
      ∧ LWF m' this' N ∧ valsOf N = valsOf B
      ∧ Ext m m' (addrsOf A) (addrsOf N) := by
  obtain ⟨m1, e1, n1, f1⟩ := popAllLoop_spec fuel hA hfA
  have hB1 : LWF m1 l B :=
    ⟨DLseg_congr (fun a ha => f1 a (hd a ha)) hB.seg, hB.nodup,
      fun a ha => by rw [n1]; exact hB.bound a ha, hB.head, hB.tail, hB.size⟩
  obtain ⟨m2, l2, N, e2, w2, hv, hext⟩ :=
    copyLoop_spec fuel (lwf_empty m1) hB1.seg.fwd hB1.bound (by simp) hfB
  simp only [List.nil_append] at w2 hext
  refine ⟨m2, { l2 with Size := l.size }, N, ?_, ?_, hv, ?_⟩
  · simp only [list.assign, e1, bind_ok, hB.head, e2]
    rfl
  · refine ⟨w2.seg, w2.nodup, w2.bound, w2.head, w2.tail, ?_⟩
    have h1 : N.length = B.length := by
      have := congrArg List.length hv
      simpa using this
    simp [list.size, hB.size, h1]
  · refine ⟨by rw [← n1]; exact hext.next_le, ?_, ?_⟩
    · intro a ha hn
      rw [hext.same a (by omega) (by simp), f1 a hn]
    · intro a ha
      rcases hext.fresh a ha with h | h
      · simp at h
      · exact Or.inr (by omega)

theorem uniqVals_snoc (x z : Int) (ys : List Int) :
    uniqVals x (ys ++ [z]) = uniqVals x ys ++ (if lastOr x ys ≠ z then [z] else []) := by
  induction ys generalizing x with
  | nil => simp [uniqVals, lastOr]
  | cons y ys ih =>
    show (if x ≠ y then y :: uniqVals y (ys ++ [z]) else uniqVals y (ys ++ [z])) =
      (if x ≠ y then y :: uniqVals y ys else uniqVals y ys)
        ++ (if lastOr y ys ≠ z then [z] else [])
    rw [ih]
    by_cases h : x ≠ y
    · rw [if_pos h, if_pos h, List.cons_append]
    · rw [if_neg h, if_neg h]

theorem fwd_cell_of_mem {c : Nat → Option LNode} {ns : List (Nat × Int)} {nxt : Ptr}
    (hs : FwdSeg c ns nxt) {g : Nat × Int} (hg : g ∈ ns) :
    ∃ n, c g.1 = some n ∧ n.data = g.2 := by
  induction ns with
  | nil => simp at hg
  | cons p ns ih =>
    rw [FwdSeg_cons] at hs
    rcases List.mem_cons.1 hg with rfl | h
    · obtain ⟨⟨n, h1, -, h3⟩, -⟩ := hs
      exact ⟨n, h1, h3⟩
    · exact ih hs.2 h

theorem uniqueLoop_spec (fuel : Nat) {m : LMem} {tmp : list} {T S : List (Nat × Int)}
    {f z : Nat × Int} (hs : FwdSeg m.cells (f :: (S ++ [z])) none)
    (hn : (addrsOf (f :: (S ++ [z]))).Nodup)
    (hb : ∀ a ∈ addrsOf (f :: (S ++ [z])), a < m.next)
    (hT : LWF m tmp T) (hd : ∀ a ∈ addrsOf (f :: (S ++ [z])), a ∉ addrsOf T)
    (first next last : LIter) (hfirst : first.m_ptr = some f.1) (hnext : next.m_ptr = some f.1)
    (hlast : last.m_ptr = some z.1) (hf : S.length < fuel) :
    ∃ m' tmp' T' first' next' g,
      uniqueLoop fuel m tmp first next last = .ok (m', tmp', first', next')
      ∧ LWF m' tmp' (T ++ T') ∧ valsOf T' = uniqVals f.2 (valsOf S)
      ∧ first'.m_ptr = some g.1 ∧ g ∈ f :: S ∧ g.2 = lastOr f.2 (valsOf S)
      ∧ next'.m_ptr = some z.1
      ∧ Ext m m' (addrsOf T) (addrsOf (T ++ T')) := by
  induction fuel generalizing m tmp T S f first next with
  | zero => omega
  | succ fuel ih =>
    rw [uniqueLoop]
    have hs0 := hs
    rw [FwdSeg_cons] at hs
    obtain ⟨⟨fn, hfc, hfn, hfd⟩, hrest⟩ := hs
    cases S with
    | nil =>
      simp only [List.nil_append, firstPtr_cons] at hfn
      have hinc : next.inc m = .ok { next with m_ptr := some z.1 } := by
        simp [LIter.inc, hnext, LMem.read, hfc, hfn]
      have heq : LIter.eq { next with m_ptr := some z.1 } last = true := by
        simp [LIter.eq, hlast]
      simp only [hinc, bind_ok, heq, Bool.not_true, Bool.false_eq_true, if_false]
      exact ⟨m, tmp, [], first, _, f, rfl, by simpa using hT, rfl, hfirst, by simp, rfl, rfl,
        by simpa using Ext.rfl_ext _ _⟩
    | cons s S =>
      simp only [List.cons_append, firstPtr_cons] at hfn hrest
      have hrest0 := hrest
      rw [FwdSeg_cons] at hrest
      obtain ⟨⟨sn, hsc, hsn, hsd⟩, -⟩ := hrest
      have hinc : next.inc m = .ok { next with m_ptr := some s.1 } := by
        simp [LIter.inc, hnext, LMem.read, hfc, hfn]
      have hsz : s.1 ≠ z.1 := by
        have := hn
        simp only [addrsOf_cons, addrsOf_append, addrsOf_nil, List.cons_append,
          List.nodup_cons, List.mem_cons, List.mem_append, List.mem_singleton,
          List.not_mem_nil, or_false, not_or] at this
        exact this.2.1.2
      have heq : LIter.eq { next with m_ptr := some s.1 } last = false := by
        simp [LIter.eq, hlast, hsz]
      have hx : first.deref m = .ok f.2 := by
        simp [LIter.deref, hfirst, LMem.read, hfc, hfd]
      have hy : LIter.deref m { next with m_ptr := some s.1 } = .ok s.2 := by
        simp [LIter.deref, LMem.read, hsc, hsd]
      simp only [hinc, bind_ok, heq, Bool.not_false, if_true, hx, hy]
      have hn' : (addrsOf (s :: (S ++ [z]))).Nodup := by
        have := hn
        simp only [addrsOf_cons, List.cons_append, List.nodup_cons] at this ⊢
        exact this.2
      have hb' : ∀ a ∈ addrsOf (s :: (S ++ [z])), a < m.next := fun a ha =>
        hb a (by simp only [addrsOf_cons, List.cons_append, List.mem_cons] at ha ⊢; tauto)
      have hd' : ∀ a ∈ addrsOf (s :: (S ++ [z])), a ∉ addrsOf T := fun a ha =>
        hd a (by simp only [addrsOf_cons, List.cons_append, List.mem_cons] at ha ⊢; tauto)
      -- the conditional `push_back`
      have hpush : ∃ m1 tmp1 T1,
          (if f.2 ≠ s.2 then tmp.push_back m s.2 else pure (m, tmp)) = .ok (m1, tmp1)
          ∧ LWF m1 tmp1 (T ++ T1) ∧ valsOf T1 = (if f.2 ≠ s.2 then [s.2] else [])
          ∧ Ext m m1 (addrsOf T) (addrsOf (T ++ T1)) := by
        by_cases hne : f.2 ≠ s.2
        · simp only [hne, ne_eq, not_false_eq_true, if_true]
          obtain ⟨m1, l1, e, w, n, fr⟩ := list_push_back_spec hT s.2
          refine ⟨m1, l1, [(m.next, s.2)], e, w, rfl, by omega, fun a ha hn => fr a (by omega) hn, ?_⟩
          intro a ha
          simp only [addrsOf_append, addrsOf_cons, addrsOf_nil, List.mem_append,
            List.mem_cons, List.not_mem_nil, or_false] at ha ⊢
          rcases ha with ha | ha
          · exact Or.inl ha
          · exact Or.inr (by omega)
        · simp only [hne, if_false]
          exact ⟨m, tmp, [], rfl, by simpa using hT, rfl, by simpa using Ext.rfl_ext _ _⟩
      obtain ⟨m1, tmp1, T1, e1, w1, hv1, x1⟩ := hpush
      have hsame : ∀ a ∈ addrsOf (s :: (S ++ [z])), m1.cells a = m.cells a := fun a ha =>
        x1.same a (hb' a ha) (hd' a ha)
      have hd1 : ∀ a ∈ addrsOf (s :: (S ++ [z])), a ∉ addrsOf (T ++ T1) := by
        intro a ha hm
        rcases x1.fresh a hm with h | h
        · exact hd' a ha h
        · have := hb' a ha; omega
      obtain ⟨m', tmp', T', first', next', g, e', w2, hv, hf', hg, hgv, hn2, hext⟩ :=
        ih (FwdSeg_congr hsame hrest0) hn'
          (fun a ha => Nat.lt_of_lt_of_le (hb' a ha) x1.next_le) w1 hd1
          { next with m_ptr := some s.1 } { next with m_ptr := some s.1 } rfl rfl
          (by simp at hf ⊢; omega)
      refine ⟨m', tmp', T1 ++ T', first', next', g, ?_, by simpa using w2, ?_, hf',
        List.mem_cons_of_mem _ hg, ?_, hn2, ?_⟩
      · simp only [e1, bind_ok]
        exact e'
      · rw [valsOf_append, hv1, hv, valsOf_cons, uniqVals]
        split <;> rfl
      · rw [valsOf_cons, lastOr, hgv]
      · have := x1.andThen hext
        simpa using this

theorem uniqVals_length_le (x : Int) (ys : List Int) : (uniqVals x ys).length ≤ ys.length := by
  induction ys generalizing x with
  | nil => simp [uniqVals]
  | cons y ys ih =>
    have := ih y
    simp only [uniqVals, List.length_cons]
    split
    · simp only [List.length_cons]; omega
    · omega

theorem Ext.of_push {m m1 : LMem} {T T1 : List (Nat × Int)}
    (n : m.next ≤ m1.next) (f : ∀ a, a < m.next → a ∉ addrsOf T → m1.cells a = m.cells a)
    (g : ∀ a ∈ addrsOf T1, a ∈ addrsOf T ∨ m.next ≤ a) : Ext m m1 (addrsOf T) (addrsOf T1) :=
  ⟨n, f, g⟩

theorem list_unique_spec (fuel : Nat) {m : LMem} {this : list} {ns : List (Nat × Int)}
    (h : LWF m this ns) (hf : ns.length < fuel) :
    ∃ m' this' N, this.unique fuel m = .ok (m', this')
      ∧ LWF m' this' N ∧ valsOf N = uniqueVals (valsOf ns)
      ∧ Ext m m' (addrsOf ns) (addrsOf N) := by
  have hend := list_end_spec h
  cases ns with
  | nil =>
    have hl := h.nil_eq
    subst hl
    refine ⟨m, list.empty, [], ?_, h, rfl, Ext.rfl_ext _ _⟩
    simp [list.unique, list.end, list.begin, list.empty, LIter.dec, LIter.eq]
  | cons f R =>
    rcases nil_or_snoc R with rfl | ⟨S, z, rfl⟩
    · refine ⟨m, this, [f], ?_, h, rfl, Ext.rfl_ext _ _⟩
      have h1 := h.head; have h2 := h.tail
      simp only [firstPtr_cons, lastPtr_cons, lastPtr_nil] at h1 h2
      simp [list.unique, hend, list.begin, LIter.dec, LIter.eq, h1, h2]
    · have h1 := h.head
      have h2 : this.tail = some z.1 := by
        have := h.tail
        rw [show f :: (S ++ [z]) = (f :: S) ++ [z] by simp, lastPtr_snoc] at this
        exact this
      simp only [firstPtr_cons] at h1
      have hn := h.nodup
      have hfz : f.1 ≠ z.1 := by
        have := hn
        simp only [addrsOf_cons, addrsOf_append, addrsOf_nil, List.nodup_cons,
          List.mem_append, List.mem_singleton, not_or] at this
        exact this.1.2
      have hfwd := h.seg.fwd
      obtain ⟨fn, hfc, hfd⟩ := fwd_cell_of_mem hfwd (g := f) (by simp)
      obtain ⟨zn, hzc, hzd⟩ := fwd_cell_of_mem hfwd (g := z) (by simp)
      -- the first `push_back`
      obtain ⟨m1, tmp1, e1, w1, n1, f1⟩ := list_push_back_spec (lwf_empty m) f.2
      simp only [List.nil_append] at w1
      have hsame1 : ∀ a ∈ addrsOf (f :: (S ++ [z])), m1.cells a = m.cells a := fun a ha =>
        f1 a (by have := h.bound a ha; omega) (by simp)
      have hd1 : ∀ a ∈ addrsOf (f :: (S ++ [z])), a ∉ addrsOf [(m.next, f.2)] := by
        intro a ha hm
        simp only [addrsOf_cons, addrsOf_nil, List.mem_singleton] at hm
        have := h.bound a ha
        omega
      obtain ⟨m2, tmp2, T', first', next', g, e2, w2, hv2, hf', hg, hgv, hn2, x2⟩ :=
        uniqueLoop_spec fuel (FwdSeg_congr hsame1 hfwd) hn
          (fun a ha => by have := h.bound a ha; omega) w1 hd1
          this.begin this.begin { m_ptr := this.tail, last_node := this.tail }
          (by simp [list.begin, h1]) (by simp [list.begin, h1]) h2 (by simp at hf ⊢; omega)
      have hx1 : Ext m m1 (addrsOf ([] : List (Nat × Int))) (addrsOf [(m.next, f.2)]) :=
        ⟨by omega, fun a ha hn => f1 a (by omega) hn, fun a ha => by
          simp only [addrsOf_cons, addrsOf_nil, List.mem_singleton] at ha
          exact Or.inr (by omega)⟩
      have hx12 := hx1.andThen x2
      have hcell2 : ∀ a ∈ addrsOf (f :: (S ++ [z])), m2.cells a = m.cells a := fun a ha =>
        hx12.same a (h.bound a ha) (by simp)
      have hgm : g ∈ f :: (S ++ [z]) := by
        simp only [List.mem_cons, List.mem_append] at hg ⊢
        tauto
      obtain ⟨gn, hgc, hgd⟩ := fwd_cell_of_mem hfwd hgm
      have hx : first'.deref m2 = .ok g.2 := by
        simp [LIter.deref, hf', LMem.read, hcell2 g.1 (List.mem_map_of_mem _ hgm), hgc, hgd]
      have hy : next'.deref m2 = .ok z.2 := by
        simp [LIter.deref, hn2, LMem.read,
          hcell2 z.1 (List.mem_map_of_mem _ (by simp : z ∈ f :: (S ++ [z]))), hzc, hzd]
      -- the last conditional `push_back`
      have hpush : ∃ m3 tmp3 T3,
          (if g.2 ≠ z.2 then tmp2.push_back m2 z.2 else pure (m2, tmp2)) = .ok (m3, tmp3)
          ∧ LWF m3 tmp3 T3 ∧ valsOf T3 = uniqueVals (valsOf (f :: (S ++ [z])))
          ∧ Ext m2 m3 (addrsOf ([(m.next, f.2)] ++ T')) (addrsOf T3) := by
        have hvals : ∀ X : List (Nat × Int),
            valsOf X = (if g.2 ≠ z.2 then [z.2] else []) →
            valsOf (([(m.next, f.2)] ++ T') ++ X) = uniqueVals (valsOf (f :: (S ++ [z]))) := by
          intro X hX
          simp only [valsOf_append, valsOf_cons, valsOf_nil, hX, hv2, uniqueVals, uniqVals_snoc,
            ← hgv, List.cons_append, List.nil_append, List.singleton_append]
        by_cases hne : g.2 ≠ z.2
        · simp only [hne, ne_eq, not_false_eq_true, if_true]
          obtain ⟨m3, l3, e, w, n, fr⟩ := list_push_back_spec w2 z.2
          refine ⟨m3, l3, _, e, w, hvals [(m2.next, z.2)] (by simp [hne]),
            by omega, fun a ha hn => fr a (by omega) hn, ?_⟩
          intro a ha
          rw [addrsOf_append] at ha
          rcases List.mem_append.1 ha with ha | ha
          · exact Or.inl ha
          · simp only [addrsOf_cons, addrsOf_nil, List.mem_singleton] at ha
            exact Or.inr (by omega)
        · simp only [hne, if_false]
          refine ⟨m2, tmp2, _, rfl, w2, ?_, Ext.rfl_ext _ _⟩
          have := hvals [] (by simp [hne])
          simpa using this
      obtain ⟨m3, tmp3, T3, e3, w3, hv3, x3⟩ := hpush
      have hx3 := hx12.andThen x3
      obtain ⟨h3, hd3⟩ := h.carry hx3 (by simp)
      have hlen3 : T3.length ≤ (f :: (S ++ [z])).length := by
        have := congrArg List.length hv3
        rw [valsOf_length, valsOf_cons, uniqueVals, List.length_cons] at this
        have h' := uniqVals_length_le f.2 (valsOf (S ++ [z]))
        rw [valsOf_length] at h'
        simp only [List.length_cons]
        omega
      obtain ⟨m4, this4, N, e4, w4, hv4, x4⟩ :=
        list_assign_spec fuel h3 w3 (fun a ha hb => hd3 a hb ha) hf (by omega)
      obtain ⟨w34, hd4⟩ := w3.carry x4 (fun a ha hb => hd3 a hb ha)
      obtain ⟨m5, e5, n5, f5⟩ := list_clear_spec w34
      refine ⟨m5, this4, N, ?_, ?_, by rw [hv4, hv3], ?_⟩
      · simp only [list.unique, hend, bind_ok, LIter.dec, Option.isSome_none,
          Bool.false_eq_true, if_false, pure_eq_ok]
        have hne : (this.begin.eq { m_ptr := this.tail, last_node := this.tail }) = false := by
          simp [LIter.eq, list.begin, h1, h2, hfz]
        have hd : this.begin.deref m = .ok f.2 := by
          simp [LIter.deref, list.begin, h1, LMem.read, hfc, hfd]
        simp only [pure_eq_ok] at e3
        simp only [hne, Bool.not_false, if_true, hd, bind_ok, e1, e2, hx, hy, e3, e4, e5]
      · exact ⟨DLseg_congr (fun a ha => f5 a (fun hb => hd4 a hb ha)) w4.seg, w4.nodup,
          fun a ha => by rw [n5]; exact w4.bound a ha, w4.head, w4.tail, w4.size⟩
      · have hT3 : ∀ a ∈ addrsOf T3, m.next ≤ a := by
          intro a ha
          rcases hx3.fresh a ha with h | h
          · simp at h
          · exact h
        refine ⟨by rw [n5]; exact Nat.le_trans hx3.next_le x4.next_le, ?_, ?_⟩
        · intro a ha hn
          rw [f5 a (fun hb => by have := hT3 a hb; omega),
            x4.same a (Nat.lt_of_lt_of_le ha hx3.next_le) hn, hx3.same a ha (by simp)]
        · intro a ha
          rcases x4.fresh a ha with h | h
          · exact Or.inl h
          · exact Or.inr (Nat.le_trans hx3.next_le h)

/-! ## The list: `splice` -/

theorem lmodify_spec {m : LMem} {a : Nat} {n : LNode} (f : LNode → LNode)
    (h : m.cells a = some n) :
    ∃ m', m.modify (some a) f = .ok m' ∧ m'.cells a = some (f n)
      ∧ (∀ b, b ≠ a → m'.cells b = m.cells b) ∧ m'.next = m.next :=
  ⟨_, lmodify_some f h, by simp, fun b hb => by simp [hb], rfl⟩

/-- A forward chain stays one when its cells keep their `pNext` and value. -/
theorem FwdSeg.keep {c c' : Nat → Option LNode} {ns : List (Nat × Int)} {nxt : Ptr}
    (hs : FwdSeg c ns nxt)
    (h : ∀ a ∈ addrsOf ns, ∀ n, c a = some n →
      ∃ n', c' a = some n' ∧ n'.pNext = n.pNext ∧ n'.data = n.data) :
    FwdSeg c' ns nxt := by
  induction ns with
  | nil => trivial
  | cons p ns ih =>
    rw [FwdSeg_cons] at hs ⊢
    obtain ⟨⟨n, hc, hn, hd⟩, hrest⟩ := hs
    obtain ⟨n', hc', hn', hd'⟩ := h p.1 (by simp) n hc
    exact ⟨⟨n', hc', by rw [hn', hn], by rw [hd', hd]⟩,
      ih hrest (fun a ha => h a (by simp [ha]))⟩

/-- Redirecting the `pNext` of the last node of a forward chain. -/
theorem FwdSeg.set_last {c c' : Nat → Option LNode} {B : List (Nat × Int)} {t : Nat × Int}
    {z q : Ptr} (hs : FwdSeg c (B ++ [t]) z) (hB : ∀ a ∈ addrsOf B, c' a = c a)
    (ht : ∀ n, c t.1 = some n → ∃ n', c' t.1 = some n' ∧ n'.pNext = q ∧ n'.data = n.data) :
    FwdSeg c' (B ++ [t]) q := by
  rw [FwdSeg_append, FwdSeg_cons] at hs ⊢
  obtain ⟨h1, ⟨n, hc, -, hd⟩, -⟩ := hs
  obtain ⟨n', hc', hn', hd'⟩ := ht n hc
  exact ⟨FwdSeg_congr hB h1, ⟨n', hc', by simpa using hn', by rw [hd', hd]⟩, trivial⟩

theorem firstPtr_snoc_some (B : List (Nat × Int)) (t : Nat × Int) :
    ∃ x, x ∈ B ++ [t] ∧ ∀ nxt, firstPtr (B ++ [t]) nxt = some x.1 := by
  cases B with
  | nil => exact ⟨t, by simp, fun _ => rfl⟩
  | cons b B => exact ⟨b, by simp, fun _ => rfl⟩

theorem list_splice_spec {m : LMem} {a b : list} {P Q B : List (Nat × Int)}
    (hA : LWF m a (P ++ Q)) (hB : LWF m b B)
    (hd : ∀ x ∈ addrsOf B, x ∉ addrsOf (P ++ Q))
    (pos : LIter) (hp : pos.m_ptr = firstPtr Q none) :
    ∃ m' a', a.splice m b pos = .ok (m', a', list.empty)
      ∧ FwdSeg m'.cells (P ++ B ++ Q) none ∧ a'.head = firstPtr (P ++ B ++ Q) none
      ∧ a'.Size = a.Size + b.Size ∧ m'.next = m.next := by
  have hpc : pos.it_const_cast.m_ptr = firstPtr Q none := by simp [LIter.it_const_cast, hp]
  rcases nil_or_snoc B with rfl | ⟨B, t, rfl⟩
  · -- nothing to transfer
    have hb := hB.nil_eq
    subst hb
    refine ⟨m, { a with Size := a.Size + 0 }, ?_, by simpa using hA.seg.fwd,
      by simpa using hA.head, rfl, rfl⟩
    simp [list.splice, list.empty]
  · obtain ⟨hB0, hx0, hbh⟩ := firstPtr_snoc_some B t
    have hbhead : b.head = some hB0.1 := by rw [hB.head, hbh]
    have hbtail : b.tail = some t.1 := by rw [hB.tail, lastPtr_snoc]
    have hBf := hB.seg.fwd
    obtain ⟨tn, htc, htd⟩ := fwd_cell_of_mem hBf (g := t) (by simp)
    obtain ⟨hn0, hhc, hhd⟩ := fwd_cell_of_mem hBf hx0
    have htB : t.1 ∉ addrsOf B := by
      have := hB.nodup
      rw [addrsOf_append, List.nodup_append] at this
      exact fun hm => this.2.2 hm (by simp)
    have hAf := hA.seg.fwd
    have hsz : a.Size + b.Size = (P ++ (B ++ [t]) ++ Q).length := by
      rw [hA.size, hB.size]; simp; omega
    rcases nil_or_snoc P with rfl | ⟨P, p, rfl⟩
    · cases Q with
      | nil =>
        -- the receiving list is empty
        have ha := hA.nil_eq
        subst ha
        refine ⟨m, { Size := list.empty.Size + b.Size, head := b.head, tail := b.tail }, ?_,
          by simpa using hBf, ?_, rfl, rfl⟩
        · simp [list.splice, hbhead, list.empty]
        · simp [hbhead, hbh]
      | cons c Q =>
        -- before the first element
        simp only [List.nil_append] at hA hAf hd
        have hah : a.head = some c.1 := by rw [hA.head]; rfl
        have hpos : pos.it_const_cast.eq a.begin = true := by
          simp [LIter.eq, list.begin, hpc, hah]
        obtain ⟨cn, hcc, hcd⟩ := fwd_cell_of_mem hAf (g := c) (by simp)
        obtain ⟨m1, e1, c1, o1, n1⟩ := lmodify_spec
          (fun n => { n with pNext := some c.1 }) htc
        have hct : c.1 ≠ t.1 := fun e => hd t.1 (by simp) (by simp [← e])
        obtain ⟨m2, e2, c2, o2, n2⟩ := lmodify_spec
          (fun n => { n with pPrev := some t.1 }) (by rw [o1 c.1 hct]; exact hcc)
        refine ⟨m2, { Size := a.Size + b.Size, head := b.head, tail := a.tail }, ?_, ?_, ?_, rfl,
          by omega⟩
        · simp only [list.splice, hbhead, Option.isSome_some, if_true, hah, Option.isNone_some,
            Bool.false_eq_true, if_false, hpos, bind_ok, hbtail, hpc, firstPtr_cons, e1, e2,
            pure_eq_ok]
          rfl
        · rw [List.nil_append, FwdSeg_append]
          constructor
          · refine FwdSeg.set_last hBf ?_ ?_
            · intro x hx
              have h1 : x ≠ t.1 := fun e => htB (e ▸ hx)
              have h2 : x ≠ c.1 := fun e => hd x (by simp [hx]) (by simp [e])
              rw [o2 x h2, o1 x h1]
            · intro n hn
              rw [htc] at hn
              injection hn with hn
              subst hn
              refine ⟨{ tn with pNext := some c.1 }, ?_, rfl, rfl⟩
              rw [o2 t.1 hct.symm, c1]
          · refine hAf.keep ?_
            intro x hx n hn
            by_cases hxc : x = c.1
            · subst hxc
              rw [hcc] at hn
              injection hn with hn
              subst hn
              exact ⟨{ cn with pPrev := some t.1 }, c2, rfl, rfl⟩
            · have h1 : x ≠ t.1 := fun e => hd t.1 (by simp) (e ▸ hx)
              exact ⟨n, by rw [o2 x hxc, o1 x h1]; exact hn, rfl, rfl⟩
        · rw [List.nil_append, firstPtr_append, hbh]
          exact hbhead
    · obtain ⟨hP0, hpx0, hph⟩ := firstPtr_snoc_some P p
      have hah : a.head = some hP0.1 := by rw [hA.head, firstPtr_append, hph]
      have hP0mem : hP0.1 ∈ addrsOf (P ++ [p]) := List.mem_map_of_mem _ hpx0
      have hB0mem : hB0.1 ∈ addrsOf (B ++ [t]) := List.mem_map_of_mem _ hx0
      have hnb : pos.it_const_cast.eq a.begin = false := by
        simp only [LIter.eq, list.begin, hpc, hah, decide_eq_false_iff_not]
        cases Q with
        | nil => simp
        | cons c Q =>
          simp only [firstPtr_cons, Option.some.injEq]
          intro e
          have hn := hA.nodup
          simp only [addrsOf_append, addrsOf_cons, addrsOf_nil] at hn hP0mem
          have := (nodup_parts hn)
          rw [← e] at hP0mem
          simp only [List.mem_append, List.mem_singleton] at hP0mem
          rcases hP0mem with h | h
          · exact this.2.2.2.2.1 h
          · exact this.2.2.2.2.2.2.1 h.symm
      have hend := list_end_spec hA
      have hpP : p.1 ∉ addrsOf P := by
        have := hA.nodup
        rw [addrsOf_append, addrsOf_append, List.nodup_append, List.nodup_append] at this
        exact fun hm => this.1.2.2 hm (by simp)
      obtain ⟨pn, hpcell, hpd⟩ := fwd_cell_of_mem hAf (g := p) (by simp)
      have hdp : ∀ x ∈ addrsOf (B ++ [t]), x ≠ p.1 := fun x hx e =>
        hd x hx (by simp [e])
      have hdP : ∀ x ∈ addrsOf (B ++ [t]), x ∉ addrsOf P := fun x hx hm =>
        hd x hx (by simp [hm])
      have hdQ : ∀ x ∈ addrsOf (B ++ [t]), x ∉ addrsOf Q := fun x hx hm =>
        hd x hx (by simp [hm])
      have htmem : t.1 ∈ addrsOf (B ++ [t]) := by simp
      cases Q with
      | nil =>
        -- at the end
        simp only [List.append_nil] at hA hAf hd ⊢
        have hat : a.tail = some p.1 := by rw [hA.tail, lastPtr_snoc]
        have hpe : ∀ q, pos.it_const_cast.eq { m_ptr := none, last_node := q } = true := by
          simp [LIter.eq, hpc]
        obtain ⟨m1, e1, c1, o1, n1⟩ := lmodify_spec
          (fun n => { n with pPrev := some p.1 }) hhc
        obtain ⟨m2, e2, c2, o2, n2⟩ := lmodify_spec
          (fun n => { n with pNext := some hB0.1 })
          (by rw [o1 p.1 (fun e => hdp hB0.1 hB0mem e.symm)]; exact hpcell)
        refine ⟨m2, { Size := a.Size + b.Size, head := a.head, tail := b.tail }, ?_, ?_, ?_, rfl,
          by omega⟩
        · simp only [list.splice, hbhead, Option.isSome_some, if_true, hah, Option.isNone_some,
            Bool.false_eq_true, if_false, hnb, hend, bind_ok, hpe, hat, e1, e2, pure_eq_ok]
          simp [hah, list.empty]
        · rw [FwdSeg_append, hbh]
          constructor
          · refine FwdSeg.set_last hAf ?_ ?_
            · intro x hx
              have h1 : x ≠ p.1 := fun e => hpP (e ▸ hx)
              have h2 : x ≠ hB0.1 := fun e => hdP hB0.1 hB0mem (e ▸ hx)
              rw [o2 x h1, o1 x h2]
            · intro n hn
              rw [hpcell] at hn
              injection hn with hn
              subst hn
              exact ⟨{ pn with pNext := some hB0.1 }, c2, rfl, rfl⟩
          · refine hBf.keep ?_
            intro x hx n hn
            have h1 : x ≠ p.1 := hdp x hx
            by_cases hxc : x = hB0.1
            · subst hxc
              rw [hhc] at hn
              injection hn with hn
              subst hn
              exact ⟨{ hn0 with pPrev := some p.1 }, by rw [o2 _ h1, c1], rfl, rfl⟩
            · exact ⟨n, by rw [o2 x h1, o1 x hxc]; exact hn, rfl, rfl⟩
        · show a.head = _
          rw [firstPtr_append, hph]
          exact hah
      | cons c Q =>
        -- in the middle
        have hpe : ∀ q, pos.it_const_cast.eq { m_ptr := none, last_node := q } = false := by
          simp [LIter.eq, hpc]
        have hs := hA.seg
        rw [DLseg_append, DLseg_append, DLseg_cons, DLseg_cons] at hs
        obtain ⟨⟨-, hcp, -⟩, hcc, -⟩ := hs
        simp only [firstPtr_cons, firstPtr_nil, lastPtr_snoc] at hcp hcc
        have hn := hA.nodup
        simp only [addrsOf_append, addrsOf_cons, addrsOf_nil] at hn
        obtain ⟨-, -, -, hpQ, hcP, hcQ, hpcne, hPQ⟩ := nodup_parts hn
        have hdc : ∀ x ∈ addrsOf (B ++ [t]), x ≠ c.1 := fun x hx e =>
          hd x hx (by simp [e])
        obtain ⟨m1, e1, c1, o1, n1⟩ := lmodify_spec
          (fun n => { n with pNext := some hB0.1 }) hcp
        have hcc1 : m1.cells c.1 = some
            { pNext := firstPtr Q none, pPrev := some p.1, data := c.2 } := by
          rw [o1 c.1 hpcne.symm]; exact hcc
        obtain ⟨m2, e2, c2, o2, n2⟩ := lmodify_spec
          (fun n => { n with pPrev := some p.1 })
          (by rw [o1 hB0.1 (hdp hB0.1 hB0mem)]; exact hhc)
        have htc2 : ∃ tn2, m2.cells t.1 = some tn2 ∧ tn2.data = t.2
            ∧ (t.1 ≠ hB0.1 → tn2 = tn) := by
          by_cases e : t.1 = hB0.1
          · refine ⟨{ hn0 with pPrev := some p.1 }, by rw [e]; exact c2, ?_, fun h => absurd e h⟩
            have : hn0 = tn := by
              rw [e] at htc; rw [hhc] at htc; injection htc
            simp [this, htd]
          · exact ⟨tn, by rw [o2 t.1 e, o1 t.1 (hdp t.1 htmem)]; exact htc, htd, fun _ => rfl⟩
        obtain ⟨tn2, htc2, htd2, -⟩ := htc2
        obtain ⟨m3, e3, c3, o3, n3⟩ := lmodify_spec
          (fun n => { n with pNext := some c.1 }) htc2
        refine ⟨m3, { Size := a.Size + b.Size, head := a.head, tail := a.tail }, ?_, ?_, ?_, rfl,
          by omega⟩
        · simp only [list.splice, hbhead, Option.isSome_some, if_true, hah, Option.isNone_some,
            Bool.false_eq_true, if_false, hnb, hend, bind_ok, hpe, hpc, firstPtr_cons,
            LMem.read, hcc, e1, hcc1, e2, hbtail, e3, pure_eq_ok]
          simp [hah, list.empty]
        · have hBf2 : FwdSeg m2.cells (B ++ [t]) none := by
            refine hBf.keep ?_
            intro x hx n hn
            have h1 : x ≠ p.1 := hdp x hx
            by_cases hxc : x = hB0.1
            · subst hxc
              rw [hhc] at hn
              injection hn with hn
              subst hn
              exact ⟨{ hn0 with pPrev := some p.1 }, c2, rfl, rfl⟩
            · exact ⟨n, by rw [o2 x hxc, o1 x h1]; exact hn, rfl, rfl⟩
          rw [FwdSeg_append, FwdSeg_append, firstPtr_cons, hbh]
          have hAf' := hAf
          rw [FwdSeg_append] at hAf'
          refine ⟨⟨?_, ?_⟩, ?_⟩
          · refine FwdSeg.set_last (z := some c.1) (by simpa using hAf'.1) ?_ ?_
            · intro x hx
              have h1 : x ≠ p.1 := fun e => hpP (e ▸ hx)
              have h2 : x ≠ hB0.1 := fun e => hdP hB0.1 hB0mem (e ▸ hx)
              have h3 : x ≠ t.1 := fun e => hdP t.1 htmem (e ▸ hx)
              rw [o3 x h3, o2 x h2, o1 x h1]
            · intro n hn
              rw [hcp] at hn
              injection hn with hn
              subst hn
              refine ⟨{ pNext := some hB0.1, pPrev := lastPtr none P, data := p.2 }, ?_, rfl, rfl⟩
              rw [o3 p.1 (fun e => hdp t.1 htmem e.symm),
                o2 p.1 (fun e => hdp hB0.1 hB0mem e.symm), c1]
          · refine FwdSeg.set_last hBf2 ?_ ?_
            · intro x hx
              have h3 : x ≠ t.1 := fun e => htB (e ▸ hx)
              rw [o3 x h3]
            · intro n hn
              rw [htc2] at hn
              injection hn with hn
              subst hn
              exact ⟨{ tn2 with pNext := some c.1 }, c3, rfl, rfl⟩
          · refine FwdSeg_congr ?_ hAf'.2
            intro x hx
            have h1 : x ≠ p.1 := by
              intro e
              simp only [addrsOf_cons, List.mem_cons] at hx
              rcases hx with hx | hx
              · exact hpcne (e.symm.trans hx)
              · exact hpQ (e ▸ hx)
            have h2 : x ≠ hB0.1 := fun e => hdQ hB0.1 hB0mem (e ▸ hx)
            have h3 : x ≠ t.1 := fun e => hdQ t.1 htmem (e ▸ hx)
            rw [o3 x h3, o2 x h2, o1 x h1]
        · show a.head = _
          rw [firstPtr_append, firstPtr_append, hph]
          exact hah

/-! ## The specification of the list -/

theorem runs_cons_form (x : Int) (xs : List Int) :
    ∃ r rs, runs (x :: xs) = (x :: r) :: rs
      ∧ (runs (x :: xs)).filterMap List.head? = x :: uniqVals x xs
      ∧ (runs (x :: xs)).length = (uniqVals x xs).length + 1 := by
  induction xs generalizing x with
  | nil => exact ⟨[], [], rfl, rfl, rfl⟩
  | cons y ys ih =>
    obtain ⟨r, rs, e, hh, hl⟩ := ih y
    have hrun : runs (x :: y :: ys) =
        if (y :: r).head? = some x then (x :: y :: r) :: rs else [x] :: (y :: r) :: rs := by
      rw [runs, e]
    rw [e] at hh hl
    simp only [List.filterMap_cons, List.head?_cons, List.length_cons] at hh hl
    by_cases hxy : x = y
    · subst hxy
      refine ⟨x :: r, rs, by rw [hrun]; simp, ?_, ?_⟩
      · rw [hrun]
        simp only [List.head?_cons, if_true, List.filterMap_cons, uniqVals, ne_eq,
          not_true_eq_false, if_false]
        rw [List.cons.injEq] at hh
        rw [hh.2]
      · rw [hrun]
        simp only [List.head?_cons, if_true, List.length_cons, uniqVals, ne_eq,
          not_true_eq_false, if_false]
        omega
    · have hyx : ¬ (some y = some x) := fun e => hxy (by injection e with e; exact e.symm)
      refine ⟨[], (y :: r) :: rs, by rw [hrun]; simp [hyx], ?_, ?_⟩
      · rw [hrun]
        simp only [List.head?_cons, hyx, if_false, List.filterMap_cons, uniqVals, ne_eq, hxy,
          not_false_eq_true, if_true]
        rw [List.cons.injEq] at hh
        rw [hh.2]
      · rw [hrun]
        simp only [List.head?_cons, hyx, if_false, List.length_cons, uniqVals, ne_eq, hxy,
          not_false_eq_true, if_true]
        omega

theorem uniqueVals_eq_heads (xs : List Int) :
    uniqueVals xs = (runs xs).filterMap List.head? := by
  cases xs with
  | nil => rfl
  | cons x xs =>
    obtain ⟨r, rs, -, h, -⟩ := runs_cons_form x xs
    rw [h, uniqueVals]

theorem uniqueVals_length (xs : List Int) : (uniqueVals xs).length = (runs xs).length := by
  cases xs with
  | nil => rfl
  | cons x xs =>
    obtain ⟨r, rs, -, -, h⟩ := runs_cons_form x xs
    rw [h, uniqueVals, List.length_cons]

theorem uniqVals_chain (x : Int) (ys : List Int) : List.Chain (· ≠ ·) x (uniqVals x ys) := by
  induction ys generalizing x with
  | nil => exact List.Chain.nil
  | cons y ys ih =>
    rw [uniqVals]
    by_cases h : x ≠ y
    · rw [if_pos h]
      exact List.Chain.cons h (ih y)
    · rw [if_neg h]
      have : x = y := by simpa using h
      subst this
      exact ih x

theorem uniqueVals_chain (xs : List Int) : (uniqueVals xs).Chain' (· ≠ ·) := by
  cases xs with
  | nil => exact List.chain'_nil
  | cons x xs => exact uniqVals_chain x xs

/-- The runs of a list, put end to end, are the list. -/
theorem runs_join (xs : List Int) : (runs xs).flatten = xs := by
  induction xs with
  | nil => rfl
  | cons x xs ih =>
    cases xs with
    | nil => rfl
    | cons y ys =>
      obtain ⟨r, rs, e, -, -⟩ := runs_cons_form y ys
      have hrun : runs (x :: y :: ys) =
          if (y :: r).head? = some x then (x :: y :: r) :: rs else [x] :: (y :: r) :: rs := by
        rw [runs, e]
      rw [e] at ih
      rw [hrun]
      split <;> simpa using ih

theorem toList_empty (m : LMem) : list.empty.toList m = [] := by
  simp [list.toList, list.nodes, chain, list.empty]

theorem sampleA_wf : LWF sampleStore sampleA [(0, 1), (1, 5)] :=
  ⟨by simp [DLseg_cons, sampleStore], by decide, by decide, rfl, rfl, rfl⟩

theorem sampleB_wf : LWF sampleStore sampleB [(2, 3)] :=
  ⟨by simp [DLseg_cons, sampleStore], by decide, by decide, rfl, rfl, rfl⟩

theorem sampleC_wf : LWF sampleStore sampleC [(3, 2), (4, 2), (5, 1)] :=
  ⟨by simp [DLseg_cons, sampleStore], by decide, by decide, rfl, rfl, rfl⟩

/-- The executable checks on a laid-out shape give the colouring predicate. -/
theorem rb_of_checks (h : Heap) :
    ∀ (s : Shape) (par : Ptr) (fuel : Nat) (pc : Colors) (n : Nat), Lay h s par →
      noRedRed fuel h s.root pc = true → blackHeight fuel h s.root = some n →
      RB h s n ∧ (pc = .kRED → s.rootColor h = .kBLACK) := by
  intro s
  induction s with
  | nil =>
    intro par fuel pc n _ h1 h2
    cases fuel with
    | zero => simp [noRedRed] at h1
    | succ f =>
      simp only [Shape.root, blackHeight, Option.some.injEq] at h2
      exact ⟨h2.symm, fun _ => rfl⟩
  | node l a r ihl ihr =>
    intro par fuel pc n hlay h1 h2
    obtain ⟨nd, ha, -, hl, hr, hll, hlr⟩ := hlay
    cases fuel with
    | zero => simp [noRedRed] at h1
    | succ f =>
      have h1 : noRedRed (f + 1) h (some a) pc = true := h1
      have h2 : blackHeight (f + 1) h (some a) = some n := h2
      simp only [noRedRed, ha, hl, hr, Bool.and_eq_true, Bool.not_eq_true',
        decide_eq_false_iff_not] at h1
      obtain ⟨⟨hpc, n1⟩, n2⟩ := h1
      simp only [blackHeight, ha, hl, hr] at h2
      rcases hbl : blackHeight f h l.root with _ | x
      · rw [hbl] at h2; simp at h2
      rcases hbr : blackHeight f h r.root with _ | y
      · rw [hbl, hbr] at h2; simp at h2
      rw [hbl, hbr] at h2
      simp only [] at h2
      by_cases hxy : x = y
      · subst hxy
        rw [if_pos rfl] at h2
        obtain ⟨rl, cl⟩ := ihl (some a) f nd.color x hll n1 hbl
        obtain ⟨rr, cr⟩ := ihr (some a) f nd.color x hlr n2 hbr
        have hca : h.color a = nd.color := color_of_cell ha
        by_cases hred : nd.color = .kRED
        · have hn : x = n := by
            have := Option.some.inj h2
            rw [hred] at this
            simpa using this
          subst hn
          refine ⟨Or.inl ⟨by rw [hca, hred], cl hred, cr hred, rl, rr⟩, ?_⟩
          intro e
          exact absurd ⟨e, hred⟩ hpc
        · have hb : nd.color = .kBLACK := color_not_red hred
          have hn : n = x + 1 := by
            have := Option.some.inj h2
            rw [hb] at this
            simpa using this.symm
          refine ⟨Or.inr ⟨by rw [hca, hb], x, hn, rl, rr⟩, ?_⟩
          intro _
          show h.color a = .kBLACK
          rw [hca, hb]
      · rw [if_neg hxy] at h2
        simp at h2

/-- The colouring predicate on a laid-out shape makes the executable checks
succeed, given fuel above the height of the shape. -/
theorem checks_of_rb (h : Heap) :
    ∀ (s : Shape) (par : Ptr) (fuel : Nat) (pc : Colors) (n : Nat), Lay h s par →
      s.height < fuel → RB h s n → (pc = .kRED → s.rootColor h = .kBLACK) →
      noRedRed fuel h s.root pc = true ∧ blackHeight fuel h s.root = some n := by
  intro s
  induction s with
  | nil =>
    intro par fuel pc n _ hf hrb _
    cases fuel with
    | zero => omega
    | succ f =>
      have h0 : n = 0 := hrb
      subst h0
      exact ⟨rfl, rfl⟩
  | node l a r ihl ihr =>
    intro par fuel pc n hlay hf hrb hpc
    obtain ⟨nd, ha, -, hl, hr, hll, hlr⟩ := hlay
    cases fuel with
    | zero => omega
    | succ f =>
      simp only [Shape.height] at hf
      have hca : h.color a = nd.color := color_of_cell ha
      have hroot : (Shape.node l a r).rootColor h = nd.color := hca
      rcases hrb with ⟨hc, cl, cr, rl, rr⟩ | ⟨hc, x, hn, rl, rr⟩
      · rw [hca] at hc
        obtain ⟨a1, b1⟩ := ihl (some a) f nd.color n hll (by omega) rl (fun _ => cl)
        obtain ⟨a2, b2⟩ := ihr (some a) f nd.color n hlr (by omega) rr (fun _ => cr)
        have hpc2 : pc ≠ .kRED := fun e => by
          have := hpc e
          rw [hroot, hc] at this
          cases this
        refine ⟨?_, ?_⟩
        · show noRedRed (f + 1) h (some a) pc = true
          simp only [noRedRed, ha, hl, hr, a1, a2, Bool.and_true,
            Bool.not_eq_true', decide_eq_false_iff_not]
          exact fun e => hpc2 e.1
        · show blackHeight (f + 1) h (some a) = some n
          simp only [blackHeight, ha, hl, hr, b1, b2, if_true, hc]
          simp
      · rw [hca] at hc
        have hnr : nd.color ≠ .kRED := by rw [hc]; decide
        obtain ⟨a1, b1⟩ := ihl (some a) f nd.color x hll (by omega) rl
          (fun e => absurd e hnr)
        obtain ⟨a2, b2⟩ := ihr (some a) f nd.color x hlr (by omega) rr
          (fun e => absurd e hnr)
        refine ⟨?_, ?_⟩
        · show noRedRed (f + 1) h (some a) pc = true
          simp only [noRedRed, ha, hl, hr, a1, a2, Bool.and_true,
            Bool.not_eq_true', decide_eq_false_iff_not]
          exact fun e => hnr e.2
        · show blackHeight (f + 1) h (some a) = some n
          simp only [blackHeight, ha, hl, hr, b1, b2, if_true, hc, hn]

/-- On a well-formed tree the executable red-black check says that the root is
BLACK and that the shape carries a red-black colouring. -/
theorem rbInvariant_iff {t : Tree} {s : Shape} (hsh : Shaped t s) :
    rbInvariant t = true ↔ rootBlack t = true ∧ RBT t.heap s := by
  have hh : s.height < t.next + 1 := by
    have := height_le_size s
    have := hsh.size_le
    omega
  unfold rbInvariant
  rw [hsh.root]
  constructor
  · intro h
    simp only [Bool.and_eq_true, Option.isSome_iff_exists] at h
    obtain ⟨⟨hb, hnr⟩, n, hn⟩ := h
    exact ⟨hb, n, (rb_of_checks t.heap s none _ .kBLACK n hsh.lay hnr hn).1⟩
  · rintro ⟨hb, n, hn⟩
    obtain ⟨h1, h2⟩ := checks_of_rb t.heap s none (t.next + 1) .kBLACK n hsh.lay hh hn
      (fun e => by cases e)
    simp [hb, h1, h2]

/-! ## One step of the fixup under a RED uncle -/

/-- With a RED parent and a RED uncle the counting fixup recolours parent, uncle
and grandparent and goes on from the grandparent, without a rotation. -/
theorem balancingTreeRot_red_uncle (fuel : Nat) (t : Tree) (x p g u : Nat)
    (nx np ng nu : Node)
    (hx : t.heap x = some nx) (hxp : nx.parent = some p)
    (hp : t.heap p = some np) (hpc : np.color = .kRED) (hpp : np.parent = some g)
    (hg : t.heap g = some ng)
    (hu : (if some p = ng.left then ng.right else ng.left) = some u)
    (hnu : t.heap u = some nu) (huc : nu.color = .kRED)
    (hpu : p ≠ u) (hpg : p ≠ g) (hug : u ≠ g) :
    balancingTreeRot (fuel + 1) t (some x) =
      balancingTreeRot fuel
        { t with heap := ((t.heap.set p (some { np with color := .kBLACK })).set u
          (some { nu with color := .kBLACK })).set g (some { ng with color := .kRED }) }
        (some g) := by
  have hup : u ≠ p := fun e => hpu e.symm
  have hgp : g ≠ p := fun e => hpg e.symm
  have hgu : g ≠ u := fun e => hug e.symm
  by_cases hside : some p = ng.left
  · rw [if_pos hside] at hu
    have hside2 : ng.left = some p := hside.symm
    simp only [balancingTreeRot, Tree.parent, Tree.color, Tree.left, Tree.right, Heap.read, hx,
      hxp, hp, hpc, hpp, hg, hside2, hu, hnu, huc, bind_ok, pure_eq_ok, Option.isNone_some,
      Option.isSome_some, Bool.false_eq_true, if_false, if_true, ne_eq, not_true_eq_false,
      and_self, Tree.setColor, Heap.modify, Heap.set_ne _ _ _ _ hup, Heap.set_ne _ _ _ _ hgu,
      Heap.set_ne _ _ _ _ hgp]
  · rw [if_neg hside] at hu
    simp only [Option.some.injEq, hpu, balancingTreeRot, Tree.parent, Tree.color, Tree.left, Tree.right, Heap.read, hx,
      hxp, hp, hpc, hpp, hg, hside, hu, hnu, huc, bind_ok, pure_eq_ok, Option.isNone_some,
      Option.isSome_some, Bool.false_eq_true, if_false, if_true, ne_eq, not_true_eq_false,
      and_self, Tree.setColor, Heap.modify, Heap.set_ne _ _ _ _ hup, Heap.set_ne _ _ _ _ hgu,
      Heap.set_ne _ _ _ _ hgp]

/-! ## `insert` and the red-black invariants -/

/-- Claim C36. On a tree satisfying the order invariant and the executable
red-black checks, `insert` returns and the tree it leaves satisfies both again,
with a BLACK root.  The fixup `balancingTree`, started at a node of a well-formed
tree whose root is BLACK unless it is that node, returns after at most two
rotations in all (the counting version `balancingTreeRot` runs the same steps
and counts the calls of `rotateLeft` and `rotateRight`).  With a RED parent and
a RED uncle the fixup sets parent and uncle BLACK, the grandparent RED, and goes
on from the grandparent. -/
theorem insert_keeps_red_black (t : Tree) (s : Shape) (k v : Int) (fuel : Nat)
    (hinv : Inv t s) (hrb : rbInvariant t = true) (hf : 2 * s.height + 4 ≤ fuel) :
    (∃ t' it s', t.insert fuel k v = .ok (t', it) ∧ Inv t' s' ∧ rbInvariant t' = true ∧
      rootBlack t' = true) ∧
    (∀ (f : Nat) (T : Tree) (c : Ctx) (L R : Shape) (x : Nat),
      Lay T.heap (c.plug (.node L x R)) none → T.root_ = (c.plug (.node L x R)).root →
      (c.plug (.node L x R)).addrs.Nodup →
      (∀ r n, T.root_ = some r → r ≠ x → T.heap r = some n → n.color = .kBLACK) →
      c.depth + 2 ≤ f →
      ∃ T' r, balancingTreeRot f T (some x) = .ok (T', r) ∧
        balancingTree f T (some x) = .ok T' ∧ r ≤ 2) ∧
    (∀ (f : Nat) (T : Tree) (x p g u : Nat) (nx np ng nu : Node),
      T.heap x = some nx → nx.parent = some p → T.heap p = some np → np.color = .kRED →
      np.parent = some g → T.heap g = some ng →
      (if some p = ng.left then ng.right else ng.left) = some u →
      T.heap u = some nu → nu.color = .kRED → p ≠ u → p ≠ g → u ≠ g →
      balancingTree (f + 1) T (some x) =
        balancingTree f
          { T with heap := ((T.heap.set p (some { np with color := .kBLACK })).set u
            (some { nu with color := .kBLACK })).set g (some { ng with color := .kRED }) }
          (some g)) := by
  refine ⟨?_, ?_, ?_⟩
  · by_cases hdup : t.type_ = .kUNIQUE ∧ k ∈ s.addrs.map t.heap.key
    · exact ⟨t, _, s,
        insert_dup t s k v fuel hinv.shaped hinv.sorted hdup.1 hdup.2 (by omega), hinv, hrb,
        hinv.black⟩
    · obtain ⟨t', s', i, hins, hinv', -, -, -, -, -, -, -, -, hkeep⟩ :=
        insert_fresh_rb t s k v fuel hinv (fun hu hk => hdup ⟨hu, hk⟩) hf
      exact ⟨t', _, s', hins, hinv',
        (rbInvariant_iff hinv'.shaped).2
          ⟨hinv'.black, hkeep ((rbInvariant_iff hinv.shaped).1 hrb).2⟩,
        hinv'.black⟩
  · intro f T c L R x hlay hroot hnd hblack hfuel
    obtain ⟨T', s', r, hbal, hr, -⟩ :=
      balancingTreeRot_spec f T c L R x hlay hroot hnd hblack hfuel
    refine ⟨T', r, hbal, ?_, hr⟩
    have := balancingTreeRot_fst f T (some x)
    rw [hbal] at this
    exact this.symm
  · intro f T x p g u nx np ng nu hx hxp hp hpc hpp hg hu hnu huc hpu hpg hug
    rw [← balancingTreeRot_fst, ← balancingTreeRot_fst,
      balancingTreeRot_red_uncle f T x p g u nx np ng nu hx hxp hp hpc hpp hg hu hnu huc hpu
        hpg hug]

set_option maxRecDepth 100000 in
/-- Instance of C36: `insert` of (2, 20) into the tree holding (1, 10). -/
theorem insert_keeps_red_black_witness :
    rbInvariant singletonTree = true ∧
      ∃ t' it s', singletonTree.insert 6 2 20 = .ok (t', it) ∧ Inv t' s' ∧
        rbInvariant t' = true ∧ rootBlack t' = true :=
  ⟨by decide,
    (insert_keeps_red_black singletonTree singletonShape 2 20 6 singletonTree_inv (by decide)
      (by decide)).1⟩

/-! ## The record of the calls of the double-black fixup -/

theorem map_fst_pair {α β : Type} (x : Except Fault α) (e : β) :
    Prod.fst <$> (do let t ← x; pure (t, e)) = x := by
  cases x with
  | error _ => rfl
  | ok _ => rfl

theorem map_fst_cons {α β : Type} (x : Except Fault (α × List β)) (e : β) :
    Prod.fst <$> (do let (t, tr) ← x; pure (t, e :: tr)) = Prod.fst <$> x := by
  cases x with
  | error _ => rfl
  | ok _ => rfl

/-- Dropping the record of `fixDoubleBlackTr` gives `fixDoubleBlack`. -/
theorem fixDoubleBlackTr_fst (fuel : Nat) (t : Tree) (node : Ptr) :
    Prod.fst <$> fixDoubleBlackTr fuel t node = fixDoubleBlack fuel t node := by
  induction fuel generalizing t node with
  | zero => rfl
  | succ n ih =>
    rw [fixDoubleBlackTr, fixDoubleBlack]
    repeat' first
      | rfl
      | exact map_fst_pair _ _
      | (rw [← ih]; exact map_fst_cons _ _)
      | refine map_ite_congr ?_ ?_
      | refine map_bind_congr fun _ => ?_
      | dsimp only

/-! ## Steps of the double-black fixup on a laid-out tree -/

theorem bind_returns {α β γ : Type} {x : Except Fault α} {f : α → Except Fault (β × γ)}
    {tr : γ} (h : ∃ a, x = .ok a ∧ ∃ T, f a = .ok (T, tr)) :
    ∃ T, (x >>= f) = .ok (T, tr) := by
  obtain ⟨a, ha, T, hT⟩ := h
  exact ⟨T, by rw [ha]; exact hT⟩

theorem rotated_left_addrs (c : Ctx) (A B C : Shape) (x y : Nat) :
    (c.plug (.node (.node A x B) y C)).addrs = (c.plug (.node A x (.node B y C))).addrs := by
  simp [plug_addrs, Shape.addrs]

theorem rotateLeft_returns {Q : Tree → Prop} (t : Tree) (c : Ctx) (A B C : Shape) (x y : Nat)
    (hlay : Lay t.heap (c.plug (.node A x (.node B y C))) none)
    (hroot : t.root_ = (c.plug (.node A x (.node B y C))).root)
    (hnd : (c.plug (.node A x (.node B y C))).addrs.Nodup)
    (k : ∀ t', Lay t'.heap (c.plug (.node (.node A x B) y C)) none →
      t'.root_ = (c.plug (.node (.node A x B) y C)).root →
      (c.plug (.node (.node A x B) y C)).addrs.Nodup → SameData t t' → Q t') :
    ∃ a, rotateLeft t (some x) = .ok a ∧ Q a := by
  obtain ⟨t', h1, h2, h3, h4, -⟩ := rotateLeft_shape t c A B C x y hlay hroot hnd
  exact ⟨t', h1, k t' h2 h3 (by rw [rotated_left_addrs]; exact hnd) h4⟩

theorem rotateRight_returns {Q : Tree → Prop} (t : Tree) (c : Ctx) (A B C : Shape) (x y : Nat)
    (hlay : Lay t.heap (c.plug (.node (.node A y B) x C)) none)
    (hroot : t.root_ = (c.plug (.node (.node A y B) x C)).root)
    (hnd : (c.plug (.node (.node A y B) x C)).addrs.Nodup)
    (k : ∀ t', Lay t'.heap (c.plug (.node A y (.node B x C))) none →
      t'.root_ = (c.plug (.node A y (.node B x C))).root →
      (c.plug (.node A y (.node B x C))).addrs.Nodup → SameData t t' → Q t') :
    ∃ a, rotateRight t (some x) = .ok a ∧ Q a := by
  obtain ⟨t', h1, h2, h3, h4, -⟩ := rotateRight_shape t c A B C x y hlay hroot hnd
  exact ⟨t', h1, k t' h2 h3 (by rw [← rotated_left_addrs]; exact hnd) h4⟩

/-- A node below the top of the tree is not the root. -/
theorem not_root_of_child (t : Tree) (c : Ctx) (X : Shape) (x p : Nat)
    (hroot : t.root_ = (c.plug X).root) (hX : X.root = some p)
    (hnd : (c.plug X).addrs.Nodup) (hx : x ∈ X.addrs) (hxp : x ≠ p) : some x ≠ t.root_ := by
  rw [hroot, plug_root, hX]
  rcases rootOf_cases c (some p) with h | ⟨q, hq, hm⟩
  · rw [h]
    exact fun e => hxp (Option.some.inj e)
  · rw [hq]
    intro e
    have e2 : x = q := Option.some.inj e
    subst e2
    rw [plug_addrs] at hnd
    exact (nodup_mid hnd).2.2 x hx hm

theorem hasColor_none (t : Tree) (c : Colors) : hasColor t none c = .ok false := rfl

theorem hasColor_some (t : Tree) (a : Nat) (n : Node) (c : Colors) (h : t.heap a = some n) :
    hasColor t (some a) c = .ok (decide (n.color = c)) := by
  simp [hasColor, Tree.color, Heap.read, h]

/-- A call of the fixup on a left child whose brother is not RED: either it is
the last call, or parent, brother and both children of the brother are BLACK,
the brother is made RED and the call goes on with the parent. -/
theorem fixDoubleBlackTr_black_left (f : Nat) (t : Tree) (c : Ctx) (L R Sn Sf : Shape)
    (x p b : Nat)
    (hlay : Lay t.heap (c.plug (.node (.node L x R) p (.node Sn b Sf))) none)
    (hroot : t.root_ = (c.plug (.node (.node L x R) p (.node Sn b Sf))).root)
    (hnd : (c.plug (.node (.node L x R) p (.node Sn b Sf))).addrs.Nodup)
    (hbc : t.heap.color b ≠ .kRED) :
    (∃ T, fixDoubleBlackTr (f + 1) t (some x) = .ok (T, [(some x, some .kBLACK)])) ∨
    (t.heap.color p = .kBLACK ∧ ∃ nb, t.heap b = some nb ∧
      fixDoubleBlackTr (f + 1) t (some x) = (do
        let (T, tr) ← fixDoubleBlackTr f
          { t with heap := t.heap.set b (some { nb with color := .kRED }) } (some p)
        pure (T, (some x, some .kBLACK) :: tr))) := by
  have hlay0 := hlay
  rw [repr_plug] at hlay
  obtain ⟨hc, np, hp, hpp, hpx, hpb, hX, hS⟩ := hlay
  obtain ⟨nx, hx, hxp, hxl, hxr, hL, hR⟩ := hX
  obtain ⟨nb, hb, hbp, hbn, hbf, hSn, hSf⟩ := hS
  have hnd0 := hnd
  rw [plug_addrs] at hnd
  simp only [Shape.addrs] at hnd
  have hxp' : x ≠ p := fun e => by
    subst e
    exact absurd (List.nodup_iff_count_le_one.1 hnd x) (by
      simp only [List.count_append, List.count_cons, beq_self_eq_true, if_true]; omega)
  have hxb : x ≠ b := fun e => by
    subst e
    exact absurd (List.nodup_iff_count_le_one.1 hnd x) (by
      simp only [List.count_append, List.count_cons, beq_self_eq_true, if_true]; omega)
  have hpb' : p ≠ b := fun e => by
    subst e
    exact absurd (List.nodup_iff_count_le_one.1 hnd p) (by
      simp only [List.count_append, List.count_cons, beq_self_eq_true, if_true]; omega)
  have hnr : some x ≠ t.root_ :=
    not_root_of_child t c _ x p hroot rfl hnd0 (by simp [Shape.addrs]) hxp'
  have hbcol : nb.color = .kBLACK := by
    rw [color_of_cell hb] at hbc
    exact color_not_red hbc
  simp only [Shape.root] at hpx hpb
  have hxb2 : ¬ b = x := fun e => hxb e.symm
  have hBR : ¬ Colors.kBLACK = Colors.kRED := by decide
  have hRB : ¬ Colors.kRED = Colors.kBLACK := by decide
  have hpne : ∀ (T : Tree), (T.heap p).isSome = true →
      ∃ T', (do let t ← T.setColor (some p) .kBLACK; pure (t, [(some x, some Colors.kBLACK)]) :
        Except Fault (Tree × List (Ptr × Option Colors))) = .ok (T', [(some x, some .kBLACK)]) := by
    intro T hT
    obtain ⟨m, hm⟩ := Option.isSome_iff_exists.1 hT
    exact ⟨_, by simp only [Tree.setColor, Heap.modify, hm, bind_ok, pure_eq_ok] <;> rfl⟩
  cases Sn with
  | nil =>
    simp only [Shape.root] at hbn
    cases Sf with
    | nil =>
      simp only [Shape.root] at hbf
      left
      exact ⟨_, by
        simp only [fixDoubleBlackTr, hnr, if_false, Tree.parent, Tree.left, Tree.right, Tree.color,
        Tree.setColor, Heap.modify, brotherOf, Heap.read, hx, hxp, hp, hpx, hpb, hb, hbn, hbf,
        bind_ok, pure_eq_ok, if_true, hasColor_none, Bool.false_eq_true, false_and, and_false,
        hxb2, hBR, hRB, Heap.set_same, Option.some.injEq, decide_eq_true_eq, decide_True,
        decide_False, and_self, and_true, true_and, ite_true, ite_false, hbcol] <;> rfl⟩
    | node Sfl fr Sfr =>
      simp only [Shape.root] at hbf
      obtain ⟨nfr, hfr, -, -, -, -, -⟩ := hSf
      simp only [Shape.addrs] at hnd
      have hfrb : fr ≠ b := fun e => by
        subst e
        exact absurd (List.nodup_iff_count_le_one.1 hnd fr) (by
          simp only [List.count_append, List.count_cons, beq_self_eq_true, if_true]; omega)
      rcases hfc : nfr.color with _ | _
      ·
        left
        simp only [fixDoubleBlackTr, hnr, if_false, Tree.parent, Tree.left, Tree.right, Tree.color,
          Tree.setColor, Heap.modify, brotherOf, Heap.read, hx, hxp, hp, hpx, hpb, hb, hbn, hbf,
          bind_ok, pure_eq_ok, if_true, hasColor_none, Bool.false_eq_true, false_and, and_false,
          hxb2, hBR, hRB, Heap.set_same, Option.some.injEq, decide_eq_true_eq, decide_True,
          decide_False, and_self, and_true, true_and, ite_true, ite_false, hbcol, hfr, hasColor_some t fr nfr _ hfr, hfc,
          Heap.set_ne _ _ _ _ hfrb]
        refine bind_returns (rotateLeft_returns _ c (.node L x R) .nil (.node Sfl fr Sfr) p b ?_ ?_ hnd0 ?_)
        · exact (Lay.congr _ _ (fun a _ => by
          simp only [Heap.set]
          split_ifs <;> simp_all [Node.links]) hlay0)
        · exact hroot
        · intro t' hl _ _ _
          exact hpne t' (hl.live p (by simp [plug_addrs, Shape.addrs]))
      ·
        left
        exact ⟨_, by
          simp only [fixDoubleBlackTr, hnr, if_false, Tree.parent, Tree.left, Tree.right, Tree.color,
          Tree.setColor, Heap.modify, brotherOf, Heap.read, hx, hxp, hp, hpx, hpb, hb, hbn, hbf,
          bind_ok, pure_eq_ok, if_true, hasColor_none, Bool.false_eq_true, false_and, and_false,
          hxb2, hBR, hRB, Heap.set_same, Option.some.injEq, decide_eq_true_eq, decide_True,
          decide_False, and_self, and_true, true_and, ite_true, ite_false, hbcol, hfr, hasColor_some t fr nfr _ hfr, hfc] <;> rfl⟩
  | node Sa n Sb =>
    simp only [Shape.root] at hbn
    obtain ⟨nn, hn, -, -, -, -, -⟩ := hSn
    cases Sf with
    | nil =>
      simp only [Shape.root] at hbf
      rcases hnc : nn.color with _ | _
      ·
        left
        simp only [fixDoubleBlackTr, hnr, if_false, Tree.parent, Tree.left, Tree.right, Tree.color,
          Tree.setColor, Heap.modify, brotherOf, Heap.read, hx, hxp, hp, hpx, hpb, hb, hbn, hbf,
          bind_ok, pure_eq_ok, if_true, hasColor_none, Bool.false_eq_true, false_and, and_false,
          hxb2, hBR, hRB, Heap.set_same, Option.some.injEq, decide_eq_true_eq, decide_True,
          decide_False, and_self, and_true, true_and, ite_true, ite_false, hbcol, hn, hasColor_some t n nn _ hn, hnc]
        refine bind_returns (rotateRight_returns _ (.right c (.node L x R) p) Sa Sb .nil b n ?_ ?_ hnd0 ?_)
        · exact (Lay.congr _ _ (fun a _ => by
          simp only [Heap.set]
          split_ifs <;> simp_all [Node.links]) hlay0)
        · exact hroot
        · intro t' hl hr hnd' _
          refine bind_returns (rotateLeft_returns _ c (.node L x R) Sa (.node Sb b .nil) p n hl hr hnd' ?_)
          intro t'' hl2 _ _ _
          exact hpne t'' (hl2.live p (by simp [plug_addrs, Shape.addrs]))
      ·
        left
        exact ⟨_, by
          simp only [fixDoubleBlackTr, hnr, if_false, Tree.parent, Tree.left, Tree.right, Tree.color,
          Tree.setColor, Heap.modify, brotherOf, Heap.read, hx, hxp, hp, hpx, hpb, hb, hbn, hbf,
          bind_ok, pure_eq_ok, if_true, hasColor_none, Bool.false_eq_true, false_and, and_false,
          hxb2, hBR, hRB, Heap.set_same, Option.some.injEq, decide_eq_true_eq, decide_True,
          decide_False, and_self, and_true, true_and, ite_true, ite_false, hbcol, hn, hasColor_some t n nn _ hn, hnc] <;> rfl⟩
    | node Sfl fr Sfr =>
      simp only [Shape.root] at hbf
      obtain ⟨nfr, hfr, -, -, -, -, -⟩ := hSf
      simp only [Shape.addrs] at hnd
      have hfrb : fr ≠ b := fun e => by
        subst e
        exact absurd (List.nodup_iff_count_le_one.1 hnd fr) (by
          simp only [List.count_append, List.count_cons, beq_self_eq_true, if_true]; omega)
      rcases hfc : nfr.color with _ | _
      · rcases hnc : nn.color with _ | _
        ·
          left
          simp only [fixDoubleBlackTr, hnr, if_false, Tree.parent, Tree.left, Tree.right, Tree.color,
            Tree.setColor, Heap.modify, brotherOf, Heap.read, hx, hxp, hp, hpx, hpb, hb, hbn, hbf,
            bind_ok, pure_eq_ok, if_true, hasColor_none, Bool.false_eq_true, false_and, and_false,
            hxb2, hBR, hRB, Heap.set_same, Option.some.injEq, decide_eq_true_eq, decide_True,
            decide_False, and_self, and_true, true_and, ite_true, ite_false, hbcol, hfr, hasColor_some t fr nfr _ hfr, hfc, hn, hasColor_some t n nn _ hn, hnc,
            Heap.set_ne _ _ _ _ hfrb]
          refine bind_returns (rotateLeft_returns _ c (.node L x R) (.node Sa n Sb) (.node Sfl fr Sfr) p b ?_ ?_ hnd0 ?_)
          · exact (Lay.congr _ _ (fun a _ => by
            simp only [Heap.set]
            split_ifs <;> simp_all [Node.links]) hlay0)
          · exact hroot
          · intro t' hl _ _ _
            exact hpne t' (hl.live p (by simp [plug_addrs, Shape.addrs]))
        ·
          left
          simp only [fixDoubleBlackTr, hnr, if_false, Tree.parent, Tree.left, Tree.right, Tree.color,
            Tree.setColor, Heap.modify, brotherOf, Heap.read, hx, hxp, hp, hpx, hpb, hb, hbn, hbf,
            bind_ok, pure_eq_ok, if_true, hasColor_none, Bool.false_eq_true, false_and, and_false,
            hxb2, hBR, hRB, Heap.set_same, Option.some.injEq, decide_eq_true_eq, decide_True,
            decide_False, and_self, and_true, true_and, ite_true, ite_false, hbcol, hfr, hasColor_some t fr nfr _ hfr, hfc, hn, hasColor_some t n nn _ hn, hnc,
            Heap.set_ne _ _ _ _ hfrb]
          refine bind_returns (rotateLeft_returns _ c (.node L x R) (.node Sa n Sb) (.node Sfl fr Sfr) p b ?_ ?_ hnd0 ?_)
          · exact (Lay.congr _ _ (fun a _ => by
            simp only [Heap.set]
            split_ifs <;> simp_all [Node.links]) hlay0)
          · exact hroot
          · intro t' hl _ _ _
            exact hpne t' (hl.live p (by simp [plug_addrs, Shape.addrs]))
      · rcases hnc : nn.color with _ | _
        ·
          left
          simp only [fixDoubleBlackTr, hnr, if_false, Tree.parent, Tree.left, Tree.right, Tree.color,
            Tree.setColor, Heap.modify, brotherOf, Heap.read, hx, hxp, hp, hpx, hpb, hb, hbn, hbf,
            bind_ok, pure_eq_ok, if_true, hasColor_none, Bool.false_eq_true, false_and, and_false,
            hxb2, hBR, hRB, Heap.set_same, Option.some.injEq, decide_eq_true_eq, decide_True,
            decide_False, and_self, and_true, true_and, ite_true, ite_false, hbcol, hfr, hasColor_some t fr nfr _ hfr, hfc, hn, hasColor_some t n nn _ hn, hnc]
          refine bind_returns (rotateRight_returns _ (.right c (.node L x R) p) Sa Sb (.node Sfl fr Sfr) b n ?_ ?_ hnd0 ?_)
          · exact (Lay.congr _ _ (fun a _ => by
            simp only [Heap.set]
            split_ifs <;> simp_all [Node.links]) hlay0)
          · exact hroot
          · intro t' hl hr hnd' _
            refine bind_returns (rotateLeft_returns _ c (.node L x R) Sa (.node Sb b (.node Sfl fr Sfr)) p n hl hr hnd' ?_)
            intro t'' hl2 _ _ _
            exact hpne t'' (hl2.live p (by simp [plug_addrs, Shape.addrs]))
        ·
          rcases hpc : np.color with _ | _
          · left
            exact ⟨_, by
              simp only [fixDoubleBlackTr, hnr, if_false, Tree.parent, Tree.left, Tree.right, Tree.color,
            Tree.setColor, Heap.modify, brotherOf, Heap.read, hx, hxp, hp, hpx, hpb, hb, hbn, hbf,
            bind_ok, pure_eq_ok, if_true, hasColor_none, Bool.false_eq_true, false_and, and_false,
            hxb2, hBR, hRB, Heap.set_same, Option.some.injEq, decide_eq_true_eq, decide_True,
            decide_False, and_self, and_true, true_and, ite_true, ite_false, hbcol, hfr, hasColor_some t fr nfr _ hfr, hfc, hn, hasColor_some t n nn _ hn, hnc,
                Heap.set_ne _ _ _ _ hpb', hpc] <;> rfl⟩
          · right
            refine ⟨by rw [color_of_cell hp]; exact hpc, nb, hb, ?_⟩
            simp only [fixDoubleBlackTr, hnr, if_false, Tree.parent, Tree.left, Tree.right, Tree.color,
            Tree.setColor, Heap.modify, brotherOf, Heap.read, hx, hxp, hp, hpx, hpb, hb, hbn, hbf,
            bind_ok, pure_eq_ok, if_true, hasColor_none, Bool.false_eq_true, false_and, and_false,
            hxb2, hBR, hRB, Heap.set_same, Option.some.injEq, decide_eq_true_eq, decide_True,
            decide_False, and_self, and_true, true_and, ite_true, ite_false, hbcol, hfr, hasColor_some t fr nfr _ hfr, hfc, hn, hasColor_some t n nn _ hn, hnc,
              Heap.set_ne _ _ _ _ hpb', hpc]

/-- A call of the fixup on a right child whose brother is not RED: either it is
the last call, or parent, brother and both children of the brother are BLACK,
the brother is made RED and the call goes on with the parent. -/
theorem fixDoubleBlackTr_black_right (f : Nat) (t : Tree) (c : Ctx) (L R Sn Sf : Shape)
    (x p b : Nat)
    (hlay : Lay t.heap (c.plug (.node (.node Sf b Sn) p (.node L x R))) none)
    (hroot : t.root_ = (c.plug (.node (.node Sf b Sn) p (.node L x R))).root)
    (hnd : (c.plug (.node (.node Sf b Sn) p (.node L x R))).addrs.Nodup)
    (hbc : t.heap.color b ≠ .kRED) :
    (∃ T, fixDoubleBlackTr (f + 1) t (some x) = .ok (T, [(some x, some .kBLACK)])) ∨
    (t.heap.color p = .kBLACK ∧ ∃ nb, t.heap b = some nb ∧
      fixDoubleBlackTr (f + 1) t (some x) = (do
        let (T, tr) ← fixDoubleBlackTr f
          { t with heap := t.heap.set b (some { nb with color := .kRED }) } (some p)
        pure (T, (some x, some .kBLACK) :: tr))) := by
  have hlay0 := hlay
  rw [repr_plug] at hlay
  obtain ⟨hc, np, hp, hpp, hpb, hpx, hS, hX⟩ := hlay
  obtain ⟨nx, hx, hxp, hxl, hxr, hL, hR⟩ := hX
  obtain ⟨nb, hb, hbp, hbf, hbn, hSf, hSn⟩ := hS
  have hnd0 := hnd
  rw [plug_addrs] at hnd
  simp only [Shape.addrs] at hnd
  have hxp' : x ≠ p := fun e => by
    subst e
    exact absurd (List.nodup_iff_count_le_one.1 hnd x) (by
      simp only [List.count_append, List.count_cons, beq_self_eq_true, if_true]; omega)
  have hxb : x ≠ b := fun e => by
    subst e
    exact absurd (List.nodup_iff_count_le_one.1 hnd x) (by
      simp only [List.count_append, List.count_cons, beq_self_eq_true, if_true]; omega)
  have hpb' : p ≠ b := fun e => by
    subst e
    exact absurd (List.nodup_iff_count_le_one.1 hnd p) (by
      simp only [List.count_append, List.count_cons, beq_self_eq_true, if_true]; omega)
  have hnr : some x ≠ t.root_ :=
    not_root_of_child t c _ x p hroot rfl hnd0 (by simp [Shape.addrs]) hxp'
  have hbcol : nb.color = .kBLACK := by
    rw [color_of_cell hb] at hbc
    exact color_not_red hbc
  simp only [Shape.root] at hpx hpb
  have hxb2 : ¬ b = x := fun e => hxb e.symm
  have hBR : ¬ Colors.kBLACK = Colors.kRED := by decide
  have hRB : ¬ Colors.kRED = Colors.kBLACK := by decide
  have hpne : ∀ (T : Tree), (T.heap p).isSome = true →
      ∃ T', (do let t ← T.setColor (some p) .kBLACK; pure (t, [(some x, some Colors.kBLACK)]) :
        Except Fault (Tree × List (Ptr × Option Colors))) = .ok (T', [(some x, some .kBLACK)]) := by
    intro T hT
    obtain ⟨m, hm⟩ := Option.isSome_iff_exists.1 hT
    exact ⟨_, by simp only [Tree.setColor, Heap.modify, hm, bind_ok, pure_eq_ok] <;> rfl⟩
  cases Sn with
  | nil =>
    simp only [Shape.root] at hbn
    cases Sf with
    | nil =>
      simp only [Shape.root] at hbf
      left
      exact ⟨_, by
        simp only [fixDoubleBlackTr, hnr, if_false, Tree.parent, Tree.left, Tree.right, Tree.color,
        Tree.setColor, Heap.modify, brotherOf, Heap.read, hx, hxp, hp, hpx, hpb, hb, hbn, hbf,
        bind_ok, pure_eq_ok, if_true, hasColor_none, Bool.false_eq_true, false_and, and_false,
        hxb2, hBR, hRB, Heap.set_same, Option.some.injEq, decide_eq_true_eq, decide_True,
        decide_False, and_self, and_true, true_and, ite_true, ite_false, hbcol] <;> rfl⟩
    | node Sfl fr Sfr =>
      simp only [Shape.root] at hbf
      obtain ⟨nfr, hfr, -, -, -, -, -⟩ := hSf
      simp only [Shape.addrs] at hnd
      have hfrb : fr ≠ b := fun e => by
        subst e
        exact absurd (List.nodup_iff_count_le_one.1 hnd fr) (by
          simp only [List.count_append, List.count_cons, beq_self_eq_true, if_true]; omega)
      rcases hfc : nfr.color with _ | _
      ·
        left
        simp only [fixDoubleBlackTr, hnr, if_false, Tree.parent, Tree.left, Tree.right, Tree.color,
          Tree.setColor, Heap.modify, brotherOf, Heap.read, hx, hxp, hp, hpx, hpb, hb, hbn, hbf,
          bind_ok, pure_eq_ok, if_true, hasColor_none, Bool.false_eq_true, false_and, and_false,
          hxb2, hBR, hRB, Heap.set_same, Option.some.injEq, decide_eq_true_eq, decide_True,
          decide_False, and_self, and_true, true_and, ite_true, ite_false, hbcol, hfr, hasColor_some t fr nfr _ hfr, hfc,
          Heap.set_ne _ _ _ _ hfrb]
        refine bind_returns (rotateRight_returns _ c (.node Sfl fr Sfr) .nil (.node L x R) p b ?_ ?_ hnd0 ?_)
        · exact (Lay.congr _ _ (fun a _ => by
          simp only [Heap.set]
          split_ifs <;> simp_all [Node.links]) hlay0)
        · exact hroot
        · intro t' hl _ _ _
          exact hpne t' (hl.live p (by simp [plug_addrs, Shape.addrs]))
      ·
        left
        exact ⟨_, by
          simp only [fixDoubleBlackTr, hnr, if_false, Tree.parent, Tree.left, Tree.right, Tree.color,
          Tree.setColor, Heap.modify, brotherOf, Heap.read, hx, hxp, hp, hpx, hpb, hb, hbn, hbf,
          bind_ok, pure_eq_ok, if_true, hasColor_none, Bool.false_eq_true, false_and, and_false,
          hxb2, hBR, hRB, Heap.set_same, Option.some.injEq, decide_eq_true_eq, decide_True,
          decide_False, and_self, and_true, true_and, ite_true, ite_false, hbcol, hfr, hasColor_some t fr nfr _ hfr, hfc] <;> rfl⟩
  | node Sb n Sa =>
    simp only [Shape.root] at hbn
    obtain ⟨nn, hn, -, -, -, -, -⟩ := hSn
    cases Sf with
    | nil =>
      simp only [Shape.root] at hbf
      rcases hnc : nn.color with _ | _
      ·
        left
        simp only [fixDoubleBlackTr, hnr, if_false, Tree.parent, Tree.left, Tree.right, Tree.color,
          Tree.setColor, Heap.modify, brotherOf, Heap.read, hx, hxp, hp, hpx, hpb, hb, hbn, hbf,
          bind_ok, pure_eq_ok, if_true, hasColor_none, Bool.false_eq_true, false_and, and_false,
          hxb2, hBR, hRB, Heap.set_same, Option.some.injEq, decide_eq_true_eq, decide_True,
          decide_False, and_self, and_true, true_and, ite_true, ite_false, hbcol, hn, hasColor_some t n nn _ hn, hnc]
        refine bind_returns (rotateLeft_returns _ (.left c p (.node L x R)) .nil Sb Sa b n ?_ ?_ hnd0 ?_)
        · exact (Lay.congr _ _ (fun a _ => by
          simp only [Heap.set]
          split_ifs <;> simp_all [Node.links]) hlay0)
        · exact hroot
        · intro t' hl hr hnd' _
          refine bind_returns (rotateRight_returns _ c (.node .nil b Sb) Sa (.node L x R) p n hl hr hnd' ?_)
          intro t'' hl2 _ _ _
          exact hpne t'' (hl2.live p (by simp [plug_addrs, Shape.addrs]))
      ·
        left
        exact ⟨_, by
          simp only [fixDoubleBlackTr, hnr, if_false, Tree.parent, Tree.left, Tree.right, Tree.color,
          Tree.setColor, Heap.modify, brotherOf, Heap.read, hx, hxp, hp, hpx, hpb, hb, hbn, hbf,
          bind_ok, pure_eq_ok, if_true, hasColor_none, Bool.false_eq_true, false_and, and_false,
          hxb2, hBR, hRB, Heap.set_same, Option.some.injEq, decide_eq_true_eq, decide_True,
          decide_False, and_self, and_true, true_and, ite_true, ite_false, hbcol, hn, hasColor_some t n nn _ hn, hnc] <;> rfl⟩
    | node Sfl fr Sfr =>
      simp only [Shape.root] at hbf
      obtain ⟨nfr, hfr, -, -, -, -, -⟩ := hSf
      simp only [Shape.addrs] at hnd
      have hfrb : fr ≠ b := fun e => by
        subst e
        exact absurd (List.nodup_iff_count_le_one.1 hnd fr) (by
          simp only [List.count_append, List.count_cons, beq_self_eq_true, if_true]; omega)
      rcases hfc : nfr.color with _ | _
      · rcases hnc : nn.color with _ | _
        ·
          left
          simp only [fixDoubleBlackTr, hnr, if_false, Tree.parent, Tree.left, Tree.right, Tree.color,
            Tree.setColor, Heap.modify, brotherOf, Heap.read, hx, hxp, hp, hpx, hpb, hb, hbn, hbf,
            bind_ok, pure_eq_ok, if_true, hasColor_none, Bool.false_eq_true, false_and, and_false,
            hxb2, hBR, hRB, Heap.set_same, Option.some.injEq, decide_eq_true_eq, decide_True,
            decide_False, and_self, and_true, true_and, ite_true, ite_false, hbcol, hfr, hasColor_some t fr nfr _ hfr, hfc, hn, hasColor_some t n nn _ hn, hnc,
            Heap.set_ne _ _ _ _ hfrb]
          refine bind_returns (rotateRight_returns _ c (.node Sfl fr Sfr) (.node Sb n Sa) (.node L x R) p b ?_ ?_ hnd0 ?_)
          · exact (Lay.congr _ _ (fun a _ => by
            simp only [Heap.set]
            split_ifs <;> simp_all [Node.links]) hlay0)
          · exact hroot
          · intro t' hl _ _ _
            exact hpne t' (hl.live p (by simp [plug_addrs, Shape.addrs]))
        ·
          left
          simp only [fixDoubleBlackTr, hnr, if_false, Tree.parent, Tree.left, Tree.right, Tree.color,
            Tree.setColor, Heap.modify, brotherOf, Heap.read, hx, hxp, hp, hpx, hpb, hb, hbn, hbf,
            bind_ok, pure_eq_ok, if_true, hasColor_none, Bool.false_eq_true, false_and, and_false,
            hxb2, hBR, hRB, Heap.set_same, Option.some.injEq, decide_eq_true_eq, decide_True,
            decide_False, and_self, and_true, true_and, ite_true, ite_false, hbcol, hfr, hasColor_some t fr nfr _ hfr, hfc, hn, hasColor_some t n nn _ hn, hnc,
            Heap.set_ne _ _ _ _ hfrb]
          refine bind_returns (rotateRight_returns _ c (.node Sfl fr Sfr) (.node Sb n Sa) (.node L x R) p b ?_ ?_ hnd0 ?_)
          · exact (Lay.congr _ _ (fun a _ => by
            simp only [Heap.set]
            split_ifs <;> simp_all [Node.links]) hlay0)
          · exact hroot
          · intro t' hl _ _ _
            exact hpne t' (hl.live p (by simp [plug_addrs, Shape.addrs]))
      · rcases hnc : nn.color with _ | _
        ·
          left
          simp only [fixDoubleBlackTr, hnr, if_false, Tree.parent, Tree.left, Tree.right, Tree.color,
            Tree.setColor, Heap.modify, brotherOf, Heap.read, hx, hxp, hp, hpx, hpb, hb, hbn, hbf,
            bind_ok, pure_eq_ok, if_true, hasColor_none, Bool.false_eq_true, false_and, and_false,
            hxb2, hBR, hRB, Heap.set_same, Option.some.injEq, decide_eq_true_eq, decide_True,
            decide_False, and_self, and_true, true_and, ite_true, ite_false, hbcol, hfr, hasColor_some t fr nfr _ hfr, hfc, hn, hasColor_some t n nn _ hn, hnc]
          refine bind_returns (rotateLeft_returns _ (.left c p (.node L x R)) (.node Sfl fr Sfr) Sb Sa b n ?_ ?_ hnd0 ?_)
          · exact (Lay.congr _ _ (fun a _ => by
            simp only [Heap.set]
            split_ifs <;> simp_all [Node.links]) hlay0)
          · exact hroot
          · intro t' hl hr hnd' _
            refine bind_returns (rotateRight_returns _ c (.node (.node Sfl fr Sfr) b Sb) Sa (.node L x R) p n hl hr hnd' ?_)
            intro t'' hl2 _ _ _
            exact hpne t'' (hl2.live p (by simp [plug_addrs, Shape.addrs]))
        ·
          rcases hpc : np.color with _ | _
          · left
            exact ⟨_, by
              simp only [fixDoubleBlackTr, hnr, if_false, Tree.parent, Tree.left, Tree.right, Tree.color,
            Tree.setColor, Heap.modify, brotherOf, Heap.read, hx, hxp, hp, hpx, hpb, hb, hbn, hbf,
            bind_ok, pure_eq_ok, if_true, hasColor_none, Bool.false_eq_true, false_and, and_false,
            hxb2, hBR, hRB, Heap.set_same, Option.some.injEq, decide_eq_true_eq, decide_True,
            decide_False, and_self, and_true, true_and, ite_true, ite_false, hbcol, hfr, hasColor_some t fr nfr _ hfr, hfc, hn, hasColor_some t n nn _ hn, hnc,
                Heap.set_ne _ _ _ _ hpb', hpc] <;> rfl⟩
          · right
            refine ⟨by rw [color_of_cell hp]; exact hpc, nb, hb, ?_⟩
            simp only [fixDoubleBlackTr, hnr, if_false, Tree.parent, Tree.left, Tree.right, Tree.color,
            Tree.setColor, Heap.modify, brotherOf, Heap.read, hx, hxp, hp, hpx, hpb, hb, hbn, hbf,
            bind_ok, pure_eq_ok, if_true, hasColor_none, Bool.false_eq_true, false_and, and_false,
            hxb2, hBR, hRB, Heap.set_same, Option.some.injEq, decide_eq_true_eq, decide_True,
            decide_False, and_self, and_true, true_and, ite_true, ite_false, hbcol, hfr, hasColor_some t fr nfr _ hfr, hfc, hn, hasColor_some t n nn _ hn, hnc,
              Heap.set_ne _ _ _ _ hpb', hpc]

/-- A call of the fixup on a left child whose brother is RED, the child of the
brother next to the node not being RED: parent and brother are recoloured, the
parent is rotated, one more call is made on the same node, which reads a BLACK
brother, and that call is the last one. -/
theorem fixDoubleBlackTr_red_left (g : Nat) (t : Tree) (c : Ctx) (L R Sa Sb Sf : Shape)
    (x p b n : Nat)
    (hlay : Lay t.heap (c.plug (.node (.node L x R) p (.node (.node Sa n Sb) b Sf))) none)
    (hroot : t.root_ = (c.plug (.node (.node L x R) p (.node (.node Sa n Sb) b Sf))).root)
    (hnd : (c.plug (.node (.node L x R) p (.node (.node Sa n Sb) b Sf))).addrs.Nodup)
    (hbc : t.heap.color b = .kRED) (hncol : t.heap.color n ≠ .kRED) (hg : 1 ≤ g) :
    ∃ T, fixDoubleBlackTr (g + 1) t (some x) =
      .ok (T, [(some x, some .kRED), (some x, some .kBLACK)]) := by
  have hlay0 := hlay
  rw [repr_plug] at hlay
  obtain ⟨hc, np, hp, hpp, hpx, hpb, hX, hS⟩ := hlay
  obtain ⟨nx, hx, hxp, hxl, hxr, hL, hR⟩ := hX
  obtain ⟨nb, hb, hbp, hbn, hbf, hSn, hSf⟩ := hS
  obtain ⟨nn, hn, -, -, -, -, -⟩ := hSn
  have hnd0 := hnd
  rw [plug_addrs] at hnd
  simp only [Shape.addrs] at hnd
  have hxp' : x ≠ p := fun e => by
    subst e
    exact absurd (List.nodup_iff_count_le_one.1 hnd x) (by
      simp only [List.count_append, List.count_cons, beq_self_eq_true, if_true]; omega)
  have hxb : x ≠ b := fun e => by
    subst e
    exact absurd (List.nodup_iff_count_le_one.1 hnd x) (by
      simp only [List.count_append, List.count_cons, beq_self_eq_true, if_true]; omega)
  have hpb' : p ≠ b := fun e => by
    subst e
    exact absurd (List.nodup_iff_count_le_one.1 hnd p) (by
      simp only [List.count_append, List.count_cons, beq_self_eq_true, if_true]; omega)
  have hbp' : b ≠ p := fun e => by
    subst e
    exact absurd (List.nodup_iff_count_le_one.1 hnd b) (by
      simp only [List.count_append, List.count_cons, beq_self_eq_true, if_true]; omega)
  have hnp' : n ≠ p := fun e => by
    subst e
    exact absurd (List.nodup_iff_count_le_one.1 hnd n) (by
      simp only [List.count_append, List.count_cons, beq_self_eq_true, if_true]; omega)
  have hnb : n ≠ b := fun e => by
    subst e
    exact absurd (List.nodup_iff_count_le_one.1 hnd n) (by
      simp only [List.count_append, List.count_cons, beq_self_eq_true, if_true]; omega)
  have hnr : some x ≠ t.root_ :=
    not_root_of_child t c _ x p hroot rfl hnd0 (by simp [Shape.addrs]) hxp'
  have hbcol : nb.color = .kRED := by
    rw [color_of_cell hb] at hbc
    exact hbc
  simp only [Shape.root] at hpx hpb
  have hxb2 : ¬ b = x := fun e => hxb e.symm
  have hBR : ¬ Colors.kBLACK = Colors.kRED := by decide
  have hRB : ¬ Colors.kRED = Colors.kBLACK := by decide
  simp only [fixDoubleBlackTr, hnr, if_false, Tree.parent, Tree.left, Tree.right, Tree.color,
  Tree.setColor, Heap.modify, brotherOf, Heap.read, hx, hxp, hp, hpx, hpb, hb, hbn, hbf,
  bind_ok, pure_eq_ok, if_true, hasColor_none, Bool.false_eq_true, false_and, and_false,
  hxb2, hBR, hRB, Heap.set_same, Option.some.injEq, decide_eq_true_eq, decide_True,
  decide_False, and_self, and_true, true_and, ite_true, ite_false, hbcol,
    Heap.set_ne _ _ _ _ hpb', Heap.set_ne _ _ _ _ hbp']
  refine bind_returns (rotateLeft_returns _ c (.node L x R) (.node Sa n Sb) Sf p b ?_ ?_ hnd0 ?_)
  · exact (Lay.congr _ _ (fun a _ => by
  simp only [Heap.set]
  split_ifs <;> simp_all [Node.links]) hlay0)
  · exact hroot
  · intro t' hl hr hnd' hsd
    have e1 : t'.heap.color n ≠ .kRED := by
      rw [color_of_map (hsd.color n)]
      simpa [Heap.color, Heap.set, hnb, hnp'] using hncol
    have e2 : t'.heap.color p = .kRED := by
      rw [color_of_map (hsd.color p)]
      simp [Heap.color, Heap.set, hpb']
    obtain ⟨f, rfl⟩ : ∃ f, g = f + 1 := ⟨g - 1, by omega⟩
    rcases fixDoubleBlackTr_black_left f t' (.left c b Sf) L R Sa Sb x p n hl hr hnd' e1 with
      ⟨T, hT⟩ | ⟨hpblack, -⟩
    · exact ⟨T, by rw [hT]; rfl⟩
    · rw [e2] at hpblack
      exact absurd hpblack (by decide)

/-- A call of the fixup on a right child whose brother is RED, the child of the
brother next to the node not being RED: parent and brother are recoloured, the
parent is rotated, one more call is made on the same node, which reads a BLACK
brother, and that call is the last one. -/
theorem fixDoubleBlackTr_red_right (g : Nat) (t : Tree) (c : Ctx) (L R Sa Sb Sf : Shape)
    (x p b n : Nat)
    (hlay : Lay t.heap (c.plug (.node (.node Sf b (.node Sb n Sa)) p (.node L x R))) none)
    (hroot : t.root_ = (c.plug (.node (.node Sf b (.node Sb n Sa)) p (.node L x R))).root)
    (hnd : (c.plug (.node (.node Sf b (.node Sb n Sa)) p (.node L x R))).addrs.Nodup)
    (hbc : t.heap.color b = .kRED) (hncol : t.heap.color n ≠ .kRED) (hg : 1 ≤ g) :
    ∃ T, fixDoubleBlackTr (g + 1) t (some x) =
      .ok (T, [(some x, some .kRED), (some x, some .kBLACK)]) := by
  have hlay0 := hlay
  rw [repr_plug] at hlay
  obtain ⟨hc, np, hp, hpp, hpb, hpx, hS, hX⟩ := hlay
  obtain ⟨nx, hx, hxp, hxl, hxr, hL, hR⟩ := hX
  obtain ⟨nb, hb, hbp, hbf, hbn, hSf, hSn⟩ := hS
  obtain ⟨nn, hn, -, -, -, -, -⟩ := hSn
  have hnd0 := hnd
  rw [plug_addrs] at hnd
  simp only [Shape.addrs] at hnd
  have hxp' : x ≠ p := fun e => by
    subst e
    exact absurd (List.nodup_iff_count_le_one.1 hnd x) (by
      simp only [List.count_append, List.count_cons, beq_self_eq_true, if_true]; omega)
  have hxb : x ≠ b := fun e => by
    subst e
    exact absurd (List.nodup_iff_count_le_one.1 hnd x) (by
      simp only [List.count_append, List.count_cons, beq_self_eq_true, if_true]; omega)
  have hpb' : p ≠ b := fun e => by
    subst e
    exact absurd (List.nodup_iff_count_le_one.1 hnd p) (by
      simp only [List.count_append, List.count_cons, beq_self_eq_true, if_true]; omega)
  have hbp' : b ≠ p := fun e => by
    subst e
    exact absurd (List.nodup_iff_count_le_one.1 hnd b) (by
      simp only [List.count_append, List.count_cons, beq_self_eq_true, if_true]; omega)
  have hnp' : n ≠ p := fun e => by
    subst e
    exact absurd (List.nodup_iff_count_le_one.1 hnd n) (by
      simp only [List.count_append, List.count_cons, beq_self_eq_true, if_true]; omega)
  have hnb : n ≠ b := fun e => by
    subst e
    exact absurd (List.nodup_iff_count_le_one.1 hnd n) (by
      simp only [List.count_append, List.count_cons, beq_self_eq_true, if_true]; omega)
  have hnr : some x ≠ t.root_ :=
    not_root_of_child t c _ x p hroot rfl hnd0 (by simp [Shape.addrs]) hxp'
  have hbcol : nb.color = .kRED := by
    rw [color_of_cell hb] at hbc
    exact hbc
  simp only [Shape.root] at hpx hpb
  have hxb2 : ¬ b = x := fun e => hxb e.symm
  have hBR : ¬ Colors.kBLACK = Colors.kRED := by decide
  have hRB : ¬ Colors.kRED = Colors.kBLACK := by decide
  simp only [fixDoubleBlackTr, hnr, if_false, Tree.parent, Tree.left, Tree.right, Tree.color,
  Tree.setColor, Heap.modify, brotherOf, Heap.read, hx, hxp, hp, hpx, hpb, hb, hbn, hbf,
  bind_ok, pure_eq_ok, if_true, hasColor_none, Bool.false_eq_true, false_and, and_false,
  hxb2, hBR, hRB, Heap.set_same, Option.some.injEq, decide_eq_true_eq, decide_True,
  decide_False, and_self, and_true, true_and, ite_true, ite_false, hbcol,
    Heap.set_ne _ _ _ _ hpb', Heap.set_ne _ _ _ _ hbp']
  refine bind_returns (rotateRight_returns _ c Sf (.node Sb n Sa) (.node L x R) p b ?_ ?_ hnd0 ?_)
  · exact (Lay.congr _ _ (fun a _ => by
  simp only [Heap.set]
  split_ifs <;> simp_all [Node.links]) hlay0)
  · exact hroot
  · intro t' hl hr hnd' hsd
    have e1 : t'.heap.color n ≠ .kRED := by
      rw [color_of_map (hsd.color n)]
      simpa [Heap.color, Heap.set, hnb, hnp'] using hncol
    have e2 : t'.heap.color p = .kRED := by
      rw [color_of_map (hsd.color p)]
      simp [Heap.color, Heap.set, hpb']
    obtain ⟨f, rfl⟩ : ∃ f, g = f + 1 := ⟨g - 1, by omega⟩
    rcases fixDoubleBlackTr_black_right f t' (.right c Sf b) L R Sa Sb x p n hl hr hnd' e1 with
      ⟨T, hT⟩ | ⟨hpblack, -⟩
    · exact ⟨T, by rw [hT]; rfl⟩
    · rw [e2] at hpblack
      exact absurd hpblack (by decide)

/-! ## The double-black fixup returns -/

theorem parent_set_color (t : Tree) (b : Nat) (nb : Node) (col : Colors)
    (hb : t.heap b = some nb) (a : Ptr) :
    Tree.parent { t with heap := t.heap.set b (some { nb with color := col }) } a =
      t.parent a := by
  cases a with
  | none => rfl
  | some a =>
    by_cases e : a = b
    · subst e
      simp [Tree.parent, Heap.read, Heap.set, hb]
    · simp [Tree.parent, Heap.read, Heap.set, e]

theorem CallsUp.of_parent_eq {t t' : Tree} (h : ∀ a, t'.parent a = t.parent a) :
    ∀ tr, CallsUp t' tr → CallsUp t tr := by
  intro tr
  induction tr with
  | nil => exact fun hc => hc
  | cons a rest ih =>
    cases rest with
    | nil => exact fun _ => trivial
    | cons b rest2 =>
      intro hc
      rcases hc with h1 | ⟨h1, h2, h3⟩
      · exact Or.inl h1
      · exact Or.inr ⟨by rw [← h]; exact h1, h2, ih h3⟩

/-- The fixup started at a node whose place in the tree has black height at
least one, in a tree that is red-black around that place: the calls return, the
first call is made on the node, the record of the calls climbs towards the root
with at most one repeated call, and there is at most one call for the node and
each of its proper ancestors. -/
theorem fixDoubleBlackTr_spec :
    ∀ (c : Ctx) (fuel : Nat) (t : Tree) (L R : Shape) (x k N : Nat) (col : Colors),
      Lay t.heap (c.plug (.node L x R)) none → t.root_ = (c.plug (.node L x R)).root →
      (c.plug (.node L x R)).addrs.Nodup → 1 ≤ k → CtxRB t.heap c k col N →
      c.depth + 1 ≤ fuel →
      ∃ T tr, fixDoubleBlackTr fuel t (some x) = .ok (T, tr) ∧
        (∃ oc rest, tr = (some x, oc) :: rest) ∧ CallsUp t tr ∧ tr.length ≤ c.depth + 1 := by
  intro c
  induction c with
  | top =>
    intro fuel t L R x k N col hlay hroot hnd hk hctx hf
    obtain ⟨f, rfl⟩ : ∃ f, fuel = f + 1 := ⟨fuel - 1, by omega⟩
    have hr : some x = t.root_ := by rw [hroot]; rfl
    exact ⟨t, [(some x, none)], by simp only [fixDoubleBlackTr, hr, if_true, pure_eq_ok],
      ⟨_, _, rfl⟩, trivial, by simp [Ctx.depth]⟩
  | left c1 p r ih =>
    intro fuel t L R x k N col hlay hroot hnd hk hctx hf
    simp only [Ctx.depth] at hf ⊢
    obtain ⟨f, rfl⟩ : ∃ f, fuel = f + 1 := ⟨fuel - 1, by omega⟩
    have hr : RB t.heap r k := by
      rcases hctx with ⟨-, -, -, h, -⟩ | ⟨-, h, -⟩
      · exact h
      · exact h
    cases r with
    | nil =>
      have : k = 0 := hr
      omega
    | node rl b rr =>
      have hlay' : Lay t.heap (c1.plug (.node (.node L x R) p (.node rl b rr))) none := hlay
      have hroot' : t.root_ = (c1.plug (.node (.node L x R) p (.node rl b rr))).root := hroot
      have hnd' : (c1.plug (.node (.node L x R) p (.node rl b rr))).addrs.Nodup := hnd
      by_cases hb : t.heap.color b = .kRED
      · obtain ⟨hnearc, -, hnear, -⟩ := hr.red_parts hb
        cases rl with
        | nil =>
          have : k = 0 := hnear
          omega
        | node Sa n Sb =>
          have hncol : t.heap.color n ≠ .kRED := by
            have : t.heap.color n = .kBLACK := hnearc
            rw [this]
            decide
          obtain ⟨T, hT⟩ := fixDoubleBlackTr_red_left f t c1 L R Sa Sb rr x p b n hlay' hroot'
            hnd' hb hncol (by omega)
          exact ⟨T, _, hT, ⟨_, _, rfl⟩, Or.inl ⟨rfl, rfl, rfl, rfl⟩, by
            simp only [List.length_cons, List.length_nil]; omega⟩
      · rcases fixDoubleBlackTr_black_left f t c1 L R rl rr x p b hlay' hroot' hnd' hb with
          ⟨T, hT⟩ | ⟨hpB, nb, hnb, heq⟩
        · exact ⟨T, _, hT, ⟨_, _, rfl⟩, trivial, by
            simp only [List.length_cons, List.length_nil]; omega⟩
        · have hctx1 : CtxRB t.heap c1 (k + 1) .kBLACK N := by
            rcases hctx with ⟨h, -⟩ | ⟨-, -, h⟩
            · rw [hpB] at h
              exact absurd h (by decide)
            · exact h
          have hndx := hnd'
          rw [plug_addrs] at hndx
          simp only [Shape.addrs] at hndx
          have hbc1 : ∀ a ∈ c1.pre ++ c1.post, a ≠ b := fun a ha =>
            apart_of_count (R := c1.pre ++ c1.post) hndx ha (by
              simp only [List.count_append, List.count_cons, beq_self_eq_true, if_true]; omega)
          have hpx : p ≠ x := fun e => by
            subst e
            exact absurd (List.nodup_iff_count_le_one.1 hndx p) (by
              simp only [List.count_append, List.count_cons, beq_self_eq_true, if_true]; omega)
          obtain ⟨T, tr, hrun, ⟨oc, rest, htr⟩, hcalls, hlen⟩ :=
            ih f { t with heap := t.heap.set b (some { nb with color := .kRED }) }
              (.node L x R) (.node rl b rr) p (k + 1) N .kBLACK
              (Lay.congr _ _ (fun a _ => links_set_color t.heap b nb .kRED hnb a) hlay')
              hroot' hnd' (by omega)
              (hctx1.transfer (fun a ha => color_set_ne _ _ _ _ (hbc1 a ha)))
              (by omega)
          have hxpar : t.parent (some x) = .ok (some p) := by
            rw [repr_plug] at hlay
            obtain ⟨-, nx, hx, hxp, -⟩ := hlay
            simp only [Tree.parent, Heap.read, hx, bind_ok, pure_eq_ok, hxp, Ctx.parent]
          refine ⟨T, (some x, some .kBLACK) :: tr, ?_, ⟨_, _, rfl⟩, ?_, ?_⟩
          · rw [heq, hrun]
            rfl
          · subst htr
            exact Or.inr ⟨hxpar, fun e => hpx (Option.some.inj e),
              CallsUp.of_parent_eq (parent_set_color t b nb .kRED hnb) _ hcalls⟩
          · simp only [List.length_cons]
            omega
  | right c1 r p ih =>
    intro fuel t L R x k N col hlay hroot hnd hk hctx hf
    simp only [Ctx.depth] at hf ⊢
    obtain ⟨f, rfl⟩ : ∃ f, fuel = f + 1 := ⟨fuel - 1, by omega⟩
    have hr : RB t.heap r k := by
      rcases hctx with ⟨-, -, -, h, -⟩ | ⟨-, h, -⟩
      · exact h
      · exact h
    cases r with
    | nil =>
      have : k = 0 := hr
      omega
    | node rl b rr =>
      have hlay' : Lay t.heap (c1.plug (.node (.node rl b rr) p (.node L x R))) none := hlay
      have hroot' : t.root_ = (c1.plug (.node (.node rl b rr) p (.node L x R))).root := hroot
      have hnd' : (c1.plug (.node (.node rl b rr) p (.node L x R))).addrs.Nodup := hnd
      by_cases hb : t.heap.color b = .kRED
      · obtain ⟨-, hnearc, -, hnear⟩ := hr.red_parts hb
        cases rr with
        | nil =>
          have : k = 0 := hnear
          omega
        | node Sb n Sa =>
          have hncol : t.heap.color n ≠ .kRED := by
            have : t.heap.color n = .kBLACK := hnearc
            rw [this]
            decide
          obtain ⟨T, hT⟩ := fixDoubleBlackTr_red_right f t c1 L R Sa Sb rl x p b n hlay' hroot'
            hnd' hb hncol (by omega)
          exact ⟨T, _, hT, ⟨_, _, rfl⟩, Or.inl ⟨rfl, rfl, rfl, rfl⟩, by
            simp only [List.length_cons, List.length_nil]; omega⟩
      · rcases fixDoubleBlackTr_black_right f t c1 L R rr rl x p b hlay' hroot' hnd' hb with
          ⟨T, hT⟩ | ⟨hpB, nb, hnb, heq⟩
        · exact ⟨T, _, hT, ⟨_, _, rfl⟩, trivial, by
            simp only [List.length_cons, List.length_nil]; omega⟩
        · have hctx1 : CtxRB t.heap c1 (k + 1) .kBLACK N := by
            rcases hctx with ⟨h, -⟩ | ⟨-, -, h⟩
            · rw [hpB] at h
              exact absurd h (by decide)
            · exact h
          have hndx := hnd'
          rw [plug_addrs] at hndx
          simp only [Shape.addrs] at hndx
          have hbc1 : ∀ a ∈ c1.pre ++ c1.post, a ≠ b := fun a ha =>
            apart_of_count (R := c1.pre ++ c1.post) hndx ha (by
              simp only [List.count_append, List.count_cons, beq_self_eq_true, if_true]; omega)
          have hpx : p ≠ x := fun e => by
            subst e
            exact absurd (List.nodup_iff_count_le_one.1 hndx p) (by
              simp only [List.count_append, List.count_cons, beq_self_eq_true, if_true]; omega)
          obtain ⟨T, tr, hrun, ⟨oc, rest, htr⟩, hcalls, hlen⟩ :=
            ih f { t with heap := t.heap.set b (some { nb with color := .kRED }) }
              (.node rl b rr) (.node L x R) p (k + 1) N .kBLACK
              (Lay.congr _ _ (fun a _ => links_set_color t.heap b nb .kRED hnb a) hlay')
              hroot' hnd' (by omega)
              (hctx1.transfer (fun a ha => color_set_ne _ _ _ _ (hbc1 a ha)))
              (by omega)
          have hxpar : t.parent (some x) = .ok (some p) := by
            rw [repr_plug] at hlay
            obtain ⟨-, nx, hx, hxp, -⟩ := hlay
            simp only [Tree.parent, Heap.read, hx, bind_ok, pure_eq_ok, hxp, Ctx.parent]
          refine ⟨T, (some x, some .kBLACK) :: tr, ?_, ⟨_, _, rfl⟩, ?_, ?_⟩
          · rw [heq, hrun]
            rfl
          · subst htr
            exact Or.inr ⟨hxpar, fun e => hpx (Option.some.inj e),
              CallsUp.of_parent_eq (parent_set_color t b nb .kRED hnb) _ hcalls⟩
          · simp only [List.length_cons]
            omega

/-! ## Termination of the double-black fixup -/

theorem blackTriple_shaped : Shaped blackTriple tripleShape := by
  refine ⟨rfl, ?_, by decide, ?_⟩
  · exact ⟨_, rfl, rfl, rfl, rfl, ⟨_, rfl, rfl, rfl, rfl, trivial, trivial⟩,
      ⟨_, rfl, rfl, rfl, rfl, trivial, trivial⟩⟩
  · intro a ha
    have h0 : a ≠ 0 := by change 4 ≤ a at ha; omega
    have h1 : a ≠ 1 := by change 4 ≤ a at ha; omega
    have h2 : a ≠ 2 := by change 4 ≤ a at ha; omega
    have h3 : a ≠ 3 := by change 4 ≤ a at ha; omega
    simp [blackTriple, h0, h1, h2, h3]

/-- Claim C37. On a well-formed tree that passes the red-black checks, the
double-black fixup started at a BLACK node of the tree returns, given fuel for
one call per level of the tree.  Its calls, as `fixDoubleBlackTr` records them
(the same steps as `fixDoubleBlack`, which returns the same tree), begin with the
node; each later call is made on the parent of the node of the call before, or
on the same node after a call that read a RED brother, in which case it reads a
BLACK brother and is the last call; and there are no more calls than the tree
has levels, so the climb ends at the root at the latest. -/
theorem double_black_fixup_terminates (t : Tree) (s : Shape) (x fuel : Nat)
    (hsh : Shaped t s) (hrb : rbInvariant t = true) (hx : x ∈ s.addrs)
    (hxb : t.heap.color x = .kBLACK) (hf : s.height ≤ fuel) :
    ∃ t' tr, fixDoubleBlackTr fuel t (some x) = .ok (t', tr) ∧
      fixDoubleBlack fuel t (some x) = .ok t' ∧
      (∃ oc rest, tr = (some x, oc) :: rest) ∧ CallsUp t tr ∧ tr.length ≤ s.height := by
  obtain ⟨c, L, R, hs⟩ := plug_decomp s .top x hx
  have hs' : s = c.plug (.node L x R) := hs
  obtain ⟨-, N, hN⟩ := (rbInvariant_iff hsh).1 hrb
  rw [hs'] at hN
  obtain ⟨n, hn, hcn⟩ := hN.unplug
  have hk : 1 ≤ n := by
    rcases hn with ⟨h1, -⟩ | ⟨-, k, h2, -⟩
    · rw [hxb] at h1
      exact absurd h1 (by decide)
    · omega
  have hh := plug_height c (.node L x R)
  rw [← hs'] at hh
  simp only [Shape.height] at hh
  obtain ⟨T, tr, hrun, hhead, hcalls, hlen⟩ :=
    fixDoubleBlackTr_spec c fuel t L R x n N _ (hs' ▸ hsh.lay) (hs' ▸ hsh.root)
      (hs' ▸ hsh.nodup) hk hcn (by omega)
  refine ⟨T, tr, hrun, ?_, hhead, hcalls, by omega⟩
  have := fixDoubleBlackTr_fst fuel t (some x)
  rw [hrun] at this
  exact this.symm

set_option maxRecDepth 100000 in
/-- Instance of C37: the fixup started at the left child of the root of
`blackTriple` makes one call, which reads a BLACK brother without children. -/
theorem double_black_fixup_terminates_witness :
    rbInvariant blackTriple = true ∧ blackTriple.heap.color 1 = .kBLACK ∧
      (fixDoubleBlackTr 2 blackTriple (some 1)).map Prod.snd =
        .ok [(some 1, some .kBLACK)] ∧
      ∃ t' tr, fixDoubleBlackTr 2 blackTriple (some 1) = .ok (t', tr) ∧
        fixDoubleBlack 2 blackTriple (some 1) = .ok t' ∧
        (∃ oc rest, tr = (some 1, oc) :: rest) ∧ CallsUp blackTriple tr ∧
        tr.length ≤ tripleShape.height :=
  ⟨by decide, by decide, by decide,
    double_black_fixup_terminates blackTriple tripleShape 1 2 blackTriple_shaped (by decide)
      (by decide) (by decide) (by decide)⟩

/-! ## Executions that contradict the specification -/

set_option maxRecDepth 100000 in
/-- Claim C1, evaluated on the code: the UNIQUE tree built by inserting the keys
1, 2, 4, 5, 6, 3 satisfies the red-black invariants, and after erase(1) it does not:
the node holding key 3 (address 6) is RED and its parent, the node holding key 4
(address 3), is RED as well. -/
theorem erase_leaves_red_child_of_red_node :
    (Tree.run 8 (Tree.empty .kUNIQUE)
        [.insert 1 10, .insert 2 20, .insert 4 40, .insert 5 50, .insert 6 60,
         .insert 3 30]).map
      (fun t => (rbInvariant t, t.toList)) =
      .ok (true, [(1, 10), (2, 20), (3, 30), (4, 40), (5, 50), (6, 60)]) ∧
    (Tree.run 8 (Tree.empty .kUNIQUE)
        [.insert 1 10, .insert 2 20, .insert 4 40, .insert 5 50, .insert 6 60,
         .insert 3 30, .erase 1]).map
      (fun t => (rbInvariant t, noRedRed 8 t.heap t.root_ .kBLACK, t.toList)) =
      .ok (false, false, [(2, 20), (3, 30), (4, 40), (5, 50), (6, 60)]) ∧
    (Tree.run 8 (Tree.empty .kUNIQUE)
        [.insert 1 10, .insert 2 20, .insert 4 40, .insert 5 50, .insert 6 60,
         .insert 3 30, .erase 1]).map
      (fun t => (t.heap 6, t.heap 3)) =
      .ok (some { key := 3, val := 30, color := .kRED, parent := some 3,
                  left := none, right := none },
           some { key := 4, val := 40, color := .kRED, parent := some 2,
                  left := some 6, right := none }) := by
  decide

set_option maxRecDepth 100000 in
/-- Claim C2, evaluated on the code: after insert(1) and erase(1) the tree has
size 0, yet begin() differs from end() and a loop from begin() to end() runs its
body once, at a null position. -/
theorem emptied_tree_loop_visits_null_position :
    (Tree.run 4 (Tree.empty .kUNIQUE) [.insert 1 10, .erase 1]).bind
      (fun t => (t.visited 4).bind (fun l => (t.begin 4).bind (fun b =>
        (t.end 4).map (fun e => (t.size, l, b, e))))) =
      .ok (0, [none],
        { ptr_ := none, first_ := none, last_ := some 0 },
        { ptr_ := some 0, first_ := none, last_ := none }) := by
  decide

set_option maxRecDepth 100000 in
/-- Claim C6, evaluated on the code: the UNIQUE tree built by inserting the keys
1, 5, 6, 2, 4, 3 is ordered and satisfies the red-black invariants, and erase(6)
on it dereferences a null pointer instead of returning. -/
theorem erase_null_dereference_on_valid_tree :
    (Tree.run 8 (Tree.empty .kUNIQUE)
        [.insert 1 10, .insert 5 50, .insert 6 60, .insert 2 20, .insert 4 40,
         .insert 3 30]).map
      (fun t => (rbInvariant t, t.toList)) =
      .ok (true, [(1, 10), (2, 20), (3, 30), (4, 40), (5, 50), (6, 60)]) ∧
    (Tree.run 8 (Tree.empty .kUNIQUE)
        [.insert 1 10, .insert 5 50, .insert 6 60, .insert 2 20, .insert 4 40,
         .insert 3 30, .erase 6]).map (fun t => t.toList) = .error .nullDeref := by
  decide

set_option maxRecDepth 100000 in
/-- Claim C8, evaluated on the code: on the tree built by insert(1), insert(2),
erase(1) leaves the pair of key 2 in the node at address 1 and returns an
iterator to the node at address 2, which it has freed: dereferencing the
returned iterator is a use after free. -/
theorem erase_returns_iterator_to_freed_node :
    ((Tree.run 4 (Tree.empty .kUNIQUE) [.insert 1 10, .insert 2 20]).bind
      (fun t => t.erase 4 1)).map
      (fun r => (r.1.toList, r.1.root_, r.1.heap 2, r.2)) =
      .ok ([(2, 20)], some 1, none,
        { ptr_ := some 2, first_ := some 1, last_ := some 0 }) ∧
    ((Tree.run 4 (Tree.empty .kUNIQUE) [.insert 1 10, .insert 2 20]).bind
      (fun t => t.erase 4 1)).bind (fun r => r.2.deref r.1.heap) =
      .error .dangling := by
  decide

set_option maxRecDepth 100000 in
/-- Claim C9, evaluated on the code: on the tree holding the keys 1, 2, 3,
erasing the range of the first two positions removes key 1 only: the keys 2, 3
remain and the size is 2. -/
theorem erase_range_skips_second_key :
    ((Tree.run 8 (Tree.empty .kUNIQUE) [.insert 1 10, .insert 2 20, .insert 3 30]).bind
      (fun t => t.erasePositions 8 0 2)).map
      (fun r => (r.1.toList, r.1.size)) =
      .ok ([(2, 20), (3, 30)], 2) := by
  decide

set_option maxRecDepth 100000 in
/-- Claim C10, evaluated on the code: on the tree holding the keys 1, 2, 3,
erasing the range that holds key 2 alone leaves the keys 1, 3 and returns an
iterator that dereferences to the pair of key 1, the element before the range,
not to the pair of key 3 that followed it. -/
theorem erase_range_returns_iterator_before_range :
    ((Tree.run 8 (Tree.empty .kUNIQUE) [.insert 1 10, .insert 2 20, .insert 3 30]).bind
      (fun t => t.erasePositions 8 1 2)).bind
      (fun r => (r.2.deref r.1.heap).map (fun p => (r.1.toList, p))) =
      .ok ([(1, 10), (3, 30)], (1, 10)) := by
  decide

set_option maxRecDepth 100000 in
/-- Claim C12, evaluated on the code: `a` holds (7, 70) and `b` is built by
inserting the keys 1, 2, 4, 5, 6, 3 (UNIQUE trees in one memory).  After
`a.merge(b)` the pair (3, 300) is in neither tree: `a` holds six pairs, `b` has
no root and reports size 1. -/
theorem merge_unique_loses_a_pair :
    ((Tree.run 16 (Tree.empty .kUNIQUE) [.insert 7 70]).bind (fun a =>
      (Tree.run 16 ((Tree.empty .kUNIQUE).onHeapOf a)
        [.insert 1 100, .insert 2 200, .insert 4 400, .insert 5 500, .insert 6 600,
         .insert 3 300]).map (fun b => (a.toList, b.toList, rbInvariant b)))) =
      .ok ([(7, 70)],
           [(1, 100), (2, 200), (3, 300), (4, 400), (5, 500), (6, 600)], true) ∧
    ((Tree.run 16 (Tree.empty .kUNIQUE) [.insert 7 70]).bind (fun a =>
      (Tree.run 16 ((Tree.empty .kUNIQUE).onHeapOf a)
        [.insert 1 100, .insert 2 200, .insert 4 400, .insert 5 500, .insert 6 600,
         .insert 3 300]).bind (fun b =>
        (Tree.merge 16 a b).map (fun r => (r.1.toList, r.1.size))))) =
      .ok ([(1, 100), (2, 200), (4, 400), (5, 500), (6, 600), (7, 70)], 6) ∧
    ((Tree.run 16 (Tree.empty .kUNIQUE) [.insert 7 70]).bind (fun a =>
      (Tree.run 16 ((Tree.empty .kUNIQUE).onHeapOf a)
        [.insert 1 100, .insert 2 200, .insert 4 400, .insert 5 500, .insert 6 600,
         .insert 3 300]).bind (fun b =>
        (Tree.merge 16 a b).map (fun r => (r.2.toList, r.2.size, r.2.root_))))) =
      .ok ([], 1, none) := by
  decide

set_option maxRecDepth 100000 in
/-- Claim C13, evaluated on the code: `a` holds the key 7 and `b` is built by
inserting the keys 1, 2, 4, 5, 6, 3 (NON_UNIQUE trees in one memory).  After
`a.merge(b)` the tree `b` is empty and `a` reports size 7, but its in-order key
sequence is 1, 2, 4, 5, 6, 7: the key 3 is lost. -/
theorem merge_non_unique_loses_a_key :
    ((Tree.run 16 (Tree.empty .kNON_UNIQUE) [.insert 7 7]).bind (fun a =>
      (Tree.run 16 ((Tree.empty .kNON_UNIQUE).onHeapOf a)
        [.insert 1 1, .insert 2 2, .insert 4 4, .insert 5 5, .insert 6 6,
         .insert 3 3]).map (fun b =>
          (a.toList.map Prod.fst, a.size, b.toList.map Prod.fst, b.size)))) =
      .ok ([7], 1, [1, 2, 3, 4, 5, 6], 6) ∧
    ((Tree.run 16 (Tree.empty .kNON_UNIQUE) [.insert 7 7]).bind (fun a =>
      (Tree.run 16 ((Tree.empty .kNON_UNIQUE).onHeapOf a)
        [.insert 1 1, .insert 2 2, .insert 4 4, .insert 5 5, .insert 6 6,
         .insert 3 3]).bind (fun b =>
        (Tree.merge 16 a b).map (fun r =>
          (r.1.toList.map Prod.fst, r.1.size, r.2.size, r.2.root_))))) =
      .ok ([1, 2, 4, 5, 6, 7], 7, 0, none) := by
  decide

set_option maxRecDepth 100000 in
/-- Claim C17, evaluated on the code: after inserting the keys 1, 2, 4, 5, 6, 3
and erasing the keys 1 and 2 (both present), `size()` is 4 = 6 - 2 while only
three nodes, holding the keys 4, 5, 6, are reachable from the root: the node of
key 3 is no longer linked. -/
theorem size_exceeds_reachable_nodes_after_erase :
    (Tree.run 8 (Tree.empty .kUNIQUE)
        [.insert 1 10, .insert 2 20, .insert 4 40, .insert 5 50, .insert 6 60,
         .insert 3 30, .erase 1, .erase 2]).map
      (fun t => (t.size, (inorder (t.next + 1) t.heap t.root_).length, t.toList)) =
      .ok (4, 3, [(4, 40), (5, 50), (6, 60)]) ∧
    (Tree.run 8 (Tree.empty .kUNIQUE)
        [.insert 1 10, .insert 2 20, .insert 4 40, .insert 5 50, .insert 6 60,
         .insert 3 30, .erase 1]).map
      (fun t => (t.size, (inorder (t.next + 1) t.heap t.root_).length, t.toList)) =
      .ok (5, 5, [(2, 20), (3, 30), (4, 40), (5, 50), (6, 60)]) := by
  decide

set_option maxRecDepth 100000 in
/-- Claim C18, evaluated on the code: the UNIQUE tree built by inserting the keys
5, 2, 6, 1, 4, 3 is ordered and satisfies the red-black invariants; `erase(6)`
reaches `blackParRedBrosBlackRightRedLeft`, whose `rotateLeft` is applied to a
node without right child, and dereferences a null pointer. -/
theorem rotation_on_missing_child_during_erase :
    (Tree.run 8 (Tree.empty .kUNIQUE)
        [.insert 5 50, .insert 2 20, .insert 6 60, .insert 1 10, .insert 4 40,
         .insert 3 30]).map
      (fun t => (rbInvariant t, t.toList)) =
      .ok (true, [(1, 10), (2, 20), (3, 30), (4, 40), (5, 50), (6, 60)]) ∧
    ((Tree.run 8 (Tree.empty .kUNIQUE)
        [.insert 5 50, .insert 2 20, .insert 6 60, .insert 1 10, .insert 4 40,
         .insert 3 30]).bind
      (fun t => (findNode 8 t.heap t.root_ 6).bind (fun n =>
        (blackParRedBrosBlackRightRedLeft 8 t n).map (fun t => t.size)))) =
      .error .nullDeref ∧
    ((Tree.run 8 (Tree.empty .kUNIQUE)
        [.insert 5 50, .insert 2 20, .insert 6 60, .insert 1 10, .insert 4 40,
         .insert 3 30]).bind
      (fun t => (t.erase 8 6).map (fun r => r.1.size))) = .error .nullDeref := by
  decide

set_option maxRecDepth 100000 in
/-- Claim C16, evaluated on the code: on the tree built by insert(1), insert(2)
the iterator `find(1)` keeps the root of that moment (the node of key 1).  After
insert(3), which rotates the node of key 2 to the root, the iterator still
dereferences to (1, 10), but stepping it forward puts it on the sentinel, not on
the node of key 2, and the result differs from `end()` of the updated tree. -/
theorem stale_iterator_steps_to_sentinel :
    ((Tree.run 8 (Tree.empty .kUNIQUE) [.insert 1 10, .insert 2 20]).bind (fun t =>
      (t.find 8 1).bind (fun it => (t.insert 8 3 30).bind (fun r =>
        (it.deref r.1.heap).map (fun d => (r.1.toList, it, d))))) =
      .ok ([(1, 10), (2, 20), (3, 30)],
        { ptr_ := some 1, first_ := some 1, last_ := some 0 }, (1, 10))) ∧
    ((Tree.run 8 (Tree.empty .kUNIQUE) [.insert 1 10, .insert 2 20]).bind (fun t =>
      (t.find 8 1).bind (fun it => (t.insert 8 3 30).bind (fun r =>
        (it.inc 8 r.1.heap).bind (fun it1 =>
          (it1.deref r.1.heap).map (fun d => (it1, d)))))) =
      .ok ({ ptr_ := some 0, first_ := some 1, last_ := some 1 }, (0, 0))) ∧
    ((Tree.run 8 (Tree.empty .kUNIQUE) [.insert 1 10, .insert 2 20, .insert 3 30]).bind
      (fun t => (t.find 8 2).bind (fun s => (t.end 8).map (fun e => (s, e)))) =
      .ok ({ ptr_ := some 2, first_ := some 2, last_ := some 0 },
           { ptr_ := some 0, first_ := some 2, last_ := some 3 })) := by
  decide

set_option maxRecDepth 100000 in
/-- Claim C14, evaluated on the code: the UNIQUE tree built by no insert reads no
pair from `begin()` to `end()`; its copy has size 0 too, but owns a sentinel, so
its `begin()` has a null position and differs from its `end()`, and the loop from
`begin()` to `end()` over the copy dereferences a null pointer. -/
theorem copy_of_empty_tree_does_not_iterate_alike :
    (Tree.run 4 (Tree.empty .kUNIQUE) (insertOps [])).bind (fun t => t.pairs 4) = .ok [] ∧
    ((Tree.run 4 (Tree.empty .kUNIQUE) (insertOps [])).bind (fun t => t.copy 4)).bind
      (fun c => (c.begin 4).bind (fun b => (c.end 4).map (fun e => (c.size, b, e)))) =
      .ok (0, { ptr_ := none, first_ := none, last_ := some 0 },
        { ptr_ := some 0, first_ := none, last_ := none }) ∧
    ((Tree.run 4 (Tree.empty .kUNIQUE) (insertOps [])).bind (fun t => t.copy 4)).bind
      (fun c => c.pairs 4) = .error .nullDeref := by
  decide

set_option maxRecDepth 100000 in
/-- Claim C27, evaluated on the code: `insert(begin() + 1, 9)` on the vector
{1, 1} puts 9 before every element equal to the one at the position: the block
receives 9, 1, 9, 1 and the vector is {9, 1, 9}, not {1, 9, 1}; the iterator
returned designates index 1, whose element is 1, not 9. On the vector {1, 1, 1}
built by `push_back`, whose capacity is 4, the same call writes six cells into
the new block of four. -/
theorem insert_goes_before_every_equal_element :
    ((vector.ofList [1, 1]).insert ((vector.ofList [1, 1]).begin + 1) 9).map
      (fun r => (r.1.toList, r.1.size, r.2)) = .ok ([some 9, some 1, some 9], 3, 1) ∧
    ((vector.ofList [1, 1]).insert ((vector.ofList [1, 1]).begin + 1) 9).bind
      (fun r => r.1.get r.2) = .ok (some 1) ∧
    (((vector.empty.push_back 1).bind (fun v => v.push_back 1)).bind
      (fun v => v.push_back 1)).map (fun v => (v.toList, v.capacity)) =
      .ok ([some 1, some 1, some 1], 4) ∧
    ((((vector.empty.push_back 1).bind (fun v => v.push_back 1)).bind
      (fun v => v.push_back 1)).bind (fun v => v.insert (v.begin + 1) 9)).map
      (fun r => r.1.size) = .error .outOfBounds := by
  decide

set_option maxRecDepth 100000 in
/-- Claim C29, evaluated on the code: the vector built by `push_back` of 1, 2, 3
has size 3 and capacity 4; its copy has size 4, the capacity of the source, and
its element at index 3 is a cell of the source that was never assigned. -/
theorem copy_takes_capacity_for_size :
    (((vector.empty.push_back 1).bind (fun v => v.push_back 2)).bind
      (fun v => v.push_back 3)).map (fun v => (v.size, v.capacity, v.toList)) =
      .ok (3, 4, [some 1, some 2, some 3]) ∧
    ((((vector.empty.push_back 1).bind (fun v => v.push_back 2)).bind
      (fun v => v.push_back 3)).bind (fun v => v.copy)).map
      (fun w => (w.size, w.capacity, w.toList)) =
      .ok (4, 4, [some 1, some 2, some 3, none]) := by
  decide

set_option maxRecDepth 100000 in
/-- Claim C38, evaluated on the code: in a UNIQUE tree that holds the key 1, the
call emplace(1, 20) reports false and leaves the tree holding just (1, 10), but the
iterator it returns is end(), not the position of the element with key 1 that
find(1) returns, and reading through it yields the pair of the sentinel. -/
theorem emplace_of_present_key_returns_end :
    ((Tree.empty .kUNIQUE).emplace 4 1 10).bind (fun r1 =>
      (r1.1.emplace 4 1 20).bind (fun r2 =>
        (r2.1.end 4).bind (fun e => (r2.1.find 4 1).bind (fun f =>
          (r2.2.1.deref r2.1.heap).map (fun d =>
            ((r2.2.2, r2.1.toList), (r2.2.1, e, f), d)))))) =
      .ok ((false, [(1, 10)]),
        ({ ptr_ := some 1, first_ := some 0, last_ := some 0 },
         { ptr_ := some 1, first_ := some 0, last_ := some 0 },
         { ptr_ := some 0, first_ := some 0, last_ := some 1 }),
        (0, 0)) := by
  decide

set_option maxRecDepth 100000 in
/-- Claim C39, evaluated on the code: begin() equals end() on the
default-constructed tree and on a tree cleared after three inserts, but on the tree
emptied by erase(2) and erase(1) after insert(1) and insert(2) the size is 0 while
begin() differs from end(), and the loop from begin() to end() runs its body once,
at a null position. -/
theorem tree_emptied_by_erase_has_begin_unlike_end :
    ((Tree.empty .kUNIQUE).begin 4).bind (fun b =>
        ((Tree.empty .kUNIQUE).end 4).map (fun e => b.eq e)) = .ok true
    ∧ (Tree.run 6 (Tree.empty .kUNIQUE) [.insert 1 10, .insert 2 20, .insert 3 30]).bind
        (fun t => (t.clear 6).bind (fun t => (t.begin 4).bind (fun b =>
          (t.end 4).map (fun e => (t.size, b.eq e))))) = .ok (0, true)
    ∧ (Tree.run 6 (Tree.empty .kUNIQUE)
          [.insert 1 10, .insert 2 20, .erase 2, .erase 1]).bind
        (fun t => (t.begin 4).bind (fun b => (t.end 4).bind (fun e =>
          (t.visited 4).map (fun l => (t.size, b.eq e, l))))) = .ok (0, false, [none]) := by
  decide

set_option maxRecDepth 100000 in
/-- Claim C34, evaluated on the code: on the list {4, 5, 6} pop_back() leaves
{4, 5} with size 2 and back() equal to 5, but on the one-element list {7} it
dereferences the null pointer just assigned to tail and does not complete. -/
theorem pop_back_of_single_element_dereferences_null :
    (list.ofList LMem.empty [4, 5, 6] list.empty).bind (fun r =>
        (r.2.pop_back r.1).bind (fun r =>
          (r.2.back r.1).map (fun b => (r.2.size, r.2.toList r.1, b)))) = .ok (2, [4, 5], 5)
    ∧ (list.ofList LMem.empty [7] list.empty).bind (fun r =>
        (r.2.pop_back r.1).map (fun r => r.2)) = .error .nullDeref := by
  decide

set_option maxRecDepth 100000 in
/-- Claim C40, evaluated on the code: after a = {1, 2}, b = {9} and
a.splice(p, b) with p at the element 2, walking pNext from the head of a visits
1, 9, 2, but the pPrev of the node holding 2 is still the node holding 1, so the
walk along pPrev from the tail visits 2, 1 only and the links are not consistent. -/
theorem splice_in_the_middle_leaves_stale_back_link :
    (list.ofList LMem.empty [1, 2] list.empty).bind (fun ra =>
      (list.ofList ra.1 [9] list.empty).bind (fun rb =>
        (ra.2.begin.inc rb.1).bind (fun p =>
          (ra.2.splice rb.1 rb.2 p).map (fun r =>
            (r.2.1.toList r.1,
             (chainBack (r.1.next + 1) r.1 r.2.1.tail).map r.1.data,
             r.2.1.linksConsistent r.1))))) = .ok ([1, 9, 2], [2, 1], false) := by
  decide

set_option maxRecDepth 100000 in
/-- The stale link at work: after a = {1, 2}, b = {9}, c = {7}, a.splice(p, b)
and then a.splice(p, c), both with p at the element 2, the list a has size 4 and
the walk from its head visits 1, 7, 2 only: the element 9 is no longer reached. -/
theorem splice_after_splice_loses_an_element :
    (list.ofList LMem.empty [1, 2] list.empty).bind (fun ra =>
      (list.ofList ra.1 [9] list.empty).bind (fun rb =>
        (list.ofList rb.1 [7] list.empty).bind (fun rc =>
          (ra.2.begin.inc rc.1).bind (fun p =>
            (ra.2.splice rc.1 rb.2 p).bind (fun r =>
              (r.2.1.splice r.1 rc.2 p).map (fun r2 =>
                (r2.2.1.size, r2.2.1.toList r2.1))))))) = .ok (4, [1, 7, 2]) := by
  decide

set_option maxRecDepth 100000 in
/-- Claim C11, evaluated on the code: on the tree holding key 1 the range from
end() to the position of key 1 raises the range error; but after insert(1) and
erase(1) the tree has size 0 and no node while begin() differs from end(), reading
through begin() dereferences a null pointer, and erase(begin(), end()) raises no
range error: it takes the branch for the whole tree, clears the tree (the sentinel
is gone) and returns end(). -/
theorem erase_range_of_emptied_tree_raises_no_error :
    (Tree.run 4 (Tree.empty .kUNIQUE) [.insert 1 10]).bind (fun t =>
        (t.end 4).bind (fun e => (t.begin 4).bind (fun b =>
          (t.eraseRange 4 e b).map (fun r => r.2)))) = .error .rangeError
    ∧ (Tree.run 4 (Tree.empty .kUNIQUE) [.insert 1 10, .erase 1]).bind (fun t =>
        (t.begin 4).bind (fun b => (t.end 4).map (fun e =>
          ((t.size, t.nodes, t.sentinel_), (b, e, b.eq e))))) =
      .ok ((0, [], some 0),
        ({ ptr_ := none, first_ := none, last_ := some 0 },
         { ptr_ := some 0, first_ := none, last_ := none }, false))
    ∧ (Tree.run 4 (Tree.empty .kUNIQUE) [.insert 1 10, .erase 1]).bind (fun t =>
        (t.begin 4).bind (fun b => (b.deref t.heap).map (fun p => p))) = .error .nullDeref
    ∧ (Tree.run 4 (Tree.empty .kUNIQUE) [.insert 1 10, .erase 1]).bind (fun t =>
        (t.begin 4).bind (fun b => (t.end 4).bind (fun e =>
          (t.eraseRange 4 b e).bind (fun r => (r.1.end 4).map (fun e2 =>
            (r.1.size, r.1.root_, r.1.sentinel_, r.2.eq e2)))))) =
      .ok (0, none, none, true) := by
  decide

end S21

